import Mathlib

/-! # Buddy allocator `my_allocator.c`: shallow embedding and verification

The development embeds the allocator of `src/Allocator/my_allocator.c`.

Platform assumptions (LP64, little endian): `unsigned int` and `int` are
32 bits, pointers are 64 bits, `sizeof(FreestoreBlock) = sizeof(MemoryHeader) = 16`.
A `FreestoreBlock` at pointer `q` keeps `address` in the word at `q` and
`nextBlock` in the word at `q + 8`; a `MemoryHeader` at `q` keeps `index`
in the low four bytes of the word at `q` and `memoryStart` in the word at
`q + 8`.

Memory is a map from the byte address of a 64-bit word to its value.  The C
globals are the fields of `Globals`.  Loops and recursions take a `fuel`
argument; a result `none` means that the fuel ran out or that the C code
dereferenced the null pointer.

The floating point expressions `ceil(log2(x / (B * 1.0)))` and
`floor(log2(x / (B * 1.0)))` are read as the exact integer ceiling and floor
logarithm of the ratio (for `B ≥ 1` and `x ≥ B`; outside that domain the C
conversion to `unsigned int` is undefined).  `printf` calls are dropped.
-/

namespace Allocator

/-! ## Machine arithmetic -/

/-- Memory: the 64-bit word stored at each byte address. -/
abbrev Mem := Nat → Nat

/-- Pointer plus byte offset, modulo `2 ^ 64`. -/
def ptrAdd (p n : Nat) : Nat := (p + n) % 2 ^ 64

/-- Pointer minus byte offset, modulo `2 ^ 64`. -/
def ptrSub (p n : Nat) : Nat := (p + (2 ^ 64 - n % 2 ^ 64)) % 2 ^ 64

/-- Addition of `unsigned int`. -/
def uintAdd (a b : Nat) : Nat := (a + b) % 2 ^ 32

/-- Subtraction of `unsigned int`. -/
def uintSub (a b : Nat) : Nat := (a + (2 ^ 32 - b % 2 ^ 32)) % 2 ^ 32

/-- Multiplication of `unsigned int`. -/
def uintMul (a b : Nat) : Nat := (a * b) % 2 ^ 32

/-- The value of `sizeof(FreestoreBlock)`, equal to `sizeof(MemoryHeader)`. -/
def sizeofFreestoreBlock : Nat := 16

/-- Overwrite the word at address `a`. -/
def store (m : Mem) (a v : Nat) : Mem := fun x => if x = a then v else m x

/-- Read `block->address`. -/
def readAddress (m : Mem) (block : Nat) : Option Nat :=
  if block = 0 then none else some (m block % 2 ^ 64)

/-- Read `block->nextBlock`. -/
def readNextBlock (m : Mem) (block : Nat) : Option Nat :=
  if block = 0 then none else some (m (block + 8) % 2 ^ 64)

/-- Assign `block->address = v`. -/
def writeAddress (m : Mem) (block v : Nat) : Option Mem :=
  if block = 0 then none else some (store m block (v % 2 ^ 64))

/-- Assign `block->nextBlock = v`. -/
def writeNextBlock (m : Mem) (block v : Nat) : Option Mem :=
  if block = 0 then none else some (store m (block + 8) (v % 2 ^ 64))

/-- Read `header->index` (an `int` in the low four bytes) as `unsigned int`. -/
def readIndex (m : Mem) (header : Nat) : Option Nat :=
  if header = 0 then none else some (m header % 2 ^ 32)

/-- Assign `header->index = v`; the upper four bytes of the word are kept. -/
def writeIndex (m : Mem) (header v : Nat) : Option Mem :=
  if header = 0 then none
  else some (store m header (m header % 2 ^ 64 / 2 ^ 32 * 2 ^ 32 + v % 2 ^ 32))

/-- Read `header->memoryStart`. -/
def readMemoryStart (m : Mem) (header : Nat) : Option Nat :=
  if header = 0 then none else some (m (header + 8) % 2 ^ 64)

/-- Assign `header->memoryStart = v`. -/
def writeMemoryStart (m : Mem) (header v : Nat) : Option Mem :=
  if header = 0 then none else some (store m (header + 8) (v % 2 ^ 64))

/-! ## Globals and state -/

/-- The C enumeration `side`. -/
inductive side where
  | left
  | right
  | neither
  deriving DecidableEq, Repr

/-- The global variables of `my_allocator.c`. -/
structure Globals where
  _basic_block_size : Nat
  _length : Nat
  _headerSize : Nat
  _minFreestoreIndex : Nat
  _maxFreestoreIndex : Nat
  _minFreestoreIndexMemorySize : Nat
  _maxFreestoreIndexMemorySize : Nat
  _freestoreAddress : Nat
  _freestoreIndex : Nat
  _freestoreRange : Nat
  deriving DecidableEq, Repr

/-- Globals at program start: C zero-initialises them. -/
def Globals.zero : Globals := ⟨0, 0, 0, 0, 0, 0, 0, 0, 0, 0⟩

/-- Allocator state: the globals and the memory. -/
structure State where
  g : Globals
  mem : Mem

/-! ## Index arithmetic -/

/-- Search upward from `k` for the first exponent with `size ≤ 2 ^ k * B`. -/
def ceilLogSearch (size B : Nat) : Nat → Nat → Nat
  | 0, k => k
  | fuel + 1, k => if size ≤ 2 ^ k * B then k else ceilLogSearch size B fuel (k + 1)

/-- Integer reading of `ceil(log2(size / (B * 1.0)))` for `size ≥ B ≥ 1`. -/
def ceilLog (size B : Nat) : Nat := ceilLogSearch size B 64 0

/-- Search downward from `k` for the first exponent with `2 ^ k * B ≤ size`. -/
def floorLogSearch (size B : Nat) : Nat → Nat
  | 0 => 0
  | k + 1 => if 2 ^ (k + 1) * B ≤ size then k + 1 else floorLogSearch size B k

/-- Integer reading of `floor(log2(size / (B * 1.0)))` for `size ≥ B ≥ 1`. -/
def floorLog (size B : Nat) : Nat := floorLogSearch size B 64

/-- Source function `getSizeForFreestoreIndex` (`1 << index` for `index < 32`). -/
def getSizeForFreestoreIndex (g : Globals) (index : Nat) : Nat :=
  if index > 0 then uintMul (2 ^ index % 2 ^ 32) g._basic_block_size
  else g._basic_block_size

/-- Source function `getFreestoreIndexForSize`. -/
def getFreestoreIndexForSize (g : Globals) (size : Nat) : Nat :=
  if g._basic_block_size < size then ceilLog size g._basic_block_size % 2 ^ 32 else 0

/-- Source function `getSizeForAdjustedFreestoreIndex`. -/
def getSizeForAdjustedFreestoreIndex (g : Globals) (index : Nat) : Nat :=
  getSizeForFreestoreIndex g (uintAdd index g._minFreestoreIndex)

/-- Source function `getAdjustedFreestoreIndexForSize`. -/
def getAdjustedFreestoreIndexForSize (g : Globals) (size : Nat) : Nat :=
  if g._minFreestoreIndexMemorySize < size then
    uintSub (getFreestoreIndexForSize g size) g._minFreestoreIndex
  else 0

/-- Source function `getAdjustedMinFreestoreIndexForRequestedSize`. -/
def getAdjustedMinFreestoreIndexForRequestedSize (g : Globals) (requestedSized : Nat) : Nat :=
  uintSub (getFreestoreIndexForSize g (uintAdd requestedSized g._headerSize))
    g._minFreestoreIndex

/-! ## Free-list store -/

/-- Source function `getFirstFreestoreBlockAtAdjustedIndex`: `&freestore[adjustedIndex]`. -/
def getFirstFreestoreBlockAtAdjustedIndex (g : Globals) (adjustedIndex : Nat) : Nat :=
  ptrAdd g._freestoreAddress (sizeofFreestoreBlock * adjustedIndex)

/-- The `while` loop of `getLastFreestoreBlockAtAdjustedIndex`. -/
def getLastLoop (m : Mem) : Nat → Nat → Nat → Option Nat
  | 0, _, _ => none
  | fuel + 1, block, nextBlock =>
    if nextBlock ≠ 0 then do
      let nextBlock1 ← readNextBlock m block
      if nextBlock1 ≠ 0 then getLastLoop m fuel nextBlock1 nextBlock1
      else getLastLoop m fuel block nextBlock1
    else some block

/-- Source function `getLastFreestoreBlockAtAdjustedIndex`. -/
def getLastFreestoreBlockAtAdjustedIndex (g : Globals) (m : Mem) (fuel : Nat)
    (adjustedIndex : Nat) : Option Nat := do
  let block := getFirstFreestoreBlockAtAdjustedIndex g adjustedIndex
  let nextBlock ← readNextBlock m block
  getLastLoop m fuel block nextBlock

/-- Source function `addAddressToFreestoreForAdjustedIndex`. -/
def addAddressToFreestoreForAdjustedIndex (g : Globals) (m : Mem) (fuel : Nat)
    (adjustedIndex memoryAddress : Nat) : Option (Mem × Bool) := do
  let lastBlock ← getLastFreestoreBlockAtAdjustedIndex g m fuel adjustedIndex
  let lastBlockAddressValue ← readAddress m lastBlock
  if lastBlockAddressValue = 0 then do
    let m1 ← writeAddress m lastBlock memoryAddress
    some (m1, true)
  else do
    let newBlock := memoryAddress
    let m1 ← writeAddress m newBlock memoryAddress
    let m2 ← writeNextBlock m1 newBlock 0
    let m3 ← writeNextBlock m2 lastBlock newBlock
    some (m3, true)

/-- The `while(true)` loop of `removeLastFreestoreBlockAtAdjustedIndex`;
returns `(nextToLastBlock, lastBlock)`. -/
def removeLastLoop (m : Mem) : Nat → Nat → Nat → Option (Nat × Nat)
  | 0, _, _ => none
  | fuel + 1, nextToLastBlock, lastBlock => do
    let nextBlock ← readNextBlock m lastBlock
    if nextBlock ≠ 0 then removeLastLoop m fuel lastBlock nextBlock
    else some (nextToLastBlock, lastBlock)

/-- Source function `removeLastFreestoreBlockAtAdjustedIndex`; the returned
flag is the C variable `success`, which the function never sets. -/
def removeLastFreestoreBlockAtAdjustedIndex (g : Globals) (m : Mem) (fuel : Nat)
    (index : Nat) : Option (Mem × Bool) := do
  let block := getFirstFreestoreBlockAtAdjustedIndex g index
  let lastBlock ← readNextBlock m block
  if lastBlock = 0 then do
    let m1 ← writeAddress m block 0
    some (m1, false)
  else do
    let (nextToLastBlock, lastBlock1) ← removeLastLoop m fuel block lastBlock
    let m1 ← writeAddress m lastBlock1 0
    let m2 ← writeNextBlock m1 lastBlock1 0
    let m3 ← writeNextBlock m2 nextToLastBlock 0
    some (m3, false)

/-- Source function `containsFreeSpaceAtAdjustedIndex`. -/
def containsFreeSpaceAtAdjustedIndex (g : Globals) (m : Mem) (index : Nat) : Option Bool := do
  let block := getFirstFreestoreBlockAtAdjustedIndex g index
  let a ← readAddress m block
  some (decide (a ≠ 0))

/-- Source function `subAddressForAdjustedIndex`. -/
def subAddressForAdjustedIndex (g : Globals) (address index : Nat) (splitSide : side) : Nat :=
  if splitSide = side.right then
    let size := getSizeForAdjustedFreestoreIndex g index
    let splitSize := size / 2
    ptrAdd address splitSize
  else address

/-- Source function `createFreestoreBlockAtAdjustedIndex`. -/
def createFreestoreBlockAtAdjustedIndex (g : Globals) :
    Nat → Mem → Nat → Option (Mem × Bool)
  | 0, _, _ => none
  | fuel + 1, m, adjustedIndex => do
    let splitIndex := uintAdd adjustedIndex 1
    if splitIndex ≥ g._freestoreRange then some (m, false)
    else do
      let splitIndexContainsBlock ← containsFreeSpaceAtAdjustedIndex g m splitIndex
      let (m1, splitSuccess) ←
        (if splitIndexContainsBlock = false then
          createFreestoreBlockAtAdjustedIndex g fuel m splitIndex
        else some (m, false))
      if splitSuccess || splitIndexContainsBlock then do
        let lastBlock ← getLastFreestoreBlockAtAdjustedIndex g m1 fuel splitIndex
        let address ← readAddress m1 lastBlock
        let (m2, _) ← removeLastFreestoreBlockAtAdjustedIndex g m1 fuel splitIndex
        let leftAddress := subAddressForAdjustedIndex g address splitIndex side.left
        let rightAddress := subAddressForAdjustedIndex g address splitIndex side.right
        let (m3, _) ← addAddressToFreestoreForAdjustedIndex g m2 fuel adjustedIndex leftAddress
        let (m4, _) ← addAddressToFreestoreForAdjustedIndex g m3 fuel adjustedIndex rightAddress
        some (m4, true)
      else some (m1, false)

/-- The `while` loop of `containsFreestoreBlockAtAdjustedIndexWithAddress`. -/
def containsLoop (m : Mem) (memoryAddress : Nat) : Nat → Nat → Bool → Option Bool
  | 0, _, _ => none
  | fuel + 1, block, contained =>
    if block ≠ 0 ∧ contained = false then do
      let a ← readAddress m block
      let next ← readNextBlock m block
      containsLoop m memoryAddress fuel next (decide (a = memoryAddress))
    else some contained

/-- Source function `containsFreestoreBlockAtAdjustedIndexWithAddress`. -/
def containsFreestoreBlockAtAdjustedIndexWithAddress (g : Globals) (m : Mem) (fuel : Nat)
    (index memoryAddress : Nat) : Option Bool :=
  containsLoop m memoryAddress fuel (getFirstFreestoreBlockAtAdjustedIndex g index) false

/-- The `while` loop in the `else` branch of
`removeFreestoreBlockAtAdjustedIndexWithAddress`. -/
def removeWithAddressLoop (memoryAddress : Nat) :
    Nat → Mem → Nat → Nat → Bool → Option (Mem × Bool)
  | 0, _, _, _, _ => none
  | fuel + 1, m, currentBlock, nextToLastBlock, success =>
    if currentBlock ≠ 0 then do
      let nextBlock ← readNextBlock m currentBlock
      let blockAddress ← readAddress m currentBlock
      if blockAddress = memoryAddress then do
        let m1 ← writeAddress m currentBlock 0
        let m2 ← writeNextBlock m1 currentBlock 0
        let m3 ← writeNextBlock m2 nextToLastBlock nextBlock
        removeWithAddressLoop memoryAddress fuel m3 currentBlock nextToLastBlock true
      else do
        let currentBlock1 ← readNextBlock m currentBlock
        removeWithAddressLoop memoryAddress fuel m currentBlock1 currentBlock success
    else some (m, success)

/-- Source function `removeFreestoreBlockAtAdjustedIndexWithAddress`. -/
def removeFreestoreBlockAtAdjustedIndexWithAddress (g : Globals) (m : Mem) (fuel : Nat)
    (index memoryAddress : Nat) : Option (Mem × Bool) := do
  let initialBlock := getFirstFreestoreBlockAtAdjustedIndex g index
  let headAddress ← readAddress m initialBlock
  if headAddress = memoryAddress then do
    let m1 ← writeAddress m initialBlock 0
    let nextBlock ← readNextBlock m1 initialBlock
    if nextBlock ≠ 0 then do
      let nextAddress ← readAddress m1 nextBlock
      let m2 ← writeAddress m1 initialBlock nextAddress
      let continueBlock ← readNextBlock m2 nextBlock
      let m3 ← writeNextBlock m2 initialBlock continueBlock
      let m4 ← writeNextBlock m3 nextBlock 0
      let m5 ← writeAddress m4 nextBlock 0
      some (m5, true)
    else some (m1, true)
  else do
    let currentBlock ← readNextBlock m initialBlock
    removeWithAddressLoop memoryAddress fuel m currentBlock initialBlock false

/-! ## Split/merge engine -/

/-- Source function `getContiguousAddressAtSide`. -/
def getContiguousAddressAtSide (g : Globals) (index memoryAddress : Nat) (s : side) : Nat :=
  let indexSize := getSizeForAdjustedFreestoreIndex g index
  match s with
  | side.left => ptrSub memoryAddress indexSize
  | side.right => ptrAdd memoryAddress indexSize
  | side.neither => 0

/-- Source function `mergeBuddiesAtAddress`. -/
def mergeBuddiesAtAddress (g : Globals) (m : Mem) (fuel : Nat)
    (adjustedIndex firstAddress secondAddress : Nat) : Option (Mem × Bool) := do
  let (m1, _) ← removeFreestoreBlockAtAdjustedIndexWithAddress g m fuel adjustedIndex firstAddress
  let (m2, _) ← removeFreestoreBlockAtAdjustedIndexWithAddress g m1 fuel adjustedIndex secondAddress
  let nextAddress := if firstAddress < secondAddress then firstAddress else secondAddress
  let superIndex := uintAdd adjustedIndex 1
  addAddressToFreestoreForAdjustedIndex g m2 fuel superIndex nextAddress

/-- Source function `getBuddySideForAddress`.  The parity test is the C
expression `(basicDifference % 1) == 0` on the `long` quotient. -/
def getBuddySideForAddress (g : Globals) (index memoryAddress : Nat) : side :=
  let indexSize := getSizeForAdjustedFreestoreIndex g index
  let buddyIsFreestore := decide (g._freestoreAddress = ptrSub memoryAddress indexSize)
  if buddyIsFreestore then side.neither
  else
    let startAddress := g._freestoreAddress
    let difference : Int := (memoryAddress : Int) - (startAddress : Int)
    let basicDifference : Int := Int.tdiv difference (g._basic_block_size : Int)
    let basicDifferenceIsEven := decide (Int.tmod basicDifference 1 = 0)
    if basicDifferenceIsEven then side.right else side.left

/-- Source function `attemptBuddyMergeAtAdjustedIndexWithAddress`. -/
def attemptBuddyMergeAtAdjustedIndexWithAddress (g : Globals) :
    Nat → Mem → Nat → Nat → Option (Mem × Bool)
  | 0, _, _, _ => none
  | fuel + 1, m, index, memoryAddress =>
    let buddySide := getBuddySideForAddress g index memoryAddress
    if buddySide ≠ side.neither then
      let buddyAddress := getContiguousAddressAtSide g index memoryAddress buddySide
      if buddyAddress ≠ 0 then do
        let memoryAddressExistsInFreestore ←
          containsFreestoreBlockAtAdjustedIndexWithAddress g m fuel index memoryAddress
        let buddyAddressExistsInFreestore ←
          containsFreestoreBlockAtAdjustedIndexWithAddress g m fuel index buddyAddress
        if memoryAddressExistsInFreestore && buddyAddressExistsInFreestore then do
          let (m1, mergeSuccess) ← mergeBuddiesAtAddress g m fuel index memoryAddress buddyAddress
          if mergeSuccess then do
            let upperIndex := uintAdd index 1
            if buddySide = side.left then do
              let (m2, _) ← attemptBuddyMergeAtAdjustedIndexWithAddress g fuel m1 upperIndex buddyAddress
              some (m2, mergeSuccess)
            else do
              let (m2, _) ← attemptBuddyMergeAtAdjustedIndexWithAddress g fuel m1 upperIndex memoryAddress
              some (m2, mergeSuccess)
          else some (m1, mergeSuccess)
        else some (m, true)
      else some (m, true)
    else some (m, true)

/-! ## Initialisation -/

/-- Source function `resetFreestore`: the loop from entry `i` over `count` entries. -/
def resetFreestoreLoop (freestore : Nat) : Nat → Mem → Nat → Option Mem
  | 0, m, _ => some m
  | count + 1, m, i => do
    let block := ptrAdd freestore (sizeofFreestoreBlock * i)
    let m1 ← writeAddress m block 0
    let m2 ← writeNextBlock m1 block 0
    resetFreestoreLoop freestore count m2 (i + 1)

/-- Source function `resetFreestore` (entries `0 .. range`). -/
def resetFreestore (m : Mem) (freestore range : Nat) : Option Mem :=
  resetFreestoreLoop freestore (range + 1) m 0

/-- The `for` loop of `protectFreestoreHeader` that splits the left spine,
entered with loop variable `i`; returns the memory and `currentLeftAddress`. -/
def protectSplitLoop (g : Globals) (freestore storeIndex : Nat) :
    Nat → Mem → Nat → Option (Mem × Nat)
  | 0, m, currentLeftAddress => some (m, currentLeftAddress)
  | i + 1, m, currentLeftAddress =>
    if i + 1 > storeIndex then do
      let subIndex := i
      let leftAddress := subAddressForAdjustedIndex g currentLeftAddress (i + 1) side.left
      let rightAddress := subAddressForAdjustedIndex g currentLeftAddress (i + 1) side.right
      let rightBlock := ptrAdd freestore (sizeofFreestoreBlock * subIndex)
      let m1 ← writeAddress m rightBlock rightAddress
      let m2 ← writeNextBlock m1 rightBlock 0
      protectSplitLoop g freestore storeIndex i m2 leftAddress
    else some (m, currentLeftAddress)

/-- The `while` loop of `protectFreestoreHeader` that tiles the tail; returns
the memory and the final `currentLeftoverSpace`. -/
def protectTailLoop (g : Globals) : Nat → Mem → Nat → Nat → Option (Mem × Nat)
  | 0, _, _, _ => none
  | fuel + 1, m, currentLeftoverAddress, currentLeftoverSpace =>
    if currentLeftoverSpace > g._minFreestoreIndexMemorySize then do
      let currentLeftoverIndex := getAdjustedFreestoreIndexForSize g currentLeftoverSpace
      let sizeForLeftoverIndex := getSizeForAdjustedFreestoreIndex g currentLeftoverIndex
      let storageIndex :=
        if sizeForLeftoverIndex > currentLeftoverSpace then uintSub currentLeftoverIndex 1
        else currentLeftoverIndex
      let sizeForStorageIndex := getSizeForAdjustedFreestoreIndex g storageIndex
      let (m1, _) ← addAddressToFreestoreForAdjustedIndex g m fuel storageIndex currentLeftoverAddress
      protectTailLoop g fuel m1 (ptrAdd currentLeftoverAddress sizeForStorageIndex)
        (uintSub currentLeftoverSpace sizeForStorageIndex)
    else some (m, currentLeftoverSpace)

/-- Source function `protectFreestoreHeader`; also returns the leftover space
that the C code reports in its warning (`0` when there is no tail). -/
def protectFreestoreHeader (g : Globals) (m : Mem) (fuel : Nat)
    (freestore minFreestoreIndex maxFreestoreIndex : Nat) : Option (Globals × Mem × Nat) := do
  let freestoreRange := uintSub maxFreestoreIndex minFreestoreIndex
  let adjustedMaxFreestoreIndex := freestoreRange
  let blockSize := sizeofFreestoreBlock
  let arraySize := uintMul blockSize freestoreRange
  let storeIndex := getAdjustedMinFreestoreIndexForRequestedSize g arraySize
  let g1 := { g with _freestoreIndex := storeIndex }
  let maxIndexSize := getSizeForFreestoreIndex g1 maxFreestoreIndex
  let currentLeftAddress := freestore
  let (m1, _) ← protectSplitLoop g1 freestore storeIndex adjustedMaxFreestoreIndex m currentLeftAddress
  if maxIndexSize < g1._length then do
    let totalLeftoverSpace := uintSub g1._length maxIndexSize
    let currentLeftoverAddress := ptrAdd freestore g1._maxFreestoreIndexMemorySize
    let (m2, currentLeftoverSpace) ←
      protectTailLoop g1 fuel m1 currentLeftoverAddress totalLeftoverSpace
    some (g1, m2, currentLeftoverSpace)
  else some (g1, m1, 0)

/-- Source function `initFreestoreHeader`; returns the globals, the memory, the
returned address and the leftover space of the tail. -/
def initFreestoreHeader (g : Globals) (m : Mem) (fuel : Nat)
    (startAddress minFreestoreIndex maxFreestoreIndex : Nat) :
    Option (Globals × Mem × Nat × Nat) := do
  let freestoreRange := uintSub maxFreestoreIndex minFreestoreIndex
  if freestoreRange = 0 then some (g, m, 0, 0)
  else do
    let freestore := startAddress
    let m1 ← resetFreestore m freestore freestoreRange
    let g1 := { g with _freestoreRange := freestoreRange }
    let g2 := { g1 with
      _maxFreestoreIndexMemorySize := getSizeForAdjustedFreestoreIndex g1 freestoreRange }
    let (g3, m2, leftover) ←
      protectFreestoreHeader g2 m1 fuel freestore minFreestoreIndex maxFreestoreIndex
    some (g3, m2, startAddress, leftover)

/-- Source function `minFreestoreIndexForSize`. -/
def minFreestoreIndexForSize (g : Globals) (basic_block_size headerSize : Nat) : Nat :=
  let minIndex :=
    if headerSize > basic_block_size then ceilLog headerSize g._basic_block_size % 2 ^ 32
    else 0
  let fitIndexSize := getSizeForFreestoreIndex g minIndex
  if fitIndexSize ≤ headerSize then uintAdd minIndex 1 else minIndex

/-- Source function `maxFreestoreIndexForSize`. -/
def maxFreestoreIndexForSize (g : Globals) (_basic_block_size length headerSize : Nat) : Nat :=
  floorLog (uintSub length headerSize) g._basic_block_size % 2 ^ 32

/-- Source function `init_allocator`.  The host `malloc` is represented by
its result: the arena base `startAddress` and the memory `m0` found there.
Also returns the leftover space of the tail tiling. -/
def init_allocator (fuel : Nat) (startAddress : Nat) (m0 : Mem)
    (basic_block_size length : Nat) : Option (State × Nat × Nat) :=
  if basic_block_size < length then do
    let g0 := Globals.zero
    let g1 := { g0 with _basic_block_size := basic_block_size, _length := length,
                        _headerSize := sizeofFreestoreBlock }
    let g2 := { g1 with
      _minFreestoreIndex := minFreestoreIndexForSize g1 basic_block_size g1._headerSize }
    let g3 := { g2 with
      _minFreestoreIndexMemorySize := getSizeForFreestoreIndex g2 g2._minFreestoreIndex }
    let g4 := { g3 with
      _maxFreestoreIndex := maxFreestoreIndexForSize g3 basic_block_size length g3._headerSize }
    let g5 := { g4 with
      _maxFreestoreIndexMemorySize := getSizeForFreestoreIndex g4 g4._minFreestoreIndex }
    let g6 := { g5 with _freestoreAddress := startAddress }
    let (g7, m1, freestoreAddress, leftover) ←
      initFreestoreHeader g6 m0 fuel startAddress g6._minFreestoreIndex g6._maxFreestoreIndex
    let g8 := { g7 with _freestoreAddress := freestoreAddress }
    some (⟨g8, m1⟩, g8._length, leftover)
  else some (⟨Globals.zero, m0⟩, 0, 0)

/-! ## Allocation and release of blocks -/

/-- The `while` loop of `canMeetMemoryRequest`. -/
def canMeetLoop (g : Globals) (m : Mem) (maxAdjustedIndex : Nat) :
    Nat → Bool → Nat → Option Bool
  | 0, _, _ => none
  | fuel + 1, canMeet, currentIndex =>
    if canMeet = false ∧ currentIndex ≤ maxAdjustedIndex then do
      let canMeet1 ← containsFreeSpaceAtAdjustedIndex g m currentIndex
      canMeetLoop g m maxAdjustedIndex fuel canMeet1 (uintAdd currentIndex 1)
    else some canMeet

/-- Source function `canMeetMemoryRequest`. -/
def canMeetMemoryRequest (g : Globals) (m : Mem) (fuel : Nat) (size : Nat) : Option Bool :=
  let minIndex := getAdjustedFreestoreIndexForSize g size
  canMeetLoop g m g._freestoreRange fuel false minIndex

/-- Source function `allocateHeaderForSize`; returns the memory and the header pointer. -/
def allocateHeaderForSize (g : Globals) (m : Mem) (fuel : Nat) (size : Nat) :
    Option (Mem × Nat) := do
  let combinedSize := uintAdd size g._headerSize
  let canMeet ← canMeetMemoryRequest g m fuel combinedSize
  if canMeet = false then some (m, 0)
  else do
    let targetIndex := getAdjustedFreestoreIndexForSize g combinedSize
    let freeAvailable ← containsFreeSpaceAtAdjustedIndex g m targetIndex
    let (m1, created) ←
      (if freeAvailable = false then createFreestoreBlockAtAdjustedIndex g fuel m targetIndex
      else some (m, freeAvailable))
    if created = true then do
      let freeblock ← getLastFreestoreBlockAtAdjustedIndex g m1 fuel targetIndex
      let freeblockAddress ← readAddress m1 freeblock
      let (m2, _) ← removeLastFreestoreBlockAtAdjustedIndex g m1 fuel targetIndex
      let header := freeblockAddress
      let _testBlock ← readIndex m2 header
      let m3 ← writeIndex m2 header targetIndex
      let memoryStartAddress := ptrAdd freeblockAddress g._headerSize
      let m4 ← writeMemoryStart m3 header memoryStartAddress
      some (m4, header)
    else some (m1, 0)

/-- Source function `memoryHeaderForAddress`. -/
def memoryHeaderForAddress (g : Globals) (m : Mem) (memoryAddress : Nat) : Option Nat := do
  let headerSize := g._headerSize
  let address := ptrSub memoryAddress headerSize
  let header := address
  if header ≠ 0 then do
    let memoryStart ← readMemoryStart m header
    let valid := decide (memoryStart = memoryAddress)
    if !valid then some 0 else some header
  else some header

/-- Source function `deallocateHeader`; the returned flag is the C variable
`success`. -/
def deallocateHeader (g : Globals) (m : Mem) (fuel : Nat) (header : Nat) :
    Option (Mem × Bool) :=
  let success := false
  if header ≠ 0 then do
    let adjustedIndex ← readIndex m header
    let startAddress := header
    let m1 ← writeMemoryStart m header 0
    let m2 ← writeIndex m1 header 0
    let (m3, _addSuccess) ← addAddressToFreestoreForAdjustedIndex g m2 fuel adjustedIndex startAddress
    let (m4, _) ← attemptBuddyMergeAtAdjustedIndexWithAddress g fuel m3 adjustedIndex startAddress
    some (m4, success)
  else some (m, success)

/-- Source function `deallocateHeaderAtAddress`. -/
def deallocateHeaderAtAddress (g : Globals) (m : Mem) (fuel : Nat) (memoryAddress : Nat) :
    Option (Mem × Bool) := do
  let success := false
  let header ← memoryHeaderForAddress g m memoryAddress
  if header ≠ 0 then deallocateHeader g m fuel header
  else some (m, success)

/-- Source function `my_malloc`. -/
def my_malloc (fuel : Nat) (st : State) (length : Nat) : Option (State × Nat) := do
  let (m1, header) ← allocateHeaderForSize st.g st.mem fuel length
  if header ≠ 0 then do
    let address ← readMemoryStart m1 header
    some (⟨st.g, m1⟩, address)
  else some (⟨st.g, m1⟩, 0)

/-- Source function `my_free`. -/
def my_free (fuel : Nat) (st : State) (address : Nat) : Option (State × Int) := do
  let (m1, success) ← deallocateHeaderAtAddress st.g st.mem fuel address
  some (⟨st.g, m1⟩, if success = true then 0 else 1)

/-! ## Test driver (`memtest.c`) -/

/-- The `while` loop of `mawTest`, entered with the address that the last call
of `my_malloc` returned; `steps` bounds the number of iterations. -/
def mawLoop (fuel size : Nat) : Nat → State → Nat → Option State
  | 0, _, _ => none
  | steps + 1, st, address =>
    if address ≠ 0 then do
      let (st1, address1) ← my_malloc fuel st size
      mawLoop fuel size steps st1 address1
    else some st

/-- Source function `mawTest` of `memtest.c`; returns the final state and the
returned `int`. -/
def mawTest (fuel steps : Nat) (st : State) (size : Nat) : Option (State × Int) := do
  let (st1, address) ← my_malloc fuel st size
  let st2 ← mawLoop fuel size steps st1 address
  some (st2, 0)

/-! ## Representation of the free lists in memory -/

/-- The chained records starting at pointer `q` hold exactly the block
addresses `l`: each record lies at the block it names and points to the next. -/
def ChainRep (m : Mem) : Nat → List Nat → Prop
  | q, [] => q = 0
  | q, b :: rest => q = b ∧ b ≠ 0 ∧ m b % 2 ^ 64 = b ∧ ChainRep m (m (b + 8) % 2 ^ 64) rest

/-- The bucket with head record at `H` holds exactly the block addresses `l`:
the head names the first block, the chained records the others. -/
def BucketRep (m : Mem) (H : Nat) : List Nat → Prop
  | [] => m H % 2 ^ 64 = 0 ∧ m (H + 8) % 2 ^ 64 = 0
  | b :: rest => m H % 2 ^ 64 = b ∧ b ≠ 0 ∧ ChainRep m (m (H + 8) % 2 ^ 64) rest

/-- Deciding `ChainRep` by walking the list. -/
def decideChainRep (m : Mem) : (q : Nat) → (l : List Nat) → Decidable (ChainRep m q l)
  | q, [] => inferInstanceAs (Decidable (q = 0))
  | q, b :: rest =>
    if h1 : q = b ∧ b ≠ 0 ∧ m b % 2 ^ 64 = b then
      match decideChainRep m (m (b + 8) % 2 ^ 64) rest with
      | isTrue h2 => isTrue ⟨h1.1, h1.2.1, h1.2.2, h2⟩
      | isFalse h2 => isFalse (fun h => h2 h.2.2.2)
    else isFalse (fun h => h1 ⟨h.1, h.2.1, h.2.2.1⟩)

instance decidableChainRep (m : Mem) (q : Nat) (l : List Nat) : Decidable (ChainRep m q l) :=
  decideChainRep m q l

instance decidableBucketRep (m : Mem) (H : Nat) : (l : List Nat) → Decidable (BucketRep m H l)
  | [] => inferInstanceAs (Decidable (m H % 2 ^ 64 = 0 ∧ m (H + 8) % 2 ^ 64 = 0))
  | b :: rest =>
    inferInstanceAs (Decidable (m H % 2 ^ 64 = b ∧ b ≠ 0 ∧ ChainRep m (m (H + 8) % 2 ^ 64) rest))

/-- Last element of `l`, or `d` when `l` is empty. -/
def lastOr : List Nat → Nat → Nat
  | [], d => d
  | b :: rest, _ => lastOr rest b

/-- Element before the last one in `d :: l`, or `d` when there is none. -/
def beforeLast : Nat → List Nat → Nat
  | d, [] => d
  | d, [_] => d
  | _, c :: d2 :: rest => beforeLast c (d2 :: rest)

/-- Two 16-byte records at `a` and `b` do not overlap. -/
def Apart (a b : Nat) : Prop := a + 16 ≤ b ∨ b + 16 ≤ a

instance decidableApart (a b : Nat) : Decidable (Apart a b) :=
  inferInstanceAs (Decidable (a + 16 ≤ b ∨ b + 16 ≤ a))

/-- The records of a bucket are pairwise apart, apart from the head record,
non-null and inside the address space. -/
def SepList (H : Nat) (l : List Nat) : Prop :=
  H ≠ 0 ∧ (∀ b ∈ l, b ≠ 0 ∧ b + 16 < 2 ^ 64 ∧ Apart H b) ∧ l.Pairwise Apart

/-- Memory `m1` agrees with `m` outside the 16-byte records based at `S`. -/
def Frame (m m1 : Mem) (S : List Nat) : Prop :=
  ∀ x, (∀ q ∈ S, x < q ∨ q + 16 ≤ x) → m1 x = m x

/-! ## Abstract view of the arena: the list of blocks -/

/-- A block of the arena: its base address, its bucket index, and whether it
is on a free list (`free = true`) or allocated behind a header. -/
structure Blk where
  base : Nat
  idx : Nat
  free : Bool
  deriving DecidableEq

/-- Block addresses on the free list of bucket `i`, in list order. -/
def bucketOf (bs : List Blk) (i : Nat) : List Nat :=
  (bs.filter (fun b => b.free && b.idx == i)).map (fun b => b.base)

/-- The blocks other than the one based at `a`. -/
def without (bs : List Blk) (a : Nat) : List Blk :=
  bs.filter (fun b => b.base != a)

/-- Byte `x` lies in the extent of block `b`. -/
def covers (g : Globals) (x : Nat) (b : Blk) : Bool :=
  decide (b.base ≤ x ∧ x < b.base + getSizeForAdjustedFreestoreIndex g b.idx)

/-- Facts about the globals that hold after a successful `init_allocator`;
`hi` is the end of the tiled part of the arena. -/
structure GoodGlobals (g : Globals) (hi : Nat) : Prop where
  hdr : g._headerSize = 16
  base_ne : g._freestoreAddress ≠ 0
  arena : g._freestoreAddress + g._length ≤ 2 ^ 64
  range_lt : g._freestoreRange + 1 < 2 ^ 32
  size0 : 16 < getSizeForAdjustedFreestoreIndex g 0
  double : ∀ i, i < g._freestoreRange →
    getSizeForAdjustedFreestoreIndex g (i + 1) = 2 * getSizeForAdjustedFreestoreIndex g i
  store_le : g._freestoreIndex ≤ g._freestoreRange
  heads_fit : 16 * (g._freestoreRange + 1) ≤ getSizeForAdjustedFreestoreIndex g g._freestoreIndex
  lo_le : g._freestoreAddress + getSizeForAdjustedFreestoreIndex g g._freestoreIndex ≤ hi
  hi_le : hi ≤ g._freestoreAddress + g._length
  top : hi < g._freestoreAddress + getSizeForAdjustedFreestoreIndex g g._freestoreIndex
    + 2 * getSizeForAdjustedFreestoreIndex g g._freestoreRange

/-- Every byte of `[A + size_of(s), hi)` lies in exactly one block of `bs`,
no block reaches outside, and every bucket index is at most `R`. -/
def Geo (g : Globals) (hi : Nat) (bs : List Blk) : Prop :=
  (∀ b ∈ bs, b.idx ≤ g._freestoreRange) ∧
  ∀ x, bs.countP (covers g x) =
    if g._freestoreAddress + getSizeForAdjustedFreestoreIndex g g._freestoreIndex ≤ x ∧ x < hi
    then 1 else 0

/-- The blocks lie behind the head array, inside the address space, and their
first 16 bytes do not overlap. -/
def Sep (g : Globals) (bs : List Blk) : Prop :=
  (∀ b ∈ bs, g._freestoreAddress + 16 * (g._freestoreRange + 1) ≤ b.base ∧
    b.base + 16 < 2 ^ 64 ∧ b.idx ≤ g._freestoreRange) ∧
  bs.Pairwise (fun a b => Apart a.base b.base)

/-- The memory represents the abstract block list: each bucket head heads the
chain of its free blocks, and each allocated block carries its header. -/
def Rep (g : Globals) (m : Mem) (bs : List Blk) : Prop :=
  (∀ i, i ≤ g._freestoreRange →
    BucketRep m (g._freestoreAddress + 16 * i) (bucketOf bs i)) ∧
  (∀ b ∈ bs, b.free = false →
    m b.base % 2 ^ 32 = b.idx ∧ m (b.base + 8) % 2 ^ 64 = b.base + 16)

/-- The block lists `bs` and `bs1` have the same allocated blocks. -/
def SameAlloc (bs bs1 : List Blk) : Prop :=
  ∀ b : Blk, b.free = false → (b ∈ bs1 ↔ b ∈ bs)

/-! ## Reachable states -/

/-- The state invariant: the globals are sound, the memory represents a block
list that tiles `[A + size_of(s), hi)`, and the live pointers are exactly the
payload addresses of the allocated blocks. -/
def Inv (hi : Nat) (st : State) (live : List Nat) : Prop :=
  GoodGlobals st.g hi ∧ ∃ bs : List Blk, Geo st.g hi bs ∧ Rep st.g st.mem bs ∧ live.Nodup ∧
    ∀ p, p ∈ live ↔ ∃ b ∈ bs, b.free = false ∧ b.base + 16 = p

/-- The conditions under which `init_allocator(B, L)` on the arena at `A`
succeeds: the host `malloc` returned a non-null arena inside the address
space, `1 ≤ B`, `16 ≤ L < 2 ^ 32`, and the bucket range is not empty
(`kmin < kmax`). -/
def InitOK (A B L : Nat) : Prop :=
  A ≠ 0 ∧ A + L < 2 ^ 64 ∧ 1 ≤ B ∧ 16 ≤ L ∧ L < 2 ^ 32 ∧
  minFreestoreIndexForSize
      { Globals.zero with _basic_block_size := B, _length := L, _headerSize := 16 } B 16 <
    maxFreestoreIndexForSize
      { Globals.zero with _basic_block_size := B, _length := L, _headerSize := 16 } B L 16

/-- States reached from a successful `init_allocator(B, L)` (arena at `A`,
initial memory `m0`, leftover `lo` of the tail tiling) by calls of `my_malloc`
and by calls of `my_free` on live pointers; the list holds the live pointers:
the addresses returned by `my_malloc` and not freed since. -/
inductive Reachable (A : Nat) (m0 : Mem) (B L lo : Nat) : State → List Nat → Prop
  | init (fuel : Nat) (st : State) (r : Nat) :
      InitOK A B L → init_allocator fuel A m0 B L = some (st, r, lo) →
      Reachable A m0 B L lo st []
  | malloc (fuel : Nat) (st : State) (live : List Nat) (n : Nat) (st1 : State) (p : Nat) :
      Reachable A m0 B L lo st live → my_malloc fuel st n = some (st1, p) → p ≠ 0 →
      Reachable A m0 B L lo st1 (p :: live)
  | malloc_null (fuel : Nat) (st : State) (live : List Nat) (n : Nat) (st1 : State) :
      Reachable A m0 B L lo st live → my_malloc fuel st n = some (st1, 0) →
      Reachable A m0 B L lo st1 live
  | free (fuel : Nat) (st : State) (live : List Nat) (p : Nat) (st1 : State) (r : Int) :
      Reachable A m0 B L lo st live → p ∈ live → my_free fuel st p = some (st1, r) →
      Reachable A m0 B L lo st1 (live.erase p)

/-- The globals as `init_allocator(B, L)` sets them on the arena at `A`,
with the arithmetic facts about `kmin` and `kmax = kmin + R`. -/
structure Params (g : Globals) (A B L : Nat) : Prop where
  hB : g._basic_block_size = B
  hL : g._length = L
  hh : g._headerSize = 16
  hA : g._freestoreAddress = A
  hminsz : g._minFreestoreIndexMemorySize = 2 ^ g._minFreestoreIndex * B
  hmaxsz : g._maxFreestoreIndexMemorySize = 2 ^ (g._minFreestoreIndex + g._freestoreRange) * B
  B1 : 1 ≤ B
  L16 : 16 ≤ L
  L32 : L < 2 ^ 32
  A0 : A ≠ 0
  AL : A + L < 2 ^ 64
  kmin_gt : 16 < 2 ^ g._minFreestoreIndex * B
  kmin_min : g._minFreestoreIndex = 0 ∨ 2 ^ (g._minFreestoreIndex - 1) * B ≤ 16
  R1 : 1 ≤ g._freestoreRange
  kmax_le : 2 ^ (g._minFreestoreIndex + g._freestoreRange) * B ≤ L - 16
  kmax_max : L - 16 < 2 ^ (g._minFreestoreIndex + g._freestoreRange + 1) * B

/-- The free blocks that the spine split of `protectFreestoreHeader` publishes:
one block at `A + size_of(j)` in each bucket `j` with `s ≤ j < i`. -/
def spineBlocks (g : Globals) (s : Nat) : Nat → List Blk
  | 0 => []
  | n + 1 =>
    if s ≤ n then
      ⟨g._freestoreAddress + getSizeForAdjustedFreestoreIndex g n, n, true⟩ :: spineBlocks g s n
    else []

/-! ## Ownership of arena bytes -/

/-- Block address `a` is recorded on the free list of bucket `i`: it occurs in
the chain that starts at the bucket's head record. -/
def OnFreeList (st : State) (i a : Nat) : Prop :=
  i ≤ st.g._freestoreRange ∧
    ∃ l, BucketRep st.mem (getFirstFreestoreBlockAtAdjustedIndex st.g i) l ∧ a ∈ l

/-- The three kinds of owner of an arena byte: the reserved head-array block,
the free block at address `a` on the list of bucket `i`, or the allocated
block behind the live pointer `p`. -/
inductive Owner where
  | reserved : Owner
  | freeBlock (i a : Nat) : Owner
  | allocated (p : Nat) : Owner

/-- Byte `x` belongs to owner `o` in state `st` with live pointers `live`.  The
reserved block is `[A, A + size_of(s))`; a free block of bucket `i` at `a` is
`[a, a + size_of(i))`; the allocated block of a live pointer `p` starts at its
self-validating header `h` and has the size of the bucket `h->index`. -/
def Owns (st : State) (live : List Nat) (x : Nat) : Owner → Prop
  | Owner.reserved =>
    st.g._freestoreAddress ≤ x ∧
      x < st.g._freestoreAddress + getSizeForAdjustedFreestoreIndex st.g st.g._freestoreIndex
  | Owner.freeBlock i a =>
    OnFreeList st i a ∧ a ≤ x ∧ x < a + getSizeForAdjustedFreestoreIndex st.g i
  | Owner.allocated p =>
    p ∈ live ∧ ∃ h idx, memoryHeaderForAddress st.g st.mem p = some h ∧ h ≠ 0 ∧
      readIndex st.mem h = some idx ∧ h ≤ x ∧ x < h + getSizeForAdjustedFreestoreIndex st.g idx

/-! ## Order of the free lists -/

/-- The order invariant of the free lists: when two free blocks of one bucket
are neighbours in memory, the lower one precedes the upper one in the block
list (hence in the bucket's list), unless the lower one is the block at
`A + size_of(idx)`, for which `getBuddySideForAddress` answers `neither`. -/
def Ordered (g : Globals) (bs : List Blk) : Prop :=
  bs.Pairwise (fun x b => ¬ (x.free = true ∧ b.free = true ∧ x.idx = b.idx ∧
    x.base = b.base + getSizeForAdjustedFreestoreIndex g b.idx ∧
    b.base ≠ g._freestoreAddress + getSizeForAdjustedFreestoreIndex g b.idx))

/-- The block list `bs1` arises from `bs` by splits into empty buckets `i ≥ k`:
each step replaces the free block `a` of bucket `i + 1` by its two halves. -/
inductive SplitsAbove (g : Globals) (k : Nat) : List Blk → List Blk → Prop
  | refl (bs : List Blk) : SplitsAbove g k bs bs
  | step (bs bs1 : List Blk) (a i : Nat) : SplitsAbove g k bs bs1 → k ≤ i →
      i < g._freestoreRange → bucketOf bs1 i = [] → (⟨a, i + 1, true⟩ : Blk) ∈ bs1 →
      SplitsAbove g k bs (without bs1 a ++
        [⟨a, i, true⟩, ⟨a + getSizeForAdjustedFreestoreIndex g i, i, true⟩])

/-- Bucket `t` can serve a request: it holds a free block, or a bucket
strictly between `t` and `R` does.  A block of bucket `R` is never split. -/
def Servable (g : Globals) (bs : List Blk) (t : Nat) : Prop :=
  t ≤ g._freestoreRange ∧
    (bucketOf bs t ≠ [] ∨ ∃ j, t < j ∧ j < g._freestoreRange ∧ bucketOf bs j ≠ [])

/-- The state invariant with the order invariant of the free lists. -/
def Inv2 (hi : Nat) (st : State) (live : List Nat) : Prop :=
  GoodGlobals st.g hi ∧ ∃ bs : List Blk, Geo st.g hi bs ∧ Rep st.g st.mem bs ∧ live.Nodup ∧
    (∀ p, p ∈ live ↔ ∃ b ∈ bs, b.free = false ∧ b.base + 16 = p) ∧ Ordered st.g bs

/-! ## Well-formed stores -/

/-- The store is well formed: the globals are sound and the memory represents
a block list that tiles the arena behind the reserved block.  Every reachable
state is well formed, that is every state in which `my_malloc` or `my_free` is
called.  The memories inside such a call, in which a block has left one list
and has not yet joined the next, need not be: they satisfy `ListsFormed`. -/
def WellFormed (g : Globals) (m : Mem) : Prop :=
  ∃ hi bs, GoodGlobals g hi ∧ Geo g hi bs ∧ Rep g m bs

/-- The free lists are well formed: the globals are sound and the memory
represents, bucket by bucket, the lists of a set of blocks whose records lie
behind the head array and do not overlap.  Unlike `WellFormed` this does not
ask that the blocks tile the arena: it also holds in the memories in which the
split, the merge and `deallocateHeader` call the list operations, where a
block has left its list and has not yet joined the next one. -/
def ListsFormed (g : Globals) (m : Mem) : Prop :=
  ∃ hi bs, GoodGlobals g hi ∧ Sep g bs ∧ Rep g m bs

/-! ## Reachable states with request sizes -/

/-- States reached from a successful `init_allocator(B, L)` as in `Reachable`,
with the request size recorded for every live pointer: the list holds the
pairs `(p, n)` of an address `p` returned by a call `my_malloc(n)` and not
freed since. -/
inductive ReachableBy (A : Nat) (m0 : Mem) (B L lo : Nat) : State → List (Nat × Nat) → Prop
  | init (fuel : Nat) (st : State) (r : Nat) :
      InitOK A B L → init_allocator fuel A m0 B L = some (st, r, lo) →
      ReachableBy A m0 B L lo st []
  | malloc (fuel : Nat) (st : State) (live : List (Nat × Nat)) (n : Nat) (st1 : State)
      (p : Nat) :
      ReachableBy A m0 B L lo st live → my_malloc fuel st n = some (st1, p) → p ≠ 0 →
      ReachableBy A m0 B L lo st1 ((p, n) :: live)
  | malloc_null (fuel : Nat) (st : State) (live : List (Nat × Nat)) (n : Nat) (st1 : State) :
      ReachableBy A m0 B L lo st live → my_malloc fuel st n = some (st1, 0) →
      ReachableBy A m0 B L lo st1 live
  | free (fuel : Nat) (st : State) (live : List (Nat × Nat)) (p : Nat) (st1 : State)
      (r : Int) :
      ReachableBy A m0 B L lo st live → p ∈ live.map Prod.fst →
      my_free fuel st p = some (st1, r) →
      ReachableBy A m0 B L lo st1 (live.filter (fun q => q.1 != p))

/-! ## The coalescing ascent with a ghost log -/

/-- The code of `attemptBuddyMergeAtAdjustedIndexWithAddress` with a ghost log:
the same branches and calls, and in addition the list of the pairs
`(superIndex, nextAddress)` that the calls of `mergeBuddiesAtAddress` passed
to `addAddressToFreestoreForAdjustedIndex`, in the order of the calls. -/
def attemptMergeLog (g : Globals) :
    Nat → Mem → Nat → Nat → Option (Mem × Bool × List (Nat × Nat))
  | 0, _, _, _ => none
  | fuel + 1, m, index, memoryAddress =>
    let buddySide := getBuddySideForAddress g index memoryAddress
    if buddySide ≠ side.neither then
      let buddyAddress := getContiguousAddressAtSide g index memoryAddress buddySide
      if buddyAddress ≠ 0 then do
        let memoryAddressExistsInFreestore ←
          containsFreestoreBlockAtAdjustedIndexWithAddress g m fuel index memoryAddress
        let buddyAddressExistsInFreestore ←
          containsFreestoreBlockAtAdjustedIndexWithAddress g m fuel index buddyAddress
        if memoryAddressExistsInFreestore && buddyAddressExistsInFreestore then do
          let (m1, mergeSuccess) ← mergeBuddiesAtAddress g m fuel index memoryAddress buddyAddress
          let appended : Nat × Nat :=
            (uintAdd index 1,
              if memoryAddress < buddyAddress then memoryAddress else buddyAddress)
          if mergeSuccess then do
            let upperIndex := uintAdd index 1
            if buddySide = side.left then do
              let (m2, _, log) ← attemptMergeLog g fuel m1 upperIndex buddyAddress
              some (m2, mergeSuccess, appended :: log)
            else do
              let (m2, _, log) ← attemptMergeLog g fuel m1 upperIndex memoryAddress
              some (m2, mergeSuccess, appended :: log)
          else some (m1, mergeSuccess, [appended])
        else some (m, true, [])
      else some (m, true, [])
    else some (m, true, [])

/-- The code of `deallocateHeader` with the ghost log of the ascent. -/
def deallocateHeaderLog (g : Globals) (m : Mem) (fuel : Nat) (header : Nat) :
    Option (Mem × Bool × List (Nat × Nat)) :=
  let success := false
  if header ≠ 0 then do
    let adjustedIndex ← readIndex m header
    let startAddress := header
    let m1 ← writeMemoryStart m header 0
    let m2 ← writeIndex m1 header 0
    let (m3, _addSuccess) ← addAddressToFreestoreForAdjustedIndex g m2 fuel adjustedIndex startAddress
    let (m4, _, log) ← attemptMergeLog g fuel m3 adjustedIndex startAddress
    some (m4, success, log)
  else some (m, success, [])

/-- The code of `deallocateHeaderAtAddress` with the ghost log of the ascent. -/
def deallocateHeaderAtAddressLog (g : Globals) (m : Mem) (fuel : Nat) (memoryAddress : Nat) :
    Option (Mem × Bool × List (Nat × Nat)) := do
  let success := false
  let header ← memoryHeaderForAddress g m memoryAddress
  if header ≠ 0 then deallocateHeaderLog g m fuel header
  else some (m, success, [])

/-- The code of `my_free` with the ghost log of the ascent. -/
def my_freeLog (fuel : Nat) (st : State) (address : Nat) :
    Option (State × Int × List (Nat × Nat)) := do
  let (m1, success, log) ← deallocateHeaderAtAddressLog st.g st.mem fuel address
  some (⟨st.g, m1⟩, if success = true then 0 else 1, log)

/-! ## Concrete scenarios -/

/-- Arena base address returned by the host `malloc` in the concrete scenarios. -/
def arenaBase : Nat := 1048576

/-- Initial memory contents of the concrete scenarios. -/
def zeroMem : Mem := fun _ => 0

/-- State after `init_allocator(128, 512 * 1024)` on the scenario arena. -/
def initState : State :=
  match init_allocator 64 arenaBase zeroMem 128 524288 with
  | some (st, _, _) => st
  | none => ⟨Globals.zero, zeroMem⟩

/-- State after a call `my_malloc(n)` in state `st`. -/
def afterMalloc (st : State) (n : Nat) : State :=
  match my_malloc 64 st n with
  | some (st1, _) => st1
  | none => st

/-- State after a call `my_free(p)` in state `st`. -/
def afterFree (st : State) (p : Nat) : State :=
  match my_free 64 st p with
  | some (st1, _) => st1
  | none => st

/-- Test driver in the manner of `mawTest`: `count` successive calls
`my_malloc(n)`; the returned addresses are collected most recent first. -/
def mallocRepeat (fuel n : Nat) : Nat → State → List Nat → Option (State × List Nat)
  | 0, st, acc => some (st, acc)
  | count + 1, st, acc => do
    let (st1, p) ← my_malloc fuel st n
    mallocRepeat fuel n count st1 (p :: acc)

/-- Test driver: `my_free` on each address of the list, in list order. -/
def freeEach (fuel : Nat) : List Nat → State → Option State
  | [], st => some st
  | p :: ps, st => do
    let (st1, _) ← my_free fuel st p
    freeEach fuel ps st1

/-- Memory inside the first `my_malloc(100)` after
`init_allocator(128, 512 * 1024)`, at the point where the split of
`createFreestoreBlockAtAdjustedIndex(0)` appends the right half: the last block
of bucket 1 has been removed and its left half appended to bucket 0. -/
def splitMem : Mem :=
  match (do
    let lastBlock ← getLastFreestoreBlockAtAdjustedIndex initState.g initState.mem 64 1
    let address ← readAddress initState.mem lastBlock
    let (m2, _) ← removeLastFreestoreBlockAtAdjustedIndex initState.g initState.mem 64 1
    let (m3, _) ← addAddressToFreestoreForAdjustedIndex initState.g m2 64 0
      (subAddressForAdjustedIndex initState.g address 1 side.left)
    some m3) with
  | some m => m
  | none => zeroMem

/-- State after `init_allocator(128, 512 * 1024)`, four calls `my_malloc(100)`
(which return the offsets 400, 272, 912 and 784) and `my_free` of the first and
of the last of these pointers. -/
def mergeState : State :=
  afterFree (afterFree (afterMalloc (afterMalloc (afterMalloc (afterMalloc initState 100) 100)
    100) 100) (arenaBase + 400)) (arenaBase + 784)

/-- Memory inside `my_free(arenaBase + 272)` in `mergeState`, at the point
where `mergeBuddiesAtAddress` removes the second block: `deallocateHeader` has
cleared the header at offset 256 and appended the block to bucket 0, and the
merge has removed it from bucket 0 again. -/
def mergeMem : Mem :=
  match (do
    let m1 ← writeMemoryStart mergeState.mem (arenaBase + 256) 0
    let m2 ← writeIndex m1 (arenaBase + 256) 0
    let (m3, _) ← addAddressToFreestoreForAdjustedIndex mergeState.g m2 64 0 (arenaBase + 256)
    let (m4, _) ← removeFreestoreBlockAtAdjustedIndexWithAddress mergeState.g m3 64 0
      (arenaBase + 256)
    some m4) with
  | some m => m
  | none => zeroMem

/-! ## Basic lemmas -/

theorem store_same (m : Mem) (a v : Nat) : store m a v a = v := by simp [store]
theorem store_other (m : Mem) (a v x : Nat) (h : x ≠ a) : store m a v x = m x := by
  simp [store, h]

theorem ptrSub_ptrAdd (p n : Nat) (hp : p < 2 ^ 64) : ptrSub (ptrAdd p n) n = p := by
  unfold ptrSub ptrAdd
  have h1 : n % 2 ^ 64 < 2 ^ 64 := Nat.mod_lt _ (by norm_num)
  have h2 : ((p + n) % 2 ^ 64 + (2 ^ 64 - n % 2 ^ 64)) % 2 ^ 64 = (p + n + (2 ^ 64 - n % 2 ^ 64)) % 2 ^ 64 := by
    rw [Nat.add_mod, Nat.mod_mod, ← Nat.add_mod]
  rw [h2]
  have h3 : p + n + (2 ^ 64 - n % 2 ^ 64) = p + (n / 2 ^ 64 + 1) * 2 ^ 64 := by
    have := Nat.div_add_mod n (2 ^ 64)
    have h4 : (n / 2 ^ 64 + 1) * 2 ^ 64 = 2 ^ 64 * (n / 2 ^ 64) + 2 ^ 64 := by ring
    omega
  rw [h3, Nat.add_mul_mod_self_right, Nat.mod_eq_of_lt hp]

theorem readAddress_lt (m : Mem) (q v : Nat) (h : readAddress m q = some v) : v < 2 ^ 64 := by
  unfold readAddress at h
  split at h
  · simp at h
  · simp at h; rw [← h]; exact Nat.mod_lt _ (by norm_num)

theorem canMeetLoop_true (g : Globals) (m : Mem) (R fuel cur : Nat)
    (h : canMeetLoop g m R fuel false cur = some true) : cur ≤ R := by
  cases fuel with
  | zero => simp [canMeetLoop] at h
  | succ f =>
    unfold canMeetLoop at h
    split at h
    · rename_i hc; exact hc.2
    · simp at h

theorem getAdjustedFreestoreIndexForSize_lt (g : Globals) (size : Nat) :
    getAdjustedFreestoreIndexForSize g size < 2 ^ 32 := by
  unfold getAdjustedFreestoreIndexForSize uintSub
  split
  · exact Nat.mod_lt _ (by norm_num)
  · norm_num

theorem bind_some {α β : Type} {x : Option α} {f : α → Option β} {b : β}
    (h : x >>= f = some b) : ∃ a, x = some a ∧ f a = some b := by
  cases x with
  | none => simp at h
  | some a => exact ⟨a, rfl, h⟩

/-- Shape of a successful `allocateHeaderForSize`. -/
theorem allocateHeaderForSize_header (g : Globals) (m : Mem) (fuel size : Nat) (m' : Mem)
    (header : Nat) (h : allocateHeaderForSize g m fuel size = some (m', header))
    (hne : header ≠ 0) :
    header < 2 ^ 64 ∧
    getAdjustedFreestoreIndexForSize g (uintAdd size g._headerSize) ≤ g._freestoreRange ∧
    ∃ m2 : Mem, m' = store (store m2 header
        (m2 header % 2 ^ 64 / 2 ^ 32 * 2 ^ 32 +
          getAdjustedFreestoreIndexForSize g (uintAdd size g._headerSize) % 2 ^ 32))
        (header + 8) (ptrAdd header g._headerSize % 2 ^ 64) := by
  unfold allocateHeaderForSize at h
  obtain ⟨canMeet, hcm, h⟩ := bind_some h
  split at h
  · simp at h; exact absurd h.2.symm hne
  · rename_i hcan
    have hcan1 : canMeet = true := by simpa using hcan
    subst hcan1
    obtain ⟨freeAvailable, _, h⟩ := bind_some h
    obtain ⟨⟨m1, created⟩, _, h⟩ := bind_some h
    dsimp only at h
    split at h
    · obtain ⟨freeblock, _, h⟩ := bind_some h
      obtain ⟨fb, hfb, h⟩ := bind_some h
      obtain ⟨⟨m2, _⟩, _, h⟩ := bind_some h
      dsimp only at h
      obtain ⟨_, _, h⟩ := bind_some h
      obtain ⟨m3, hm3, h⟩ := bind_some h
      obtain ⟨m4, hm4, h⟩ := bind_some h
      simp only [Option.some.injEq, Prod.mk.injEq] at h
      obtain ⟨h1, h2⟩ := h
      subst h2
      refine ⟨readAddress_lt _ _ _ hfb, canMeetLoop_true _ _ _ _ _ hcm, m2, ?_⟩
      unfold writeIndex at hm3
      rw [if_neg hne] at hm3
      unfold writeMemoryStart at hm4
      rw [if_neg hne] at hm4
      simp only [Option.some.injEq] at hm3 hm4
      rw [← h1, ← hm4, ← hm3]
    · simp at h; exact absurd h.2.symm hne

theorem getAdjustedFreestoreIndexForSize_small (g : Globals) (size : Nat)
    (h : size ≤ g._minFreestoreIndexMemorySize) :
    getAdjustedFreestoreIndexForSize g size = 0 := by
  unfold getAdjustedFreestoreIndexForSize
  rw [if_neg (by omega)]

theorem deallocateHeader_flag (g : Globals) (m : Mem) (fuel header : Nat) (m' : Mem) (b : Bool)
    (h : deallocateHeader g m fuel header = some (m', b)) : b = false := by
  unfold deallocateHeader at h
  split at h
  · simp only [Option.bind_eq_bind, Option.bind_eq_some] at h
    obtain ⟨_, _, _, _, _, _, ⟨_, _⟩, _, ⟨_, _⟩, _, h⟩ := h
    simp at h
    exact h.2
  · simp at h
    exact h.2

theorem my_free_status (fuel : Nat) (st : State) (p : Nat) (st' : State) (r : Int)
    (h : my_free fuel st p = some (st', r)) : r = 1 := by
  unfold my_free deallocateHeaderAtAddress at h
  simp only [Option.bind_eq_bind, Option.bind_eq_some] at h
  obtain ⟨⟨m1, success⟩, ⟨header, _, h2⟩, h3⟩ := h
  have hs : success = false := by
    split at h2
    · exact deallocateHeader_flag _ _ _ _ _ _ h2
    · simp at h2; exact h2.2
  subst hs
  simp at h3
  exact h3.2.symm

theorem afterMalloc_eq (st : State) (n p : Nat)
    (h : (my_malloc 64 st n).map (fun r => r.2) = some p) :
    my_malloc 64 st n = some (afterMalloc st n, p) := by
  unfold afterMalloc
  cases hm : my_malloc 64 st n with
  | none => rw [hm] at h; simp at h
  | some r =>
    rw [hm] at h
    simp only [Option.map_some', Option.some.injEq] at h
    subst h
    rfl

/-! ## Free lists in memory: the store operations on one bucket -/

theorem chainRep_congr (m m1 : Mem) (l : List Nat) :
    ∀ q, (∀ b ∈ l, m1 b = m b ∧ m1 (b + 8) = m (b + 8)) → ChainRep m q l → ChainRep m1 q l := by
  induction l with
  | nil => intro q _ h; exact h
  | cons b rest ih =>
    intro q hf h
    obtain ⟨h1, h2, h3, h4⟩ := h
    have hb := hf b (List.mem_cons_self _ _)
    refine ⟨h1, h2, by rw [hb.1]; exact h3, ?_⟩
    rw [hb.2]
    exact ih _ (fun c hc => hf c (List.mem_cons_of_mem _ hc)) h4

theorem bucketRep_congr (m m1 : Mem) (H : Nat) (l : List Nat)
    (hH : m1 H = m H) (hH8 : m1 (H + 8) = m (H + 8))
    (hf : ∀ b ∈ l.tail, m1 b = m b ∧ m1 (b + 8) = m (b + 8))
    (h : BucketRep m H l) : BucketRep m1 H l := by
  cases l with
  | nil => exact ⟨by rw [hH]; exact h.1, by rw [hH8]; exact h.2⟩
  | cons b rest =>
    obtain ⟨h1, h2, h3⟩ := h
    refine ⟨by rw [hH]; exact h1, h2, ?_⟩
    rw [hH8]
    exact chainRep_congr m m1 rest _ hf h3

theorem chainRep_ne_zero (m : Mem) (l : List Nat) : ∀ q, ChainRep m q l → ∀ b ∈ l, b ≠ 0 := by
  induction l with
  | nil => intro q _ b hb; simp at hb
  | cons c rest ih =>
    intro q h b hb
    obtain ⟨_, h2, _, h4⟩ := h
    rcases List.mem_cons.1 hb with hbc | hbr
    · rw [hbc]; exact h2
    · exact ih _ h4 b hbr

theorem bucketRep_ne_zero (m : Mem) (H : Nat) (l : List Nat) (h : BucketRep m H l) :
    ∀ b ∈ l, b ≠ 0 := by
  cases l with
  | nil => intro b hb; simp at hb
  | cons c rest =>
    intro b hb
    obtain ⟨_, h2, h3⟩ := h
    rcases List.mem_cons.1 hb with hbc | hbr
    · rw [hbc]; exact h2
    · exact chainRep_ne_zero m rest _ h3 b hbr

/-- The loop of `getLastFreestoreBlockAtAdjustedIndex` returns the last
chained record, or the record it started from when nothing is chained. -/
theorem getLastLoop_spec (m : Mem) :
    ∀ (fuel : Nat) (l : List Nat) (block nextBlock r : Nat),
      ChainRep m (m (block + 8) % 2 ^ 64) l → block ≠ 0 → nextBlock ≠ 0 →
      getLastLoop m fuel block nextBlock = some r → r = lastOr l block := by
  intro fuel
  induction fuel with
  | zero => intro l block nextBlock r _ _ _ h; simp [getLastLoop] at h
  | succ f ih =>
    intro l block nextBlock r hc hb hn h
    unfold getLastLoop at h
    rw [if_pos hn] at h
    obtain ⟨nb1, hnb1, h⟩ := bind_some h
    unfold readNextBlock at hnb1
    rw [if_neg hb] at hnb1
    simp only [Option.some.injEq] at hnb1
    cases l with
    | nil =>
      have hz : nb1 = 0 := by rw [← hnb1]; exact hc
      subst hz
      simp only [ne_eq, not_true_eq_false, ↓reduceIte] at h
      cases f with
      | zero => simp [getLastLoop] at h
      | succ f2 =>
        unfold getLastLoop at h
        simp only [ne_eq, not_true_eq_false, ↓reduceIte, Option.some.injEq] at h
        rw [← h]; rfl
    | cons b rest =>
      obtain ⟨h1, h2, h3, h4⟩ := hc
      have hnb : nb1 = b := by rw [← hnb1]; exact h1
      subst hnb
      rw [if_pos h2] at h
      have := ih rest nb1 nb1 r h4 h2 h2 h
      rw [this]
      rfl

theorem getLast_spec (g : Globals) (m : Mem) (fuel i : Nat) (l : List Nat) (r : Nat)
    (hrep : BucketRep m (getFirstFreestoreBlockAtAdjustedIndex g i) l)
    (hH : getFirstFreestoreBlockAtAdjustedIndex g i ≠ 0)
    (h : getLastFreestoreBlockAtAdjustedIndex g m fuel i = some r) :
    r = lastOr l.tail (getFirstFreestoreBlockAtAdjustedIndex g i) := by
  unfold getLastFreestoreBlockAtAdjustedIndex at h
  obtain ⟨nb, hnb, h⟩ := bind_some h
  unfold readNextBlock at hnb
  rw [if_neg hH] at hnb
  simp only [Option.some.injEq] at hnb
  cases l with
  | nil =>
    have hz : nb = 0 := by rw [← hnb]; exact hrep.2
    subst hz
    cases fuel with
    | zero => simp [getLastLoop] at h
    | succ f =>
      unfold getLastLoop at h
      simp only [ne_eq, not_true_eq_false, ↓reduceIte, Option.some.injEq] at h
      rw [← h]; rfl
  | cons b rest =>
    obtain ⟨h1, h2, h3⟩ := hrep
    simp only [List.tail_cons]
    cases rest with
    | nil =>
      have hz : nb = 0 := by rw [← hnb]; exact h3
      subst hz
      cases fuel with
      | zero => simp [getLastLoop] at h
      | succ f =>
        unfold getLastLoop at h
        simp only [ne_eq, not_true_eq_false, ↓reduceIte, Option.some.injEq] at h
        rw [← h]; rfl
    | cons c rest2 =>
      have hnz : nb ≠ 0 := by
        rw [← hnb, h3.1]; exact h3.2.1
      exact getLastLoop_spec m fuel (c :: rest2) _ nb r h3 hH hnz h

theorem lastOr_mem (l : List Nat) : ∀ d, l ≠ [] → lastOr l d ∈ l := by
  induction l with
  | nil => intro d h; exact absurd rfl h
  | cons b rest ih =>
    intro d _
    cases rest with
    | nil => simp [lastOr]
    | cons c rest2 =>
      have := ih b (by simp)
      simp only [lastOr] at this ⊢
      exact List.mem_cons_of_mem _ this

theorem lastOr_cons_ne (b : Nat) (rest : List Nat) (d : Nat) (h : rest ≠ []) :
    lastOr (b :: rest) d = lastOr rest d := by
  cases rest with
  | nil => exact absurd rfl h
  | cons c r => rfl

theorem chainRep_mem (m : Mem) (l : List Nat) :
    ∀ q, ChainRep m q l → ∀ b ∈ l, b ≠ 0 ∧ m b % 2 ^ 64 = b := by
  induction l with
  | nil => intro q _ b hb; simp at hb
  | cons c rest ih =>
    intro q h b hb
    obtain ⟨_, h2, h3, h4⟩ := h
    rcases List.mem_cons.1 hb with hbc | hbr
    · rw [hbc]; exact ⟨h2, h3⟩
    · exact ih _ h4 b hbr

/-- The record returned by `getLastFreestoreBlockAtAdjustedIndex` holds the
last block address of the bucket, or 0 when the bucket is empty. -/
theorem lastNode_address (m : Mem) (H : Nat) (l : List Nat) (hH : H ≠ 0)
    (hrep : BucketRep m H l) :
    readAddress m (lastOr l.tail H) = some (lastOr l 0) := by
  cases l with
  | nil =>
    simp only [List.tail_nil, lastOr]
    unfold readAddress
    rw [if_neg hH, hrep.1]
  | cons b rest =>
    obtain ⟨h1, h2, h3⟩ := hrep
    cases rest with
    | nil =>
      simp only [List.tail_cons, lastOr]
      unfold readAddress
      rw [if_neg hH, h1]
    | cons c rest2 =>
      simp only [List.tail_cons]
      have hmem := lastOr_mem (c :: rest2) H (by simp)
      obtain ⟨hx0, hx⟩ := chainRep_mem m _ _ h3 _ hmem
      unfold readAddress
      rw [if_neg hx0, hx]
      rfl

theorem lastOr_eq_zero (l : List Nat) (h : ∀ b ∈ l, b ≠ 0) : lastOr l 0 = 0 ↔ l = [] := by
  constructor
  · intro h0
    by_contra hne
    exact h _ (lastOr_mem l 0 hne) h0
  · intro hl; subst hl; rfl

theorem chainRep_snoc (m : Mem) (a : Nat) (ha0 : a ≠ 0) (halt : a < 2 ^ 64) :
    ∀ (l : List Nat) (q d : Nat), l ≠ [] → ChainRep m q l → (∀ b ∈ l, Apart b a) →
      l.Pairwise Apart →
      ChainRep (store (store (store m a a) (a + 8) 0) (lastOr l d + 8) a) q (l ++ [a]) := by
  intro l
  induction l with
  | nil => intro q d h; exact absurd rfl h
  | cons b rest ih =>
    intro q d _ hc hap hpw
    obtain ⟨h1, h2, h3, h4⟩ := hc
    have hba := hap b (List.mem_cons_self _ _)
    unfold Apart at hba
    cases rest with
    | nil =>
      simp only [lastOr, List.cons_append, List.nil_append, ChainRep]
      refine ⟨h1, h2, ?_, ?_, ha0, ?_, ?_⟩
      · rw [store_other _ _ _ _ (by omega), store_other _ _ _ _ (by omega),
          store_other _ _ _ _ (by omega)]
        exact h3
      · rw [store_same]; exact Nat.mod_eq_of_lt halt
      · rw [store_other _ _ _ _ (by omega), store_other _ _ _ _ (by omega), store_same]
        exact Nat.mod_eq_of_lt halt
      · rw [store_other _ _ _ _ (by omega), store_same]
        rfl
    | cons c rest2 =>
      have hx := lastOr_mem (c :: rest2) b (by simp)
      have hbx : Apart b (lastOr (c :: rest2) b) := (List.pairwise_cons.1 hpw).1 _ hx
      unfold Apart at hbx
      have ih2 := ih (m (b + 8) % 2 ^ 64) b (by simp) h4
        (fun x hx => hap x (List.mem_cons_of_mem _ hx)) (List.pairwise_cons.1 hpw).2
      show ChainRep _ q (b :: ((c :: rest2) ++ [a]))
      refine ⟨h1, h2, ?_, ?_⟩
      · show store _ (lastOr (c :: rest2) b + 8) a b % 2 ^ 64 = b
        rw [store_other _ _ _ _ (by omega), store_other _ _ _ _ (by omega),
          store_other _ _ _ _ (by omega)]
        exact h3
      · show ChainRep _ (store _ (lastOr (c :: rest2) b + 8) a (b + 8) % 2 ^ 64) _
        rw [store_other _ _ _ _ (by omega), store_other _ _ _ _ (by omega),
          store_other _ _ _ _ (by omega)]
        exact ih2

theorem mod_word (a : Nat) (h : a + 16 < 2 ^ 64) : a % 2 ^ 64 = a :=
  Nat.mod_eq_of_lt (by omega)

/-- Appending with `addAddressToFreestoreForAdjustedIndex`: the bucket list
gets `a` as its new last element and only the records of that bucket and of
`a` are written. -/
theorem add_spec (g : Globals) (m : Mem) (fuel i a : Nat) (l : List Nat) (H : Nat) (m1 : Mem)
    (r : Bool) (hH : getFirstFreestoreBlockAtAdjustedIndex g i = H)
    (hrep : BucketRep m H l) (hsep : SepList H l)
    (ha0 : a ≠ 0) (halt : a + 16 < 2 ^ 64) (haH : Apart H a) (hal : ∀ b ∈ l, Apart b a)
    (h : addAddressToFreestoreForAdjustedIndex g m fuel i a = some (m1, r)) :
    r = true ∧ BucketRep m1 H (l ++ [a]) ∧ Frame m m1 (H :: a :: l) := by
  obtain ⟨hH0, hsepl, hpw⟩ := hsep
  unfold addAddressToFreestoreForAdjustedIndex at h
  obtain ⟨lastBlock, hlast, h⟩ := bind_some h
  have hlb := getLast_spec g m fuel i l lastBlock (by rw [hH]; exact hrep) (by rw [hH]; exact hH0)
    hlast
  rw [hH] at hlb
  obtain ⟨v, hv, h⟩ := bind_some h
  rw [hlb, lastNode_address m H l hH0 hrep] at hv
  simp only [Option.some.injEq] at hv
  unfold Apart at haH
  have hamod := mod_word a halt
  cases l with
  | nil =>
    simp only [lastOr] at hv
    subst hv
    simp only [List.tail_nil, lastOr] at hlb
    subst hlb
    rw [if_pos rfl] at h
    obtain ⟨m2, hm2, h⟩ := bind_some h
    unfold writeAddress at hm2
    rw [if_neg hH0, hamod] at hm2
    simp only [Option.some.injEq, Prod.mk.injEq] at hm2 h
    obtain ⟨h1, h2⟩ := h
    subst h1 hm2
    refine ⟨h2.symm, ⟨?_, ha0, ?_⟩, ?_⟩
    · rw [store_same]; exact hamod
    · show store m lastBlock a (lastBlock + 8) % 2 ^ 64 = 0
      rw [store_other _ _ _ _ (by omega)]; exact hrep.2
    · intro x hx
      have := hx lastBlock (by simp)
      exact store_other _ _ _ _ (by omega)
  | cons b rest =>
    have hvne : v ≠ 0 := by
      rw [← hv]
      exact (hsepl _ (lastOr_mem (b :: rest) 0 (by simp))).1
    rw [if_neg hvne] at h
    obtain ⟨m2, hm2, h⟩ := bind_some h
    obtain ⟨m3, hm3, h⟩ := bind_some h
    obtain ⟨m4, hm4, h⟩ := bind_some h
    have hl0 : lastBlock ≠ 0 := by
      rw [hlb]
      simp only [List.tail_cons]
      cases rest with
      | nil => exact hH0
      | cons c rest2 =>
        exact (hsepl _ (List.mem_cons_of_mem _ (lastOr_mem (c :: rest2) H (by simp)))).1
    unfold writeAddress at hm2
    unfold writeNextBlock at hm3 hm4
    rw [if_neg ha0, hamod] at hm2
    rw [if_neg ha0] at hm3
    rw [if_neg hl0, hamod] at hm4
    simp only [Option.some.injEq, Prod.mk.injEq, Nat.zero_mod] at hm2 hm3 hm4 h
    obtain ⟨h1, h2⟩ := h
    subst h1 hm4 hm3 hm2
    obtain ⟨hr1, hr2, hr3⟩ := hrep
    have hab := hal b (List.mem_cons_self _ _)
    have hHb := (hsepl b (List.mem_cons_self _ _)).2.2
    unfold Apart at hab hHb
    refine ⟨h2.symm, ?_, ?_⟩
    · cases rest with
      | nil =>
        simp only [List.tail_cons, lastOr] at hlb
        subst hlb
        refine ⟨?_, hr2, ?_, ha0, ?_, ?_⟩
        · rw [store_other _ _ _ _ (by omega), store_other _ _ _ _ (by omega),
            store_other _ _ _ _ (by omega)]
          exact hr1
        · rw [store_same]; exact hamod
        · rw [store_other _ _ _ _ (by omega), store_other _ _ _ _ (by omega), store_same]
          exact hamod
        · show store _ (lastBlock + 8) a (a + 8) % 2 ^ 64 = 0
          rw [store_other _ _ _ _ (by omega), store_same]
          rfl
      | cons c rest2 =>
        simp only [List.tail_cons] at hlb
        subst hlb
        have hx := lastOr_mem (c :: rest2) H (by simp)
        have hHx := (hsepl _ (List.mem_cons_of_mem _ hx)).2.2
        unfold Apart at hHx
        refine ⟨?_, hr2, ?_⟩
        · rw [store_other _ _ _ _ (by omega), store_other _ _ _ _ (by omega),
            store_other _ _ _ _ (by omega)]
          exact hr1
        · show ChainRep _ (store _ (lastOr (c :: rest2) H + 8) a (H + 8) % 2 ^ 64)
            ((c :: rest2) ++ [a])
          rw [store_other _ _ _ _ (by omega), store_other _ _ _ _ (by omega),
            store_other _ _ _ _ (by omega)]
          exact chainRep_snoc m a ha0 (by omega) (c :: rest2) _ H (by simp) hr3
            (fun x hx => hal x (List.mem_cons_of_mem _ hx)) (List.pairwise_cons.1 hpw).2
    · intro x hx
      have hxa := hx a (by simp)
      have hxH := hx H (by simp)
      have hxl : x ≠ lastBlock + 8 := by
        rw [hlb]
        simp only [List.tail_cons]
        cases rest with
        | nil => simp only [lastOr]; omega
        | cons c rest2 =>
          have := hx _ (List.mem_cons_of_mem _ (List.mem_cons_of_mem _
            (List.mem_cons_of_mem _ (lastOr_mem (c :: rest2) H (by simp)))))
          omega
      rw [store_other _ _ _ _ hxl, store_other _ _ _ _ (by omega),
        store_other _ _ _ _ (by omega)]

theorem beforeLast_mem (l : List Nat) : ∀ n, beforeLast n l ∈ n :: l := by
  induction l with
  | nil => intro n; simp [beforeLast]
  | cons c rest ih =>
    intro n
    cases rest with
    | nil => simp [beforeLast]
    | cons d rest2 =>
      have := ih c
      simp only [beforeLast]
      exact List.mem_cons_of_mem _ this

theorem removeLastLoop_spec (m : Mem) :
    ∀ (fuel : Nat) (l : List Nat) (ntl last p x : Nat),
      ChainRep m (m (last + 8) % 2 ^ 64) l → last ≠ 0 →
      removeLastLoop m fuel ntl last = some (p, x) →
      x = lastOr l last ∧ p = beforeLast ntl (last :: l) := by
  intro fuel
  induction fuel with
  | zero => intro l ntl last p x _ _ h; simp [removeLastLoop] at h
  | succ f ih =>
    intro l ntl last p x hc hl h
    unfold removeLastLoop at h
    obtain ⟨nb, hnb, h⟩ := bind_some h
    unfold readNextBlock at hnb
    rw [if_neg hl] at hnb
    simp only [Option.some.injEq] at hnb
    cases l with
    | nil =>
      have hz : nb = 0 := by rw [← hnb]; exact hc
      subst hz
      simp only [ne_eq, not_true_eq_false, ↓reduceIte, Option.some.injEq, Prod.mk.injEq] at h
      exact ⟨h.2.symm, h.1.symm⟩
    | cons c rest =>
      obtain ⟨h1, h2, h3, h4⟩ := hc
      have hnbc : nb = c := by rw [← hnb]; exact h1
      subst hnbc
      rw [if_pos h2] at h
      exact ih rest last nb p x h4 h2 h

theorem chainRep_dropLast (m : Mem) :
    ∀ (l : List Nat) (n : Nat), l ≠ [] → ChainRep m (m (n + 8) % 2 ^ 64) l →
      (∀ b ∈ l, Apart n b) → l.Pairwise Apart →
      ChainRep (store (store (store m (lastOr l n) 0) (lastOr l n + 8) 0) (beforeLast n l + 8) 0)
        (store (store (store m (lastOr l n) 0) (lastOr l n + 8) 0) (beforeLast n l + 8) 0
          (n + 8) % 2 ^ 64) l.dropLast ∧
      store (store (store m (lastOr l n) 0) (lastOr l n + 8) 0) (beforeLast n l + 8) 0 n = m n := by
  intro l
  induction l with
  | nil => intro n h; exact absurd rfl h
  | cons c rest ih =>
    intro n _ hc hap hpw
    obtain ⟨h1, h2, h3, h4⟩ := hc
    have hnc := hap c (List.mem_cons_self _ _)
    unfold Apart at hnc
    cases rest with
    | nil =>
      simp only [lastOr, beforeLast, List.dropLast_single]
      constructor
      · rw [store_same]; rfl
      · rw [store_other _ _ _ _ (by omega), store_other _ _ _ _ (by omega),
          store_other _ _ _ _ (by omega)]
    | cons d rest2 =>
      have hx := lastOr_mem (d :: rest2) c (by simp)
      have hp := beforeLast_mem (d :: rest2) c
      have hnx := hap _ (List.mem_cons_of_mem _ hx)
      have hnp := hap _ hp
      have hcx := (List.pairwise_cons.1 hpw).1 _ hx
      unfold Apart at hnx hnp hcx
      obtain ⟨ih1, ih2⟩ := ih c (by simp) h4 (List.pairwise_cons.1 hpw).1
        (List.pairwise_cons.1 hpw).2
      have e1 : lastOr (c :: d :: rest2) n = lastOr (d :: rest2) c := rfl
      have e2 : beforeLast n (c :: d :: rest2) = beforeLast c (d :: rest2) := rfl
      have e3 : (c :: d :: rest2).dropLast = c :: (d :: rest2).dropLast := rfl
      rw [e1, e2, e3]
      constructor
      · rw [store_other _ _ _ (n + 8) (by omega), store_other _ _ _ (n + 8) (by omega),
          store_other _ _ _ (n + 8) (by omega)]
        refine ⟨h1, h2, ?_, ih1⟩
        rw [ih2]; exact h3
      · rw [store_other _ _ _ _ (by omega), store_other _ _ _ _ (by omega),
          store_other _ _ _ _ (by omega)]

/-- Source function `removeLastFreestoreBlockAtAdjustedIndex` drops the last
block of a nonempty bucket list and writes only records of that bucket. -/
theorem removeLast_spec (g : Globals) (m : Mem) (fuel i : Nat) (l : List Nat) (H : Nat)
    (m1 : Mem) (r : Bool) (hH : getFirstFreestoreBlockAtAdjustedIndex g i = H)
    (hrep : BucketRep m H l) (hsep : SepList H l) (hne : l ≠ [])
    (h : removeLastFreestoreBlockAtAdjustedIndex g m fuel i = some (m1, r)) :
    BucketRep m1 H l.dropLast ∧ Frame m m1 (H :: l) := by
  obtain ⟨hH0, hsepl, hpw⟩ := hsep
  unfold removeLastFreestoreBlockAtAdjustedIndex at h
  rw [hH] at h
  obtain ⟨lb, hlb, h⟩ := bind_some h
  unfold readNextBlock at hlb
  rw [if_neg hH0] at hlb
  simp only [Option.some.injEq] at hlb
  cases l with
  | nil => exact absurd rfl hne
  | cons b rest =>
    obtain ⟨hr1, hr2, hr3⟩ := hrep
    have hHb := (hsepl b (List.mem_cons_self _ _)).2.2
    unfold Apart at hHb
    cases rest with
    | nil =>
      have hz : lb = 0 := by rw [← hlb]; exact hr3
      subst hz
      rw [if_pos rfl] at h
      obtain ⟨m2, hm2, h⟩ := bind_some h
      unfold writeAddress at hm2
      rw [if_neg hH0] at hm2
      simp only [Nat.zero_mod, Option.some.injEq, Prod.mk.injEq] at hm2 h
      obtain ⟨h1, _⟩ := h
      subst h1 hm2
      refine ⟨⟨?_, ?_⟩, ?_⟩
      · rw [store_same]; rfl
      · rw [store_other _ _ _ _ (by omega)]; exact hr3
      · intro x hx
        have := hx H (by simp)
        exact store_other _ _ _ _ (by omega)
    | cons c rest2 =>
      have hlbc : lb = c := by rw [← hlb]; exact hr3.1
      subst hlbc
      rw [if_neg hr3.2.1] at h
      obtain ⟨⟨p, x⟩, hloop, h⟩ := bind_some h
      dsimp only at h
      obtain ⟨hx, hp⟩ := removeLastLoop_spec m fuel rest2 H lb p x hr3.2.2.2 hr3.2.1 hloop
      obtain ⟨m2, hm2, h⟩ := bind_some h
      obtain ⟨m3, hm3, h⟩ := bind_some h
      obtain ⟨m4, hm4, h⟩ := bind_some h
      have hxmem : x ∈ lb :: rest2 := by
        rw [hx]
        have := lastOr_mem (lb :: rest2) H (by simp)
        exact this
      have hpmem : p ∈ H :: lb :: rest2 := by rw [hp]; exact beforeLast_mem _ _
      have hx0 : x ≠ 0 := (hsepl x (List.mem_cons_of_mem _ hxmem)).1
      have hp0 : p ≠ 0 := by
        rcases List.mem_cons.1 hpmem with hpH | hpl
        · rw [hpH]; exact hH0
        · exact (hsepl p (List.mem_cons_of_mem _ hpl)).1
      unfold writeAddress at hm2
      unfold writeNextBlock at hm3 hm4
      rw [if_neg hx0] at hm2 hm3
      rw [if_neg hp0] at hm4
      simp only [Nat.zero_mod, Option.some.injEq, Prod.mk.injEq] at hm2 hm3 hm4 h
      obtain ⟨h1, _⟩ := h
      subst h1 hm4 hm3 hm2
      have hx2 : x = lastOr (lb :: rest2) H := hx
      have hd := chainRep_dropLast m (lb :: rest2) H (by simp) hr3
        (fun y hy => (hsepl y (List.mem_cons_of_mem _ hy)).2.2) (List.pairwise_cons.1 hpw).2
      rw [← hx2, ← hp] at hd
      obtain ⟨hd1, hd2⟩ := hd
      refine ⟨?_, ?_⟩
      · show BucketRep _ H (b :: (lb :: rest2).dropLast)
        exact ⟨by rw [hd2]; exact hr1, hr2, hd1⟩
      · intro y hy
        have hyx := hy x (List.mem_cons_of_mem _ (List.mem_cons_of_mem _ hxmem))
        have hyp : y < p ∨ p + 16 ≤ y := by
          rcases List.mem_cons.1 hpmem with hpH | hpl
          · rw [hpH]; exact hy H (by simp)
          · exact hy p (List.mem_cons_of_mem _ (List.mem_cons_of_mem _ hpl))
        rw [store_other _ _ _ _ (by omega), store_other _ _ _ _ (by omega),
          store_other _ _ _ _ (by omega)]

theorem containsLoop_spec (m : Mem) (a : Nat) :
    ∀ (fuel : Nat) (l : List Nat) (q : Nat) (c r : Bool), ChainRep m q l →
      containsLoop m a fuel q c = some r → r = (c || decide (a ∈ l)) := by
  intro fuel
  induction fuel with
  | zero => intro l q c r _ h; simp [containsLoop] at h
  | succ f ih =>
    intro l q c r hc h
    unfold containsLoop at h
    split at h
    · rename_i hcond
      obtain ⟨hq, hcf⟩ := hcond
      subst hcf
      obtain ⟨v, hv, h⟩ := bind_some h
      obtain ⟨nx, hnx, h⟩ := bind_some h
      unfold readAddress at hv
      unfold readNextBlock at hnx
      rw [if_neg hq] at hv hnx
      simp only [Option.some.injEq] at hv hnx
      cases l with
      | nil => exact absurd hc hq
      | cons b rest =>
        obtain ⟨h1, h2, h3, h4⟩ := hc
        subst h1
        rw [h3] at hv
        subst hv
        rw [← hnx] at h
        have := ih rest _ _ r h4 h
        rw [this]
        by_cases hab : q = a
        · subst hab; simp
        · have hab2 : ¬ a = q := fun e => hab e.symm
          simp [hab, hab2]
    · rename_i hcond
      simp only [Option.some.injEq] at h
      subst h
      by_cases hc2 : c = true
      · simp [hc2]
      · have hq : q = 0 := by
          by_contra hq
          exact hcond ⟨hq, by simpa using hc2⟩
        subst hq
        cases l with
        | nil => simp
        | cons b rest => exact absurd hc.1.symm hc.2.1

/-- Source function `containsFreestoreBlockAtAdjustedIndexWithAddress` decides
membership of a non-null address in the bucket list. -/
theorem contains_spec (g : Globals) (m : Mem) (fuel i a : Nat) (l : List Nat) (H : Nat)
    (r : Bool) (hH : getFirstFreestoreBlockAtAdjustedIndex g i = H) (hH0 : H ≠ 0)
    (hrep : BucketRep m H l) (ha : a ≠ 0)
    (h : containsFreestoreBlockAtAdjustedIndexWithAddress g m fuel i a = some r) :
    r = decide (a ∈ l) := by
  unfold containsFreestoreBlockAtAdjustedIndexWithAddress at h
  rw [hH] at h
  cases fuel with
  | zero => simp [containsLoop] at h
  | succ f =>
    unfold containsLoop at h
    rw [if_pos ⟨hH0, rfl⟩] at h
    obtain ⟨v, hv, h⟩ := bind_some h
    obtain ⟨nx, hnx, h⟩ := bind_some h
    unfold readAddress at hv
    unfold readNextBlock at hnx
    rw [if_neg hH0] at hv hnx
    simp only [Option.some.injEq] at hv hnx
    cases l with
    | nil =>
      rw [hrep.1] at hv
      rw [hrep.2] at hnx
      subst hv hnx
      have := containsLoop_spec m a f [] 0 _ r rfl h
      rw [this]
      have : ¬ (0 = a) := fun e => ha e.symm
      simp [this]
    | cons b rest =>
      obtain ⟨h1, h2, h3⟩ := hrep
      rw [h1] at hv
      subst hv
      rw [← hnx] at h
      have := containsLoop_spec m a f rest _ _ r h3 h
      rw [this]
      by_cases hab : b = a
      · subst hab; simp
      · have hab2 : ¬ a = b := fun e => hab e.symm
        simp [hab, hab2]

/-- Source function `containsFreeSpaceAtAdjustedIndex` tells whether the
bucket list is nonempty. -/
theorem containsFreeSpace_spec (g : Globals) (m : Mem) (i : Nat) (l : List Nat) (H : Nat)
    (r : Bool) (hH : getFirstFreestoreBlockAtAdjustedIndex g i = H) (hH0 : H ≠ 0)
    (hrep : BucketRep m H l)
    (h : containsFreeSpaceAtAdjustedIndex g m i = some r) :
    r = decide (l ≠ []) := by
  unfold containsFreeSpaceAtAdjustedIndex at h
  rw [hH] at h
  obtain ⟨v, hv, h⟩ := bind_some h
  unfold readAddress at hv
  rw [if_neg hH0] at hv
  simp only [Option.some.injEq] at hv h
  cases l with
  | nil =>
    rw [hrep.1] at hv
    subst hv
    rw [← h]; simp
  | cons b rest =>
    rw [hrep.1] at hv
    subst hv
    rw [← h]
    simp [hrep.2.1]

theorem removeWithAddressLoop_cleared (a : Nat) (ha : a ≠ 0) (m : Mem) (c n : Nat) (hc : c ≠ 0)
    (h1 : m c % 2 ^ 64 = 0) (h2 : m (c + 8) % 2 ^ 64 = 0) (fuel : Nat) (m1 : Mem) (s : Bool)
    (h : removeWithAddressLoop a fuel m c n true = some (m1, s)) : m1 = m ∧ s = true := by
  cases fuel with
  | zero => simp [removeWithAddressLoop] at h
  | succ f =>
    unfold removeWithAddressLoop at h
    rw [if_pos hc] at h
    obtain ⟨nb, hnb, h⟩ := bind_some h
    obtain ⟨ba, hba, h⟩ := bind_some h
    unfold readNextBlock at hnb
    unfold readAddress at hba
    rw [if_neg hc] at hnb hba
    simp only [Option.some.injEq] at hnb hba
    rw [h1] at hba
    rw [h2] at hnb
    subst hba hnb
    rw [if_neg (fun e => ha e.symm)] at h
    obtain ⟨c1, hc1, h⟩ := bind_some h
    unfold readNextBlock at hc1
    rw [if_neg hc, h2] at hc1
    simp only [Option.some.injEq] at hc1
    subst hc1
    cases f with
    | zero => simp [removeWithAddressLoop] at h
    | succ f2 =>
      unfold removeWithAddressLoop at h
      simp only [ne_eq, not_true_eq_false, ↓reduceIte, Option.some.injEq, Prod.mk.injEq] at h
      exact ⟨h.1.symm, h.2.symm⟩

theorem frame_mono (m m1 : Mem) (S T : List Nat) (hST : ∀ q ∈ S, q ∈ T) (h : Frame m m1 S) :
    Frame m m1 T :=
  fun x hx => h x (fun q hq => hx q (hST q hq))

theorem removeWithAddressLoop_spec (a : Nat) (ha : a ≠ 0) :
    ∀ (fuel : Nat) (l : List Nat) (m : Mem) (n : Nat) (m1 : Mem) (s : Bool),
      ChainRep m (m (n + 8) % 2 ^ 64) l → a ∈ l → n ≠ 0 →
      (∀ b ∈ l, Apart n b) → l.Pairwise Apart →
      removeWithAddressLoop a fuel m (m (n + 8) % 2 ^ 64) n false = some (m1, s) →
      s = true ∧ m1 n = m n ∧ ChainRep m1 (m1 (n + 8) % 2 ^ 64) (l.erase a) ∧
        Frame m m1 (n :: l) := by
  intro fuel
  induction fuel with
  | zero => intro l m n m1 s _ _ _ _ _ h; simp [removeWithAddressLoop] at h
  | succ f ih =>
    intro l m n m1 s hc hal hn0 hap hpw h
    cases l with
    | nil => simp at hal
    | cons c rest =>
      obtain ⟨h1, h2, h3, h4⟩ := hc
      have hnc := hap c (List.mem_cons_self _ _)
      unfold Apart at hnc
      unfold removeWithAddressLoop at h
      rw [h1, if_pos h2] at h
      obtain ⟨nb, hnb, h⟩ := bind_some h
      obtain ⟨ba, hba, h⟩ := bind_some h
      unfold readNextBlock at hnb
      unfold readAddress at hba
      rw [if_neg h2] at hnb hba
      simp only [Option.some.injEq] at hnb hba
      rw [h3] at hba
      subst hba
      by_cases hca : c = a
      · rw [if_pos hca] at h
        obtain ⟨m2, hm2, h⟩ := bind_some h
        obtain ⟨m3, hm3, h⟩ := bind_some h
        obtain ⟨m4, hm4, h⟩ := bind_some h
        unfold writeAddress at hm2
        unfold writeNextBlock at hm3 hm4
        rw [if_neg h2] at hm2 hm3
        rw [if_neg hn0] at hm4
        simp only [Nat.zero_mod, Option.some.injEq] at hm2 hm3 hm4
        subst hm2 hm3 hm4
        have hcl := removeWithAddressLoop_cleared a ha _ c n h2
          (by rw [store_other _ _ _ _ (by omega), store_other _ _ _ _ (by omega), store_same]; rfl)
          (by rw [store_other _ _ _ _ (by omega), store_same]; rfl) f m1 s h
        obtain ⟨hm1, hs⟩ := hcl
        subst hm1
        refine ⟨hs, ?_, ?_, ?_⟩
        · rw [store_other _ _ _ _ (by omega), store_other _ _ _ _ (by omega),
            store_other _ _ _ _ (by omega)]
        · rw [store_same, ← hca, List.erase_cons_head, ← hnb, Nat.mod_mod, Nat.mod_mod]
          apply chainRep_congr m _ rest _ _ h4
          intro b hb
          have hcb := (List.pairwise_cons.1 hpw).1 b hb
          have hnb2 := hap b (List.mem_cons_of_mem _ hb)
          unfold Apart at hcb hnb2
          constructor
          · rw [store_other _ _ _ _ (by omega), store_other _ _ _ _ (by omega),
              store_other _ _ _ _ (by omega)]
          · rw [store_other _ _ _ _ (by omega), store_other _ _ _ _ (by omega),
              store_other _ _ _ _ (by omega)]
        · intro x hx
          have hxn := hx n (by simp)
          have hxc := hx c (by simp)
          rw [store_other _ _ _ _ (by omega), store_other _ _ _ _ (by omega),
            store_other _ _ _ _ (by omega)]
      · rw [if_neg hca] at h
        obtain ⟨c1, hc1, h⟩ := bind_some h
        unfold readNextBlock at hc1
        rw [if_neg h2] at hc1
        simp only [Option.some.injEq] at hc1
        subst hc1
        have har : a ∈ rest := by
          rcases List.mem_cons.1 hal with e | e
          · exact absurd e.symm hca
          · exact e
        obtain ⟨hs, hmc, hch, hfr⟩ := ih rest m c m1 s h4 har h2
          (List.pairwise_cons.1 hpw).1 (List.pairwise_cons.1 hpw).2 h
        have hfn : ∀ x, (n ≤ x ∧ x < n + 16) → m1 x = m x := by
          intro x hx
          apply hfr x
          intro q hq
          have := hap q hq
          unfold Apart at this
          omega
        have herase : (c :: rest).erase a = c :: rest.erase a := by
          apply List.erase_cons_tail
          simpa using hca
        refine ⟨hs, hfn n (by omega), ?_, frame_mono _ _ _ _ (fun q hq => List.mem_cons_of_mem _ hq) hfr⟩
        rw [herase, hfn (n + 8) (by omega)]
        exact ⟨h1, h2, by rw [hmc]; exact h3, hch⟩

/-- Source function `removeFreestoreBlockAtAdjustedIndexWithAddress` on an
address of the bucket list: it returns true, the list loses that address and
keeps the order of the others, and only records of the bucket are written. -/
theorem removeWithAddress_spec (g : Globals) (m : Mem) (fuel i a : Nat) (l : List Nat)
    (H : Nat) (m1 : Mem) (s : Bool) (hH : getFirstFreestoreBlockAtAdjustedIndex g i = H)
    (hrep : BucketRep m H l) (hsep : SepList H l) (ha : a ≠ 0) (hal : a ∈ l)
    (h : removeFreestoreBlockAtAdjustedIndexWithAddress g m fuel i a = some (m1, s)) :
    s = true ∧ BucketRep m1 H (l.erase a) ∧ Frame m m1 (H :: l) := by
  obtain ⟨hH0, hsepl, hpw⟩ := hsep
  unfold removeFreestoreBlockAtAdjustedIndexWithAddress at h
  rw [hH] at h
  obtain ⟨hd, hhd, h⟩ := bind_some h
  unfold readAddress at hhd
  rw [if_neg hH0] at hhd
  simp only [Option.some.injEq] at hhd
  cases l with
  | nil => simp at hal
  | cons b rest =>
    obtain ⟨hr1, hr2, hr3⟩ := hrep
    rw [hr1] at hhd
    subst hhd
    have hHb := (hsepl b (List.mem_cons_self _ _)).2.2
    unfold Apart at hHb
    by_cases hba : b = a
    · rw [if_pos hba] at h
      obtain ⟨m2, hm2, h⟩ := bind_some h
      unfold writeAddress at hm2
      rw [if_neg hH0] at hm2
      simp only [Nat.zero_mod, Option.some.injEq] at hm2
      subst hm2
      obtain ⟨nb, hnb, h⟩ := bind_some h
      unfold readNextBlock at hnb
      rw [if_neg hH0, store_other _ _ _ _ (by omega)] at hnb
      simp only [Option.some.injEq] at hnb
      rw [← hba, List.erase_cons_head]
      cases rest with
      | nil =>
        have hz : nb = 0 := by rw [← hnb]; exact hr3
        subst hz
        simp only [ne_eq, not_true_eq_false, ↓reduceIte, Option.some.injEq, Prod.mk.injEq] at h
        obtain ⟨h1, h2⟩ := h
        subst h1
        refine ⟨h2.symm, ⟨?_, ?_⟩, ?_⟩
        · rw [store_same]; rfl
        · rw [store_other _ _ _ _ (by omega)]; exact hr3
        · intro x hx
          have := hx H (by simp)
          exact store_other _ _ _ _ (by omega)
      | cons c rest2 =>
        obtain ⟨c1, c2, c3, c4⟩ := hr3
        have hnbc : nb = c := by rw [← hnb]; exact c1
        subst hnbc
        rw [if_pos c2] at h
        have hsc := hsepl nb (List.mem_cons_of_mem _ (List.mem_cons_self _ _))
        have hHc := hsc.2.2
        unfold Apart at hHc
        obtain ⟨na, hna, h⟩ := bind_some h
        unfold readAddress at hna
        rw [if_neg c2, store_other _ _ _ _ (by omega), c3] at hna
        simp only [Option.some.injEq] at hna
        subst hna
        obtain ⟨m3, hm3, h⟩ := bind_some h
        unfold writeAddress at hm3
        rw [if_neg hH0, mod_word _ hsc.2.1] at hm3
        simp only [Option.some.injEq] at hm3
        subst hm3
        obtain ⟨cb, hcb, h⟩ := bind_some h
        unfold readNextBlock at hcb
        rw [if_neg c2, store_other _ _ _ _ (by omega), store_other _ _ _ _ (by omega)] at hcb
        simp only [Option.some.injEq] at hcb
        obtain ⟨m4, hm4, h⟩ := bind_some h
        obtain ⟨m5, hm5, h⟩ := bind_some h
        obtain ⟨m6, hm6, h⟩ := bind_some h
        unfold writeNextBlock at hm4 hm5
        unfold writeAddress at hm6
        rw [if_neg hH0] at hm4
        rw [if_neg c2] at hm5 hm6
        simp only [Nat.zero_mod, Option.some.injEq, Prod.mk.injEq] at hm4 hm5 hm6 h
        obtain ⟨h1, h2⟩ := h
        subst h1 hm6 hm5 hm4
        refine ⟨h2.symm, ⟨?_, c2, ?_⟩, ?_⟩
        · rw [store_other _ _ _ _ (by omega), store_other _ _ _ _ (by omega),
            store_other _ _ _ _ (by omega), store_same]
          exact mod_word _ hsc.2.1
        · rw [store_other _ _ _ (H + 8) (by omega), store_other _ _ _ (H + 8) (by omega),
            store_same, ← hcb, Nat.mod_mod, Nat.mod_mod]
          apply chainRep_congr m _ rest2 _ _ c4
          intro x hx
          have hxc := (List.pairwise_cons.1 (List.pairwise_cons.1 hpw).2).1 x hx
          have hxH := (hsepl x (List.mem_cons_of_mem _ (List.mem_cons_of_mem _ hx))).2.2
          unfold Apart at hxc hxH
          constructor
          · rw [store_other _ _ _ _ (by omega), store_other _ _ _ _ (by omega),
              store_other _ _ _ _ (by omega), store_other _ _ _ _ (by omega),
              store_other _ _ _ _ (by omega)]
          · rw [store_other _ _ _ _ (by omega), store_other _ _ _ _ (by omega),
              store_other _ _ _ _ (by omega), store_other _ _ _ _ (by omega),
              store_other _ _ _ _ (by omega)]
        · intro x hx
          have hxH := hx H (by simp)
          have hxc := hx nb (by simp)
          rw [store_other _ _ _ _ (by omega), store_other _ _ _ _ (by omega),
            store_other _ _ _ _ (by omega), store_other _ _ _ _ (by omega),
            store_other _ _ _ _ (by omega)]
    · rw [if_neg hba] at h
      obtain ⟨cur, hcur, h⟩ := bind_some h
      unfold readNextBlock at hcur
      rw [if_neg hH0] at hcur
      simp only [Option.some.injEq] at hcur
      subst hcur
      have har : a ∈ rest := by
        rcases List.mem_cons.1 hal with e | e
        · exact absurd e.symm hba
        · exact e
      obtain ⟨hs, hmH, hch, hfr⟩ := removeWithAddressLoop_spec a ha fuel rest m H m1 s hr3 har hH0
        (fun x hx => (hsepl x (List.mem_cons_of_mem _ hx)).2.2) (List.pairwise_cons.1 hpw).2 h
      have herase : (b :: rest).erase a = b :: rest.erase a := by
        apply List.erase_cons_tail
        simpa using hba
      rw [herase]
      refine ⟨hs, ⟨by rw [hmH]; exact hr1, hr2, hch⟩, ?_⟩
      exact frame_mono _ _ _ _ (fun q hq => by
        rcases List.mem_cons.1 hq with e | e
        · rw [e]; simp
        · exact List.mem_cons_of_mem _ (List.mem_cons_of_mem _ e)) hfr

/-! ## The abstract block list: buckets, removal, separation -/

theorem head_ptr (g : Globals) (hi : Nat) (hg : GoodGlobals g hi) (i : Nat)
    (hi2 : i ≤ g._freestoreRange) :
    getFirstFreestoreBlockAtAdjustedIndex g i = g._freestoreAddress + 16 * i ∧
      g._freestoreAddress + 16 * i ≠ 0 := by
  have h1 := hg.heads_fit
  have h2 := hg.lo_le
  have h3 := hg.hi_le
  have h4 := hg.arena
  have h5 := hg.base_ne
  unfold getFirstFreestoreBlockAtAdjustedIndex ptrAdd sizeofFreestoreBlock
  constructor
  · apply Nat.mod_eq_of_lt
    omega
  · omega

theorem size_ge (g : Globals) (hi : Nat) (hg : GoodGlobals g hi) :
    ∀ i, i ≤ g._freestoreRange → 17 ≤ getSizeForAdjustedFreestoreIndex g i := by
  intro i
  induction i with
  | zero => intro _; have := hg.size0; omega
  | succ k ih =>
    intro hk
    have := hg.double k (by omega)
    have := ih (by omega)
    omega

theorem mem_bucketOf (bs : List Blk) (i a : Nat) :
    a ∈ bucketOf bs i ↔ ∃ b ∈ bs, b.free = true ∧ b.idx = i ∧ b.base = a := by
  unfold bucketOf
  simp only [List.mem_map, List.mem_filter, Bool.and_eq_true, beq_iff_eq]
  constructor
  · rintro ⟨b, ⟨hb, hf, hi⟩, hba⟩; exact ⟨b, hb, hf, hi, hba⟩
  · rintro ⟨b, hb, hf, hi, hba⟩; exact ⟨b, ⟨hb, hf, hi⟩, hba⟩

theorem bucketOf_append (bs cs : List Blk) (i : Nat) :
    bucketOf (bs ++ cs) i = bucketOf bs i ++ bucketOf cs i := by
  unfold bucketOf
  rw [List.filter_append, List.map_append]

theorem bucketOf_single_same (a i : Nat) : bucketOf [⟨a, i, true⟩] i = [a] := by
  simp [bucketOf]

theorem bucketOf_single_other (a i j : Nat) (f : Bool) (h : f = false ∨ i ≠ j) :
    bucketOf [⟨a, i, f⟩] j = [] := by
  unfold bucketOf
  rcases h with h | h
  · subst h; simp
  · simp [h]

theorem bucketOf_without (bs : List Blk) (a i : Nat) :
    bucketOf (without bs a) i = (bucketOf bs i).filter (fun x => x != a) := by
  unfold bucketOf without
  rw [List.filter_map, List.filter_filter, List.filter_filter]
  congr 1
  apply List.filter_congr
  intro b _
  simp only [Function.comp]
  exact Bool.and_comm _ _

theorem mem_without (bs : List Blk) (a : Nat) (b : Blk) :
    b ∈ without bs a ↔ b ∈ bs ∧ b.base ≠ a := by
  unfold without
  simp [List.mem_filter]

theorem apart_symm (a b : Nat) (h : Apart a b) : Apart b a := by
  unfold Apart at h ⊢; omega

theorem sep_mem_or (g : Globals) (bs : List Blk) (hs : Sep g bs) (b c : Blk) (hb : b ∈ bs)
    (hc : c ∈ bs) : b = c ∨ Apart b.base c.base := by
  by_cases h : b = c
  · exact Or.inl h
  · right
    exact List.Pairwise.forall (fun x y hxy => apart_symm _ _ hxy) hs.2 hb hc h

theorem sep_without (g : Globals) (bs : List Blk) (a : Nat) (hs : Sep g bs) :
    Sep g (without bs a) := by
  refine ⟨fun b hb => hs.1 b ((mem_without bs a b).1 hb).1, ?_⟩
  unfold without
  exact List.Pairwise.filter _ hs.2

theorem sep_append (g : Globals) (bs : List Blk) (x : Blk) (hs : Sep g bs)
    (h1 : g._freestoreAddress + 16 * (g._freestoreRange + 1) ≤ x.base)
    (h2 : x.base + 16 < 2 ^ 64) (h3 : x.idx ≤ g._freestoreRange)
    (h4 : ∀ b ∈ bs, Apart b.base x.base) : Sep g (bs ++ [x]) := by
  constructor
  · intro b hb
    rcases List.mem_append.1 hb with h | h
    · exact hs.1 b h
    · simp only [List.mem_singleton] at h
      subst h
      exact ⟨h1, h2, h3⟩
  · rw [List.pairwise_append]
    refine ⟨hs.2, List.pairwise_singleton _ _, ?_⟩
    intro b hb c hc
    simp only [List.mem_singleton] at hc
    subst hc
    exact h4 b hb

theorem sepList_bucket (g : Globals) (hi : Nat) (hg : GoodGlobals g hi) (bs : List Blk)
    (hs : Sep g bs) (i : Nat) (hi2 : i ≤ g._freestoreRange) :
    SepList (g._freestoreAddress + 16 * i) (bucketOf bs i) := by
  refine ⟨(head_ptr g hi hg i hi2).2, ?_, ?_⟩
  · intro a ha
    obtain ⟨b, hb, _, _, hba⟩ := (mem_bucketOf bs i a).1 ha
    obtain ⟨h1, h2, _⟩ := hs.1 b hb
    subst hba
    have := hg.base_ne
    refine ⟨by omega, h2, ?_⟩
    unfold Apart
    omega
  · unfold bucketOf
    rw [List.pairwise_map]
    exact List.Pairwise.filter _ hs.2

theorem apart_ne (a b : Nat) (h : Apart a b) : a ≠ b := by
  unfold Apart at h; omega

theorem sepList_nodup (H : Nat) (l : List Nat) (h : SepList H l) : l.Nodup := by
  unfold List.Nodup
  exact List.Pairwise.imp (fun hab => apart_ne _ _ hab) h.2.2

theorem bucket_unique (g : Globals) (bs : List Blk) (hs : Sep g bs) (a i j : Nat)
    (hi : a ∈ bucketOf bs i) (hj : a ∈ bucketOf bs j) : i = j := by
  obtain ⟨b, hb, _, hbi, hba⟩ := (mem_bucketOf bs i a).1 hi
  obtain ⟨c, hc, _, hcj, hca⟩ := (mem_bucketOf bs j a).1 hj
  rcases sep_mem_or g bs hs b c hb hc with h | h
  · subst h; rw [← hbi, ← hcj]
  · exact absurd (hba.trans hca.symm) (apart_ne _ _ h)

theorem filter_ne_of_not_mem (l : List Nat) (a : Nat) (h : a ∉ l) :
    l.filter (fun x => x != a) = l := by
  rw [List.filter_eq_self]
  intro x hx
  simp only [bne_iff_ne, ne_eq]
  intro e
  exact h (e ▸ hx)

theorem filter_last (l : List Nat) : ∀ d, l.Nodup → l ≠ [] →
    l.filter (fun x => x != lastOr l d) = l.dropLast := by
  induction l with
  | nil => intro d _ h; exact absurd rfl h
  | cons b rest ih =>
    intro d hnd _
    cases rest with
    | nil => simp [lastOr]
    | cons c rest2 =>
      have e1 : lastOr (b :: c :: rest2) d = lastOr (c :: rest2) b := rfl
      have e3 : (b :: c :: rest2).dropLast = b :: (c :: rest2).dropLast := rfl
      rw [e1, e3]
      have hmem := lastOr_mem (c :: rest2) b (by simp)
      have hb : b ∉ c :: rest2 := (List.nodup_cons.1 hnd).1
      have hne : b ≠ lastOr (c :: rest2) b := fun e => hb (e ▸ hmem)
      rw [List.filter_cons_of_pos (by simpa using hne)]
      rw [ih b (List.nodup_cons.1 hnd).2 (by simp)]

/-- Writes confined to the records of bucket `i` (its head, its blocks) and
to fresh records leave every other bucket and every allocated header intact. -/
theorem rep_frame (g : Globals) (bs : List Blk) (m m1 : Mem) (i : Nat) (S : List Nat)
    (hs : Sep g bs) (hrep : Rep g m bs) (hi2 : i ≤ g._freestoreRange)
    (hfr : Frame m m1 S)
    (hS : ∀ q ∈ S, q = g._freestoreAddress + 16 * i ∨ q ∈ bucketOf bs i ∨
      (g._freestoreAddress + 16 * (g._freestoreRange + 1) ≤ q ∧ ∀ b ∈ bs, Apart b.base q)) :
    (∀ j, j ≤ g._freestoreRange → j ≠ i →
      BucketRep m1 (g._freestoreAddress + 16 * j) (bucketOf bs j)) ∧
    (∀ b ∈ bs, b.free = false →
      m1 b.base % 2 ^ 32 = b.idx ∧ m1 (b.base + 8) % 2 ^ 64 = b.base + 16) := by
  have hhead : ∀ j, j ≤ g._freestoreRange → j ≠ i → ∀ w,
      g._freestoreAddress + 16 * j ≤ w → w < g._freestoreAddress + 16 * j + 16 →
      m1 w = m w := by
    intro j hj hji w hw1 hw2
    apply hfr
    intro q hq
    rcases hS q hq with h | h | h
    · subst h; omega
    · obtain ⟨c, hc, _, _, hcq⟩ := (mem_bucketOf bs i q).1 h
      have := (hs.1 c hc).1
      omega
    · omega
  have hblk : ∀ b ∈ bs, ¬ (b.free = true ∧ b.idx = i) → ∀ w, b.base ≤ w → w < b.base + 16 →
      m1 w = m w := by
    intro b hb hnb w hw1 hw2
    apply hfr
    intro q hq
    have hb1 := (hs.1 b hb).1
    rcases hS q hq with h | h | h
    · subst h; omega
    · obtain ⟨c, hc, hcf, hci, hcq⟩ := (mem_bucketOf bs i q).1 h
      rcases sep_mem_or g bs hs b c hb hc with e | e
      · subst e; exact absurd ⟨hcf, hci⟩ hnb
      · unfold Apart at e; omega
    · have := h.2 b hb
      unfold Apart at this
      omega
  constructor
  · intro j hj hji
    apply bucketRep_congr m m1 _ _ (hhead j hj hji _ (by omega) (by omega))
      (hhead j hj hji _ (by omega) (by omega)) _ (hrep.1 j hj)
    intro a ha
    obtain ⟨b, hb, hbf, hbi, hba⟩ := (mem_bucketOf bs j a).1 (List.mem_of_mem_tail ha)
    subst hba
    have hnb : ¬ (b.free = true ∧ b.idx = i) := fun e => hji (hbi.symm.trans e.2)
    exact ⟨hblk b hb hnb _ (by omega) (by omega), hblk b hb hnb _ (by omega) (by omega)⟩
  · intro b hb hbf
    have hnb : ¬ (b.free = true ∧ b.idx = i) := fun e => by rw [hbf] at e; simp at e
    rw [hblk b hb hnb _ (by omega) (by omega), hblk b hb hnb _ (by omega) (by omega)]
    exact hrep.2 b hb hbf

theorem g_add (g : Globals) (hi : Nat) (bs : List Blk) (m : Mem) (fuel i a : Nat) (m1 : Mem)
    (r : Bool) (hg : GoodGlobals g hi) (hs : Sep g bs) (hrep : Rep g m bs)
    (hi2 : i ≤ g._freestoreRange)
    (ha1 : g._freestoreAddress + 16 * (g._freestoreRange + 1) ≤ a) (ha2 : a + 16 < 2 ^ 64)
    (ha3 : ∀ b ∈ bs, Apart b.base a)
    (h : addAddressToFreestoreForAdjustedIndex g m fuel i a = some (m1, r)) :
    r = true ∧ Rep g m1 (bs ++ [⟨a, i, true⟩]) ∧ Sep g (bs ++ [⟨a, i, true⟩]) := by
  obtain ⟨hH, hH0⟩ := head_ptr g hi hg i hi2
  have hbase := hg.base_ne
  have hal : ∀ b ∈ bucketOf bs i, Apart b a := by
    intro b hb
    obtain ⟨c, hc, _, _, hcb⟩ := (mem_bucketOf bs i b).1 hb
    subst hcb
    exact ha3 c hc
  obtain ⟨hr, hb, hfr⟩ := add_spec g m fuel i a (bucketOf bs i) _ m1 r hH (hrep.1 i hi2)
    (sepList_bucket g hi hg bs hs i hi2) (by omega) ha2 (by unfold Apart; omega) hal h
  obtain ⟨ho, hh⟩ := rep_frame g bs m m1 i _ hs hrep hi2 hfr (by
    intro q hq
    simp only [List.mem_cons] at hq
    rcases hq with e | e | e
    · exact Or.inl e
    · right; right; subst e; exact ⟨ha1, ha3⟩
    · exact Or.inr (Or.inl e))
  refine ⟨hr, ⟨?_, ?_⟩, sep_append g bs _ hs ha1 ha2 hi2 ha3⟩
  · intro j hj
    rw [bucketOf_append]
    by_cases hji : j = i
    · subst hji
      rw [bucketOf_single_same]
      exact hb
    · rw [bucketOf_single_other _ _ _ _ (Or.inr (fun e => hji e.symm)), List.append_nil]
      exact ho j hj hji
  · intro b hb2 hbf
    rcases List.mem_append.1 hb2 with e | e
    · exact hh b e hbf
    · simp only [List.mem_singleton] at e
      subst e
      simp at hbf

theorem rep_without (g : Globals) (bs : List Blk) (m m1 : Mem) (i a : Nat)
    (l1 : List Nat) (hs : Sep g bs) (hrep : Rep g m bs)
    (hi2 : i ≤ g._freestoreRange) (ha : a ∈ bucketOf bs i)
    (hl1 : (bucketOf bs i).filter (fun x => x != a) = l1)
    (hb : BucketRep m1 (g._freestoreAddress + 16 * i) l1)
    (hfr : Frame m m1 ((g._freestoreAddress + 16 * i) :: bucketOf bs i)) :
    Rep g m1 (without bs a) ∧ Sep g (without bs a) := by
  obtain ⟨ho, hh⟩ := rep_frame g bs m m1 i _ hs hrep hi2 hfr (by
    intro q hq
    simp only [List.mem_cons] at hq
    rcases hq with e | e
    · exact Or.inl e
    · exact Or.inr (Or.inl e))
  refine ⟨⟨?_, ?_⟩, sep_without g bs a hs⟩
  · intro j hj
    rw [bucketOf_without]
    by_cases hji : j = i
    · subst hji
      rw [hl1]; exact hb
    · have hna : a ∉ bucketOf bs j := fun e => hji (bucket_unique g bs hs a j i e ha)
      rw [filter_ne_of_not_mem _ _ hna]
      exact ho j hj hji
  · intro b hb2 hbf
    exact hh b ((mem_without bs a b).1 hb2).1 hbf

theorem g_removeLast (g : Globals) (hi : Nat) (bs : List Blk) (m : Mem) (fuel i : Nat)
    (m1 : Mem) (r : Bool) (hg : GoodGlobals g hi) (hs : Sep g bs) (hrep : Rep g m bs)
    (hi2 : i ≤ g._freestoreRange) (hne : bucketOf bs i ≠ [])
    (h : removeLastFreestoreBlockAtAdjustedIndex g m fuel i = some (m1, r)) :
    Rep g m1 (without bs (lastOr (bucketOf bs i) 0)) ∧
      Sep g (without bs (lastOr (bucketOf bs i) 0)) := by
  obtain ⟨hH, hH0⟩ := head_ptr g hi hg i hi2
  have hsl := sepList_bucket g hi hg bs hs i hi2
  obtain ⟨hb, hfr⟩ := removeLast_spec g m fuel i (bucketOf bs i) _ m1 r hH (hrep.1 i hi2) hsl hne h
  exact rep_without g bs m m1 i _ _ hs hrep hi2 (lastOr_mem _ 0 hne)
    (filter_last _ 0 (sepList_nodup _ _ hsl) hne) hb hfr

theorem g_removeWithAddress (g : Globals) (hi : Nat) (bs : List Blk) (m : Mem)
    (fuel i a : Nat) (m1 : Mem) (s : Bool) (hg : GoodGlobals g hi) (hs : Sep g bs)
    (hrep : Rep g m bs) (hi2 : i ≤ g._freestoreRange) (ha : a ∈ bucketOf bs i)
    (h : removeFreestoreBlockAtAdjustedIndexWithAddress g m fuel i a = some (m1, s)) :
    s = true ∧ Rep g m1 (without bs a) ∧ Sep g (without bs a) := by
  obtain ⟨hH, hH0⟩ := head_ptr g hi hg i hi2
  have hsl := sepList_bucket g hi hg bs hs i hi2
  have ha0 : a ≠ 0 := (hsl.2.1 a ha).1
  obtain ⟨hs1, hb, hfr⟩ := removeWithAddress_spec g m fuel i a (bucketOf bs i) _ m1 s hH
    (hrep.1 i hi2) hsl ha0 ha h
  refine ⟨hs1, rep_without g bs m m1 i a _ hs hrep hi2 ha ?_ hb hfr⟩
  rw [List.Nodup.erase_eq_filter (sepList_nodup _ _ hsl)]

theorem g_contains (g : Globals) (hi : Nat) (bs : List Blk) (m : Mem) (fuel i a : Nat)
    (r : Bool) (hg : GoodGlobals g hi) (hrep : Rep g m bs) (hi2 : i ≤ g._freestoreRange)
    (ha : a ≠ 0)
    (h : containsFreestoreBlockAtAdjustedIndexWithAddress g m fuel i a = some r) :
    r = decide (a ∈ bucketOf bs i) := by
  obtain ⟨hH, hH0⟩ := head_ptr g hi hg i hi2
  exact contains_spec g m fuel i a _ _ r hH hH0 (hrep.1 i hi2) ha h

theorem g_containsFreeSpace (g : Globals) (hi : Nat) (bs : List Blk) (m : Mem) (i : Nat)
    (r : Bool) (hg : GoodGlobals g hi) (hrep : Rep g m bs) (hi2 : i ≤ g._freestoreRange)
    (h : containsFreeSpaceAtAdjustedIndex g m i = some r) :
    r = decide (bucketOf bs i ≠ []) := by
  obtain ⟨hH, hH0⟩ := head_ptr g hi hg i hi2
  exact containsFreeSpace_spec g m i _ _ r hH hH0 (hrep.1 i hi2) h

/-- The address read from the record that
`getLastFreestoreBlockAtAdjustedIndex` returns is the last block of the bucket. -/
theorem g_lastAddress (g : Globals) (hi : Nat) (bs : List Blk) (m : Mem) (fuel i : Nat)
    (lastBlock v : Nat) (hg : GoodGlobals g hi) (hrep : Rep g m bs)
    (hi2 : i ≤ g._freestoreRange)
    (h1 : getLastFreestoreBlockAtAdjustedIndex g m fuel i = some lastBlock)
    (h2 : readAddress m lastBlock = some v) : v = lastOr (bucketOf bs i) 0 := by
  obtain ⟨hH, hH0⟩ := head_ptr g hi hg i hi2
  have hlb := getLast_spec g m fuel i _ lastBlock (by rw [hH]; exact hrep.1 i hi2)
    (by rw [hH]; exact hH0) h1
  rw [hH] at hlb
  rw [hlb, lastNode_address m _ _ hH0 (hrep.1 i hi2)] at h2
  simp only [Option.some.injEq] at h2
  exact h2.symm

theorem without_eq_self (bs : List Blk) (a : Nat) (h : ∀ b ∈ bs, b.base ≠ a) :
    without bs a = bs := by
  unfold without
  rw [List.filter_eq_self]
  intro b hb
  simpa using h b hb

theorem without_cons_same (b : Blk) (rest : List Blk) :
    without (b :: rest) b.base = without rest b.base := by
  unfold without
  rw [List.filter_cons_of_neg (by simp)]

theorem without_cons_other (b : Blk) (rest : List Blk) (a : Nat) (h : b.base ≠ a) :
    without (b :: rest) a = b :: without rest a := by
  unfold without
  rw [List.filter_cons_of_pos (by simpa using h)]

/-- Counting over the block list splits off the one block based at `e.base`. -/
theorem countP_without (p : Blk → Bool) (bs : List Blk) :
    bs.Pairwise (fun a b => Apart a.base b.base) → ∀ e ∈ bs,
      bs.countP p = (without bs e.base).countP p + (if p e then 1 else 0) := by
  induction bs with
  | nil => intro _ e he; simp at he
  | cons b rest ih =>
    intro hpw e he
    obtain ⟨hb, hrest⟩ := List.pairwise_cons.1 hpw
    rcases List.mem_cons.1 he with h | h
    · subst h
      rw [without_cons_same, without_eq_self rest e.base (fun c hc => (apart_ne _ _ (hb c hc)).symm),
        List.countP_cons]
    · have hne : b.base ≠ e.base := apart_ne _ _ (hb e h)
      rw [without_cons_other b rest _ hne, List.countP_cons, List.countP_cons, ih hrest e h]
      omega

theorem two_le_countP (p : Blk → Bool) (bs : List Blk) :
    ∀ b c, b ∈ bs → c ∈ bs → b.base ≠ c.base → p b = true → p c = true → 2 ≤ bs.countP p := by
  induction bs with
  | nil => intro b c hb; simp at hb
  | cons d rest ih =>
    intro b c hb hc hne hpb hpc
    rw [List.countP_cons]
    rcases List.mem_cons.1 hb with h1 | h1 <;> rcases List.mem_cons.1 hc with h2 | h2
    · subst h1 h2; exact absurd rfl hne
    · subst h1
      have : 0 < rest.countP p := List.countP_pos_iff.2 ⟨c, h2, hpc⟩
      rw [if_pos hpb]; omega
    · subst h2
      have : 0 < rest.countP p := List.countP_pos_iff.2 ⟨b, h1, hpb⟩
      rw [if_pos hpc]; omega
    · have := ih b c h1 h2 hne hpb hpc
      omega

theorem geo_bounds (g : Globals) (hi : Nat) (hg : GoodGlobals g hi) (bs : List Blk)
    (hgeo : Geo g hi bs) (b : Blk) (hb : b ∈ bs) :
    g._freestoreAddress + getSizeForAdjustedFreestoreIndex g g._freestoreIndex ≤ b.base ∧
      b.base + getSizeForAdjustedFreestoreIndex g b.idx ≤ hi := by
  have hsz := size_ge g hi hg b.idx (hgeo.1 b hb)
  have h1 := hgeo.2 b.base
  have h2 := hgeo.2 (b.base + getSizeForAdjustedFreestoreIndex g b.idx - 1)
  have p1 : 0 < bs.countP (covers g b.base) :=
    List.countP_pos_iff.2 ⟨b, hb, by unfold covers; simp; omega⟩
  have p2 : 0 < bs.countP (covers g (b.base + getSizeForAdjustedFreestoreIndex g b.idx - 1)) :=
    List.countP_pos_iff.2 ⟨b, hb, by unfold covers; simp; omega⟩
  split at h1
  · split at h2
    · omega
    · omega
  · omega

theorem geo_disjoint (g : Globals) (hi : Nat) (hg : GoodGlobals g hi) (bs : List Blk)
    (hgeo : Geo g hi bs) (b c : Blk) (hb : b ∈ bs) (hc : c ∈ bs) (hne : b.base ≠ c.base) :
    b.base + getSizeForAdjustedFreestoreIndex g b.idx ≤ c.base ∨
      c.base + getSizeForAdjustedFreestoreIndex g c.idx ≤ b.base := by
  have hsb := size_ge g hi hg b.idx (hgeo.1 b hb)
  have hsc := size_ge g hi hg c.idx (hgeo.1 c hc)
  by_contra hcon
  have hx : 2 ≤ bs.countP (covers g (max b.base c.base)) := by
    apply two_le_countP _ bs b c hb hc hne
    · unfold covers; simp; omega
    · unfold covers; simp; omega
  have := hgeo.2 (max b.base c.base)
  split at this <;> omega

theorem geo_same_base (g : Globals) (hi : Nat) (hg : GoodGlobals g hi) (bs : List Blk)
    (hgeo : Geo g hi bs) :
    bs.Pairwise (fun a b => Apart a.base b.base) := by
  obtain ⟨hidx, hcnt⟩ := hgeo
  have hle : ∀ x, bs.countP (covers g x) ≤ 1 := by
    intro x; rw [hcnt x]; split <;> omega
  clear hcnt
  induction bs with
  | nil => exact List.Pairwise.nil
  | cons b rest ih =>
    rw [List.pairwise_cons]
    constructor
    · intro c hc
      have hsb := size_ge g hi hg b.idx (hidx b (List.mem_cons_self _ _))
      have hsc := size_ge g hi hg c.idx (hidx c (List.mem_cons_of_mem _ hc))
      by_contra hcon
      unfold Apart at hcon
      have h1 := hle (max b.base c.base)
      rw [List.countP_cons] at h1
      have h2 : 0 < rest.countP (covers g (max b.base c.base)) :=
        List.countP_pos_iff.2 ⟨c, hc, by unfold covers; simp; omega⟩
      have h3 : covers g (max b.base c.base) b = true := by unfold covers; simp; omega
      rw [if_pos h3] at h1
      omega
    · apply ih (fun c hc => hidx c (List.mem_cons_of_mem _ hc))
      intro x
      have := hle x
      rw [List.countP_cons] at this
      omega

theorem geo_sep (g : Globals) (hi : Nat) (hg : GoodGlobals g hi) (bs : List Blk)
    (hgeo : Geo g hi bs) : Sep g bs := by
  refine ⟨?_, geo_same_base g hi hg bs hgeo⟩
  intro b hb
  obtain ⟨h1, h2⟩ := geo_bounds g hi hg bs hgeo b hb
  have hsz := size_ge g hi hg b.idx (hgeo.1 b hb)
  have := hg.heads_fit
  have := hg.hi_le
  have := hg.arena
  exact ⟨by omega, by omega, hgeo.1 b hb⟩

/-- Replacing one block by blocks that cover exactly the same bytes keeps the tiling. -/
theorem geo_replace (g : Globals) (hi : Nat) (hg : GoodGlobals g hi) (bs ns : List Blk)
    (e : Blk) (hgeo : Geo g hi bs) (he : e ∈ bs)
    (hidx : ∀ n ∈ ns, n.idx ≤ g._freestoreRange)
    (hcov : ∀ x, ns.countP (covers g x) = if covers g x e then 1 else 0) :
    Geo g hi (without bs e.base ++ ns) := by
  constructor
  · intro b hb
    rcases List.mem_append.1 hb with h | h
    · exact hgeo.1 b ((mem_without bs _ b).1 h).1
    · exact hidx b h
  · intro x
    rw [List.countP_append, hcov x, ← hgeo.2 x]
    exact (countP_without (covers g x) bs (geo_same_base g hi hg bs hgeo) e he).symm

/-- Replacing two blocks by blocks that cover exactly the same bytes keeps the tiling. -/
theorem geo_replace_two (g : Globals) (hi : Nat) (hg : GoodGlobals g hi) (bs ns : List Blk)
    (e1 e2 : Blk) (hgeo : Geo g hi bs) (he1 : e1 ∈ bs) (he2 : e2 ∈ bs)
    (hne : e2.base ≠ e1.base) (hidx : ∀ n ∈ ns, n.idx ≤ g._freestoreRange)
    (hcov : ∀ x, ns.countP (covers g x) =
      (if covers g x e1 then 1 else 0) + (if covers g x e2 then 1 else 0)) :
    Geo g hi (without (without bs e1.base) e2.base ++ ns) := by
  have hpw := geo_same_base g hi hg bs hgeo
  constructor
  · intro b hb
    rcases List.mem_append.1 hb with h | h
    · exact hgeo.1 b ((mem_without bs _ b).1 ((mem_without _ _ b).1 h).1).1
    · exact hidx b h
  · intro x
    have h1 := countP_without (covers g x) bs hpw e1 he1
    have h2 := countP_without (covers g x) (without bs e1.base)
      (by unfold without; exact List.Pairwise.filter _ hpw) e2
      ((mem_without bs _ e2).2 ⟨he2, hne⟩)
    rw [List.countP_append, hcov x, ← hgeo.2 x]
    omega

theorem geo_flip (g : Globals) (hi : Nat) (hg : GoodGlobals g hi) (bs : List Blk)
    (a i : Nat) (f f2 : Bool) (hgeo : Geo g hi bs) (he : (⟨a, i, f⟩ : Blk) ∈ bs) :
    Geo g hi (without bs a ++ [⟨a, i, f2⟩]) := by
  apply geo_replace g hi hg bs _ ⟨a, i, f⟩ hgeo he
  · intro n hn
    simp only [List.mem_singleton] at hn
    subst hn
    exact hgeo.1 ⟨a, i, f⟩ he
  · intro x
    rw [List.countP_singleton]
    rfl

theorem geo_split (g : Globals) (hi : Nat) (hg : GoodGlobals g hi) (bs : List Blk)
    (a j : Nat) (f f1 f2 : Bool) (hgeo : Geo g hi bs) (he : (⟨a, j + 1, f⟩ : Blk) ∈ bs) :
    Geo g hi (without bs a ++ [⟨a, j, f1⟩,
      ⟨a + getSizeForAdjustedFreestoreIndex g j, j, f2⟩]) := by
  have hj : j + 1 ≤ g._freestoreRange := hgeo.1 _ he
  have hd := hg.double j (by omega)
  have hsz := size_ge g hi hg j (by omega)
  apply geo_replace g hi hg bs _ ⟨a, j + 1, f⟩ hgeo he
  · intro n hn
    simp only [List.mem_cons, List.mem_singleton, List.not_mem_nil, or_false] at hn
    rcases hn with h | h <;> subst h <;> simp only <;> omega
  · intro x
    rw [List.countP_cons, List.countP_singleton]
    unfold covers
    simp only [decide_eq_true_eq, hd]
    split <;> split <;> split <;> omega

theorem geo_merge (g : Globals) (hi : Nat) (hg : GoodGlobals g hi) (bs : List Blk)
    (a i : Nat) (f1 f2 f : Bool) (hgeo : Geo g hi bs) (he1 : (⟨a, i, f1⟩ : Blk) ∈ bs)
    (he2 : (⟨a + getSizeForAdjustedFreestoreIndex g i, i, f2⟩ : Blk) ∈ bs) :
    i < g._freestoreRange ∧
    Geo g hi (without (without bs a) (a + getSizeForAdjustedFreestoreIndex g i)
      ++ [⟨a, i + 1, f⟩]) := by
  have hi1 : i ≤ g._freestoreRange := hgeo.1 _ he1
  have hsz := size_ge g hi hg i hi1
  have hlt : i < g._freestoreRange := by
    by_contra hcon
    have hiR : i = g._freestoreRange := by omega
    have b1 := geo_bounds g hi hg bs hgeo _ he1
    have b2 := geo_bounds g hi hg bs hgeo _ he2
    have := hg.top
    simp only at b1 b2
    rw [hiR] at b1 b2
    omega
  refine ⟨hlt, ?_⟩
  have hd := hg.double i hlt
  apply geo_replace_two g hi hg bs _ ⟨a, i, f1⟩ ⟨a + getSizeForAdjustedFreestoreIndex g i, i, f2⟩
    hgeo he1 he2 (by simp only; omega)
  · intro n hn
    simp only [List.mem_singleton] at hn
    subst hn
    simp only
    omega
  · intro x
    rw [List.countP_singleton]
    unfold covers
    simp only [decide_eq_true_eq, hd]
    split <;> split <;> split <;> omega

theorem uintAdd_one (i : Nat) (h : i + 1 < 2 ^ 32) : uintAdd i 1 = i + 1 := by
  unfold uintAdd
  exact Nat.mod_eq_of_lt h

theorem mem_bucketOf_iff (bs : List Blk) (i a : Nat) :
    a ∈ bucketOf bs i ↔ (⟨a, i, true⟩ : Blk) ∈ bs := by
  rw [mem_bucketOf]
  constructor
  · rintro ⟨b, hb, hf, hi, ha⟩
    cases b
    simp only at hf hi ha
    subst hf hi ha
    exact hb
  · intro h
    exact ⟨_, h, rfl, rfl, rfl⟩

theorem bucketOf_ne_nil (bs : List Blk) (i a : Nat) (h : (⟨a, i, true⟩ : Blk) ∈ bs) :
    bucketOf bs i ≠ [] := by
  intro e
  have := (mem_bucketOf_iff bs i a).2 h
  rw [e] at this
  simp at this

theorem apart_others (g : Globals) (bs : List Blk) (hs : Sep g bs) (e : Blk) (he : e ∈ bs) :
    ∀ b ∈ without bs e.base, Apart b.base e.base := by
  intro b hb
  obtain ⟨hb1, hb2⟩ := (mem_without bs _ b).1 hb
  rcases sep_mem_or g bs hs b e hb1 he with h | h
  · subst h; exact absurd rfl hb2
  · exact h

theorem sameAlloc_refl (bs : List Blk) : SameAlloc bs bs := fun _ _ => Iff.rfl

theorem sameAlloc_trans (bs bs1 bs2 : List Blk) (h1 : SameAlloc bs bs1) (h2 : SameAlloc bs1 bs2) :
    SameAlloc bs bs2 := fun b hb => (h2 b hb).trans (h1 b hb)

/-- Removing free blocks and appending free blocks keeps the allocated blocks. -/
theorem sameAlloc_without_free (g : Globals) (bs : List Blk) (hs : Sep g bs) (a i : Nat)
    (he : (⟨a, i, true⟩ : Blk) ∈ bs) : SameAlloc bs (without bs a) := by
  intro b hb
  rw [mem_without]
  constructor
  · exact fun h => h.1
  · intro h
    refine ⟨h, ?_⟩
    rcases sep_mem_or g bs hs b _ h he with e | e
    · subst e; simp at hb
    · exact apart_ne _ _ e

theorem sameAlloc_append_free (bs ns : List Blk) (h : ∀ n ∈ ns, n.free = true) :
    SameAlloc bs (bs ++ ns) := by
  intro b hb
  rw [List.mem_append]
  constructor
  · rintro (e | e)
    · exact e
    · have := h b e; rw [hb] at this; simp at this
  · exact fun e => Or.inl e

/-- One split of `createFreestoreBlockAtAdjustedIndex`: the last block of
bucket `i + 1` is replaced by its two halves on bucket `i`. -/
theorem split_step (g : Globals) (hi : Nat) (hg : GoodGlobals g hi) (bs : List Blk) (m : Mem)
    (fuel i lastBlock address : Nat) (m2 m3 m4 : Mem) (r2 r3 r4 : Bool)
    (hgeo : Geo g hi bs) (hrep : Rep g m bs) (hi1 : i + 1 ≤ g._freestoreRange)
    (hne : bucketOf bs (i + 1) ≠ [])
    (h1 : getLastFreestoreBlockAtAdjustedIndex g m fuel (i + 1) = some lastBlock)
    (h2 : readAddress m lastBlock = some address)
    (h3 : removeLastFreestoreBlockAtAdjustedIndex g m fuel (i + 1) = some (m2, r2))
    (h4 : addAddressToFreestoreForAdjustedIndex g m2 fuel i
      (subAddressForAdjustedIndex g address (i + 1) side.left) = some (m3, r3))
    (h5 : addAddressToFreestoreForAdjustedIndex g m3 fuel i
      (subAddressForAdjustedIndex g address (i + 1) side.right) = some (m4, r4)) :
    Geo g hi (without bs address ++ [⟨address, i, true⟩,
      ⟨address + getSizeForAdjustedFreestoreIndex g i, i, true⟩]) ∧
    Rep g m4 (without bs address ++ [⟨address, i, true⟩,
      ⟨address + getSizeForAdjustedFreestoreIndex g i, i, true⟩]) ∧
    (⟨address, i + 1, true⟩ : Blk) ∈ bs := by
  have hfb := g_lastAddress g hi bs m fuel (i + 1) lastBlock address hg hrep hi1 h1 h2
  have hmem : (⟨address, i + 1, true⟩ : Blk) ∈ bs := by
    rw [← mem_bucketOf_iff, hfb]
    exact lastOr_mem _ 0 hne
  have hs := geo_sep g hi hg bs hgeo
  obtain ⟨hb1, hb2, _⟩ := hs.1 _ hmem
  simp only at hb1 hb2
  obtain ⟨_, gb2⟩ := geo_bounds g hi hg bs hgeo _ hmem
  simp only at gb2
  have hd := hg.double i (by omega)
  have hsz := size_ge g hi hg i (by omega)
  have hhi := hg.hi_le
  have har := hg.arena
  have hrl := g_removeLast g hi bs m fuel (i + 1) m2 r2 hg hs hrep hi1 hne h3
  rw [← hfb] at hrl
  obtain ⟨hrep2, hs2⟩ := hrl
  have hleft : subAddressForAdjustedIndex g address (i + 1) side.left = address := by
    unfold subAddressForAdjustedIndex
    simp
  have hright : subAddressForAdjustedIndex g address (i + 1) side.right =
      address + getSizeForAdjustedFreestoreIndex g i := by
    unfold subAddressForAdjustedIndex ptrAdd
    simp only [↓reduceIte, hd]
    rw [Nat.mul_div_cancel_left _ (by norm_num)]
    apply Nat.mod_eq_of_lt
    omega
  rw [hleft] at h4
  rw [hright] at h5
  obtain ⟨_, hrep3, hs3⟩ := g_add g hi _ m2 fuel i address m3 r3 hg hs2 hrep2 (by omega) hb1 hb2
    (apart_others g bs hs _ hmem) h4
  obtain ⟨_, hrep4, _⟩ := g_add g hi _ m3 fuel i _ m4 r4 hg hs3 hrep3 (by omega) (by omega)
    (by omega) (by
      intro b hb
      rcases List.mem_append.1 hb with e | e
      · obtain ⟨e1, e2⟩ := (mem_without bs _ b).1 e
        have hsb := size_ge g hi hg b.idx (hgeo.1 b e1)
        have := geo_disjoint g hi hg bs hgeo b _ e1 hmem e2
        simp only at this
        unfold Apart
        omega
      · simp only [List.mem_singleton] at e
        subst e
        unfold Apart
        simp only
        omega) h5
  rw [List.append_assoc] at hrep4
  exact ⟨geo_split g hi hg bs address i true true true hgeo hmem, hrep4, hmem⟩

/-- Source function `createFreestoreBlockAtAdjustedIndex`: a failed call
leaves the memory untouched; a successful call leaves bucket `i` nonempty and
keeps the tiling, the representation and the allocated blocks. -/
theorem create_spec (g : Globals) (hi : Nat) (hg : GoodGlobals g hi) :
    ∀ (fuel : Nat) (m : Mem) (i : Nat) (bs : List Blk) (m1 : Mem) (r : Bool),
      Geo g hi bs → Rep g m bs → i ≤ g._freestoreRange →
      createFreestoreBlockAtAdjustedIndex g fuel m i = some (m1, r) →
      (r = false → m1 = m) ∧
      (r = true → ∃ bs1, Geo g hi bs1 ∧ Rep g m1 bs1 ∧ bucketOf bs1 i ≠ [] ∧
        SameAlloc bs bs1) := by
  intro fuel
  induction fuel with
  | zero => intro m i bs m1 r _ _ _ h; simp [createFreestoreBlockAtAdjustedIndex] at h
  | succ f ih =>
    intro m i bs m1 r hgeo hrep hiR h
    have hrl := hg.range_lt
    unfold createFreestoreBlockAtAdjustedIndex at h
    rw [uintAdd_one i (by omega)] at h
    dsimp only at h
    split at h
    · simp only [Option.some.injEq, Prod.mk.injEq] at h
      obtain ⟨e1, e2⟩ := h
      subst e1 e2
      exact ⟨fun _ => rfl, fun e => by simp at e⟩
    · rename_i hlt
      have hi1 : i + 1 ≤ g._freestoreRange := by omega
      obtain ⟨c, hc, h⟩ := bind_some h
      have hcv := g_containsFreeSpace g hi bs m (i + 1) c hg hrep hi1 hc
      obtain ⟨⟨ma, ss⟩, hrec, h⟩ := bind_some h
      dsimp only at h
      -- the state before the split step
      have hmid : (ss || c) = false ∧ ma = m ∨
          ((ss || c) = true ∧ ∃ bsa, Geo g hi bsa ∧ Rep g ma bsa ∧ bucketOf bsa (i + 1) ≠ [] ∧
            SameAlloc bs bsa) := by
        by_cases hcf : c = false
        · rw [if_pos hcf] at hrec
          obtain ⟨hf, ht⟩ := ih m (i + 1) bs ma ss hgeo hrep hi1 hrec
          cases ss with
          | false => left; exact ⟨by simp [hcf], hf rfl⟩
          | true => right; exact ⟨by simp, ht rfl⟩
        · rw [if_neg hcf] at hrec
          simp only [Option.some.injEq, Prod.mk.injEq] at hrec
          obtain ⟨e1, e2⟩ := hrec
          subst e1 e2
          have hct : c = true := by simpa using hcf
          right
          refine ⟨by simp [hct], bs, hgeo, hrep, ?_, sameAlloc_refl bs⟩
          rw [hct] at hcv
          simpa using hcv
      rcases hmid with ⟨hb, hma⟩ | ⟨hb, bsa, hgeoa, hrepa, hnea, hsa⟩
      · rw [hb] at h
        simp only [Bool.false_eq_true, ↓reduceIte, Option.some.injEq, Prod.mk.injEq] at h
        obtain ⟨e1, e2⟩ := h
        subst e1 e2 hma
        exact ⟨fun _ => rfl, fun e => by simp at e⟩
      · rw [hb] at h
        simp only [↓reduceIte] at h
        obtain ⟨lastBlock, h1, h⟩ := bind_some h
        obtain ⟨address, h2, h⟩ := bind_some h
        obtain ⟨⟨m2, r2⟩, h3, h⟩ := bind_some h
        dsimp only at h
        obtain ⟨⟨m3, r3⟩, h4, h⟩ := bind_some h
        dsimp only at h
        obtain ⟨⟨m4, r4⟩, h5, h⟩ := bind_some h
        simp only [Option.some.injEq, Prod.mk.injEq] at h
        obtain ⟨e1, e2⟩ := h
        subst e1 e2
        obtain ⟨hgeo4, hrep4, hmem⟩ := split_step g hi hg bsa ma f i lastBlock address m2 m3 m4 r2 r3
          r4 hgeoa hrepa hi1 hnea h1 h2 h3 h4 h5
        refine ⟨fun e => by simp at e, fun _ => ⟨_, hgeo4, hrep4, ?_, ?_⟩⟩
        · apply bucketOf_ne_nil _ i address
          simp
        · apply sameAlloc_trans bs bsa _ hsa
          apply sameAlloc_trans bsa (without bsa address) _
            (sameAlloc_without_free g bsa (geo_sep g hi hg bsa hgeoa) address (i + 1) hmem)
          apply sameAlloc_append_free
          intro n hn
          simp only [List.mem_cons, List.mem_singleton, List.not_mem_nil, or_false] at hn
          rcases hn with e | e <;> subst e <;> rfl

/-- Writes confined to fresh records leave the whole representation intact. -/
theorem rep_frame_fresh (g : Globals) (bs : List Blk) (m m1 : Mem) (S : List Nat)
    (hrep : Rep g m bs) (hfr : Frame m m1 S)
    (hS : ∀ q ∈ S, g._freestoreAddress + 16 * (g._freestoreRange + 1) ≤ q ∧
      ∀ b ∈ bs, Apart b.base q) : Rep g m1 bs := by
  have hhead : ∀ j, j ≤ g._freestoreRange → ∀ w,
      g._freestoreAddress + 16 * j ≤ w → w < g._freestoreAddress + 16 * j + 16 →
      m1 w = m w := by
    intro j hj w hw1 hw2
    apply hfr
    intro q hq
    have := (hS q hq).1
    omega
  have hblk : ∀ b ∈ bs, ∀ w, b.base ≤ w → w < b.base + 16 → m1 w = m w := by
    intro b hb w hw1 hw2
    apply hfr
    intro q hq
    have := (hS q hq).2 b hb
    unfold Apart at this
    omega
  constructor
  · intro j hj
    apply bucketRep_congr m m1 _ _ (hhead j hj _ (by omega) (by omega))
      (hhead j hj _ (by omega) (by omega)) _ (hrep.1 j hj)
    intro a ha
    obtain ⟨b, hb, _, _, hba⟩ := (mem_bucketOf bs j a).1 (List.mem_of_mem_tail ha)
    subst hba
    exact ⟨hblk b hb _ (by omega) (by omega), hblk b hb _ (by omega) (by omega)⟩
  · intro b hb hbf
    rw [hblk b hb _ (by omega) (by omega), hblk b hb _ (by omega) (by omega)]
    exact hrep.2 b hb hbf

theorem rep_append_alloc (g : Globals) (bs : List Blk) (m : Mem) (a t : Nat)
    (hrep : Rep g m bs) (h1 : m a % 2 ^ 32 = t) (h2 : m (a + 8) % 2 ^ 64 = a + 16) :
    Rep g m (bs ++ [⟨a, t, false⟩]) := by
  constructor
  · intro j hj
    rw [bucketOf_append, bucketOf_single_other _ _ _ _ (Or.inl rfl), List.append_nil]
    exact hrep.1 j hj
  · intro b hb hbf
    rcases List.mem_append.1 hb with e | e
    · exact hrep.2 b e hbf
    · simp only [List.mem_singleton] at e
      subst e
      exact ⟨h1, h2⟩

/-- The tail of `allocateHeaderForSize`: the last block of the nonempty bucket
`t` leaves its free list and receives the header. -/
theorem alloc_step (g : Globals) (hi : Nat) (hg : GoodGlobals g hi) (bs : List Blk) (m : Mem)
    (fuel t freeblock fb x : Nat) (m2 m3 m4 : Mem) (r2 : Bool)
    (hgeo : Geo g hi bs) (hrep : Rep g m bs) (ht : t ≤ g._freestoreRange)
    (ht32 : t < 2 ^ 32) (hne : bucketOf bs t ≠ [])
    (h1 : getLastFreestoreBlockAtAdjustedIndex g m fuel t = some freeblock)
    (h2 : readAddress m freeblock = some fb)
    (h3 : removeLastFreestoreBlockAtAdjustedIndex g m fuel t = some (m2, r2))
    (h4 : readIndex m2 fb = some x)
    (h5 : writeIndex m2 fb t = some m3)
    (h6 : writeMemoryStart m3 fb (ptrAdd fb g._headerSize) = some m4) :
    (⟨fb, t, true⟩ : Blk) ∈ bs ∧ fb ≠ 0 ∧ fb + 16 < 2 ^ 64 ∧
    Geo g hi (without bs fb ++ [⟨fb, t, false⟩]) ∧
    Rep g m4 (without bs fb ++ [⟨fb, t, false⟩]) ∧
    readMemoryStart m4 fb = some (fb + 16) := by
  have hfb := g_lastAddress g hi bs m fuel t freeblock fb hg hrep ht h1 h2
  have hmem : (⟨fb, t, true⟩ : Blk) ∈ bs := by
    rw [← mem_bucketOf_iff, hfb]
    exact lastOr_mem _ 0 hne
  have hs := geo_sep g hi hg bs hgeo
  obtain ⟨hb1, hb2, _⟩ := hs.1 _ hmem
  simp only at hb1 hb2
  have hbase := hg.base_ne
  have hfb0 : fb ≠ 0 := by omega
  have hrl := g_removeLast g hi bs m fuel t m2 r2 hg hs hrep ht hne h3
  rw [← hfb] at hrl
  obtain ⟨hrep2, hs2⟩ := hrl
  unfold writeIndex at h5
  unfold writeMemoryStart at h6
  rw [if_neg hfb0] at h5 h6
  simp only [Option.some.injEq] at h5 h6
  have hpa : ptrAdd fb g._headerSize % 2 ^ 64 = fb + 16 := by
    unfold ptrAdd
    rw [hg.hdr, Nat.mod_mod]
    exact Nat.mod_eq_of_lt (by omega)
  rw [hpa] at h6
  subst h5 h6
  have hfr : Frame m2 (store (store m2 fb (m2 fb % 2 ^ 64 / 2 ^ 32 * 2 ^ 32 + t % 2 ^ 32))
      (fb + 8) (fb + 16)) [fb] := by
    intro w hw
    have := hw fb (by simp)
    rw [store_other _ _ _ _ (by omega), store_other _ _ _ _ (by omega)]
  have hrep3 := rep_frame_fresh g _ m2 _ [fb] hrep2 hfr (by
    intro q hq
    simp only [List.mem_singleton] at hq
    subst hq
    exact ⟨hb1, apart_others g bs hs _ hmem⟩)
  refine ⟨hmem, hfb0, hb2, geo_flip g hi hg bs fb t true false hgeo hmem, ?_, ?_⟩
  · apply rep_append_alloc g _ _ fb t hrep3
    · rw [store_other _ _ _ _ (by omega), store_same,
        Nat.mul_add_mod_of_lt (Nat.mod_lt _ (by norm_num))]
      exact Nat.mod_eq_of_lt ht32
    · rw [store_same]
      exact Nat.mod_eq_of_lt (by omega)
  · unfold readMemoryStart
    rw [if_neg hfb0, store_same]
    congr 1
    exact Nat.mod_eq_of_lt (by omega)

/-- Source function `allocateHeaderForSize` in a state that represents the
block list `bs`: a null result leaves the memory untouched; a non-null result
is the base of a block that was free and is now allocated. -/
theorem allocate_spec (g : Globals) (hi : Nat) (hg : GoodGlobals g hi) (bs : List Blk)
    (m : Mem) (fuel n : Nat) (m1 : Mem) (header : Nat) (hgeo : Geo g hi bs) (hrep : Rep g m bs)
    (h : allocateHeaderForSize g m fuel n = some (m1, header)) :
    (header = 0 → m1 = m) ∧
    (header ≠ 0 → ∃ bs1 t, SameAlloc bs bs1 ∧ (⟨header, t, true⟩ : Blk) ∈ bs1 ∧
      Geo g hi bs1 ∧ header + 16 < 2 ^ 64 ∧
      Geo g hi (without bs1 header ++ [⟨header, t, false⟩]) ∧
      Rep g m1 (without bs1 header ++ [⟨header, t, false⟩]) ∧
      readMemoryStart m1 header = some (header + 16)) := by
  unfold allocateHeaderForSize at h
  obtain ⟨canMeet, hcm, h⟩ := bind_some h
  split at h
  · simp only [Option.some.injEq, Prod.mk.injEq] at h
    obtain ⟨e1, e2⟩ := h
    subst e1 e2
    exact ⟨fun _ => rfl, fun e => absurd rfl e⟩
  · rename_i hcan
    have hcan1 : canMeet = true := by simpa using hcan
    subst hcan1
    have ht := canMeetLoop_true _ _ _ _ _ hcm
    have ht32 := getAdjustedFreestoreIndexForSize_lt g (uintAdd n g._headerSize)
    obtain ⟨fa, hfa, h⟩ := bind_some h
    have hfav := g_containsFreeSpace g hi bs m _ fa hg hrep ht hfa
    obtain ⟨⟨ma, created⟩, hcr, h⟩ := bind_some h
    dsimp only at h
    have hmid : created = false ∧ ma = m ∨
        (created = true ∧ ∃ bsa, Geo g hi bsa ∧ Rep g ma bsa ∧
          bucketOf bsa (getAdjustedFreestoreIndexForSize g (uintAdd n g._headerSize)) ≠ [] ∧
          SameAlloc bs bsa) := by
      by_cases hf : fa = false
      · rw [if_pos hf] at hcr
        obtain ⟨h1, h2⟩ := create_spec g hi hg fuel m _ bs ma created hgeo hrep ht hcr
        cases created with
        | false => left; exact ⟨rfl, h1 rfl⟩
        | true => right; exact ⟨rfl, h2 rfl⟩
      · rw [if_neg hf] at hcr
        simp only [Option.some.injEq, Prod.mk.injEq] at hcr
        obtain ⟨e1, e2⟩ := hcr
        subst e1 e2
        have hft : fa = true := by simpa using hf
        right
        refine ⟨hft, bs, hgeo, hrep, ?_, sameAlloc_refl bs⟩
        rw [hft] at hfav
        simpa using hfav
    rcases hmid with ⟨hc, hma⟩ | ⟨hc, bsa, hgeoa, hrepa, hnea, hsa⟩
    · rw [hc] at h
      simp only [Bool.false_eq_true, ↓reduceIte, Option.some.injEq, Prod.mk.injEq] at h
      obtain ⟨e1, e2⟩ := h
      exact ⟨fun _ => by rw [← e1, hma], fun e => absurd e2.symm e⟩
    · rw [hc] at h
      simp only [↓reduceIte] at h
      obtain ⟨freeblock, h1, h⟩ := bind_some h
      obtain ⟨fb, h2, h⟩ := bind_some h
      obtain ⟨⟨m2, r2⟩, h3, h⟩ := bind_some h
      dsimp only at h
      obtain ⟨x, h4, h⟩ := bind_some h
      obtain ⟨m3, h5, h⟩ := bind_some h
      obtain ⟨m4, h6, h⟩ := bind_some h
      simp only [Option.some.injEq, Prod.mk.injEq] at h
      obtain ⟨e1, e2⟩ := h
      subst e1 e2
      obtain ⟨hmem, hfb0, hlt, hgeo4, hrep4, hrd⟩ := alloc_step g hi hg bsa ma fuel _ freeblock fb x
        m2 m3 m4 r2 hgeoa hrepa ht ht32 hnea h1 h2 h3 h4 h5 h6
      exact ⟨fun e => absurd e hfb0, fun _ => ⟨bsa, _, hsa, hmem, hgeoa, hlt, hgeo4, hrep4, hrd⟩⟩

/-- Source function `getBuddySideForAddress` never answers `left`: the parity
test `(basicDifference % 1) == 0` always succeeds. -/
theorem getBuddySide_cases (g : Globals) (i a : Nat) :
    getBuddySideForAddress g i a = side.right ∨ getBuddySideForAddress g i a = side.neither := by
  unfold getBuddySideForAddress
  simp only [Int.tmod_one, decide_True, ↓reduceIte]
  split
  · exact Or.inr rfl
  · exact Or.inl rfl

/-- Source function `mergeBuddiesAtAddress` on two free blocks `a` and
`a + size_of(i)` of bucket `i`: both leave bucket `i` and the block at `a`
joins bucket `i + 1`. -/
theorem merge_step (g : Globals) (hi : Nat) (hg : GoodGlobals g hi) (bs : List Blk) (m : Mem)
    (fuel i a : Nat) (m1 : Mem) (r : Bool) (hgeo : Geo g hi bs) (hrep : Rep g m bs)
    (h1 : (⟨a, i, true⟩ : Blk) ∈ bs)
    (h2 : (⟨a + getSizeForAdjustedFreestoreIndex g i, i, true⟩ : Blk) ∈ bs)
    (h : mergeBuddiesAtAddress g m fuel i a (a + getSizeForAdjustedFreestoreIndex g i)
      = some (m1, r)) :
    r = true ∧ i < g._freestoreRange ∧
    Geo g hi (without (without bs a) (a + getSizeForAdjustedFreestoreIndex g i)
      ++ [⟨a, i + 1, true⟩]) ∧
    Rep g m1 (without (without bs a) (a + getSizeForAdjustedFreestoreIndex g i)
      ++ [⟨a, i + 1, true⟩]) ∧
    SameAlloc bs (without (without bs a) (a + getSizeForAdjustedFreestoreIndex g i)
      ++ [⟨a, i + 1, true⟩]) := by
  have hiR : i ≤ g._freestoreRange := hgeo.1 _ h1
  have hsz := size_ge g hi hg i hiR
  have hs := geo_sep g hi hg bs hgeo
  obtain ⟨hlt, hgeo3⟩ := geo_merge g hi hg bs a i true true true hgeo h1 h2
  have hrl := hg.range_lt
  unfold mergeBuddiesAtAddress at h
  obtain ⟨⟨ma, ra⟩, hra, h⟩ := bind_some h
  dsimp only at h
  obtain ⟨⟨mb, rb⟩, hrb, h⟩ := bind_some h
  dsimp only at h
  rw [if_pos (by omega), uintAdd_one i (by omega)] at h
  obtain ⟨_, hrepa, hsa⟩ := g_removeWithAddress g hi bs m fuel i a ma ra hg hs hrep hiR
    ((mem_bucketOf_iff bs i a).2 h1) hra
  have h2a : (⟨a + getSizeForAdjustedFreestoreIndex g i, i, true⟩ : Blk) ∈ without bs a :=
    (mem_without bs a _).2 ⟨h2, by simp only; omega⟩
  obtain ⟨_, hrepb, hsb⟩ := g_removeWithAddress g hi _ ma fuel i _ mb rb hg hsa hrepa hiR
    ((mem_bucketOf_iff _ i _).2 h2a) hrb
  obtain ⟨hb1, hb2, _⟩ := hs.1 _ h1
  simp only at hb1 hb2
  obtain ⟨hr, hrep3, _⟩ := g_add g hi _ mb fuel (i + 1) a m1 r hg hsb hrepb (by omega) hb1 hb2
    (fun b hb => apart_others g bs hs _ h1 b ((mem_without _ _ b).1 hb).1) h
  refine ⟨hr, hlt, hgeo3, hrep3, ?_⟩
  apply sameAlloc_trans bs (without bs a) _ (sameAlloc_without_free g bs hs a i h1)
  apply sameAlloc_trans _ (without (without bs a) (a + getSizeForAdjustedFreestoreIndex g i)) _
    (sameAlloc_without_free g _ hsa _ i h2a)
  apply sameAlloc_append_free
  intro n hn
  simp only [List.mem_singleton] at hn
  subst hn
  rfl

/-- Source function `attemptBuddyMergeAtAdjustedIndexWithAddress` keeps the
tiling, the representation and the allocated blocks. -/
theorem attempt_spec (g : Globals) (hi : Nat) (hg : GoodGlobals g hi) :
    ∀ (fuel : Nat) (m : Mem) (i a : Nat) (bs : List Blk) (m1 : Mem) (r : Bool),
      Geo g hi bs → Rep g m bs → i ≤ g._freestoreRange → a ≠ 0 →
      attemptBuddyMergeAtAdjustedIndexWithAddress g fuel m i a = some (m1, r) →
      ∃ bs1, Geo g hi bs1 ∧ Rep g m1 bs1 ∧ SameAlloc bs bs1 := by
  intro fuel
  induction fuel with
  | zero =>
    intro m i a bs m1 r _ _ _ _ h
    simp [attemptBuddyMergeAtAdjustedIndexWithAddress] at h
  | succ f ih =>
    intro m i a bs m1 r hgeo hrep hiR ha0 h
    have hrl := hg.range_lt
    unfold attemptBuddyMergeAtAdjustedIndexWithAddress at h
    dsimp only at h
    have hsame : some (m, true) = some (m1, r) →
        ∃ bs1, Geo g hi bs1 ∧ Rep g m1 bs1 ∧ SameAlloc bs bs1 := by
      intro e
      simp only [Option.some.injEq, Prod.mk.injEq] at e
      rw [← e.1]
      exact ⟨bs, hgeo, hrep, sameAlloc_refl bs⟩
    rcases getBuddySide_cases g i a with hside | hside
    · rw [hside] at h
      simp only [ne_eq, reduceCtorEq, not_false_eq_true, ↓reduceIte] at h
      split at h
      · rename_i hb0
        obtain ⟨c1, hc1, h⟩ := bind_some h
        obtain ⟨c2, hc2, h⟩ := bind_some h
        have hv1 := g_contains g hi bs m f i a c1 hg hrep hiR ha0 hc1
        have hv2 := g_contains g hi bs m f i _ c2 hg hrep hiR hb0 hc2
        split at h
        · rename_i hboth
          simp only [Bool.and_eq_true] at hboth
          obtain ⟨t1, t2⟩ := hboth
          rw [t1] at hv1
          rw [t2] at hv2
          have e1 : (⟨a, i, true⟩ : Blk) ∈ bs :=
            (mem_bucketOf_iff bs i a).1 (by simpa using hv1)
          have hbd : getContiguousAddressAtSide g i a side.right =
              a + getSizeForAdjustedFreestoreIndex g i := by
            obtain ⟨_, gb⟩ := geo_bounds g hi hg bs hgeo _ e1
            simp only at gb
            have := hg.hi_le
            have := hg.arena
            unfold getContiguousAddressAtSide ptrAdd at hb0 ⊢
            simp only at hb0 ⊢
            by_cases hw : a + getSizeForAdjustedFreestoreIndex g i = 2 ^ 64
            · rw [hw] at hb0; simp at hb0
            · exact Nat.mod_eq_of_lt (by omega)
          rw [hbd] at h hv2
          have e2 : (⟨a + getSizeForAdjustedFreestoreIndex g i, i, true⟩ : Blk) ∈ bs :=
            (mem_bucketOf_iff bs i _).1 (by simpa using hv2)
          obtain ⟨⟨ma, ms⟩, hmg, h⟩ := bind_some h
          dsimp only at h
          obtain ⟨hms, hlt, hgeo3, hrep3, hsa3⟩ := merge_step g hi hg bs m f i a ma ms hgeo hrep
            e1 e2 hmg
          rw [hms] at h
          simp only [↓reduceIte, reduceCtorEq] at h
          rw [uintAdd_one i (by omega)] at h
          obtain ⟨⟨mc, rc⟩, hrec, h⟩ := bind_some h
          simp only [Option.some.injEq, Prod.mk.injEq] at h
          obtain ⟨bs1, hg1, hr1, hs1⟩ := ih ma (i + 1) a _ mc rc hgeo3 hrep3 (by omega) ha0 hrec
          rw [← h.1]
          exact ⟨bs1, hg1, hr1, sameAlloc_trans _ _ _ hsa3 hs1⟩
        · exact hsame h
      · exact hsame h
    · rw [hside] at h
      simp only [ne_eq, not_true_eq_false, ↓reduceIte] at h
      exact hsame h

theorem ptrSub_exact (p n : Nat) (h1 : n ≤ p) (h2 : p < 2 ^ 64) : ptrSub p n = p - n := by
  unfold ptrSub
  have hn : n % 2 ^ 64 = n := Nat.mod_eq_of_lt (by omega)
  rw [hn]
  have : p + (2 ^ 64 - n) = (p - n) + 2 ^ 64 := by omega
  rw [this, Nat.add_mod_right]
  exact Nat.mod_eq_of_lt (by omega)

theorem rep_without_alloc (g : Globals) (bs : List Blk) (m : Mem) (b0 t : Nat)
    (hs : Sep g bs) (hrep : Rep g m bs) (he : (⟨b0, t, false⟩ : Blk) ∈ bs) :
    Rep g m (without bs b0) := by
  constructor
  · intro j hj
    rw [bucketOf_without, filter_ne_of_not_mem]
    · exact hrep.1 j hj
    · intro hmem
      have hf := (mem_bucketOf_iff bs j b0).1 hmem
      rcases sep_mem_or g bs hs _ _ hf he with e | e
      · simp at e
      · exact absurd rfl (apart_ne _ _ e)
  · intro b hb hbf
    exact hrep.2 b ((mem_without bs _ b).1 hb).1 hbf

/-- Source function `deallocateHeaderAtAddress` on the payload address of an
allocated block: the block becomes free (and may be merged upward); the other
allocated blocks stay allocated. -/
theorem free_spec (g : Globals) (hi : Nat) (hg : GoodGlobals g hi) (bs : List Blk) (m : Mem)
    (fuel b0 t : Nat) (m1 : Mem) (r : Bool) (hgeo : Geo g hi bs) (hrep : Rep g m bs)
    (he : (⟨b0, t, false⟩ : Blk) ∈ bs)
    (h : deallocateHeaderAtAddress g m fuel (b0 + 16) = some (m1, r)) :
    ∃ bs1, Geo g hi bs1 ∧ Rep g m1 bs1 ∧
      ∀ b : Blk, b.free = false → (b ∈ bs1 ↔ (b ∈ bs ∧ b ≠ ⟨b0, t, false⟩)) := by
  have hs := geo_sep g hi hg bs hgeo
  obtain ⟨hb1, hb2, hb3⟩ := hs.1 _ he
  simp only at hb1 hb2 hb3
  have hbase := hg.base_ne
  have hb00 : b0 ≠ 0 := by omega
  obtain ⟨hx1, hx2⟩ := hrep.2 _ he rfl
  simp only at hx1 hx2
  have hhdr : memoryHeaderForAddress g m (b0 + 16) = some b0 := by
    unfold memoryHeaderForAddress
    rw [hg.hdr]
    dsimp only
    rw [ptrSub_exact (b0 + 16) 16 (by omega) (by omega)]
    simp only [Nat.add_sub_cancel, ne_eq, hb00, not_false_eq_true, ↓reduceIte]
    unfold readMemoryStart
    rw [if_neg hb00, hx2]
    simp
  unfold deallocateHeaderAtAddress at h
  rw [hhdr] at h
  simp only [Option.bind_eq_bind, Option.some_bind, ne_eq, hb00, not_false_eq_true,
    ↓reduceIte] at h
  unfold deallocateHeader at h
  simp only [ne_eq, hb00, not_false_eq_true, ↓reduceIte] at h
  obtain ⟨ai, hai, h⟩ := bind_some h
  unfold readIndex at hai
  rw [if_neg hb00, hx1] at hai
  simp only [Option.some.injEq] at hai
  subst hai
  obtain ⟨ma, hma, h⟩ := bind_some h
  obtain ⟨mb, hmb, h⟩ := bind_some h
  unfold writeMemoryStart at hma
  unfold writeIndex at hmb
  rw [if_neg hb00] at hma hmb
  simp only [Option.some.injEq] at hma hmb
  obtain ⟨⟨mc, rc⟩, hadd, h⟩ := bind_some h
  dsimp only at h
  obtain ⟨⟨md, rd⟩, hatt, h⟩ := bind_some h
  simp only [Option.some.injEq, Prod.mk.injEq] at h
  have hfr : Frame m mb [b0] := by
    intro w hw
    have := hw b0 (by simp)
    rw [← hmb, ← hma, store_other _ _ _ _ (by omega), store_other _ _ _ _ (by omega)]
  have hsw := sep_without g bs b0 hs
  have hap := apart_others g bs hs _ he
  have hrepb := rep_frame_fresh g _ m mb [b0] (rep_without_alloc g bs m b0 t hs hrep he) hfr (by
    intro q hq
    simp only [List.mem_singleton] at hq
    subst hq
    exact ⟨hb1, hap⟩)
  obtain ⟨_, hrepc, _⟩ := g_add g hi _ mb fuel t b0 mc rc hg hsw hrepb hb3 hb1 hb2 hap hadd
  have hgeoc := geo_flip g hi hg bs b0 t false true hgeo he
  obtain ⟨bs1, hg1, hr1, hs1⟩ := attempt_spec g hi hg fuel mc t b0 _ md rd hgeoc hrepc hb3 hb00 hatt
  rw [← h.1]
  refine ⟨bs1, hg1, hr1, ?_⟩
  intro b hbf
  rw [hs1 b hbf, List.mem_append, mem_without]
  constructor
  · rintro (⟨e1, e2⟩ | e)
    · exact ⟨e1, fun e => e2 (by rw [e])⟩
    · simp only [List.mem_singleton] at e
      rw [e] at hbf
      simp at hbf
  · rintro ⟨e1, e2⟩
    left
    refine ⟨e1, ?_⟩
    rcases sep_mem_or g bs hs b _ e1 he with e | e
    · exact absurd e e2
    · exact apart_ne _ _ e

/-- Step lemma: `my_malloc` preserves the invariant; a null result leaves the state unchanged. -/
theorem my_malloc_inv (hi : Nat) (fuel : Nat) (st : State) (live : List Nat) (n : Nat)
    (st1 : State) (p : Nat) (hinv : Inv hi st live) (h : my_malloc fuel st n = some (st1, p)) :
    (p = 0 → st1 = st) ∧ (p ≠ 0 → Inv hi st1 (p :: live)) := by
  obtain ⟨hg, bs, hgeo, hrep, hnd, hlive⟩ := hinv
  unfold my_malloc at h
  obtain ⟨⟨m1, header⟩, ha, h⟩ := bind_some h
  dsimp only at h
  obtain ⟨h0, h1⟩ := allocate_spec st.g hi hg bs st.mem fuel n m1 header hgeo hrep ha
  by_cases hh : header = 0
  · rw [if_neg (by simpa using hh)] at h
    simp only [Option.some.injEq, Prod.mk.injEq] at h
    obtain ⟨e1, e2⟩ := h
    refine ⟨fun _ => by rw [← e1, h0 hh], fun e => absurd e2.symm e⟩
  · rw [if_pos hh] at h
    obtain ⟨address, hrd, h⟩ := bind_some h
    simp only [Option.some.injEq, Prod.mk.injEq] at h
    obtain ⟨e1, e2⟩ := h
    obtain ⟨bs1, t, hsa, hmem, hgeo1, hlt, hgeo2, hrep2, hrd2⟩ := h1 hh
    rw [hrd2] at hrd
    simp only [Option.some.injEq] at hrd
    have hp : p = header + 16 := by rw [← e2, ← hrd]
    refine ⟨fun e => by omega, fun _ => ?_⟩
    rw [← e1]
    have hs1 := geo_sep st.g hi hg bs1 hgeo1
    have hnew : ∀ b : Blk, b.free = false →
        (b ∈ without bs1 header ++ [⟨header, t, false⟩] ↔ b ∈ bs ∨ b = ⟨header, t, false⟩) := by
      intro b hbf
      rw [List.mem_append, mem_without, List.mem_singleton, ← hsa b hbf]
      constructor
      · rintro (⟨e, _⟩ | e)
        · exact Or.inl e
        · exact Or.inr e
      · rintro (e | e)
        · left
          refine ⟨e, ?_⟩
          rcases sep_mem_or st.g bs1 hs1 b _ e hmem with e3 | e3
          · rw [e3] at hbf; simp at hbf
          · exact apart_ne _ _ e3
        · exact Or.inr e
    have hfresh : p ∉ live := by
      intro hpl
      obtain ⟨b, hb, hbf, hbp⟩ := (hlive p).1 hpl
      have hb1 : b ∈ bs1 := (hsa b hbf).2 hb
      rcases sep_mem_or st.g bs1 hs1 b _ hb1 hmem with e3 | e3
      · rw [e3] at hbf; simp at hbf
      · have := apart_ne _ _ e3
        simp only at this
        omega
    refine ⟨hg, _, hgeo2, hrep2, List.nodup_cons.2 ⟨hfresh, hnd⟩, ?_⟩
    intro q
    rw [List.mem_cons, hlive q]
    constructor
    · rintro (e | ⟨b, hb, hbf, hbq⟩)
      · exact ⟨⟨header, t, false⟩, (hnew _ rfl).2 (Or.inr rfl), rfl, by simp only; omega⟩
      · exact ⟨b, (hnew b hbf).2 (Or.inl hb), hbf, hbq⟩
    · rintro ⟨b, hb, hbf, hbq⟩
      rcases (hnew b hbf).1 hb with e | e
      · exact Or.inr ⟨b, e, hbf, hbq⟩
      · left
        rw [e] at hbq
        simp only at hbq
        omega

/-- Step lemma: `my_free` on a live pointer preserves the invariant. -/
theorem my_free_inv (hi : Nat) (fuel : Nat) (st : State) (live : List Nat) (p : Nat)
    (st1 : State) (r : Int) (hinv : Inv hi st live) (hp : p ∈ live)
    (h : my_free fuel st p = some (st1, r)) : Inv hi st1 (live.erase p) := by
  obtain ⟨hg, bs, hgeo, hrep, hnd, hlive⟩ := hinv
  obtain ⟨e, he, hef, hep⟩ := (hlive p).1 hp
  have hs := geo_sep st.g hi hg bs hgeo
  unfold my_free at h
  obtain ⟨⟨m1, success⟩, hd, h⟩ := bind_some h
  simp only [Option.some.injEq, Prod.mk.injEq] at h
  have hee : e = ⟨e.base, e.idx, false⟩ := by
    cases e; simp only at hef; subst hef; rfl
  rw [hee] at he
  rw [← hep] at hd
  obtain ⟨bs1, hgeo1, hrep1, hal⟩ := free_spec st.g hi hg bs st.mem fuel e.base e.idx m1 success
    hgeo hrep he hd
  rw [← h.1]
  refine ⟨hg, bs1, hgeo1, hrep1, hnd.erase p, ?_⟩
  intro q
  rw [hnd.mem_erase_iff, hlive q]
  constructor
  · rintro ⟨hqp, b, hb, hbf, hbq⟩
    refine ⟨b, (hal b hbf).2 ⟨hb, ?_⟩, hbf, hbq⟩
    intro e2
    rw [e2] at hbq
    simp only at hbq
    omega
  · rintro ⟨b, hb, hbf, hbq⟩
    obtain ⟨hb1, hb2⟩ := (hal b hbf).1 hb
    refine ⟨?_, b, hb1, hbf, hbq⟩
    intro hqp
    rcases sep_mem_or st.g bs hs b _ hb1 he with e3 | e3
    · exact hb2 e3
    · have := apart_ne _ _ e3
      simp only at this
      omega

theorem ceilLogSearch_spec (size B : Nat) :
    ∀ (fuel k : Nat), (∀ j, j < k → 2 ^ j * B < size) →
      (∃ c, c ≤ k + fuel ∧ size ≤ 2 ^ c * B) →
      size ≤ 2 ^ ceilLogSearch size B fuel k * B ∧
        ∀ j, j < ceilLogSearch size B fuel k → 2 ^ j * B < size := by
  intro fuel
  induction fuel with
  | zero =>
    intro k hlow ⟨c, hc, hsz⟩
    simp only [ceilLogSearch]
    refine ⟨?_, hlow⟩
    by_cases hck : c = k
    · rw [← hck]; exact hsz
    · have := hlow c (by omega)
      omega
  | succ f ih =>
    intro k hlow ⟨c, hc, hsz⟩
    unfold ceilLogSearch
    split
    · rename_i hk
      exact ⟨hk, hlow⟩
    · rename_i hk
      apply ih (k + 1)
      · intro j hj
        by_cases hjk : j = k
        · rw [hjk]; omega
        · exact hlow j (by omega)
      · exact ⟨c, by omega, hsz⟩

/-- The integer ceiling logarithm: `ceilLog size B` is the least `c` with
`size ≤ 2 ^ c * B`, for `1 ≤ B` and `size ≤ 2 ^ 64`. -/
theorem ceilLog_spec (size B : Nat) (hB : 1 ≤ B) (hs : size ≤ 2 ^ 64) :
    size ≤ 2 ^ ceilLog size B * B ∧ ∀ j, j < ceilLog size B → 2 ^ j * B < size := by
  unfold ceilLog
  apply ceilLogSearch_spec size B 64 0
  · intro j hj; omega
  · refine ⟨64, by omega, ?_⟩
    calc size ≤ 2 ^ 64 * 1 := by omega
      _ ≤ 2 ^ 64 * B := Nat.mul_le_mul_left _ hB

theorem ceilLog_le (size B k : Nat) (hB : 1 ≤ B) (hs : size ≤ 2 ^ 64) (h : size ≤ 2 ^ k * B) :
    ceilLog size B ≤ k := by
  by_contra hcon
  have := (ceilLog_spec size B hB hs).2 k (by omega)
  omega

theorem floorLogSearch_spec (size B : Nat) :
    ∀ k, floorLogSearch size B k ≤ k ∧
      (1 ≤ floorLogSearch size B k → 2 ^ floorLogSearch size B k * B ≤ size) ∧
      ∀ j, floorLogSearch size B k < j → j ≤ k → size < 2 ^ j * B := by
  intro k
  induction k with
  | zero =>
    simp only [floorLogSearch]
    exact ⟨le_refl _, fun h => by omega, fun j h1 h2 => by omega⟩
  | succ n ih =>
    unfold floorLogSearch
    split
    · rename_i hn
      exact ⟨le_refl _, fun _ => hn, fun j h1 h2 => by omega⟩
    · rename_i hn
      obtain ⟨i1, i2, i3⟩ := ih
      refine ⟨by omega, i2, ?_⟩
      intro j h1 h2
      by_cases hj : j = n + 1
      · rw [hj]; omega
      · exact i3 j h1 (by omega)

/-- The integer floor logarithm: when `floorLog size B ≥ 1` it is the
greatest `f` with `2 ^ f * B ≤ size`, for `1 ≤ B` and `size < 2 ^ 64`. -/
theorem floorLog_spec (size B : Nat) (hB : 1 ≤ B) (hs : size < 2 ^ 64) :
    floorLog size B ≤ 64 ∧ (1 ≤ floorLog size B → 2 ^ floorLog size B * B ≤ size) ∧
      ∀ j, floorLog size B < j → size < 2 ^ j * B := by
  unfold floorLog
  obtain ⟨i1, i2, i3⟩ := floorLogSearch_spec size B 64
  refine ⟨i1, i2, ?_⟩
  intro j hj
  by_cases hj64 : j ≤ 64
  · exact i3 j hj hj64
  · have h1 : 2 ^ 64 ≤ 2 ^ j := Nat.pow_le_pow_right (by norm_num) (by omega)
    calc size < 2 ^ 64 := hs
      _ ≤ 2 ^ j := h1
      _ = 2 ^ j * 1 := by omega
      _ ≤ 2 ^ j * B := Nat.mul_le_mul_left _ hB

theorem size_formula (g : Globals) (k : Nat) (hB : 1 ≤ g._basic_block_size)
    (h : 2 ^ k * g._basic_block_size < 2 ^ 32) :
    getSizeForFreestoreIndex g k = 2 ^ k * g._basic_block_size := by
  unfold getSizeForFreestoreIndex uintMul
  have h2 : 2 ^ k < 2 ^ 32 := by
    calc 2 ^ k = 2 ^ k * 1 := by omega
      _ ≤ 2 ^ k * g._basic_block_size := Nat.mul_le_mul_left _ hB
      _ < 2 ^ 32 := h
  split
  · rw [Nat.mod_eq_of_lt h2, Nat.mod_eq_of_lt h]
  · rename_i hk
    have : k = 0 := by omega
    subst this
    simp

theorem uintSub_exact (a b : Nat) (h1 : b ≤ a) (h2 : a < 2 ^ 32) : uintSub a b = a - b := by
  unfold uintSub
  have hn : b % 2 ^ 32 = b := Nat.mod_eq_of_lt (by omega)
  rw [hn]
  have : a + (2 ^ 32 - b) = (a - b) + 2 ^ 32 := by omega
  rw [this, Nat.add_mod_right]
  exact Nat.mod_eq_of_lt (by omega)

theorem pow_mul_mono (B j k : Nat) (h : j ≤ k) : 2 ^ j * B ≤ 2 ^ k * B :=
  Nat.mul_le_mul_right _ (Nat.pow_le_pow_right (by norm_num) h)

theorem pow_mul_succ (B k : Nat) : 2 ^ (k + 1) * B = 2 * (2 ^ k * B) := by
  rw [Nat.pow_succ]; ring

theorem exp_lt_of_pow_mul_lt (B k : Nat) (hB : 1 ≤ B) (h : 2 ^ k * B < 2 ^ 32) : k < 32 := by
  by_contra hcon
  have h1 : 2 ^ 32 ≤ 2 ^ k := Nat.pow_le_pow_right (by norm_num) (by omega)
  have h2 : 2 ^ k * 1 ≤ 2 ^ k * B := Nat.mul_le_mul_left _ hB
  omega

/-- Block size of bucket `i` in closed form. -/
theorem sz_eq (g : Globals) (A B L : Nat) (hp : Params g A B L) (i : Nat)
    (h : 2 ^ (g._minFreestoreIndex + i) * B < 2 ^ 32) :
    getSizeForAdjustedFreestoreIndex g i = 2 ^ (g._minFreestoreIndex + i) * B := by
  have hk := exp_lt_of_pow_mul_lt B _ hp.B1 h
  unfold getSizeForAdjustedFreestoreIndex
  have : uintAdd i g._minFreestoreIndex = g._minFreestoreIndex + i := by
    unfold uintAdd
    rw [Nat.add_comm]
    exact Nat.mod_eq_of_lt (by omega)
  rw [this, size_formula g _ (by rw [hp.hB]; exact hp.B1) (by rw [hp.hB]; exact h), hp.hB]

theorem sz_lt (g : Globals) (A B L : Nat) (hp : Params g A B L) (i : Nat)
    (hi : i ≤ g._freestoreRange) : 2 ^ (g._minFreestoreIndex + i) * B < 2 ^ 32 := by
  have h1 := pow_mul_mono B (g._minFreestoreIndex + i) (g._minFreestoreIndex + g._freestoreRange)
    (by omega)
  have h2 := hp.kmax_le
  have h3 := hp.L32
  omega

theorem sz_double (g : Globals) (A B L : Nat) (hp : Params g A B L) (i : Nat)
    (hi : i < g._freestoreRange) :
    getSizeForAdjustedFreestoreIndex g (i + 1) = 2 * getSizeForAdjustedFreestoreIndex g i := by
  rw [sz_eq g A B L hp (i + 1) (sz_lt g A B L hp (i + 1) (by omega)),
    sz_eq g A B L hp i (sz_lt g A B L hp i (by omega)), ← Nat.add_assoc, pow_mul_succ]

theorem sz_zero_gt (g : Globals) (A B L : Nat) (hp : Params g A B L) :
    16 < getSizeForAdjustedFreestoreIndex g 0 := by
  rw [sz_eq g A B L hp 0 (sz_lt g A B L hp 0 (by omega))]
  exact hp.kmin_gt

theorem sz_top (g : Globals) (A B L : Nat) (hp : Params g A B L) :
    getSizeForAdjustedFreestoreIndex g g._freestoreRange ≤ L - 16 ∧
      L - 16 < 2 * getSizeForAdjustedFreestoreIndex g g._freestoreRange := by
  rw [sz_eq g A B L hp _ (sz_lt g A B L hp _ (le_refl _))]
  have := hp.kmax_max
  rw [pow_mul_succ] at this
  exact ⟨hp.kmax_le, this⟩

theorem sz_mono (g : Globals) (A B L : Nat) (hp : Params g A B L) (i j : Nat) (hij : i ≤ j)
    (hj : j ≤ g._freestoreRange) :
    getSizeForAdjustedFreestoreIndex g i ≤ getSizeForAdjustedFreestoreIndex g j := by
  rw [sz_eq g A B L hp i (sz_lt g A B L hp i (by omega)),
    sz_eq g A B L hp j (sz_lt g A B L hp j hj)]
  exact pow_mul_mono B _ _ (by omega)

theorem heads_bound (g : Globals) (A B L : Nat) (hp : Params g A B L) :
    16 * (g._freestoreRange + 1) ≤ 2 ^ (g._minFreestoreIndex + g._freestoreRange) * B := by
  have h1 : g._freestoreRange + 1 ≤ 2 ^ g._freestoreRange := Nat.lt_two_pow _
  have h2 := hp.kmin_gt
  have h3 : 2 ^ (g._minFreestoreIndex + g._freestoreRange) * B =
      2 ^ g._freestoreRange * (2 ^ g._minFreestoreIndex * B) := by
    rw [Nat.pow_add]; ring
  rw [h3]
  calc 16 * (g._freestoreRange + 1) ≤ 16 * 2 ^ g._freestoreRange := Nat.mul_le_mul_left _ h1
    _ = 2 ^ g._freestoreRange * 16 := Nat.mul_comm _ _
    _ ≤ 2 ^ g._freestoreRange * (2 ^ g._minFreestoreIndex * B) :=
        Nat.mul_le_mul_left _ (by omega)

/-- The bucket chosen for the head array: `s ≤ R` and the `R + 1` head records
fit into a block of bucket `s`. -/
theorem storeIndex_spec (g : Globals) (A B L : Nat) (hp : Params g A B L) :
    getAdjustedMinFreestoreIndexForRequestedSize g (uintMul 16 g._freestoreRange)
        ≤ g._freestoreRange ∧
      16 * (g._freestoreRange + 1) ≤ getSizeForAdjustedFreestoreIndex g
        (getAdjustedMinFreestoreIndexForRequestedSize g (uintMul 16 g._freestoreRange)) := by
  have hR31 : g._minFreestoreIndex + g._freestoreRange < 32 :=
    exp_lt_of_pow_mul_lt B _ hp.B1 (sz_lt g A B L hp _ (le_refl _))
  have hR1 := hp.R1
  have hcs : uintAdd (uintMul 16 g._freestoreRange) g._headerSize = 16 * (g._freestoreRange + 1) := by
    unfold uintAdd uintMul
    rw [hp.hh, Nat.mod_eq_of_lt (by omega), Nat.mod_eq_of_lt (by omega)]
    ring
  have hb := heads_bound g A B L hp
  have htop := sz_lt g A B L hp _ (le_refl g._freestoreRange)
  unfold getAdjustedMinFreestoreIndexForRequestedSize
  rw [hcs]
  unfold getFreestoreIndexForSize
  rw [hp.hB]
  split
  · rename_i hlt
    have hspec := ceilLog_spec (16 * (g._freestoreRange + 1)) B hp.B1 (by omega)
    have hle := ceilLog_le (16 * (g._freestoreRange + 1)) B _ hp.B1 (by omega) hb
    have hge : g._minFreestoreIndex ≤ ceilLog (16 * (g._freestoreRange + 1)) B := by
      rcases hp.kmin_min with h0 | h0
      · omega
      · by_contra hcon
        have := pow_mul_mono B (ceilLog (16 * (g._freestoreRange + 1)) B)
          (g._minFreestoreIndex - 1) (by omega)
        omega
    rw [Nat.mod_eq_of_lt (by omega), uintSub_exact _ _ hge (by omega)]
    refine ⟨by omega, ?_⟩
    have hk : g._minFreestoreIndex + (ceilLog (16 * (g._freestoreRange + 1)) B
        - g._minFreestoreIndex) = ceilLog (16 * (g._freestoreRange + 1)) B := by omega
    have hlt2 : 2 ^ ceilLog (16 * (g._freestoreRange + 1)) B * B < 2 ^ 32 := by
      have := pow_mul_mono B _ _ hle
      omega
    rw [sz_eq g A B L hp _ (by rw [hk]; exact hlt2), hk]
    exact hspec.1
  · rename_i hge
    have hk0 : g._minFreestoreIndex = 0 := by
      rcases hp.kmin_min with h0 | h0
      · exact h0
      · have : 2 ^ 0 * B ≤ 2 ^ (g._minFreestoreIndex - 1) * B := pow_mul_mono B _ _ (by omega)
        omega
    rw [hk0]
    have : uintSub 0 0 = 0 := by unfold uintSub; simp
    rw [this]
    refine ⟨by omega, ?_⟩
    rw [sz_eq g A B L hp 0 (sz_lt g A B L hp 0 (by omega)), hk0]
    simp only [Nat.add_zero, Nat.pow_zero, Nat.one_mul]
    omega

theorem goodGlobals_of_params (g : Globals) (A B L : Nat) (hp : Params g A B L)
    (hs : g._freestoreIndex =
      getAdjustedMinFreestoreIndexForRequestedSize g (uintMul 16 g._freestoreRange))
    (hi : Nat) (h1 : A + getSizeForAdjustedFreestoreIndex g g._freestoreRange ≤ hi)
    (h2 : hi ≤ A + L) : GoodGlobals g hi := by
  obtain ⟨s1, s2⟩ := storeIndex_spec g A B L hp
  rw [← hs] at s1 s2
  have hR31 : g._minFreestoreIndex + g._freestoreRange < 32 :=
    exp_lt_of_pow_mul_lt B _ hp.B1 (sz_lt g A B L hp _ (le_refl _))
  have hmono := sz_mono g A B L hp _ _ s1 (le_refl _)
  have h0 := sz_zero_gt g A B L hp
  have hm0 := sz_mono g A B L hp 0 g._freestoreIndex (by omega) s1
  obtain ⟨t1, t2⟩ := sz_top g A B L hp
  have hL := hp.L16
  have hAL := hp.AL
  exact {
    hdr := hp.hh
    base_ne := by rw [hp.hA]; exact hp.A0
    arena := by rw [hp.hA, hp.hL]; omega
    range_lt := by omega
    size0 := h0
    double := fun i hi2 => sz_double g A B L hp i hi2
    store_le := s1
    heads_fit := s2
    lo_le := by rw [hp.hA]; omega
    hi_le := by rw [hp.hA, hp.hL]; exact h2
    top := by rw [hp.hA]; omega }

/-- The bucket chosen by one round of the tail tiling is within range and its
block fits into the space left. -/
theorem tail_index (g : Globals) (A B L : Nat) (hp : Params g A B L) (space : Nat)
    (h1 : g._minFreestoreIndexMemorySize < space)
    (h2 : space + getSizeForAdjustedFreestoreIndex g g._freestoreRange ≤ L) :
    (if getSizeForAdjustedFreestoreIndex g (getAdjustedFreestoreIndexForSize g space) > space
      then uintSub (getAdjustedFreestoreIndexForSize g space) 1
      else getAdjustedFreestoreIndexForSize g space) ≤ g._freestoreRange ∧
    getSizeForAdjustedFreestoreIndex g
      (if getSizeForAdjustedFreestoreIndex g (getAdjustedFreestoreIndexForSize g space) > space
        then uintSub (getAdjustedFreestoreIndexForSize g space) 1
        else getAdjustedFreestoreIndexForSize g space) ≤ space := by
  have hL32 := hp.L32
  have hL16 := hp.L16
  have hR31 : g._minFreestoreIndex + g._freestoreRange < 32 :=
    exp_lt_of_pow_mul_lt B _ hp.B1 (sz_lt g A B L hp _ (le_refl _))
  obtain ⟨t1, t2⟩ := sz_top g A B L hp
  have hszR := sz_eq g A B L hp _ (sz_lt g A B L hp _ (le_refl g._freestoreRange))
  have hgt := hp.kmin_gt
  have hmin := hp.hminsz
  have hBs : B < space := by
    have : 2 ^ 0 * B ≤ 2 ^ g._minFreestoreIndex * B := pow_mul_mono B _ _ (by omega)
    omega
  have hspec := ceilLog_spec space B hp.B1 (by omega)
  have hmono0 := sz_mono g A B L hp 0 g._freestoreRange (by omega) (le_refl _)
  have hsz0 := sz_zero_gt g A B L hp
  -- the ceiling logarithm lies in `(kmin, kmax + 1]`
  have hc1 : g._minFreestoreIndex < ceilLog space B := by
    by_contra hcon
    have := pow_mul_mono B (ceilLog space B) g._minFreestoreIndex (by omega)
    omega
  have hc2 : ceilLog space B ≤ g._minFreestoreIndex + g._freestoreRange + 1 := by
    apply ceilLog_le space B _ hp.B1 (by omega)
    rw [pow_mul_succ, ← hszR]
    omega
  have hidx : getAdjustedFreestoreIndexForSize g space = ceilLog space B - g._minFreestoreIndex := by
    unfold getAdjustedFreestoreIndexForSize getFreestoreIndexForSize
    rw [if_pos h1, hp.hB, if_pos hBs, Nat.mod_eq_of_lt (by omega),
      uintSub_exact _ _ (by omega) (by omega)]
  have hk : g._minFreestoreIndex + (ceilLog space B - g._minFreestoreIndex) = ceilLog space B := by
    omega
  have hlow := hspec.2 (ceilLog space B - 1) (by omega)
  have hc32 : 2 ^ ceilLog space B * B < 2 ^ 32 := by
    by_cases hcase : ceilLog space B ≤ g._minFreestoreIndex + g._freestoreRange
    · have := pow_mul_mono B _ _ hcase
      omega
    · have he : ceilLog space B = g._minFreestoreIndex + g._freestoreRange + 1 := by omega
      rw [he] at hlow ⊢
      simp only [Nat.add_sub_cancel] at hlow
      rw [pow_mul_succ]
      omega
  have hszc : getSizeForAdjustedFreestoreIndex g (ceilLog space B - g._minFreestoreIndex) =
      2 ^ ceilLog space B * B := by
    rw [sz_eq g A B L hp _ (by rw [hk]; exact hc32), hk]
  rw [hidx, hszc]
  split
  · rename_i hbig
    rw [uintSub_exact _ _ (by omega) (by omega)]
    have hk2 : g._minFreestoreIndex + (ceilLog space B - g._minFreestoreIndex - 1) =
        ceilLog space B - 1 := by omega
    refine ⟨by omega, ?_⟩
    rw [sz_eq g A B L hp _ (by rw [hk2]; omega), hk2]
    omega
  · rename_i hsmall
    refine ⟨?_, by rw [hszc]; omega⟩
    by_contra hcon
    have he : ceilLog space B = g._minFreestoreIndex + g._freestoreRange + 1 := by omega
    rw [he, pow_mul_succ] at hsmall
    omega

theorem ptrAdd_exact (p n : Nat) (h : p + n < 2 ^ 64) : ptrAdd p n = p + n := by
  unfold ptrAdd
  exact Nat.mod_eq_of_lt h

/-- Source function `resetFreestore`: the head records `i .. i + count - 1`
are zeroed and nothing else is written. -/
theorem reset_spec (A : Nat) (hA : A ≠ 0) :
    ∀ (count : Nat) (m : Mem) (i : Nat) (m1 : Mem), A + 16 * (i + count) < 2 ^ 64 →
      resetFreestoreLoop A count m i = some m1 →
      (∀ j, i ≤ j → j < i + count → m1 (A + 16 * j) = 0 ∧ m1 (A + 16 * j + 8) = 0) ∧
      (∀ x, (x < A + 16 * i ∨ A + 16 * (i + count) ≤ x) → m1 x = m x) := by
  intro count
  induction count with
  | zero =>
    intro m i m1 _ h
    simp only [resetFreestoreLoop, Option.some.injEq] at h
    subst h
    exact ⟨fun j h1 h2 => by omega, fun _ _ => rfl⟩
  | succ n ih =>
    intro m i m1 hb h
    unfold resetFreestoreLoop at h
    unfold sizeofFreestoreBlock at h
    rw [ptrAdd_exact A (16 * i) (by omega)] at h
    obtain ⟨ma, hma, h⟩ := bind_some h
    obtain ⟨mb, hmb, h⟩ := bind_some h
    unfold writeAddress at hma
    unfold writeNextBlock at hmb
    rw [if_neg (by omega)] at hma hmb
    simp only [Nat.zero_mod, Option.some.injEq] at hma hmb
    subst hma hmb
    obtain ⟨i1, i2⟩ := ih _ (i + 1) m1 (by omega) h
    constructor
    · intro j h1 h2
      by_cases hj : j = i
      · subst hj
        rw [i2 _ (by omega), i2 _ (by omega), store_other _ _ _ _ (by omega), store_same,
          store_same]
        exact ⟨rfl, rfl⟩
      · exact i1 j (by omega) (by omega)
    · intro x hx
      rw [i2 x (by omega), store_other _ _ _ _ (by omega), store_other _ _ _ _ (by omega)]

/-- The spine loop of `protectFreestoreHeader`: the head of each bucket `j`
with `s ≤ j < i` names the block at `A + size_of(j)`; nothing else is written. -/
theorem spine_spec (g : Globals) (A B L : Nat) (hp : Params g A B L) (s : Nat) :
    ∀ (i : Nat) (m m1 : Mem) (c : Nat), i ≤ g._freestoreRange →
      protectSplitLoop g A s i m A = some (m1, c) →
      (∀ j, s ≤ j → j < i →
        m1 (A + 16 * j) = A + getSizeForAdjustedFreestoreIndex g j ∧ m1 (A + 16 * j + 8) = 0) ∧
      (∀ x, (x < A + 16 * s ∨ A + 16 * i ≤ x) → m1 x = m x) := by
  have hR31 : g._minFreestoreIndex + g._freestoreRange < 32 :=
    exp_lt_of_pow_mul_lt B _ hp.B1 (sz_lt g A B L hp _ (le_refl _))
  obtain ⟨t1, t2⟩ := sz_top g A B L hp
  have hAL := hp.AL
  have hL16 := hp.L16
  have hA0 := hp.A0
  have hb := heads_bound g A B L hp
  have hszR := sz_eq g A B L hp _ (sz_lt g A B L hp _ (le_refl g._freestoreRange))
  intro i
  induction i with
  | zero =>
    intro m m1 c _ h
    simp only [protectSplitLoop, Option.some.injEq, Prod.mk.injEq] at h
    rw [← h.1]
    exact ⟨fun j h1 h2 => by omega, fun _ _ => rfl⟩
  | succ n ih =>
    intro m m1 c hn h
    unfold protectSplitLoop at h
    split at h
    · rename_i hgt
      have hd := sz_double g A B L hp n (by omega)
      have hmono := sz_mono g A B L hp n g._freestoreRange (by omega) (le_refl _)
      have hright : subAddressForAdjustedIndex g A (n + 1) side.right =
          A + getSizeForAdjustedFreestoreIndex g n := by
        unfold subAddressForAdjustedIndex
        simp only [↓reduceIte, hd]
        rw [Nat.mul_div_cancel_left _ (by norm_num)]
        exact ptrAdd_exact _ _ (by omega)
      have hleft : subAddressForAdjustedIndex g A (n + 1) side.left = A := by
        unfold subAddressForAdjustedIndex
        simp
      dsimp only at h
      unfold sizeofFreestoreBlock at h
      rw [hright, hleft, ptrAdd_exact A (16 * n) (by omega)] at h
      obtain ⟨ma, hma, h⟩ := bind_some h
      obtain ⟨mb, hmb, h⟩ := bind_some h
      unfold writeAddress at hma
      unfold writeNextBlock at hmb
      rw [if_neg (by omega)] at hma hmb
      rw [Nat.mod_eq_of_lt (by omega)] at hma
      simp only [Nat.zero_mod, Option.some.injEq] at hma hmb
      subst hma hmb
      obtain ⟨i1, i2⟩ := ih _ m1 c (by omega) h
      constructor
      · intro j h1 h2
        by_cases hj : j = n
        · subst hj
          rw [i2 _ (by omega), i2 _ (by omega), store_other _ _ _ _ (by omega), store_same,
            store_same]
          exact ⟨rfl, rfl⟩
        · exact i1 j h1 (by omega)
      · intro x hx
        rw [i2 x (by omega), store_other _ _ _ _ (by omega), store_other _ _ _ _ (by omega)]
    · rename_i hle
      simp only [Option.some.injEq, Prod.mk.injEq] at h
      rw [← h.1]
      exact ⟨fun j h1 h2 => by omega, fun _ _ => rfl⟩

theorem spineBlocks_of_le (g : Globals) (s i : Nat) (h : i ≤ s) : spineBlocks g s i = [] := by
  cases i with
  | zero => rfl
  | succ n =>
    unfold spineBlocks
    rw [if_neg (by omega)]

theorem spineBlocks_succ (g : Globals) (s n : Nat) (h : s ≤ n) :
    spineBlocks g s (n + 1) =
      ⟨g._freestoreAddress + getSizeForAdjustedFreestoreIndex g n, n, true⟩ ::
        spineBlocks g s n := by
  rw [spineBlocks, if_pos h]

theorem spineBlocks_mem (g : Globals) (s : Nat) : ∀ (i : Nat) (b : Blk), b ∈ spineBlocks g s i →
    b.free = true ∧ s ≤ b.idx ∧ b.idx < i ∧
      b.base = g._freestoreAddress + getSizeForAdjustedFreestoreIndex g b.idx := by
  intro i
  induction i with
  | zero => intro b hb; simp [spineBlocks] at hb
  | succ n ih =>
    intro b hb
    by_cases h : s ≤ n
    · rw [spineBlocks_succ g s n h] at hb
      rcases List.mem_cons.1 hb with e | e
      · subst e; exact ⟨rfl, h, by simp, rfl⟩
      · obtain ⟨h1, h2, h3, h4⟩ := ih b e
        exact ⟨h1, h2, by omega, h4⟩
    · rw [spineBlocks_of_le g s (n + 1) (by omega)] at hb
      simp at hb

theorem spineBlocks_bucket (g : Globals) (s : Nat) : ∀ (i j : Nat),
    bucketOf (spineBlocks g s i) j =
      if s ≤ j ∧ j < i then [g._freestoreAddress + getSizeForAdjustedFreestoreIndex g j]
      else [] := by
  intro i
  induction i with
  | zero => intro j; simp [spineBlocks, bucketOf]
  | succ n ih =>
    intro j
    by_cases h : s ≤ n
    · rw [spineBlocks_succ g s n h]
      have hc : bucketOf (⟨g._freestoreAddress + getSizeForAdjustedFreestoreIndex g n, n, true⟩
          :: spineBlocks g s n) j =
          bucketOf [⟨g._freestoreAddress + getSizeForAdjustedFreestoreIndex g n, n, true⟩] j
            ++ bucketOf (spineBlocks g s n) j := by
        rw [← bucketOf_append]; rfl
      rw [hc, ih j]
      by_cases hjn : j = n
      · subst hjn
        rw [bucketOf_single_same, if_neg (by omega), if_pos (by omega)]
        rfl
      · rw [bucketOf_single_other _ _ _ _ (Or.inr (fun e => hjn e.symm))]
        by_cases hj : s ≤ j ∧ j < n
        · rw [if_pos hj, if_pos (by omega)]; rfl
        · rw [if_neg hj, if_neg (by omega)]; rfl
    · rw [spineBlocks_of_le g s (n + 1) (by omega), if_neg (by omega)]
      rfl

theorem spineBlocks_count (g : Globals) (A B L : Nat) (hp : Params g A B L) (s : Nat) (x : Nat) :
    ∀ i, s ≤ i → i ≤ g._freestoreRange →
      (spineBlocks g s i).countP (covers g x) =
        if A + getSizeForAdjustedFreestoreIndex g s ≤ x ∧
          x < A + getSizeForAdjustedFreestoreIndex g i then 1 else 0 := by
  intro i
  induction i with
  | zero =>
    intro h _
    have : s = 0 := by omega
    subst this
    rw [spineBlocks, if_neg (by omega)]
    rfl
  | succ n ih =>
    intro h1 h2
    by_cases h : s ≤ n
    · rw [spineBlocks_succ g s n h, List.countP_cons, ih h (by omega)]
      have hd := sz_double g A B L hp n (by omega)
      have hm := sz_mono g A B L hp s n h (by omega)
      unfold covers
      simp only [decide_eq_true_eq, hp.hA, hd]
      split <;> split <;> split <;> omega
    · have : s = n + 1 := by omega
      subst this
      rw [spineBlocks_of_le g _ _ (le_refl _), if_neg (by omega)]
      rfl

/-- After the spine loop the memory represents the spine blocks. -/
theorem spine_rep (g : Globals) (A B L : Nat) (hp : Params g A B L) (s : Nat) (m : Mem)
    (hz : ∀ j, j ≤ g._freestoreRange → (s ≤ j ∧ j < g._freestoreRange) ∨
      (m (A + 16 * j) = 0 ∧ m (A + 16 * j + 8) = 0))
    (hs : ∀ j, s ≤ j → j < g._freestoreRange →
      m (A + 16 * j) = A + getSizeForAdjustedFreestoreIndex g j ∧ m (A + 16 * j + 8) = 0) :
    Rep g m (spineBlocks g s g._freestoreRange) := by
  obtain ⟨t1, t2⟩ := sz_top g A B L hp
  have hAL := hp.AL
  have hL16 := hp.L16
  have hA0 := hp.A0
  constructor
  · intro j hj
    rw [spineBlocks_bucket, hp.hA]
    by_cases hc : s ≤ j ∧ j < g._freestoreRange
    · rw [if_pos hc]
      obtain ⟨e1, e2⟩ := hs j hc.1 hc.2
      have hm := sz_mono g A B L hp j g._freestoreRange (by omega) (le_refl _)
      refine ⟨?_, by omega, ?_⟩
      · rw [e1]; exact Nat.mod_eq_of_lt (by omega)
      · show m (A + 16 * j + 8) % 2 ^ 64 = 0
        rw [e2]; rfl
    · rw [if_neg hc]
      rcases hz j hj with e | e
      · exact absurd e hc
      · exact ⟨by rw [e.1]; rfl, by rw [e.2]; rfl⟩
  · intro b hb hbf
    have := (spineBlocks_mem g s _ b hb).1
    rw [hbf] at this
    simp at this

theorem geo_extend (g : Globals) (hi : Nat) (bs : List Blk) (j : Nat) (f : Bool)
    (hgeo : Geo g hi bs) (hj : j ≤ g._freestoreRange)
    (hlo : g._freestoreAddress + getSizeForAdjustedFreestoreIndex g g._freestoreIndex ≤ hi) :
    Geo g (hi + getSizeForAdjustedFreestoreIndex g j) (bs ++ [⟨hi, j, f⟩]) := by
  constructor
  · intro b hb
    rcases List.mem_append.1 hb with e | e
    · exact hgeo.1 b e
    · simp only [List.mem_singleton] at e
      subst e
      exact hj
  · intro x
    rw [List.countP_append, hgeo.2 x, List.countP_singleton]
    unfold covers
    simp only [decide_eq_true_eq]
    split <;> split <;> split <;> omega

/-- The tail loop of `protectFreestoreHeader` extends the tiling block by
block up to `A + L - leftover`. -/
theorem tail_spec (g : Globals) (A B L : Nat) (hp : Params g A B L)
    (hs : g._freestoreIndex =
      getAdjustedMinFreestoreIndexForRequestedSize g (uintMul 16 g._freestoreRange)) :
    ∀ (fuel : Nat) (m : Mem) (cur space : Nat) (bs : List Blk) (m1 : Mem) (lo : Nat),
      cur + space = A + L → A + getSizeForAdjustedFreestoreIndex g g._freestoreRange ≤ cur →
      Geo g cur bs → Rep g m bs → (∀ b ∈ bs, b.free = true) →
      protectTailLoop g fuel m cur space = some (m1, lo) →
      lo ≤ space ∧ ∃ bs1, Geo g (A + L - lo) bs1 ∧ Rep g m1 bs1 ∧ ∀ b ∈ bs1, b.free = true := by
  have hAL := hp.AL
  have hL32 := hp.L32
  intro fuel
  induction fuel with
  | zero => intro m cur space bs m1 lo _ _ _ _ _ h; simp [protectTailLoop] at h
  | succ f ih =>
    intro m cur space bs m1 lo hcs hcur hgeo hrep hfree h
    unfold protectTailLoop at h
    split at h
    · rename_i hgt
      dsimp only at h
      obtain ⟨hj, hszj⟩ := tail_index g A B L hp space hgt (by omega)
      generalize (if getSizeForAdjustedFreestoreIndex g (getAdjustedFreestoreIndexForSize g space)
          > space then uintSub (getAdjustedFreestoreIndexForSize g space) 1
          else getAdjustedFreestoreIndexForSize g space) = j at h hj hszj
      obtain ⟨⟨ma, ra⟩, hadd, h⟩ := bind_some h
      dsimp only at h
      have hg := goodGlobals_of_params g A B L hp hs cur hcur (by omega)
      have hsz := size_ge g cur hg j hj
      have hsep := geo_sep g cur hg bs hgeo
      have hfit := hg.heads_fit
      have hlo := hg.lo_le
      have hA := hp.hA
      obtain ⟨_, hrepa, _⟩ := g_add g cur bs m f j cur ma ra hg hsep hrep hj (by omega) (by omega)
        (by
          intro b hb
          have := (geo_bounds g cur hg bs hgeo b hb).2
          have := size_ge g cur hg b.idx (hgeo.1 b hb)
          unfold Apart
          omega) hadd
      rw [ptrAdd_exact cur _ (by omega), uintSub_exact space _ hszj (by omega)] at h
      obtain ⟨i1, bs1, i2, i3, i4⟩ := ih ma _ _ (bs ++ [⟨cur, j, true⟩]) m1 lo (by omega) (by omega)
        (geo_extend g cur bs j true hgeo hj hlo) hrepa (by
          intro b hb
          rcases List.mem_append.1 hb with e | e
          · exact hfree b e
          · simp only [List.mem_singleton] at e
            subst e; rfl) h
      exact ⟨by omega, bs1, i2, i3, i4⟩
    · simp only [Option.some.injEq, Prod.mk.injEq] at h
      obtain ⟨e1, e2⟩ := h
      subst e1 e2
      refine ⟨le_refl _, bs, ?_, hrep, hfree⟩
      have : A + L - space = cur := by omega
      rw [this]
      exact hgeo

/-- Source function `minFreestoreIndexForSize` for header size 16: `kmin` is
the least index whose block is larger than the header. -/
theorem kmin_spec (g : Globals) (B : Nat) (hB : g._basic_block_size = B) (hB1 : 1 ≤ B)
    (hB32 : B < 2 ^ 32) :
    16 < 2 ^ minFreestoreIndexForSize g B 16 * B ∧
      (minFreestoreIndexForSize g B 16 = 0 ∨ 2 ^ (minFreestoreIndexForSize g B 16 - 1) * B ≤ 16) := by
  unfold minFreestoreIndexForSize
  rw [hB]
  by_cases hlt : 16 > B
  · rw [if_pos hlt]
    have hspec := ceilLog_spec 16 B hB1 (by norm_num)
    have hle : ceilLog 16 B ≤ 4 := ceilLog_le 16 B 4 hB1 (by norm_num) (by omega)
    have hpos : 1 ≤ ceilLog 16 B := by
      by_contra hcon
      have h0 : ceilLog 16 B = 0 := by omega
      have := hspec.1
      rw [h0] at this
      omega
    have hlow := hspec.2 (ceilLog 16 B - 1) (by omega)
    have hstep : 2 ^ ceilLog 16 B * B = 2 * (2 ^ (ceilLog 16 B - 1) * B) := by
      have : ceilLog 16 B = (ceilLog 16 B - 1) + 1 := by omega
      rw [this, pow_mul_succ]
      simp
    rw [Nat.mod_eq_of_lt (by omega : ceilLog 16 B < 2 ^ 32)]
    dsimp only
    rw [size_formula g _ (by rw [hB]; exact hB1) (by rw [hB]; omega), hB]
    split
    · rename_i hfit
      unfold uintAdd
      rw [Nat.mod_eq_of_lt (by omega)]
      simp only [Nat.add_sub_cancel]
      rw [pow_mul_succ]
      exact ⟨by omega, Or.inr hfit⟩
    · rename_i hfit
      exact ⟨by omega, Or.inr (by omega)⟩
  · rw [if_neg hlt]
    dsimp only
    rw [size_formula g 0 (by rw [hB]; exact hB1) (by rw [hB]; simpa using hB32), hB]
    simp only [Nat.pow_zero, Nat.one_mul]
    split
    · unfold uintAdd
      simp only [Nat.zero_add]
      norm_num
      omega
    · simp only [Nat.pow_zero, Nat.one_mul, true_or, and_true]
      omega

/-- Source function `protectFreestoreHeader` on zeroed heads: it sets the
store index and publishes a tiling of `[A + size_of(s), A + L - leftover)` by
free blocks. -/
theorem protect_spec (g : Globals) (A B L : Nat) (hp : Params g A B L) (fuel : Nat) (m : Mem)
    (g1 : Globals) (m1 : Mem) (lo : Nat)
    (hz : ∀ j, j ≤ g._freestoreRange → m (A + 16 * j) = 0 ∧ m (A + 16 * j + 8) = 0)
    (h : protectFreestoreHeader g m fuel A g._minFreestoreIndex
      (g._minFreestoreIndex + g._freestoreRange) = some (g1, m1, lo)) :
    Params g1 A B L ∧
      g1._freestoreIndex =
        getAdjustedMinFreestoreIndexForRequestedSize g1 (uintMul 16 g1._freestoreRange) ∧
      lo + getSizeForAdjustedFreestoreIndex g1 g1._freestoreRange ≤ L ∧
      ∃ bs, Geo g1 (A + L - lo) bs ∧ Rep g1 m1 bs ∧ ∀ b ∈ bs, b.free = true := by
  have hk := exp_lt_of_pow_mul_lt B _ hp.B1 (sz_lt g A B L hp g._freestoreRange (le_refl _))
  have hR : uintSub (g._minFreestoreIndex + g._freestoreRange) g._minFreestoreIndex
      = g._freestoreRange := by
    rw [uintSub_exact _ _ (by omega) (by omega)]; omega
  have hp1 : Params { g with _freestoreIndex :=
      getAdjustedMinFreestoreIndexForRequestedSize g (uintMul 16 g._freestoreRange) } A B L := by
    obtain ⟨a1, a2, a3, a4, a5, a6, a7, a8, a9, a10, a11, a12, a13, a14, a15, a16⟩ := hp
    exact ⟨a1, a2, a3, a4, a5, a6, a7, a8, a9, a10, a11, a12, a13, a14, a15, a16⟩
  generalize hgd : ({ g with _freestoreIndex :=
      getAdjustedMinFreestoreIndexForRequestedSize g (uintMul 16 g._freestoreRange) } : Globals)
      = gd at hp1
  have hs : gd._freestoreIndex =
      getAdjustedMinFreestoreIndexForRequestedSize gd (uintMul 16 gd._freestoreRange) := by
    rw [← hgd]; rfl
  have hRd : gd._freestoreRange = g._freestoreRange := by rw [← hgd]
  have hkd : gd._minFreestoreIndex = g._minFreestoreIndex := by rw [← hgd]
  have hszR := sz_eq gd A B L hp1 gd._freestoreRange (sz_lt gd A B L hp1 _ (le_refl _))
  have htop := sz_top gd A B L hp1
  have hL16 := hp1.L16
  have hL32 := hp1.L32
  have hAL := hp1.AL
  have hst := storeIndex_spec gd A B L hp1
  rw [← hs] at hst
  unfold protectFreestoreHeader at h
  obtain ⟨⟨ms, c⟩, hsplit, h⟩ := bind_some h
  have hsplit1 : protectSplitLoop gd A gd._freestoreIndex gd._freestoreRange m A
      = some (ms, c) := by
    rw [hR] at hsplit
    rw [← hgd]
    exact hsplit
  have hcond : getSizeForFreestoreIndex gd (gd._minFreestoreIndex + gd._freestoreRange)
      < gd._length := by
    rw [size_formula gd _ (by rw [hp1.hB]; exact hp1.B1)
      (by rw [hp1.hB]; exact sz_lt gd A B L hp1 _ (le_refl _)), hp1.hB, hp1.hL, ← hszR]
    omega
  have hmaxeq : getSizeForFreestoreIndex gd (gd._minFreestoreIndex + gd._freestoreRange)
      = getSizeForAdjustedFreestoreIndex gd gd._freestoreRange := by
    rw [size_formula gd _ (by rw [hp1.hB]; exact hp1.B1)
      (by rw [hp1.hB]; exact sz_lt gd A B L hp1 _ (le_refl _)), hp1.hB, ← hszR]
  have hmaxsz : gd._maxFreestoreIndexMemorySize
      = getSizeForAdjustedFreestoreIndex gd gd._freestoreRange := by
    rw [hp1.hmaxsz, hszR]
  have h2 : (if getSizeForFreestoreIndex gd (gd._minFreestoreIndex + gd._freestoreRange)
        < gd._length then
      (protectTailLoop gd fuel ms (ptrAdd A gd._maxFreestoreIndexMemorySize)
        (uintSub gd._length
          (getSizeForFreestoreIndex gd (gd._minFreestoreIndex + gd._freestoreRange)))) >>=
        (fun r => some (gd, r.1, r.2))
      else some (gd, ms, 0)) = some (g1, m1, lo) := by
    rw [hR] at h
    rw [← hgd]
    exact h
  rw [if_pos hcond] at h2
  obtain ⟨⟨mt, sp⟩, htail, h2⟩ := bind_some h2
  simp only [Option.some.injEq, Prod.mk.injEq] at h2
  obtain ⟨e1, e2, e3⟩ := h2
  subst e1 e2 e3
  rw [hmaxsz, hmaxeq, hp1.hL, ptrAdd_exact _ _ (by omega), uintSub_exact _ _ (by omega) hL32]
    at htail
  obtain ⟨sp1, sp2⟩ := spine_spec gd A B L hp1 gd._freestoreIndex gd._freestoreRange m ms c
    (le_refl _) hsplit1
  have hrep0 : Rep gd ms (spineBlocks gd gd._freestoreIndex gd._freestoreRange) := by
    apply spine_rep gd A B L hp1 gd._freestoreIndex ms
    · intro j hj
      by_cases hc : gd._freestoreIndex ≤ j ∧ j < gd._freestoreRange
      · exact Or.inl hc
      · right
        have hzj := hz j (by omega)
        have e1 : ms (A + 16 * j) = m (A + 16 * j) := sp2 _ (by omega)
        have e2 : ms (A + 16 * j + 8) = m (A + 16 * j + 8) := sp2 _ (by omega)
        rw [e1, e2]
        exact hzj
    · exact sp1
  have hgeo0 : Geo gd (A + getSizeForAdjustedFreestoreIndex gd gd._freestoreRange)
      (spineBlocks gd gd._freestoreIndex gd._freestoreRange) := by
    constructor
    · intro b hb
      have := spineBlocks_mem gd _ _ b hb
      omega
    · intro x
      rw [spineBlocks_count gd A B L hp1 _ x _ hst.1 (le_refl _), hp1.hA]
  obtain ⟨t1, bs1, t2, t3, t4⟩ := tail_spec gd A B L hp1 hs fuel ms _ _ _ mt sp (by omega)
    (le_refl _) hgeo0 hrep0 (fun b hb => (spineBlocks_mem gd _ _ b hb).1) htail
  exact ⟨hp1, hs, by omega, bs1, t2, t3, t4⟩

/-- Source function `initFreestoreHeader` for `kmin < kmax`: it clears the
heads, sets the range and its size, and tiles the arena. -/
theorem initHeader_spec (g : Globals) (A B L kmax fuel : Nat) (m : Mem) (g1 : Globals)
    (m1 : Mem) (fa lo : Nat)
    (h : initFreestoreHeader g m fuel A g._minFreestoreIndex kmax = some (g1, m1, fa, lo))
    (hB : g._basic_block_size = B) (hL : g._length = L) (hh : g._headerSize = 16)
    (hA : g._freestoreAddress = A)
    (hminsz : g._minFreestoreIndexMemorySize = 2 ^ g._minFreestoreIndex * B)
    (hB1 : 1 ≤ B) (hL16 : 16 ≤ L) (hL32 : L < 2 ^ 32) (hA0 : A ≠ 0) (hAL : A + L < 2 ^ 64)
    (hgt : 16 < 2 ^ g._minFreestoreIndex * B)
    (hmin : g._minFreestoreIndex = 0 ∨ 2 ^ (g._minFreestoreIndex - 1) * B ≤ 16)
    (hlt : g._minFreestoreIndex < kmax) (hle : 2 ^ kmax * B ≤ L - 16)
    (hmax : L - 16 < 2 ^ (kmax + 1) * B) :
    fa = A ∧ Params g1 A B L ∧
      g1._freestoreIndex =
        getAdjustedMinFreestoreIndexForRequestedSize g1 (uintMul 16 g1._freestoreRange) ∧
      lo + getSizeForAdjustedFreestoreIndex g1 g1._freestoreRange ≤ L ∧
      ∃ bs, Geo g1 (A + L - lo) bs ∧ Rep g1 m1 bs ∧ ∀ b ∈ bs, b.free = true := by
  have hk32 : kmax < 32 := exp_lt_of_pow_mul_lt B kmax hB1 (by omega)
  have hR : uintSub kmax g._minFreestoreIndex = kmax - g._minFreestoreIndex :=
    uintSub_exact _ _ (by omega) (by omega)
  have hsum : g._minFreestoreIndex + (kmax - g._minFreestoreIndex) = kmax := by omega
  unfold initFreestoreHeader at h
  rw [hR] at h
  dsimp only at h
  rw [if_neg (by omega)] at h
  obtain ⟨mr, hreset, h⟩ := bind_some h
  obtain ⟨⟨g3, m2, lo1⟩, hprot, h⟩ := bind_some h
  simp only [Option.some.injEq, Prod.mk.injEq] at h
  obtain ⟨e1, e2, e3, e4⟩ := h
  subst e1 e2 e3 e4
  have hmaxsz : getSizeForAdjustedFreestoreIndex
      { g with _freestoreRange := kmax - g._minFreestoreIndex } (kmax - g._minFreestoreIndex)
      = 2 ^ (g._minFreestoreIndex + (kmax - g._minFreestoreIndex)) * B := by
    unfold getSizeForAdjustedFreestoreIndex uintAdd
    dsimp only
    rw [Nat.mod_eq_of_lt (by omega), Nat.add_comm,
      size_formula _ _ (by dsimp only; omega) (by dsimp only; rw [hsum, hB]; omega)]
    dsimp only
    rw [hB]
  have hp : Params
      { g with
        _freestoreRange := kmax - g._minFreestoreIndex,
        _maxFreestoreIndexMemorySize := getSizeForAdjustedFreestoreIndex
          { g with _freestoreRange := kmax - g._minFreestoreIndex }
          (kmax - g._minFreestoreIndex) } A B L := by
    refine ⟨hB, hL, hh, hA, hminsz, hmaxsz, hB1, hL16, hL32, hA0, hAL, hgt, hmin, ?_, ?_, ?_⟩
    · show 1 ≤ kmax - g._minFreestoreIndex
      omega
    · show 2 ^ (g._minFreestoreIndex + (kmax - g._minFreestoreIndex)) * B ≤ L - 16
      rw [hsum]; exact hle
    · show L - 16 < 2 ^ (g._minFreestoreIndex + (kmax - g._minFreestoreIndex) + 1) * B
      rw [hsum]; exact hmax
  have hreset1 : resetFreestoreLoop A (kmax - g._minFreestoreIndex + 1) m 0 = some mr := hreset
  have hbound := heads_bound _ A B L hp
  have hz := (reset_spec A hA0 _ m 0 mr (by
    have e : 2 ^ (g._minFreestoreIndex + (kmax - g._minFreestoreIndex)) * B ≤ L - 16 := by
      rw [hsum]; exact hle
    have hb : 16 * (kmax - g._minFreestoreIndex + 1)
        ≤ 2 ^ (g._minFreestoreIndex + (kmax - g._minFreestoreIndex)) * B := hbound
    omega) hreset1).1
  obtain ⟨r1, r2, r3, r4⟩ := protect_spec _ A B L hp fuel mr g3 m2 lo1 (by
    intro j hj
    exact hz j (Nat.zero_le _) (by
      have : j ≤ kmax - g._minFreestoreIndex := hj
      omega)) (by
    show protectFreestoreHeader _ mr fuel A g._minFreestoreIndex
      (g._minFreestoreIndex + (kmax - g._minFreestoreIndex)) = some (g3, m2, lo1)
    rw [hsum]
    exact hprot)
  exact ⟨rfl, r1, r2, r3, r4⟩

/-- The arithmetic content of `InitOK`: `kmin` and `kmax` bracket the header
size and the arena length. -/
theorem initOK_facts (A B L : Nat) (hok : InitOK A B L) (g : Globals)
    (hB : g._basic_block_size = B) :
    B < L ∧ minFreestoreIndexForSize g B 16 < maxFreestoreIndexForSize g B L 16 ∧
      2 ^ maxFreestoreIndexForSize g B L 16 * B ≤ L - 16 ∧
      L - 16 < 2 ^ (maxFreestoreIndexForSize g B L 16 + 1) * B ∧
      16 < 2 ^ minFreestoreIndexForSize g B 16 * B ∧
      (minFreestoreIndexForSize g B 16 = 0 ∨
        2 ^ (minFreestoreIndexForSize g B 16 - 1) * B ≤ 16) := by
  obtain ⟨hA0, hAL, hB1, hL16, hL32, hk⟩ := hok
  have hfl := floorLog_spec (L - 16) B hB1 (by omega)
  have hkmax : ∀ g1 : Globals, g1._basic_block_size = B →
      maxFreestoreIndexForSize g1 B L 16 = floorLog (L - 16) B := by
    intro g1 h1
    unfold maxFreestoreIndexForSize
    rw [uintSub_exact L 16 hL16 hL32, h1, Nat.mod_eq_of_lt (by omega)]
  have hkmin : ∀ g1 : Globals, g1._basic_block_size = B →
      minFreestoreIndexForSize g1 B 16 = minFreestoreIndexForSize g B 16 := by
    intro g1 h1
    unfold minFreestoreIndexForSize getSizeForFreestoreIndex
    rw [h1, hB]
  rw [hkmax _ rfl, hkmin _ rfl] at hk
  rw [hkmax g hB]
  have hpos : 1 ≤ floorLog (L - 16) B := by omega
  have hle := hfl.2.1 hpos
  have hBle : B ≤ 2 ^ floorLog (L - 16) B * B := Nat.le_mul_of_pos_left _ (by positivity)
  have hkm := kmin_spec g B hB hB1 (by omega)
  exact ⟨by omega, hk, hle, hfl.2.2 _ (by omega), hkm.1, hkm.2⟩

/-- Writing back the arena base leaves the globals unchanged. -/
theorem globals_eta (g : Globals) (a : Nat) (h : g._freestoreAddress = a) :
    ({ g with _freestoreAddress := a } : Globals) = g := by
  subst h; rfl

/-- A successful `init_allocator` returns `L` and establishes the globals'
parameters and a tiling of `[A + size_of(s), A + L - leftover)` by free blocks. -/
theorem init_spec (A : Nat) (m0 : Mem) (B L fuel : Nat) (st : State) (r lo : Nat)
    (hok : InitOK A B L) (h : init_allocator fuel A m0 B L = some (st, r, lo)) :
    r = L ∧ Params st.g A B L ∧
      st.g._freestoreIndex =
        getAdjustedMinFreestoreIndexForRequestedSize st.g (uintMul 16 st.g._freestoreRange) ∧
      lo + getSizeForAdjustedFreestoreIndex st.g st.g._freestoreRange ≤ L ∧
      ∃ bs, Geo st.g (A + L - lo) bs ∧ Rep st.g st.mem bs ∧ ∀ b ∈ bs, b.free = true := by
  have hok1 := hok
  obtain ⟨hA0, hAL, hB1, hL16, hL32, _⟩ := hok1
  unfold init_allocator at h
  have hBL : B < L :=
    (initOK_facts A B L hok { Globals.zero with _basic_block_size := B } rfl).1
  rw [if_pos hBL] at h
  obtain ⟨⟨g7, m1, fa, lo1⟩, hinit, h⟩ := bind_some h
  simp only [Option.some.injEq, Prod.mk.injEq] at h
  obtain ⟨e1, e2, e3⟩ := h
  have main : fa = A ∧ Params g7 A B L ∧
      g7._freestoreIndex =
        getAdjustedMinFreestoreIndexForRequestedSize g7 (uintMul 16 g7._freestoreRange) ∧
      lo1 + getSizeForAdjustedFreestoreIndex g7 g7._freestoreRange ≤ L ∧
      ∃ bs, Geo g7 (A + L - lo1) bs ∧ Rep g7 m1 bs ∧ ∀ b ∈ bs, b.free = true := by
    refine initHeader_spec _ A B L _ fuel m0 g7 m1 fa lo1 hinit rfl rfl rfl rfl ?_
      hB1 hL16 hL32 hA0 hAL ?_ ?_ ?_ ?_ ?_
    · refine size_formula _ _ hB1 ?_
      have hf := initOK_facts A B L hok
        { Globals.zero with _basic_block_size := B, _length := L, _headerSize := 16 } rfl
      have h1 := pow_mul_mono B _ _ (le_of_lt hf.2.1)
      have h2 := hf.2.2.1
      exact lt_of_le_of_lt h1 (by omega)
    · exact (initOK_facts A B L hok
        { Globals.zero with _basic_block_size := B, _length := L, _headerSize := 16 }
        rfl).2.2.2.2.1
    · exact (initOK_facts A B L hok
        { Globals.zero with _basic_block_size := B, _length := L, _headerSize := 16 }
        rfl).2.2.2.2.2
    · exact (initOK_facts A B L hok
        { Globals.zero with _basic_block_size := B, _length := L, _headerSize := 16 }
        rfl).2.1
    · exact (initOK_facts A B L hok
        { Globals.zero with _basic_block_size := B, _length := L, _headerSize := 16 }
        rfl).2.2.1
    · exact (initOK_facts A B L hok
        { Globals.zero with _basic_block_size := B, _length := L, _headerSize := 16 }
        rfl).2.2.2.1
  obtain ⟨i1, i2, i3, i4, bs, i5, i6, i7⟩ := main
  have hg : ({ g7 with _freestoreAddress := fa } : Globals) = g7 :=
    globals_eta g7 fa (by rw [i1]; exact i2.hA)
  have hst : st = ⟨g7, m1⟩ := by rw [← e1, ← hg]
  have hr : r = L := by rw [← e2]; exact i2.hL
  rw [hst, ← e3]
  exact ⟨hr, i2, i3, i4, bs, i5, i6, i7⟩

/-- A successful `init_allocator` establishes the invariant with no live pointer. -/
theorem init_inv (A : Nat) (m0 : Mem) (B L fuel : Nat) (st : State) (r lo : Nat)
    (hok : InitOK A B L) (h : init_allocator fuel A m0 B L = some (st, r, lo)) :
    Inv (A + L - lo) st [] := by
  obtain ⟨_, hp, hs, hlo, bs, hgeo, hrep, hfree⟩ := init_spec A m0 B L fuel st r lo hok h
  refine ⟨goodGlobals_of_params st.g A B L hp hs _ (by omega) (by omega), bs, hgeo, hrep,
    List.nodup_nil, ?_⟩
  intro p
  constructor
  · intro hp; cases hp
  · rintro ⟨b, hb, hbf, _⟩
    rw [hfree b hb] at hbf
    cases hbf

/-- Every reachable state satisfies the invariant. -/
theorem reachable_inv (A : Nat) (m0 : Mem) (B L lo : Nat) (st : State) (live : List Nat)
    (h : Reachable A m0 B L lo st live) : Inv (A + L - lo) st live := by
  induction h with
  | init fuel st r hok hinit => exact init_inv A m0 B L fuel st r lo hok hinit
  | malloc fuel st live n st1 p _ hm hp ih =>
    exact (my_malloc_inv _ fuel st live n st1 p ih hm).2 hp
  | malloc_null fuel st live n st1 _ hm ih =>
    have := (my_malloc_inv _ fuel st live n st1 0 ih hm).1 rfl
    rw [this]; exact ih
  | free fuel st live p st1 r _ hp hf ih =>
    exact my_free_inv _ fuel st live p st1 r ih hp hf

/-! ## Ownership of arena bytes in reachable states -/

theorem chainRep_unique (m : Mem) : ∀ (l l1 : List Nat) (q : Nat),
    ChainRep m q l → ChainRep m q l1 → l = l1 := by
  intro l
  induction l with
  | nil =>
    intro l1 q h h1
    cases l1 with
    | nil => rfl
    | cons b r =>
      simp only [ChainRep] at h h1
      exact absurd (h ▸ h1.1).symm h1.2.1
  | cons a r ih =>
    intro l1 q h h1
    cases l1 with
    | nil =>
      simp only [ChainRep] at h h1
      exact absurd (h1 ▸ h.1).symm h.2.1
    | cons b r1 =>
      simp only [ChainRep] at h h1
      have e : a = b := h.1.symm.trans h1.1
      subst e
      rw [ih r1 _ h.2.2.2 h1.2.2.2]

theorem bucketRep_unique (m : Mem) (H : Nat) (l l1 : List Nat)
    (h : BucketRep m H l) (h1 : BucketRep m H l1) : l = l1 := by
  cases l with
  | nil =>
    cases l1 with
    | nil => rfl
    | cons b r =>
      simp only [BucketRep] at h h1
      exact absurd (h1.1.symm.trans h.1) h1.2.1
  | cons a r =>
    cases l1 with
    | nil =>
      simp only [BucketRep] at h h1
      exact absurd (h.1.symm.trans h1.1) h.2.1
    | cons b r1 =>
      simp only [BucketRep] at h h1
      have e : a = b := h.1.symm.trans h1.1
      subst e
      rw [chainRep_unique m r r1 _ h.2.2 h1.2.2]

theorem my_malloc_g (fuel : Nat) (st : State) (n : Nat) (st1 : State) (p : Nat)
    (h : my_malloc fuel st n = some (st1, p)) : st1.g = st.g := by
  unfold my_malloc at h
  obtain ⟨⟨m1, header⟩, _, h⟩ := bind_some h
  dsimp only at h
  split at h
  · obtain ⟨a, _, h⟩ := bind_some h
    simp only [Option.some.injEq, Prod.mk.injEq] at h
    rw [← h.1]
  · simp only [Option.some.injEq, Prod.mk.injEq] at h
    rw [← h.1]

theorem my_free_g (fuel : Nat) (st : State) (p : Nat) (st1 : State) (r : Int)
    (h : my_free fuel st p = some (st1, r)) : st1.g = st.g := by
  unfold my_free at h
  obtain ⟨⟨m1, s⟩, _, h⟩ := bind_some h
  simp only [Option.some.injEq, Prod.mk.injEq] at h
  rw [← h.1]

/-- The arena base recorded in every reachable state is `A`. -/
theorem reachable_base (A : Nat) (m0 : Mem) (B L lo : Nat) (st : State) (live : List Nat)
    (h : Reachable A m0 B L lo st live) : st.g._freestoreAddress = A := by
  induction h with
  | init fuel st r hok hinit => exact (init_spec A m0 B L fuel st r lo hok hinit).2.1.hA
  | malloc fuel st live n st1 p _ hm hp ih => rw [my_malloc_g fuel st n st1 p hm]; exact ih
  | malloc_null fuel st live n st1 _ hm ih => rw [my_malloc_g fuel st n st1 0 hm]; exact ih
  | free fuel st live p st1 r _ hp hf ih => rw [my_free_g fuel st p st1 r hf]; exact ih

/-- In a state that satisfies the invariant, the owners of a byte are the
reserved block below `A + size_of(s)` and the blocks of the abstract list. -/
theorem owns_iff (hi : Nat) (st : State) (live : List Nat) (bs : List Blk)
    (hg : GoodGlobals st.g hi) (hgeo : Geo st.g hi bs) (hrep : Rep st.g st.mem bs)
    (hlive : ∀ p, p ∈ live ↔ ∃ b ∈ bs, b.free = false ∧ b.base + 16 = p) (x : Nat) :
    (∀ i a, Owns st live x (Owner.freeBlock i a) ↔
      (⟨a, i, true⟩ : Blk) ∈ bs ∧ covers st.g x ⟨a, i, true⟩ = true) ∧
    (∀ p, Owns st live x (Owner.allocated p) ↔
      ∃ t, 16 ≤ p ∧ (⟨p - 16, t, false⟩ : Blk) ∈ bs ∧ covers st.g x ⟨p - 16, t, false⟩ = true) := by
  have hsep := geo_sep st.g hi hg bs hgeo
  constructor
  · intro i a
    unfold Owns OnFreeList covers
    simp only [decide_eq_true_eq]
    constructor
    · rintro ⟨⟨hi2, l, hl, hal⟩, h1, h2⟩
      rw [(head_ptr st.g hi hg i hi2).1] at hl
      have := bucketRep_unique _ _ _ _ hl (hrep.1 i hi2)
      rw [this] at hal
      exact ⟨(mem_bucketOf_iff bs i a).1 hal, h1, h2⟩
    · rintro ⟨hb, h1, h2⟩
      have hi2 : i ≤ st.g._freestoreRange := hgeo.1 _ hb
      refine ⟨⟨hi2, bucketOf bs i, ?_, (mem_bucketOf_iff bs i a).2 hb⟩, h1, h2⟩
      rw [(head_ptr st.g hi hg i hi2).1]
      exact hrep.1 i hi2
  · intro p
    unfold Owns covers
    simp only [decide_eq_true_eq]
    have key : ∀ b ∈ bs, b.free = false → b.base + 16 = p →
        memoryHeaderForAddress st.g st.mem p = some b.base ∧ b.base ≠ 0 ∧
          readIndex st.mem b.base = some b.idx := by
      intro b hb hbf hbp
      obtain ⟨s1, s2, _⟩ := hsep.1 b hb
      obtain ⟨r1, r2⟩ := hrep.2 b hb hbf
      have hne : b.base ≠ 0 := by have := hg.base_ne; omega
      have hsub : ptrSub p st.g._headerSize = b.base := by
        rw [hg.hdr, ptrSub_exact p 16 (by omega) (by omega)]; omega
      refine ⟨?_, hne, ?_⟩
      · unfold memoryHeaderForAddress
        dsimp only
        rw [hsub, if_pos hne]
        unfold readMemoryStart
        rw [if_neg hne, r2]
        simp [hbp]
      · unfold readIndex
        rw [if_neg hne, r1]
    constructor
    · rintro ⟨hp, h, idx, h1, h2, h3, h4, h5⟩
      obtain ⟨b, hb, hbf, hbp⟩ := (hlive p).1 hp
      obtain ⟨k1, k2, k3⟩ := key b hb hbf hbp
      rw [k1] at h1
      simp only [Option.some.injEq] at h1
      subst h1
      rw [k3] at h3
      simp only [Option.some.injEq] at h3
      subst h3
      have e : p - 16 = b.base := by omega
      refine ⟨b.idx, by omega, ?_, ?_, ?_⟩
      · rw [e]; cases b; simp only at hbf; subst hbf; exact hb
      · rw [e]; exact h4
      · rw [e]; exact h5
    · rintro ⟨t, h16, hb, h1, h2⟩
      have hp : p ∈ live := (hlive p).2 ⟨_, hb, rfl, by simp only; omega⟩
      obtain ⟨k1, k2, k3⟩ := key _ hb rfl (by simp only; omega)
      exact ⟨hp, p - 16, t, k1, k2, k3, h1, h2⟩

/-- Two blocks of a tiling that cover the same byte are the same block. -/
theorem covers_unique (g : Globals) (hi : Nat) (hg : GoodGlobals g hi) (bs : List Blk)
    (hgeo : Geo g hi bs) (x : Nat) (b c : Blk) (hb : b ∈ bs) (hc : c ∈ bs)
    (h1 : covers g x b = true) (h2 : covers g x c = true) : b = c := by
  rcases sep_mem_or g bs (geo_sep g hi hg bs hgeo) b c hb hc with e | e
  · exact e
  · have hne := apart_ne _ _ e
    have := geo_disjoint g hi hg bs hgeo b c hb hc hne
    unfold covers at h1 h2
    simp only [decide_eq_true_eq] at h1 h2
    omega

set_option maxRecDepth 100000 in
/-- The scenario call `init_allocator(128, 512 * 1024)` returns `L` with no
leftover and yields `initState`. -/
theorem initState_eq :
    init_allocator 64 arenaBase zeroMem 128 524288 = some (initState, 524288, 0) := by
  have h : (init_allocator 64 arenaBase zeroMem 128 524288).map (fun r => r.2)
      = some (524288, 0) := by decide
  unfold initState
  cases hm : init_allocator 64 arenaBase zeroMem 128 524288 with
  | none => rw [hm] at h; simp at h
  | some r =>
    rw [hm] at h
    simp only [Option.map_some', Option.some.injEq] at h
    obtain ⟨st, r1, r2⟩ := r
    simp only [Prod.mk.injEq] at h
    obtain ⟨e1, e2⟩ := h
    subst e1 e2
    rfl

/-- The scenario parameters satisfy the conditions of a successful init. -/
theorem initOK_scenario : InitOK arenaBase 128 524288 := by
  unfold InitOK
  decide

theorem afterFree_eq (st : State) (p : Nat) (r : Int)
    (h : (my_free 64 st p).map (fun r => r.2) = some r) :
    my_free 64 st p = some (afterFree st p, r) := by
  unfold afterFree
  cases hm : my_free 64 st p with
  | none => rw [hm] at h; simp at h
  | some v =>
    rw [hm] at h
    simp only [Option.map_some', Option.some.injEq] at h
    subst h
    rfl

/-! ## Index arithmetic -/

/-- The size of an adjusted index is `2 ^ (i + kmin) * B` while that stays below `2 ^ 32`. -/
theorem adjusted_size_formula (g : Globals) (hB : 1 ≤ g._basic_block_size) (i : Nat)
    (h : 2 ^ (i + g._minFreestoreIndex) * g._basic_block_size < 2 ^ 32) :
    getSizeForAdjustedFreestoreIndex g i
      = 2 ^ (i + g._minFreestoreIndex) * g._basic_block_size := by
  have hk := exp_lt_of_pow_mul_lt _ _ hB h
  unfold getSizeForAdjustedFreestoreIndex uintAdd
  rw [Nat.mod_eq_of_lt (by omega)]
  exact size_formula g _ hB h

/-- For a size above the smallest block size, the adjusted index is the least
`i` with `n ≤ 2 ^ (i + kmin) * B`. -/
theorem adjusted_index_least (g : Globals) (hB : 1 ≤ g._basic_block_size)
    (hmin : g._minFreestoreIndexMemorySize
      = 2 ^ g._minFreestoreIndex * g._basic_block_size)
    (n : Nat) (hn : n < 2 ^ 32) :
    n ≤ 2 ^ (getAdjustedFreestoreIndexForSize g n + g._minFreestoreIndex)
        * g._basic_block_size ∧
      ∀ i, n ≤ 2 ^ (i + g._minFreestoreIndex) * g._basic_block_size →
        getAdjustedFreestoreIndexForSize g n ≤ i := by
  unfold getAdjustedFreestoreIndexForSize
  by_cases hlt : g._minFreestoreIndexMemorySize < n
  · rw [if_pos hlt]
    have hBn : g._basic_block_size < n := by
      have : g._basic_block_size ≤ 2 ^ g._minFreestoreIndex * g._basic_block_size :=
        Nat.le_mul_of_pos_left _ (by positivity)
      omega
    unfold getFreestoreIndexForSize
    rw [if_pos hBn]
    have hspec := ceilLog_spec n g._basic_block_size hB (by omega)
    have hle64 : ceilLog n g._basic_block_size ≤ 64 :=
      ceilLog_le n _ 64 hB (by omega) (by
        calc n ≤ 2 ^ 64 * 1 := by omega
          _ ≤ 2 ^ 64 * g._basic_block_size := Nat.mul_le_mul_left _ hB)
    have hgt : g._minFreestoreIndex < ceilLog n g._basic_block_size := by
      by_contra hcon
      have := pow_mul_mono g._basic_block_size _ _ (Nat.le_of_not_lt hcon)
      have := hspec.1
      omega
    rw [Nat.mod_eq_of_lt (by omega), uintSub_exact _ _ (by omega) (by omega)]
    have e : ceilLog n g._basic_block_size - g._minFreestoreIndex + g._minFreestoreIndex
        = ceilLog n g._basic_block_size := by omega
    rw [e]
    refine ⟨hspec.1, ?_⟩
    intro i hi
    have := ceilLog_le n _ _ hB (by omega) hi
    omega
  · rw [if_neg hlt]
    refine ⟨?_, fun i _ => Nat.zero_le _⟩
    rw [Nat.zero_add, ← hmin]
    omega

theorem readAddress_of_ne (m : Mem) (q : Nat) (h : q ≠ 0) :
    readAddress m q = some (m q % 2 ^ 64) := by
  unfold readAddress; rw [if_neg h]

theorem readNextBlock_of_ne (m : Mem) (q : Nat) (h : q ≠ 0) :
    readNextBlock m q = some (m (q + 8) % 2 ^ 64) := by
  unfold readNextBlock; rw [if_neg h]

theorem writeAddress_of_ne (m : Mem) (q v : Nat) (h : q ≠ 0) :
    writeAddress m q v = some (store m q (v % 2 ^ 64)) := by
  unfold writeAddress; rw [if_neg h]

theorem writeNextBlock_of_ne (m : Mem) (q v : Nat) (h : q ≠ 0) :
    writeNextBlock m q v = some (store m (q + 8) (v % 2 ^ 64)) := by
  unfold writeNextBlock; rw [if_neg h]

/-- With fuel for every record of the chain, the loop of
`getLastFreestoreBlockAtAdjustedIndex` returns. -/
theorem getLastLoop_some (m : Mem) :
    ∀ (l : List Nat) (fuel block nextBlock : Nat),
      ChainRep m (m (block + 8) % 2 ^ 64) l → block ≠ 0 → l.length + 2 ≤ fuel →
      ∃ r, getLastLoop m fuel block nextBlock = some r := by
  intro l
  induction l with
  | nil =>
    intro fuel block nextBlock hrep hb hf
    obtain ⟨f, rfl⟩ : ∃ f, fuel = f + 1 := ⟨fuel - 1, by omega⟩
    obtain ⟨f1, rfl⟩ : ∃ f1, f = f1 + 1 := ⟨f - 1, by simp at hf; omega⟩
    simp only [ChainRep] at hrep
    unfold getLastLoop
    by_cases hn : nextBlock ≠ 0
    · rw [if_pos hn, readNextBlock_of_ne m block hb, hrep]
      simp [getLastLoop]
    · rw [if_neg hn]; exact ⟨_, rfl⟩
  | cons b rest ih =>
    intro fuel block nextBlock hrep hb hf
    obtain ⟨f, rfl⟩ : ∃ f, fuel = f + 1 := ⟨fuel - 1, by omega⟩
    simp only [ChainRep] at hrep
    obtain ⟨e, hb0, _, hrest⟩ := hrep
    unfold getLastLoop
    by_cases hn : nextBlock ≠ 0
    · rw [if_pos hn, readNextBlock_of_ne m block hb, e]
      simp only [Option.bind_eq_bind, Option.some_bind, ne_eq, hb0, not_false_eq_true,
        ↓reduceIte]
      exact ih f b b hrest hb0 (by simp at hf ⊢; omega)
    · rw [if_neg hn]; exact ⟨_, rfl⟩

theorem bucketRep_chain (m : Mem) (H : Nat) (l : List Nat) (h : BucketRep m H l) :
    ChainRep m (m (H + 8) % 2 ^ 64) l.tail := by
  cases l with
  | nil => simp only [BucketRep] at h; simp only [List.tail_nil, ChainRep]; exact h.2
  | cons b rest => simp only [BucketRep] at h; exact h.2.2

theorem getLast_some (g : Globals) (m : Mem) (fuel i : Nat) (l : List Nat)
    (hrep : BucketRep m (getFirstFreestoreBlockAtAdjustedIndex g i) l)
    (hH : getFirstFreestoreBlockAtAdjustedIndex g i ≠ 0) (hf : l.length + 2 ≤ fuel) :
    getLastFreestoreBlockAtAdjustedIndex g m fuel i
      = some (lastOr l.tail (getFirstFreestoreBlockAtAdjustedIndex g i)) := by
  have hc := bucketRep_chain m _ l hrep
  have hlen : l.tail.length + 2 ≤ fuel := by
    have := List.length_tail l
    omega
  have hex : ∃ r, getLastFreestoreBlockAtAdjustedIndex g m fuel i = some r := by
    unfold getLastFreestoreBlockAtAdjustedIndex
    dsimp only
    rw [readNextBlock_of_ne m _ hH]
    exact getLastLoop_some m l.tail fuel _ _ hc hH hlen
  obtain ⟨r, hr⟩ := hex
  rw [hr, getLast_spec g m fuel i l r hrep hH hr]

theorem lastOr_ne_zero (l : List Nat) (d : Nat) (hd : d ≠ 0) (hl : ∀ b ∈ l, b ≠ 0) :
    lastOr l d ≠ 0 := by
  cases l with
  | nil => exact hd
  | cons b rest => exact hl _ (lastOr_mem (b :: rest) d (by simp))

/-- With fuel for every record of the chain, `addAddressToFreestoreForAdjustedIndex`
returns. -/
theorem add_some (g : Globals) (m : Mem) (fuel i a : Nat) (l : List Nat)
    (hrep : BucketRep m (getFirstFreestoreBlockAtAdjustedIndex g i) l)
    (hH : getFirstFreestoreBlockAtAdjustedIndex g i ≠ 0) (ha : a ≠ 0)
    (hf : l.length + 2 ≤ fuel) :
    ∃ r, addAddressToFreestoreForAdjustedIndex g m fuel i a = some r := by
  have hlast : lastOr l.tail (getFirstFreestoreBlockAtAdjustedIndex g i) ≠ 0 :=
    lastOr_ne_zero _ _ hH
      (fun b hb => bucketRep_ne_zero m _ l hrep b (List.mem_of_mem_tail hb))
  unfold addAddressToFreestoreForAdjustedIndex
  rw [getLast_some g m fuel i l hrep hH hf]
  simp only [Option.bind_eq_bind, Option.some_bind]
  rw [readAddress_of_ne m _ hlast]
  simp only [Option.some_bind]
  split
  · rw [writeAddress_of_ne m _ _ hlast]; exact ⟨_, rfl⟩
  · rw [writeAddress_of_ne m _ _ ha]
    simp only [Option.some_bind]
    rw [writeNextBlock_of_ne _ _ _ ha]
    simp only [Option.some_bind]
    rw [writeNextBlock_of_ne _ _ _ hlast]
    exact ⟨_, rfl⟩

theorem removeLastLoop_some (m : Mem) :
    ∀ (l : List Nat) (fuel ntl last : Nat),
      ChainRep m (m (last + 8) % 2 ^ 64) l → last ≠ 0 → l.length + 1 ≤ fuel →
      ∃ r, removeLastLoop m fuel ntl last = some r := by
  intro l
  induction l with
  | nil =>
    intro fuel ntl last hrep hb hf
    obtain ⟨f, rfl⟩ : ∃ f, fuel = f + 1 := ⟨fuel - 1, by omega⟩
    simp only [ChainRep] at hrep
    unfold removeLastLoop
    rw [readNextBlock_of_ne m last hb, hrep]
    simp
  | cons b rest ih =>
    intro fuel ntl last hrep hb hf
    obtain ⟨f, rfl⟩ : ∃ f, fuel = f + 1 := ⟨fuel - 1, by omega⟩
    simp only [ChainRep] at hrep
    obtain ⟨e, hb0, _, hrest⟩ := hrep
    unfold removeLastLoop
    rw [readNextBlock_of_ne m last hb, e]
    simp only [Option.bind_eq_bind, Option.some_bind, ne_eq, hb0, not_false_eq_true,
      ↓reduceIte]
    exact ih f last b hrest hb0 (by simp at hf ⊢; omega)

/-- With fuel for every record of the chain,
`removeLastFreestoreBlockAtAdjustedIndex` returns. -/
theorem removeLast_some (g : Globals) (m : Mem) (fuel i : Nat) (l : List Nat)
    (hrep : BucketRep m (getFirstFreestoreBlockAtAdjustedIndex g i) l)
    (hH : getFirstFreestoreBlockAtAdjustedIndex g i ≠ 0) (hf : l.length + 2 ≤ fuel) :
    ∃ r, removeLastFreestoreBlockAtAdjustedIndex g m fuel i = some r := by
  have hc := bucketRep_chain m _ l hrep
  have hnz : ∀ b ∈ l.tail, b ≠ 0 :=
    fun b hb => bucketRep_ne_zero m _ l hrep b (List.mem_of_mem_tail hb)
  unfold removeLastFreestoreBlockAtAdjustedIndex
  dsimp only
  rw [readNextBlock_of_ne m _ hH]
  simp only [Option.bind_eq_bind, Option.some_bind]
  split
  · rw [writeAddress_of_ne m _ _ hH]; exact ⟨_, rfl⟩
  · rename_i hne
    cases hl : l.tail with
    | nil =>
      rw [hl] at hc
      simp only [ChainRep] at hc
      exact absurd hc hne
    | cons b rest =>
      rw [hl] at hc hnz
      simp only [ChainRep] at hc
      obtain ⟨e, hb0, _, hrest⟩ := hc
      have hlen : rest.length + 1 ≤ fuel := by
        have h1 := List.length_tail l
        rw [hl] at h1
        simp only [List.length_cons] at h1
        omega
      obtain ⟨⟨p, x⟩, hr⟩ := removeLastLoop_some m rest fuel
        (getFirstFreestoreBlockAtAdjustedIndex g i) b hrest hb0 hlen
      rw [e, hr]
      obtain ⟨hx, hp⟩ := removeLastLoop_spec m fuel rest _ b p x hrest hb0 hr
      have hx0 : x ≠ 0 := by
        rw [hx]
        exact lastOr_ne_zero rest b hb0 (fun c hc => hnz c (List.mem_cons_of_mem _ hc))
      have hp0 : p ≠ 0 := by
        have hm := beforeLast_mem (b :: rest) (getFirstFreestoreBlockAtAdjustedIndex g i)
        rw [← hp] at hm
        rcases List.mem_cons.1 hm with h1 | h1
        · rw [h1]; exact hH
        · exact hnz p h1
      simp only [Option.some_bind]
      rw [writeAddress_of_ne m _ _ hx0]
      simp only [Option.some_bind]
      rw [writeNextBlock_of_ne _ _ _ hx0]
      simp only [Option.some_bind]
      rw [writeNextBlock_of_ne _ _ _ hp0]
      exact ⟨_, rfl⟩

theorem containsLoop_some (m : Mem) (a : Nat) :
    ∀ (l : List Nat) (fuel q : Nat) (c : Bool), ChainRep m q l → l.length + 1 ≤ fuel →
      ∃ r, containsLoop m a fuel q c = some r := by
  intro l
  induction l with
  | nil =>
    intro fuel q c hrep hf
    obtain ⟨f, rfl⟩ : ∃ f, fuel = f + 1 := ⟨fuel - 1, by omega⟩
    simp only [ChainRep] at hrep
    unfold containsLoop
    rw [hrep, if_neg (by simp)]
    exact ⟨_, rfl⟩
  | cons b rest ih =>
    intro fuel q c hrep hf
    obtain ⟨f, rfl⟩ : ∃ f, fuel = f + 1 := ⟨fuel - 1, by omega⟩
    simp only [ChainRep] at hrep
    obtain ⟨e, hb0, _, hrest⟩ := hrep
    unfold containsLoop
    split
    · rw [e, readAddress_of_ne m b hb0, readNextBlock_of_ne m b hb0]
      simp only [Option.bind_eq_bind, Option.some_bind]
      exact ih f _ _ hrest (by simp at hf ⊢; omega)
    · exact ⟨_, rfl⟩

/-- With fuel for every record of the chain,
`containsFreestoreBlockAtAdjustedIndexWithAddress` returns. -/
theorem contains_some (g : Globals) (m : Mem) (fuel i a : Nat) (l : List Nat)
    (hrep : BucketRep m (getFirstFreestoreBlockAtAdjustedIndex g i) l)
    (hH : getFirstFreestoreBlockAtAdjustedIndex g i ≠ 0) (hf : l.length + 2 ≤ fuel) :
    ∃ r, containsFreestoreBlockAtAdjustedIndexWithAddress g m fuel i a = some r := by
  have hc := bucketRep_chain m _ l hrep
  obtain ⟨f, rfl⟩ : ∃ f, fuel = f + 1 := ⟨fuel - 1, by omega⟩
  unfold containsFreestoreBlockAtAdjustedIndexWithAddress containsLoop
  split
  · rw [readAddress_of_ne m _ hH, readNextBlock_of_ne m _ hH]
    simp only [Option.bind_eq_bind, Option.some_bind]
    exact containsLoop_some m a l.tail f _ _ hc (by
      have := List.length_tail l
      omega)
  · exact ⟨_, rfl⟩

theorem removeWithAddressLoop_some (a : Nat) (ha : a ≠ 0) (m : Mem) :
    ∀ (l : List Nat) (fuel n : Nat) (s : Bool),
      ChainRep m (m (n + 8) % 2 ^ 64) l → n ≠ 0 → (∀ b ∈ l, Apart n b) →
      l.Pairwise Apart → l.length + 3 ≤ fuel →
      ∃ r, removeWithAddressLoop a fuel m (m (n + 8) % 2 ^ 64) n s = some r := by
  intro l
  induction l with
  | nil =>
    intro fuel n s hrep hn hap _ hf
    obtain ⟨f, rfl⟩ : ∃ f, fuel = f + 1 := ⟨fuel - 1, by omega⟩
    simp only [ChainRep] at hrep
    unfold removeWithAddressLoop
    rw [hrep, if_neg (by simp)]
    exact ⟨_, rfl⟩
  | cons b rest ih =>
    intro fuel n s hrep hn hap hpw hf
    obtain ⟨f, rfl⟩ : ∃ f, fuel = f + 1 := ⟨fuel - 1, by omega⟩
    simp only [ChainRep] at hrep
    obtain ⟨e, hb0, hbb, hrest⟩ := hrep
    have hapb := hap b (List.mem_cons_self _ _)
    unfold removeWithAddressLoop
    rw [e, if_pos hb0, readNextBlock_of_ne m b hb0, readAddress_of_ne m b hb0, hbb]
    simp only [Option.bind_eq_bind, Option.some_bind]
    split
    · rw [writeAddress_of_ne m _ _ hb0]
      simp only [Option.some_bind]
      rw [writeNextBlock_of_ne _ _ _ hb0]
      simp only [Option.some_bind]
      rw [writeNextBlock_of_ne _ _ _ hn]
      simp only [Option.some_bind]
      obtain ⟨f1, rfl⟩ : ∃ f1, f = f1 + 1 := ⟨f - 1, by simp at hf; omega⟩
      obtain ⟨f2, rfl⟩ : ∃ f2, f1 = f2 + 1 := ⟨f1 - 1, by simp at hf; omega⟩
      generalize hm3 : store (store (store m b (0 % 2 ^ 64)) (b + 8) (0 % 2 ^ 64)) (n + 8)
        (m (b + 8) % 2 ^ 64 % 2 ^ 64) = m3
      have h1 : m3 b % 2 ^ 64 = 0 := by
        rw [← hm3]
        unfold Apart at hapb
        rw [store_other _ _ _ _ (by omega), store_other _ _ _ _ (by omega), store_same]
        rfl
      have h2 : m3 (b + 8) % 2 ^ 64 = 0 := by
        rw [← hm3]
        unfold Apart at hapb
        rw [store_other _ _ _ _ (by omega), store_same]
        rfl
      unfold removeWithAddressLoop
      rw [if_pos hb0, readNextBlock_of_ne m3 b hb0, readAddress_of_ne m3 b hb0, h1, h2]
      simp only [Option.bind_eq_bind, Option.some_bind]
      rw [if_neg (fun e => ha e.symm)]
      unfold removeWithAddressLoop
      simp
    · exact ih f b s hrest hb0 (List.pairwise_cons.1 hpw).1 (List.pairwise_cons.1 hpw).2
        (by simp at hf ⊢; omega)

/-- With fuel for every record of the chain,
`removeFreestoreBlockAtAdjustedIndexWithAddress` returns. -/
theorem removeWithAddress_some (g : Globals) (m : Mem) (fuel i a : Nat) (l : List Nat)
    (hrep : BucketRep m (getFirstFreestoreBlockAtAdjustedIndex g i) l)
    (hsep : SepList (getFirstFreestoreBlockAtAdjustedIndex g i) l) (ha : a ≠ 0)
    (hf : l.length + 3 ≤ fuel) :
    ∃ r, removeFreestoreBlockAtAdjustedIndexWithAddress g m fuel i a = some r := by
  obtain ⟨hH, hsl, hpw⟩ := hsep
  have hc := bucketRep_chain m _ l hrep
  unfold removeFreestoreBlockAtAdjustedIndexWithAddress
  dsimp only
  rw [readAddress_of_ne m _ hH]
  simp only [Option.bind_eq_bind, Option.some_bind]
  split
  · rw [writeAddress_of_ne m _ _ hH]
    simp only [Option.some_bind]
    rw [readNextBlock_of_ne _ _ hH]
    simp only [Option.some_bind]
    split
    · rename_i hnb
      rw [readAddress_of_ne _ _ hnb]
      simp only [Option.some_bind]
      rw [writeAddress_of_ne _ _ _ hH]
      simp only [Option.some_bind]
      rw [readNextBlock_of_ne _ _ hnb]
      simp only [Option.some_bind]
      rw [writeNextBlock_of_ne _ _ _ hH]
      simp only [Option.some_bind]
      rw [writeNextBlock_of_ne _ _ _ hnb]
      simp only [Option.some_bind]
      rw [writeAddress_of_ne _ _ _ hnb]
      exact ⟨_, rfl⟩
    · exact ⟨_, rfl⟩
  · rw [readNextBlock_of_ne m _ hH]
    simp only [Option.some_bind]
    exact removeWithAddressLoop_some a ha m l.tail fuel _ false hc hH
      (fun b hb => (hsl b (List.mem_of_mem_tail hb)).2.2)
      (List.Pairwise.sublist (List.tail_sublist l) hpw)
      (by
        have := List.length_tail l
        omega)

/-- The bucket lists of a block list are no longer than the block list. -/
theorem bucketOf_length_le (bs : List Blk) (i : Nat) : (bucketOf bs i).length ≤ bs.length := by
  unfold bucketOf
  rw [List.length_map]
  exact List.length_filter_le _ _

theorem g_getLast_some (g : Globals) (hi : Nat) (bs : List Blk) (m : Mem) (fuel i : Nat)
    (hg : GoodGlobals g hi) (hrep : Rep g m bs) (hi2 : i ≤ g._freestoreRange)
    (hf : bs.length + 3 ≤ fuel) :
    ∃ r, getLastFreestoreBlockAtAdjustedIndex g m fuel i = some r ∧ r ≠ 0 ∧
      readAddress m r = some (lastOr (bucketOf bs i) 0) := by
  obtain ⟨hH, hH0⟩ := head_ptr g hi hg i hi2
  have hb := hrep.1 i hi2
  rw [← hH] at hb hH0
  have hlen := bucketOf_length_le bs i
  refine ⟨_, getLast_some g m fuel i _ hb hH0 (by omega), ?_, ?_⟩
  · exact lastOr_ne_zero _ _ hH0
      (fun b hb1 => bucketRep_ne_zero m _ _ hb b (List.mem_of_mem_tail hb1))
  · exact lastNode_address m _ _ hH0 hb

theorem g_add_some (g : Globals) (hi : Nat) (bs : List Blk) (m : Mem) (fuel i a : Nat)
    (hg : GoodGlobals g hi) (hrep : Rep g m bs) (hi2 : i ≤ g._freestoreRange) (ha : a ≠ 0)
    (hf : bs.length + 3 ≤ fuel) :
    ∃ r, addAddressToFreestoreForAdjustedIndex g m fuel i a = some r := by
  obtain ⟨hH, hH0⟩ := head_ptr g hi hg i hi2
  have hb := hrep.1 i hi2
  rw [← hH] at hb hH0
  have hlen := bucketOf_length_le bs i
  exact add_some g m fuel i a _ hb hH0 ha (by omega)

theorem g_removeLast_some (g : Globals) (hi : Nat) (bs : List Blk) (m : Mem) (fuel i : Nat)
    (hg : GoodGlobals g hi) (hrep : Rep g m bs) (hi2 : i ≤ g._freestoreRange)
    (hf : bs.length + 3 ≤ fuel) :
    ∃ r, removeLastFreestoreBlockAtAdjustedIndex g m fuel i = some r := by
  obtain ⟨hH, hH0⟩ := head_ptr g hi hg i hi2
  have hb := hrep.1 i hi2
  rw [← hH] at hb hH0
  have hlen := bucketOf_length_le bs i
  exact removeLast_some g m fuel i _ hb hH0 (by omega)

theorem g_contains_some (g : Globals) (hi : Nat) (bs : List Blk) (m : Mem) (fuel i a : Nat)
    (hg : GoodGlobals g hi) (hrep : Rep g m bs) (hi2 : i ≤ g._freestoreRange)
    (hf : bs.length + 3 ≤ fuel) :
    ∃ r, containsFreestoreBlockAtAdjustedIndexWithAddress g m fuel i a = some r := by
  obtain ⟨hH, hH0⟩ := head_ptr g hi hg i hi2
  have hb := hrep.1 i hi2
  rw [← hH] at hb hH0
  have hlen := bucketOf_length_le bs i
  exact contains_some g m fuel i a _ hb hH0 (by omega)

theorem g_removeWithAddress_some (g : Globals) (hi : Nat) (bs : List Blk) (m : Mem)
    (fuel i a : Nat) (hg : GoodGlobals g hi) (hs : Sep g bs) (hrep : Rep g m bs)
    (hi2 : i ≤ g._freestoreRange) (ha : a ≠ 0) (hf : bs.length + 3 ≤ fuel) :
    ∃ r, removeFreestoreBlockAtAdjustedIndexWithAddress g m fuel i a = some r := by
  obtain ⟨hH, hH0⟩ := head_ptr g hi hg i hi2
  have hb := hrep.1 i hi2
  have hsl := sepList_bucket g hi hg bs hs i hi2
  rw [← hH] at hb hsl
  have hlen := bucketOf_length_le bs i
  exact removeWithAddress_some g m fuel i a _ hb hsl ha (by omega)

theorem g_containsFreeSpace_some (g : Globals) (hi : Nat) (bs : List Blk) (m : Mem) (i : Nat)
    (hg : GoodGlobals g hi) (hrep : Rep g m bs) (hi2 : i ≤ g._freestoreRange) :
    containsFreeSpaceAtAdjustedIndex g m i = some (decide (bucketOf bs i ≠ [])) := by
  obtain ⟨hH, hH0⟩ := head_ptr g hi hg i hi2
  have hex : ∃ r, containsFreeSpaceAtAdjustedIndex g m i = some r := by
    unfold containsFreeSpaceAtAdjustedIndex
    dsimp only
    rw [hH, readAddress_of_ne m _ hH0]
    exact ⟨_, rfl⟩
  obtain ⟨r, hr⟩ := hex
  rw [hr, g_containsFreeSpace g hi bs m i r hg hrep hi2 hr]

theorem nodup_length_le (l : List Nat) (lo n : Nat) (hnd : l.Nodup)
    (h : ∀ x ∈ l, lo ≤ x ∧ x < lo + n) : l.length ≤ n := by
  have h1 : l.toFinset ⊆ Finset.Ico lo (lo + n) := by
    intro x hx
    rw [List.mem_toFinset] at hx
    rw [Finset.mem_Ico]
    exact h x hx
  have h2 := Finset.card_le_card h1
  rw [List.toFinset_card_of_nodup hnd, Nat.card_Ico] at h2
  omega

/-- A tiling has at most as many blocks as the arena has bytes. -/
theorem geo_length (g : Globals) (hi : Nat) (hg : GoodGlobals g hi) (bs : List Blk)
    (hgeo : Geo g hi bs) : bs.length ≤ g._length := by
  have hs := geo_sep g hi hg bs hgeo
  have hnd : (bs.map (fun b => b.base)).Nodup := by
    unfold List.Nodup
    rw [List.pairwise_map]
    exact List.Pairwise.imp (fun hab => apart_ne _ _ hab) hs.2
  have := nodup_length_le (bs.map (fun b => b.base)) g._freestoreAddress g._length hnd (by
    intro x hx
    obtain ⟨b, hb, rfl⟩ := List.mem_map.1 hx
    obtain ⟨h1, h2⟩ := geo_bounds g hi hg bs hgeo b hb
    have := size_ge g hi hg b.idx (hgeo.1 b hb)
    have := hg.hi_le
    omega)
  rw [List.length_map] at this
  exact this

/-! ## The order invariant and the split relation -/

theorem without_sublist (bs : List Blk) (a : Nat) : (without bs a).Sublist bs :=
  List.filter_sublist _

theorem ordered_without (g : Globals) (bs : List Blk) (a : Nat) (h : Ordered g bs) :
    Ordered g (without bs a) :=
  List.Pairwise.sublist (without_sublist bs a) h

theorem ordered_append_alloc (g : Globals) (bs : List Blk) (a t : Nat) (h : Ordered g bs) :
    Ordered g (bs ++ [⟨a, t, false⟩]) := by
  unfold Ordered
  rw [List.pairwise_append]
  refine ⟨h, List.pairwise_singleton _ _, ?_⟩
  intro x _ b hb
  simp only [List.mem_singleton] at hb
  subst hb
  simp

theorem ordered_append_free (g : Globals) (bs : List Blk) (a i : Nat) (h : Ordered g bs)
    (hx : a = g._freestoreAddress + getSizeForAdjustedFreestoreIndex g i ∨
      (⟨a + getSizeForAdjustedFreestoreIndex g i, i, true⟩ : Blk) ∉ bs) :
    Ordered g (bs ++ [⟨a, i, true⟩]) := by
  unfold Ordered
  rw [List.pairwise_append]
  refine ⟨h, List.pairwise_singleton _ _, ?_⟩
  intro x hxm b hb
  simp only [List.mem_singleton] at hb
  subst hb
  rintro ⟨h1, _, h3, h4, h5⟩
  simp only at h3 h4 h5
  rcases hx with e | e
  · exact h5 e
  · apply e
    obtain ⟨xb, xi, xf⟩ := x
    simp only at h1 h3 h4
    subst h1 h3 h4
    exact hxm

theorem ordered_split (g : Globals) (hi : Nat) (hg : GoodGlobals g hi) (bs : List Blk)
    (a i : Nat) (hiR : i ≤ g._freestoreRange) (h : Ordered g bs) (hemp : bucketOf bs i = []) :
    Ordered g (without bs a ++
      [⟨a, i, true⟩, ⟨a + getSizeForAdjustedFreestoreIndex g i, i, true⟩]) := by
  have hsz := size_ge g hi hg i hiR
  have hno : ∀ x ∈ without bs a, ¬ (x.free = true ∧ x.idx = i) := by
    intro x hx hc
    have hxb := ((mem_without bs a x).1 hx).1
    have : x.base ∈ bucketOf bs i := (mem_bucketOf bs i x.base).2 ⟨x, hxb, hc.1, hc.2, rfl⟩
    rw [hemp] at this
    simp at this
  unfold Ordered
  rw [List.pairwise_append]
  refine ⟨ordered_without g bs a h, ?_, ?_⟩
  · rw [List.pairwise_pair]
    rintro ⟨_, _, _, h4, _⟩
    simp only at h4
    omega
  · intro x hxm b hb
    simp only [List.mem_cons, List.mem_singleton, List.not_mem_nil, or_false] at hb
    rintro ⟨h1, _, h3, _, _⟩
    rcases hb with e | e <;> subst e <;> exact hno x hxm ⟨h1, h3⟩

theorem splits_ordered (g : Globals) (hi : Nat) (hg : GoodGlobals g hi) (k : Nat)
    (bs bs1 : List Blk) (h : SplitsAbove g k bs bs1) (ho : Ordered g bs) : Ordered g bs1 := by
  induction h with
  | refl => exact ho
  | step bs1 a i _ _ hiR hemp _ ih => exact ordered_split g hi hg bs1 a i (le_of_lt hiR) ih hemp

theorem bucketOf_append_other (bs ns : List Blk) (j : Nat)
    (h : ∀ n ∈ ns, n.idx ≠ j) : bucketOf (bs ++ ns) j = bucketOf bs j := by
  rw [bucketOf_append]
  have : bucketOf ns j = [] := by
    unfold bucketOf
    rw [List.map_eq_nil_iff, List.filter_eq_nil_iff]
    intro n hn
    simp only [Bool.and_eq_true, beq_iff_eq, not_and]
    intro _
    exact h n hn
  rw [this, List.append_nil]

theorem splits_low (g : Globals) (k : Nat) (bs bs1 : List Blk)
    (hi : Nat) (hg : GoodGlobals g hi) (hgeo : Geo g hi bs)
    (h : SplitsAbove g k bs bs1) :
    Geo g hi bs1 ∧ SameAlloc bs bs1 ∧ ∀ j, j < k → bucketOf bs1 j = bucketOf bs j := by
  induction h with
  | refl => exact ⟨hgeo, sameAlloc_refl bs, fun j _ => rfl⟩
  | step bs1 a i _ hki hiR hemp hmem ih =>
    obtain ⟨hgeo1, hsa, hlow⟩ := ih
    have hs1 := geo_sep g hi hg bs1 hgeo1
    refine ⟨geo_split g hi hg bs1 a i true true true hgeo1 hmem, ?_, ?_⟩
    · apply sameAlloc_trans bs bs1 _ hsa
      apply sameAlloc_trans bs1 (without bs1 a) _
        (sameAlloc_without_free g bs1 hs1 a (i + 1) hmem)
      apply sameAlloc_append_free
      intro n hn
      simp only [List.mem_cons, List.mem_singleton, List.not_mem_nil, or_false] at hn
      rcases hn with e | e <;> subst e <;> rfl
    · intro j hj
      rw [bucketOf_append_other _ _ j (by
        intro n hn
        simp only [List.mem_cons, List.mem_singleton, List.not_mem_nil, or_false] at hn
        rcases hn with e | e <;> subst e <;> simp only <;> omega)]
      rw [bucketOf_without, filter_ne_of_not_mem, hlow j hj]
      intro hmem2
      have h1 := (mem_bucketOf_iff bs1 j a).1 hmem2
      rcases sep_mem_or g bs1 hs1 _ _ h1 hmem with e | e
      · simp only [Blk.mk.injEq, and_true, true_and] at e
        omega
      · exact absurd rfl (apart_ne _ _ e)

theorem splits_mono (g : Globals) (k k1 : Nat) (hk : k1 ≤ k) (bs bs1 : List Blk)
    (h : SplitsAbove g k bs bs1) : SplitsAbove g k1 bs bs1 := by
  induction h with
  | refl => exact SplitsAbove.refl bs
  | step bs1 a i _ hki hiR hemp hmem ih =>
    exact SplitsAbove.step bs bs1 a i ih (by omega) hiR hemp hmem

/-- Source function `createFreestoreBlockAtAdjustedIndex` on an empty bucket
`i`: it succeeds exactly when a bucket strictly between `i` and `R` holds a
free block, and then it has split blocks into empty buckets `≥ i`. -/
theorem create_spec2 (g : Globals) (hi : Nat) (hg : GoodGlobals g hi) :
    ∀ (fuel : Nat) (m : Mem) (i : Nat) (bs : List Blk) (m1 : Mem) (r : Bool),
      Geo g hi bs → Rep g m bs → i ≤ g._freestoreRange → bucketOf bs i = [] →
      createFreestoreBlockAtAdjustedIndex g fuel m i = some (m1, r) →
      (r = true ↔ ∃ j, i < j ∧ j < g._freestoreRange ∧ bucketOf bs j ≠ []) ∧
      (r = false → m1 = m) ∧
      (r = true → ∃ bs1, SplitsAbove g i bs bs1 ∧ Rep g m1 bs1 ∧ bucketOf bs1 i ≠ []) := by
  intro fuel
  induction fuel with
  | zero => intro m i bs m1 r _ _ _ _ h; simp [createFreestoreBlockAtAdjustedIndex] at h
  | succ f ih =>
    intro m i bs m1 r hgeo hrep hiR hemp h
    have hrl := hg.range_lt
    unfold createFreestoreBlockAtAdjustedIndex at h
    rw [uintAdd_one i (by omega)] at h
    dsimp only at h
    split at h
    · rename_i hge
      simp only [Option.some.injEq, Prod.mk.injEq] at h
      obtain ⟨e1, e2⟩ := h
      subst e1 e2
      refine ⟨⟨fun e => by simp at e, ?_⟩, fun _ => rfl, fun e => by simp at e⟩
      rintro ⟨j, h1, h2, _⟩
      omega
    · rename_i hlt
      have hi1 : i + 1 ≤ g._freestoreRange := by omega
      obtain ⟨c, hc, h⟩ := bind_some h
      have hcv := g_containsFreeSpace g hi bs m (i + 1) c hg hrep hi1 hc
      obtain ⟨⟨ma, ss⟩, hrec, h⟩ := bind_some h
      dsimp only at h
      have hmid : ((ss || c) = false ∧ ma = m ∧
            ¬ ∃ j, i < j ∧ j < g._freestoreRange ∧ bucketOf bs j ≠ []) ∨
          ((ss || c) = true ∧ (∃ j, i < j ∧ j < g._freestoreRange ∧ bucketOf bs j ≠ []) ∧
            ∃ bsa, SplitsAbove g (i + 1) bs bsa ∧ Rep g ma bsa ∧
              bucketOf bsa (i + 1) ≠ []) := by
        by_cases hcf : c = false
        · rw [if_pos hcf] at hrec
          rw [hcf] at hcv
          have hemp1 : bucketOf bs (i + 1) = [] := by simpa using hcv
          obtain ⟨hiff, hf, ht⟩ := ih m (i + 1) bs ma ss hgeo hrep hi1 hemp1 hrec
          cases ss with
          | false =>
            left
            refine ⟨by simp [hcf], hf rfl, ?_⟩
            rintro ⟨j, h1, h2, h3⟩
            by_cases hj : j = i + 1
            · rw [hj] at h3; exact h3 hemp1
            · have := hiff.2 ⟨j, by omega, h2, h3⟩
              simp at this
          | true =>
            right
            obtain ⟨j, h1, h2, h3⟩ := hiff.1 rfl
            exact ⟨by simp, ⟨j, by omega, h2, h3⟩, ht rfl⟩
        · rw [if_neg hcf] at hrec
          simp only [Option.some.injEq, Prod.mk.injEq] at hrec
          obtain ⟨e1, e2⟩ := hrec
          subst e1 e2
          have hct : c = true := by simpa using hcf
          rw [hct] at hcv
          have hne1 : bucketOf bs (i + 1) ≠ [] := by simpa using hcv
          right
          exact ⟨by simp [hct], ⟨i + 1, by omega, by omega, hne1⟩, bs, SplitsAbove.refl bs,
            hrep, hne1⟩
      rcases hmid with ⟨hb, hma, hno⟩ | ⟨hb, hyes, bsa, hspl, hrepa, hnea⟩
      · rw [hb] at h
        simp only [Bool.false_eq_true, ↓reduceIte, Option.some.injEq, Prod.mk.injEq] at h
        obtain ⟨e1, e2⟩ := h
        subst e1 e2 hma
        exact ⟨⟨fun e => by simp at e, fun e => absurd e hno⟩, fun _ => rfl,
          fun e => by simp at e⟩
      · rw [hb] at h
        simp only [↓reduceIte] at h
        obtain ⟨lastBlock, h1, h⟩ := bind_some h
        obtain ⟨address, h2, h⟩ := bind_some h
        obtain ⟨⟨m2, r2⟩, h3, h⟩ := bind_some h
        dsimp only at h
        obtain ⟨⟨m3, r3⟩, h4, h⟩ := bind_some h
        dsimp only at h
        obtain ⟨⟨m4, r4⟩, h5, h⟩ := bind_some h
        simp only [Option.some.injEq, Prod.mk.injEq] at h
        obtain ⟨e1, e2⟩ := h
        subst e1 e2
        obtain ⟨hgeoa, _, hlow⟩ := splits_low g (i + 1) bs bsa hi hg hgeo hspl
        obtain ⟨hgeo4, hrep4, hmem⟩ := split_step g hi hg bsa ma f i lastBlock address m2 m3 m4 r2
          r3 r4 hgeoa hrepa hi1 hnea h1 h2 h3 h4 h5
        refine ⟨⟨fun _ => hyes, fun _ => rfl⟩, fun e => by simp at e, fun _ => ⟨_, ?_, hrep4, ?_⟩⟩
        · exact SplitsAbove.step bs bsa address i (splits_mono g (i + 1) i (by omega) bs bsa hspl)
            (le_refl _) (by omega) (by rw [hlow i (by omega)]; exact hemp) hmem
        · apply bucketOf_ne_nil _ i address
          simp

theorem canMeetLoop_spec (g : Globals) (hi : Nat) (hg : GoodGlobals g hi) (bs : List Blk)
    (m : Mem) (hrep : Rep g m bs) :
    ∀ (fuel : Nat) (c : Bool) (k : Nat) (r : Bool),
      canMeetLoop g m g._freestoreRange fuel c k = some r →
      (r = true ↔ c = true ∨ ∃ j, k ≤ j ∧ j ≤ g._freestoreRange ∧ bucketOf bs j ≠ []) := by
  intro fuel
  induction fuel with
  | zero => intro c k r h; simp [canMeetLoop] at h
  | succ f ih =>
    intro c k r h
    have hrl := hg.range_lt
    unfold canMeetLoop at h
    split at h
    · rename_i hc
      obtain ⟨c1, hc1, h⟩ := bind_some h
      have hv := g_containsFreeSpace g hi bs m k c1 hg hrep hc.2 hc1
      rw [uintAdd_one k (by omega)] at h
      rw [ih c1 (k + 1) r h, hc.1]
      constructor
      · rintro (e | ⟨j, h1, h2, h3⟩)
        · right
          rw [e] at hv
          exact ⟨k, le_refl _, hc.2, by simpa using hv⟩
        · exact Or.inr ⟨j, by omega, h2, h3⟩
      · rintro (e | ⟨j, h1, h2, h3⟩)
        · simp at e
        · by_cases hj : j = k
          · left
            rw [hv]
            rw [hj] at h3
            simpa using h3
          · exact Or.inr ⟨j, by omega, h2, h3⟩
    · rename_i hc
      simp only [Option.some.injEq] at h
      rw [← h]
      constructor
      · intro e; exact Or.inl e
      · rintro (e | ⟨j, h1, h2, h3⟩)
        · exact e
        · cases c with
          | true => rfl
          | false => exact absurd ⟨rfl, by omega⟩ hc

theorem canMeetLoop_some (g : Globals) (hi : Nat) (hg : GoodGlobals g hi) (bs : List Blk)
    (m : Mem) (hrep : Rep g m bs) :
    ∀ (fuel : Nat) (c : Bool) (k : Nat), 1 ≤ fuel → g._freestoreRange + 2 ≤ fuel + k →
      ∃ r, canMeetLoop g m g._freestoreRange fuel c k = some r := by
  intro fuel
  induction fuel with
  | zero => intro c k h; omega
  | succ f ih =>
    intro c k _ hf
    have hrl := hg.range_lt
    unfold canMeetLoop
    split
    · rename_i hc
      rw [g_containsFreeSpace_some g hi bs m k hg hrep hc.2]
      simp only [Option.bind_eq_bind, Option.some_bind]
      rw [uintAdd_one k (by omega)]
      exact ih _ (k + 1) (by omega) (by omega)
    · exact ⟨_, rfl⟩

/-- Source function `allocateHeaderForSize`, precisely: it returns a header
exactly when bucket `t` is servable; the header is the last block of bucket
`t`, after splits into empty buckets when bucket `t` was empty. -/
theorem allocate_spec2 (g : Globals) (hi : Nat) (hg : GoodGlobals g hi) (bs : List Blk)
    (m : Mem) (fuel n : Nat) (m1 : Mem) (header : Nat) (hgeo : Geo g hi bs) (hrep : Rep g m bs)
    (h : allocateHeaderForSize g m fuel n = some (m1, header)) :
    (header ≠ 0 ↔
      Servable g bs (getAdjustedFreestoreIndexForSize g (uintAdd n g._headerSize))) ∧
    (header = 0 → m1 = m) ∧
    (header ≠ 0 → ∃ bsa,
      SplitsAbove g (getAdjustedFreestoreIndexForSize g (uintAdd n g._headerSize)) bs bsa ∧
      (bucketOf bs (getAdjustedFreestoreIndexForSize g (uintAdd n g._headerSize)) ≠ [] →
        bsa = bs) ∧
      bucketOf bsa (getAdjustedFreestoreIndexForSize g (uintAdd n g._headerSize)) ≠ [] ∧
      header = lastOr
        (bucketOf bsa (getAdjustedFreestoreIndexForSize g (uintAdd n g._headerSize))) 0 ∧
      (⟨header, getAdjustedFreestoreIndexForSize g (uintAdd n g._headerSize), true⟩ : Blk)
        ∈ bsa ∧
      header + 16 < 2 ^ 64 ∧
      Geo g hi (without bsa header ++
        [⟨header, getAdjustedFreestoreIndexForSize g (uintAdd n g._headerSize), false⟩]) ∧
      Rep g m1 (without bsa header ++
        [⟨header, getAdjustedFreestoreIndexForSize g (uintAdd n g._headerSize), false⟩]) ∧
      readMemoryStart m1 header = some (header + 16)) := by
  unfold allocateHeaderForSize at h
  obtain ⟨canMeet, hcm, h⟩ := bind_some h
  unfold canMeetMemoryRequest at hcm
  have hcms := canMeetLoop_spec g hi hg bs m hrep fuel false _ canMeet hcm
  generalize getAdjustedFreestoreIndexForSize g (uintAdd n g._headerSize) = t at h hcm hcms ⊢
  split at h
  · rename_i hcf
    simp only [Option.some.injEq, Prod.mk.injEq] at h
    obtain ⟨e1, e2⟩ := h
    subst e1 e2
    refine ⟨⟨fun e => absurd rfl e, ?_⟩, fun _ => rfl, fun e => absurd rfl e⟩
    rintro ⟨ht, hs⟩
    have : canMeet = true := hcms.2 (Or.inr (by
      rcases hs with e | ⟨j, h1, h2, h3⟩
      · exact ⟨t, le_refl _, ht, e⟩
      · exact ⟨j, by omega, by omega, h3⟩))
    rw [this] at hcf
    simp at hcf
  · rename_i hcan
    have hcan1 : canMeet = true := by simpa using hcan
    subst hcan1
    have ht := canMeetLoop_true _ _ _ _ _ hcm
    have ht32 : t < 2 ^ 32 := by have := hg.range_lt; omega
    obtain ⟨fa, hfa, h⟩ := bind_some h
    have hfav := g_containsFreeSpace g hi bs m _ fa hg hrep ht hfa
    obtain ⟨⟨ma, created⟩, hcr, h⟩ := bind_some h
    dsimp only at h
    have hmid : (created = false ∧ ma = m ∧ ¬ Servable g bs t) ∨
        (created = true ∧ Servable g bs t ∧ ∃ bsa, SplitsAbove g t bs bsa ∧ Rep g ma bsa ∧
          bucketOf bsa t ≠ [] ∧ (bucketOf bs t ≠ [] → bsa = bs)) := by
      by_cases hf : fa = false
      · rw [if_pos hf] at hcr
        rw [hf] at hfav
        have hemp : bucketOf bs t = [] := by simpa using hfav
        obtain ⟨hiff, h1, h2⟩ := create_spec2 g hi hg fuel m _ bs ma created hgeo hrep ht hemp
          hcr
        cases created with
        | false =>
          left
          refine ⟨rfl, h1 rfl, ?_⟩
          rintro ⟨_, e | e⟩
          · exact e hemp
          · have := hiff.2 e
            simp at this
        | true =>
          right
          obtain ⟨bsa, i1, i2, i3⟩ := h2 rfl
          exact ⟨rfl, ⟨ht, Or.inr (hiff.1 rfl)⟩, bsa, i1, i2, i3, fun e => absurd hemp e⟩
      · rw [if_neg hf] at hcr
        simp only [Option.some.injEq, Prod.mk.injEq] at hcr
        obtain ⟨e1, e2⟩ := hcr
        subst e1 e2
        have hft : fa = true := by simpa using hf
        rw [hft] at hfav
        have hne : bucketOf bs t ≠ [] := by simpa using hfav
        right
        exact ⟨hft, ⟨ht, Or.inl hne⟩, bs, SplitsAbove.refl bs, hrep, hne, fun _ => rfl⟩
    rcases hmid with ⟨hc, hma, hns⟩ | ⟨hc, hsv, bsa, hspl, hrepa, hnea, hsame⟩
    · rw [hc] at h
      simp only [Bool.false_eq_true, ↓reduceIte, Option.some.injEq, Prod.mk.injEq] at h
      obtain ⟨e1, e2⟩ := h
      refine ⟨⟨fun e => absurd e2.symm e, fun e => absurd e hns⟩,
        fun _ => by rw [← e1, hma], fun e => absurd e2.symm e⟩
    · rw [hc] at h
      simp only [↓reduceIte] at h
      obtain ⟨freeblock, h1, h⟩ := bind_some h
      obtain ⟨fb, h2, h⟩ := bind_some h
      obtain ⟨⟨m2, r2⟩, h3, h⟩ := bind_some h
      dsimp only at h
      obtain ⟨x, h4, h⟩ := bind_some h
      obtain ⟨m3, h5, h⟩ := bind_some h
      obtain ⟨m4, h6, h⟩ := bind_some h
      simp only [Option.some.injEq, Prod.mk.injEq] at h
      obtain ⟨e1, e2⟩ := h
      subst e1 e2
      obtain ⟨hgeoa, _, _⟩ := splits_low g t bs bsa hi hg hgeo hspl
      obtain ⟨hmem, hfb0, hlt, hgeo4, hrep4, hrd⟩ := alloc_step g hi hg bsa ma fuel _ freeblock fb x
        m2 m3 m4 r2 hgeoa hrepa ht ht32 hnea h1 h2 h3 h4 h5 h6
      have hlast := g_lastAddress g hi bsa ma fuel t freeblock fb hg hrepa ht h1 h2
      exact ⟨⟨fun _ => hsv, fun _ => hfb0⟩, fun e => absurd e hfb0,
        fun _ => ⟨bsa, hspl, hsame, hnea, hlast, hmem, hlt, hgeo4, hrep4, hrd⟩⟩

theorem without_append (l1 l2 : List Blk) (a : Nat) :
    without (l1 ++ l2) a = without l1 a ++ without l2 a := by
  unfold without
  rw [List.filter_append]

theorem without_single_same (a i : Nat) (f : Bool) : without [⟨a, i, f⟩] a = [] := by
  unfold without
  simp

/-- For a block inside the arena, `getBuddySideForAddress` answers `neither`
exactly at the address `A + size_of(i)`. -/
theorem getBuddySide_neither_iff (g : Globals) (i a : Nat) (ha : g._freestoreAddress ≤ a)
    (hlt : a + getSizeForAdjustedFreestoreIndex g i ≤ 2 ^ 64)
    (hA : g._freestoreAddress ≠ 0) (hsz : 1 ≤ getSizeForAdjustedFreestoreIndex g i) :
    getBuddySideForAddress g i a = side.neither ↔
      a = g._freestoreAddress + getSizeForAdjustedFreestoreIndex g i := by
  unfold getBuddySideForAddress
  simp only [Int.tmod_one, decide_True, ↓reduceIte]
  have key : g._freestoreAddress = ptrSub a (getSizeForAdjustedFreestoreIndex g i) ↔
      a = g._freestoreAddress + getSizeForAdjustedFreestoreIndex g i := by
    by_cases hle : getSizeForAdjustedFreestoreIndex g i ≤ a
    · rw [ptrSub_exact a _ hle (by omega)]
      omega
    · unfold ptrSub
      rw [Nat.mod_eq_of_lt (by omega : getSizeForAdjustedFreestoreIndex g i < 2 ^ 64)]
      by_cases hz : a + getSizeForAdjustedFreestoreIndex g i = 2 ^ 64
      · have : a + (2 ^ 64 - getSizeForAdjustedFreestoreIndex g i) < 2 ^ 64 := by omega
        rw [Nat.mod_eq_of_lt this]
        omega
      · have : a + (2 ^ 64 - getSizeForAdjustedFreestoreIndex g i) < 2 ^ 64 := by omega
        rw [Nat.mod_eq_of_lt this]
        omega
  split
  · rename_i hd
    simp only [decide_eq_true_eq] at hd
    simp only [true_iff]
    exact key.1 hd
  · rename_i hd
    simp only [decide_eq_true_eq] at hd
    simp only [reduceCtorEq, false_iff]
    exact fun e => hd (key.2 e)

/-- Source function `attemptBuddyMergeAtAdjustedIndexWithAddress` on the block
`a` that was appended last to bucket `i`: the merges restore the order
invariant, and nothing happens when `a` is the block at `A + size_of(i)` or its
upper neighbour is not free in bucket `i`. -/
theorem attempt_spec2 (g : Globals) (hi : Nat) (hg : GoodGlobals g hi) :
    ∀ (fuel : Nat) (m : Mem) (i a : Nat) (pre : List Blk) (m1 : Mem) (r : Bool),
      Geo g hi (pre ++ [⟨a, i, true⟩]) → Rep g m (pre ++ [⟨a, i, true⟩]) → Ordered g pre →
      attemptBuddyMergeAtAdjustedIndexWithAddress g fuel m i a = some (m1, r) →
      ∃ bs1, Geo g hi bs1 ∧ Rep g m1 bs1 ∧ SameAlloc (pre ++ [⟨a, i, true⟩]) bs1 ∧
        Ordered g bs1 ∧
        ((a = g._freestoreAddress + getSizeForAdjustedFreestoreIndex g i ∨
          (⟨a + getSizeForAdjustedFreestoreIndex g i, i, true⟩ : Blk) ∉ pre) →
          bs1 = pre ++ [⟨a, i, true⟩] ∧ m1 = m) := by
  intro fuel
  induction fuel with
  | zero =>
    intro m i a pre m1 r _ _ _ h
    simp [attemptBuddyMergeAtAdjustedIndexWithAddress] at h
  | succ f ih =>
    intro m i a pre m1 r hgeo hrep hord h
    have hrl := hg.range_lt
    have hmem : (⟨a, i, true⟩ : Blk) ∈ pre ++ [⟨a, i, true⟩] := by simp
    have hs := geo_sep g hi hg _ hgeo
    obtain ⟨hb1, hb2, hiR⟩ := hs.1 _ hmem
    simp only at hb1 hb2 hiR
    obtain ⟨_, gb⟩ := geo_bounds g hi hg _ hgeo _ hmem
    simp only at gb
    have hhi := hg.hi_le
    have har := hg.arena
    have hA0 := hg.base_ne
    have ha0 : a ≠ 0 := by omega
    have hsz := size_ge g hi hg i hiR
    have hnei := getBuddySide_neither_iff g i a (by omega) (by omega) hA0 (by omega)
    unfold attemptBuddyMergeAtAdjustedIndexWithAddress at h
    dsimp only at h
    have hsame : some (m, true) = some (m1, r) →
        (a = g._freestoreAddress + getSizeForAdjustedFreestoreIndex g i ∨
          (⟨a + getSizeForAdjustedFreestoreIndex g i, i, true⟩ : Blk) ∉ pre) →
        ∃ bs1, Geo g hi bs1 ∧ Rep g m1 bs1 ∧ SameAlloc (pre ++ [⟨a, i, true⟩]) bs1 ∧
          Ordered g bs1 ∧
          ((a = g._freestoreAddress + getSizeForAdjustedFreestoreIndex g i ∨
            (⟨a + getSizeForAdjustedFreestoreIndex g i, i, true⟩ : Blk) ∉ pre) →
            bs1 = pre ++ [⟨a, i, true⟩] ∧ m1 = m) := by
      intro e hx
      simp only [Option.some.injEq, Prod.mk.injEq] at e
      rw [← e.1]
      exact ⟨_, hgeo, hrep, sameAlloc_refl _, ordered_append_free g pre a i hord hx,
        fun _ => ⟨rfl, rfl⟩⟩
    rcases getBuddySide_cases g i a with hside | hside
    · rw [hside] at h
      simp only [ne_eq, reduceCtorEq, not_false_eq_true, ↓reduceIte] at h
      have hnot : a ≠ g._freestoreAddress + getSizeForAdjustedFreestoreIndex g i := by
        intro e
        have := hnei.2 e
        rw [hside] at this
        simp at this
      have hnotin : (⟨a + getSizeForAdjustedFreestoreIndex g i, i, true⟩ : Blk)
          ∉ pre ++ [⟨a, i, true⟩] →
          (⟨a + getSizeForAdjustedFreestoreIndex g i, i, true⟩ : Blk) ∉ pre :=
        fun e1 e2 => e1 (List.mem_append_left _ e2)
      split at h
      · rename_i hb0
        have hbd : getContiguousAddressAtSide g i a side.right =
            a + getSizeForAdjustedFreestoreIndex g i := by
          unfold getContiguousAddressAtSide ptrAdd at hb0 ⊢
          simp only at hb0 ⊢
          by_cases hw : a + getSizeForAdjustedFreestoreIndex g i = 2 ^ 64
          · rw [hw] at hb0; simp at hb0
          · exact Nat.mod_eq_of_lt (by omega)
        obtain ⟨c1, hc1, h⟩ := bind_some h
        obtain ⟨c2, hc2, h⟩ := bind_some h
        have hv1 := g_contains g hi _ m f i a c1 hg hrep hiR ha0 hc1
        have hv2 := g_contains g hi _ m f i _ c2 hg hrep hiR hb0 hc2
        rw [hbd] at hv2 h
        split at h
        · rename_i hboth
          simp only [Bool.and_eq_true] at hboth
          obtain ⟨t1, t2⟩ := hboth
          rw [t2] at hv2
          have e2 : (⟨a + getSizeForAdjustedFreestoreIndex g i, i, true⟩ : Blk)
              ∈ pre ++ [⟨a, i, true⟩] :=
            (mem_bucketOf_iff _ i _).1 (by simpa using hv2)
          have e2p : (⟨a + getSizeForAdjustedFreestoreIndex g i, i, true⟩ : Blk) ∈ pre := by
            rcases List.mem_append.1 e2 with e | e
            · exact e
            · simp only [List.mem_singleton, Blk.mk.injEq, and_true] at e
              omega
          obtain ⟨⟨ma, ms⟩, hmg, h⟩ := bind_some h
          dsimp only at h
          obtain ⟨hms, hlt, hgeo3, hrep3, hsa3⟩ := merge_step g hi hg _ m f i a ma ms hgeo hrep
            hmem e2 hmg
          rw [hms] at h
          simp only [↓reduceIte, reduceCtorEq] at h
          rw [uintAdd_one i (by omega)] at h
          obtain ⟨⟨mc, rc⟩, hrec, h⟩ := bind_some h
          simp only [Option.some.injEq, Prod.mk.injEq] at h
          have hpre2 : without (without (pre ++ [⟨a, i, true⟩]) a)
              (a + getSizeForAdjustedFreestoreIndex g i)
              = without (without pre a) (a + getSizeForAdjustedFreestoreIndex g i) := by
            rw [without_append, without_single_same, List.append_nil]
          rw [hpre2] at hgeo3 hrep3 hsa3
          obtain ⟨bs1, hg1, hr1, hs1, ho1, _⟩ := ih ma (i + 1) a _ mc rc hgeo3 hrep3
            (ordered_without g _ _ (ordered_without g _ _ hord)) hrec
          rw [← h.1]
          refine ⟨bs1, hg1, hr1, sameAlloc_trans _ _ _ hsa3 hs1, ho1, ?_⟩
          rintro (e | e)
          · exact absurd e hnot
          · exact absurd e2p e
        · rename_i hboth
          have hc1t : c1 = true := by
            rw [hv1]
            simpa using (mem_bucketOf_iff _ i a).2 hmem
          have hc2f : c2 = false := by
            cases c2 with
            | false => rfl
            | true => rw [hc1t] at hboth; simp at hboth
          rw [hc2f] at hv2
          have hni : (⟨a + getSizeForAdjustedFreestoreIndex g i, i, true⟩ : Blk)
              ∉ pre ++ [⟨a, i, true⟩] := by
            intro e
            have := (mem_bucketOf_iff _ i _).2 e
            simp only [Bool.false_eq, decide_eq_false_iff_not] at hv2
            exact hv2 this
          exact hsame h (Or.inr (hnotin hni))
      · rename_i hb0
        have hni : (⟨a + getSizeForAdjustedFreestoreIndex g i, i, true⟩ : Blk) ∉ pre := by
          intro e
          obtain ⟨_, q2, _⟩ := hs.1 _ (List.mem_append_left _ e)
          simp only at q2
          unfold getContiguousAddressAtSide ptrAdd at hb0
          simp only [ne_eq, Decidable.not_not] at hb0
          rw [Nat.mod_eq_of_lt (by omega)] at hb0
          omega
        exact hsame h (Or.inr hni)
    · rw [hside] at h
      simp only [ne_eq, not_true_eq_false, ↓reduceIte] at h
      exact hsame h (Or.inl (hnei.1 hside))

/-- Source function `deallocateHeaderAtAddress` on the payload address of an
allocated block, precisely: the block is appended to its bucket and merged
upward while its upper neighbour is free in the same bucket; the order
invariant is kept. -/
theorem free_spec2 (g : Globals) (hi : Nat) (hg : GoodGlobals g hi) (bs : List Blk) (m : Mem)
    (fuel b0 t : Nat) (m1 : Mem) (r : Bool) (hgeo : Geo g hi bs) (hrep : Rep g m bs)
    (hord : Ordered g bs) (he : (⟨b0, t, false⟩ : Blk) ∈ bs)
    (h : deallocateHeaderAtAddress g m fuel (b0 + 16) = some (m1, r)) :
    ∃ bs1, Geo g hi bs1 ∧ Rep g m1 bs1 ∧ Ordered g bs1 ∧
      (∀ b : Blk, b.free = false → (b ∈ bs1 ↔ (b ∈ bs ∧ b ≠ ⟨b0, t, false⟩))) ∧
      ((b0 = g._freestoreAddress + getSizeForAdjustedFreestoreIndex g t ∨
        (⟨b0 + getSizeForAdjustedFreestoreIndex g t, t, true⟩ : Blk) ∉ bs) →
        bs1 = without bs b0 ++ [⟨b0, t, true⟩]) := by
  have hs := geo_sep g hi hg bs hgeo
  obtain ⟨hb1, hb2, hb3⟩ := hs.1 _ he
  simp only at hb1 hb2 hb3
  have hbase := hg.base_ne
  have hb00 : b0 ≠ 0 := by omega
  obtain ⟨hx1, hx2⟩ := hrep.2 _ he rfl
  simp only at hx1 hx2
  have hhdr : memoryHeaderForAddress g m (b0 + 16) = some b0 := by
    unfold memoryHeaderForAddress
    rw [hg.hdr]
    dsimp only
    rw [ptrSub_exact (b0 + 16) 16 (by omega) (by omega)]
    simp only [Nat.add_sub_cancel, ne_eq, hb00, not_false_eq_true, ↓reduceIte]
    unfold readMemoryStart
    rw [if_neg hb00, hx2]
    simp
  unfold deallocateHeaderAtAddress at h
  rw [hhdr] at h
  simp only [Option.bind_eq_bind, Option.some_bind, ne_eq, hb00, not_false_eq_true,
    ↓reduceIte] at h
  unfold deallocateHeader at h
  simp only [ne_eq, hb00, not_false_eq_true, ↓reduceIte] at h
  obtain ⟨ai, hai, h⟩ := bind_some h
  unfold readIndex at hai
  rw [if_neg hb00, hx1] at hai
  simp only [Option.some.injEq] at hai
  subst hai
  obtain ⟨ma, hma, h⟩ := bind_some h
  obtain ⟨mb, hmb, h⟩ := bind_some h
  unfold writeMemoryStart at hma
  unfold writeIndex at hmb
  rw [if_neg hb00] at hma hmb
  simp only [Option.some.injEq] at hma hmb
  obtain ⟨⟨mc, rc⟩, hadd, h⟩ := bind_some h
  dsimp only at h
  obtain ⟨⟨md, rd⟩, hatt, h⟩ := bind_some h
  simp only [Option.some.injEq, Prod.mk.injEq] at h
  have hfr : Frame m mb [b0] := by
    intro w hw
    have := hw b0 (by simp)
    rw [← hmb, ← hma, store_other _ _ _ _ (by omega), store_other _ _ _ _ (by omega)]
  have hsw := sep_without g bs b0 hs
  have hap := apart_others g bs hs _ he
  have hrepb := rep_frame_fresh g _ m mb [b0] (rep_without_alloc g bs m b0 t hs hrep he) hfr (by
    intro q hq
    simp only [List.mem_singleton] at hq
    subst hq
    exact ⟨hb1, hap⟩)
  obtain ⟨_, hrepc, _⟩ := g_add g hi _ mb fuel t b0 mc rc hg hsw hrepb hb3 hb1 hb2 hap hadd
  have hgeoc := geo_flip g hi hg bs b0 t false true hgeo he
  obtain ⟨bs1, hg1, hr1, hs1, ho1, hsame⟩ := attempt_spec2 g hi hg fuel mc t b0 _ md rd hgeoc hrepc
    (ordered_without g bs b0 hord) hatt
  rw [← h.1]
  refine ⟨bs1, hg1, hr1, ho1, ?_, ?_⟩
  · intro b hbf
    rw [hs1 b hbf, List.mem_append, mem_without]
    constructor
    · rintro (⟨e1, e2⟩ | e)
      · exact ⟨e1, fun e => e2 (by rw [e])⟩
      · simp only [List.mem_singleton] at e
        rw [e] at hbf
        simp at hbf
    · rintro ⟨e1, e2⟩
      left
      refine ⟨e1, ?_⟩
      rcases sep_mem_or g bs hs b _ e1 he with e | e
      · exact absurd e e2
      · exact apart_ne _ _ e
  · intro hx
    refine (hsame ?_).1
    rcases hx with e | e
    · exact Or.inl e
    · exact Or.inr (fun e2 => e ((mem_without bs _ _).1 e2).1)

theorem inv2_inv (hi : Nat) (st : State) (live : List Nat) (h : Inv2 hi st live) :
    Inv hi st live := by
  obtain ⟨hg, bs, h1, h2, h3, h4, _⟩ := h
  exact ⟨hg, bs, h1, h2, h3, h4⟩

theorem pairwise_lastOr {R : Nat → Nat → Prop} : ∀ (l : List Nat) (d : Nat), l.Pairwise R →
    ∀ x ∈ l, x ≠ lastOr l d → R x (lastOr l d) := by
  intro l
  induction l with
  | nil => intro d _ x hx; simp at hx
  | cons b rest ih =>
    intro d hpw x hx hne
    obtain ⟨hb, hrest⟩ := List.pairwise_cons.1 hpw
    have e : lastOr (b :: rest) d = lastOr rest b := rfl
    rw [e] at hne ⊢
    cases hr : rest with
    | nil =>
      rw [hr] at hx hne
      simp only [List.mem_singleton] at hx
      exact absurd hx hne
    | cons c rest2 =>
      rw [← hr]
      have hmem : lastOr rest b ∈ rest := lastOr_mem rest b (by rw [hr]; simp)
      rcases List.mem_cons.1 hx with e1 | e1
      · rw [e1]; exact hb _ hmem
      · exact ih b hrest x e1 hne

theorem pairwise_filter_imp {α : Type} (p : α → Bool) (R S : α → α → Prop)
    (hRS : ∀ x y, R x y → p x = true → p y = true → S x y) :
    ∀ l : List α, l.Pairwise R → (l.filter p).Pairwise S := by
  intro l
  induction l with
  | nil => intro _; exact List.Pairwise.nil
  | cons a rest ih =>
    intro h
    obtain ⟨ha, hrest⟩ := List.pairwise_cons.1 h
    rw [List.filter_cons]
    split
    · rename_i hpa
      refine List.pairwise_cons.2 ⟨?_, ih hrest⟩
      intro y hy
      obtain ⟨hy1, hy2⟩ := List.mem_filter.1 hy
      exact hRS a y (ha y hy1) hpa hy2
    · exact ih hrest

/-- Under the order invariant, the last block of a bucket has no free upper
neighbour in that bucket, unless it is the block at `A + size_of(t)`. -/
theorem ordered_last (g : Globals) (hi : Nat) (hg : GoodGlobals g hi) (bs : List Blk) (t : Nat)
    (ht : t ≤ g._freestoreRange) (hord : Ordered g bs) :
    lastOr (bucketOf bs t) 0 = g._freestoreAddress + getSizeForAdjustedFreestoreIndex g t ∨
      (⟨lastOr (bucketOf bs t) 0 + getSizeForAdjustedFreestoreIndex g t, t, true⟩ : Blk)
        ∉ bs := by
  have hsz := size_ge g hi hg t ht
  by_cases hx : lastOr (bucketOf bs t) 0
      = g._freestoreAddress + getSizeForAdjustedFreestoreIndex g t
  · exact Or.inl hx
  · right
    intro hmem
    have hpw : (bucketOf bs t).Pairwise (fun x b =>
        ¬ (x = b + getSizeForAdjustedFreestoreIndex g t ∧
          b ≠ g._freestoreAddress + getSizeForAdjustedFreestoreIndex g t)) := by
      unfold bucketOf
      rw [List.pairwise_map]
      refine pairwise_filter_imp _ _ _ ?_ bs hord
      intro x b hxb px pb hc
      simp only [Bool.and_eq_true, beq_iff_eq] at px pb
      apply hxb
      refine ⟨px.1, pb.1, by rw [px.2, pb.2], ?_, ?_⟩
      · rw [pb.2]; exact hc.1
      · rw [pb.2]; exact hc.2
    have hin := (mem_bucketOf_iff bs t _).2 hmem
    have := pairwise_lastOr (bucketOf bs t) 0 hpw _ hin (by omega)
    exact this ⟨rfl, hx⟩

theorem lastOr_append_single (l : List Nat) (a d : Nat) : lastOr (l ++ [a]) d = a := by
  induction l generalizing d with
  | nil => rfl
  | cons b rest ih =>
    show lastOr (rest ++ [a]) b = a
    exact ih b

theorem bucketOf_append_free (bs : List Blk) (a t : Nat) :
    bucketOf (bs ++ [⟨a, t, true⟩]) t = bucketOf bs t ++ [a] := by
  rw [bucketOf_append, bucketOf_single_same]

/-- Step lemma: `my_malloc` preserves the invariant with the order of the
free lists; a null result leaves the state unchanged. -/
theorem my_malloc_inv2 (hi : Nat) (fuel : Nat) (st : State) (live : List Nat) (n : Nat)
    (st1 : State) (p : Nat) (hinv : Inv2 hi st live)
    (h : my_malloc fuel st n = some (st1, p)) :
    (p = 0 → st1 = st) ∧ (p ≠ 0 → Inv2 hi st1 (p :: live)) := by
  obtain ⟨hg, bs, hgeo, hrep, hnd, hlive, hord⟩ := hinv
  unfold my_malloc at h
  obtain ⟨⟨m1, header⟩, ha, h⟩ := bind_some h
  dsimp only at h
  obtain ⟨_, h0, h1⟩ := allocate_spec2 st.g hi hg bs st.mem fuel n m1 header hgeo hrep ha
  by_cases hh : header = 0
  · rw [if_neg (by simpa using hh)] at h
    simp only [Option.some.injEq, Prod.mk.injEq] at h
    obtain ⟨e1, e2⟩ := h
    refine ⟨fun _ => by rw [← e1, h0 hh], fun e => absurd e2.symm e⟩
  · rw [if_pos hh] at h
    obtain ⟨address, hrd, h⟩ := bind_some h
    simp only [Option.some.injEq, Prod.mk.injEq] at h
    obtain ⟨e1, e2⟩ := h
    obtain ⟨bs1, hspl, _, _, _, hmem, hlt, hgeo2, hrep2, hrd2⟩ := h1 hh
    generalize getAdjustedFreestoreIndexForSize st.g (uintAdd n st.g._headerSize) = t
      at hspl hmem hgeo2 hrep2
    obtain ⟨hgeo1, hsa, _⟩ := splits_low st.g t bs bs1 hi hg hgeo hspl
    have hord1 := splits_ordered st.g hi hg t bs bs1 hspl hord
    rw [hrd2] at hrd
    simp only [Option.some.injEq] at hrd
    have hp : p = header + 16 := by rw [← e2, ← hrd]
    refine ⟨fun e => by omega, fun _ => ?_⟩
    rw [← e1]
    have hs1 := geo_sep st.g hi hg bs1 hgeo1
    have hnew : ∀ b : Blk, b.free = false →
        (b ∈ without bs1 header ++ [⟨header, t, false⟩] ↔ b ∈ bs ∨ b = ⟨header, t, false⟩) := by
      intro b hbf
      rw [List.mem_append, mem_without, List.mem_singleton, ← hsa b hbf]
      constructor
      · rintro (⟨e, _⟩ | e)
        · exact Or.inl e
        · exact Or.inr e
      · rintro (e | e)
        · left
          refine ⟨e, ?_⟩
          rcases sep_mem_or st.g bs1 hs1 b _ e hmem with e3 | e3
          · rw [e3] at hbf; simp at hbf
          · exact apart_ne _ _ e3
        · exact Or.inr e
    have hfresh : p ∉ live := by
      intro hpl
      obtain ⟨b, hb, hbf, hbp⟩ := (hlive p).1 hpl
      have hb1 : b ∈ bs1 := (hsa b hbf).2 hb
      rcases sep_mem_or st.g bs1 hs1 b _ hb1 hmem with e3 | e3
      · rw [e3] at hbf; simp at hbf
      · have := apart_ne _ _ e3
        simp only at this
        omega
    refine ⟨hg, _, hgeo2, hrep2, List.nodup_cons.2 ⟨hfresh, hnd⟩, ?_,
      ordered_append_alloc st.g _ header t (ordered_without st.g bs1 header hord1)⟩
    intro q
    rw [List.mem_cons, hlive q]
    constructor
    · rintro (e | ⟨b, hb, hbf, hbq⟩)
      · exact ⟨⟨header, t, false⟩, (hnew _ rfl).2 (Or.inr rfl), rfl, by simp only; omega⟩
      · exact ⟨b, (hnew b hbf).2 (Or.inl hb), hbf, hbq⟩
    · rintro ⟨b, hb, hbf, hbq⟩
      rcases (hnew b hbf).1 hb with e | e
      · exact Or.inr ⟨b, e, hbf, hbq⟩
      · left
        rw [e] at hbq
        simp only at hbq
        omega

/-- Step lemma: `my_free` on a live pointer preserves the invariant with the
order of the free lists. -/
theorem my_free_inv2 (hi : Nat) (fuel : Nat) (st : State) (live : List Nat) (p : Nat)
    (st1 : State) (r : Int) (hinv : Inv2 hi st live) (hp : p ∈ live)
    (h : my_free fuel st p = some (st1, r)) : Inv2 hi st1 (live.erase p) := by
  obtain ⟨hg, bs, hgeo, hrep, hnd, hlive, hord⟩ := hinv
  obtain ⟨e, he, hef, hep⟩ := (hlive p).1 hp
  have hs := geo_sep st.g hi hg bs hgeo
  unfold my_free at h
  obtain ⟨⟨m1, success⟩, hd, h⟩ := bind_some h
  simp only [Option.some.injEq, Prod.mk.injEq] at h
  have hee : e = ⟨e.base, e.idx, false⟩ := by
    cases e; simp only at hef; subst hef; rfl
  rw [hee] at he
  rw [← hep] at hd
  obtain ⟨bs1, hgeo1, hrep1, hord1, hal, _⟩ := free_spec2 st.g hi hg bs st.mem fuel e.base e.idx m1
    success hgeo hrep hord he hd
  rw [← h.1]
  refine ⟨hg, bs1, hgeo1, hrep1, hnd.erase p, ?_, hord1⟩
  intro q
  rw [hnd.mem_erase_iff, hlive q]
  constructor
  · rintro ⟨hqp, b, hb, hbf, hbq⟩
    refine ⟨b, (hal b hbf).2 ⟨hb, ?_⟩, hbf, hbq⟩
    intro e2
    rw [e2] at hbq
    simp only at hbq
    omega
  · rintro ⟨b, hb, hbf, hbq⟩
    obtain ⟨hb1, hb2⟩ := (hal b hbf).1 hb
    refine ⟨?_, b, hb1, hbf, hbq⟩
    intro hqp
    rcases sep_mem_or st.g bs hs b _ hb1 he with e3 | e3
    · exact hb2 e3
    · have := apart_ne _ _ e3
      simp only at this
      omega

theorem spineBlocks_ordered (g : Globals) (s n : Nat) : Ordered g (spineBlocks g s n) := by
  unfold Ordered
  apply List.pairwise_of_forall_mem_list
  intro x _ b hb
  have := (spineBlocks_mem g s n b hb).2.2.2
  rintro ⟨_, _, _, _, h5⟩
  exact h5 this

/-- The tail loop of `protectFreestoreHeader`, with the order invariant. -/
theorem tail_spec2 (g : Globals) (A B L : Nat) (hp : Params g A B L)
    (hs : g._freestoreIndex =
      getAdjustedMinFreestoreIndexForRequestedSize g (uintMul 16 g._freestoreRange)) :
    ∀ (fuel : Nat) (m : Mem) (cur space : Nat) (bs : List Blk) (m1 : Mem) (lo : Nat),
      cur + space = A + L → A + getSizeForAdjustedFreestoreIndex g g._freestoreRange ≤ cur →
      Geo g cur bs → Rep g m bs → (∀ b ∈ bs, b.free = true) → Ordered g bs →
      protectTailLoop g fuel m cur space = some (m1, lo) →
      lo ≤ space ∧ ∃ bs1, Geo g (A + L - lo) bs1 ∧ Rep g m1 bs1 ∧
        (∀ b ∈ bs1, b.free = true) ∧ Ordered g bs1 := by
  have hAL := hp.AL
  have hL32 := hp.L32
  intro fuel
  induction fuel with
  | zero => intro m cur space bs m1 lo _ _ _ _ _ _ h; simp [protectTailLoop] at h
  | succ f ih =>
    intro m cur space bs m1 lo hcs hcur hgeo hrep hfree hord h
    unfold protectTailLoop at h
    split at h
    · rename_i hgt
      dsimp only at h
      obtain ⟨hj, hszj⟩ := tail_index g A B L hp space hgt (by omega)
      generalize (if getSizeForAdjustedFreestoreIndex g (getAdjustedFreestoreIndexForSize g space)
          > space then uintSub (getAdjustedFreestoreIndexForSize g space) 1
          else getAdjustedFreestoreIndexForSize g space) = j at h hj hszj
      obtain ⟨⟨ma, ra⟩, hadd, h⟩ := bind_some h
      dsimp only at h
      have hg := goodGlobals_of_params g A B L hp hs cur hcur (by omega)
      have hsz := size_ge g cur hg j hj
      have hsep := geo_sep g cur hg bs hgeo
      have hfit := hg.heads_fit
      have hlo := hg.lo_le
      have hA := hp.hA
      obtain ⟨_, hrepa, _⟩ := g_add g cur bs m f j cur ma ra hg hsep hrep hj (by omega) (by omega)
        (by
          intro b hb
          have := (geo_bounds g cur hg bs hgeo b hb).2
          have := size_ge g cur hg b.idx (hgeo.1 b hb)
          unfold Apart
          omega) hadd
      rw [ptrAdd_exact cur _ (by omega), uintSub_exact space _ hszj (by omega)] at h
      obtain ⟨i1, bs1, i2, i3, i4, i5⟩ := ih ma _ _ (bs ++ [⟨cur, j, true⟩]) m1 lo (by omega)
        (by omega) (geo_extend g cur bs j true hgeo hj hlo) hrepa (by
          intro b hb
          rcases List.mem_append.1 hb with e | e
          · exact hfree b e
          · simp only [List.mem_singleton] at e
            subst e; rfl)
        (ordered_append_free g bs cur j hord (Or.inr (by
          intro e
          have := (geo_bounds g cur hg bs hgeo _ e).2
          simp only at this
          omega))) h
      exact ⟨by omega, bs1, i2, i3, i4, i5⟩
    · simp only [Option.some.injEq, Prod.mk.injEq] at h
      obtain ⟨e1, e2⟩ := h
      subst e1 e2
      refine ⟨le_refl _, bs, ?_, hrep, hfree, hord⟩
      have : A + L - space = cur := by omega
      rw [this]
      exact hgeo

/-- With enough fuel the tail loop of `protectFreestoreHeader` returns. -/
theorem tail_some (g : Globals) (A B L : Nat) (hp : Params g A B L)
    (hs : g._freestoreIndex =
      getAdjustedMinFreestoreIndexForRequestedSize g (uintMul 16 g._freestoreRange)) :
    ∀ (fuel : Nat) (m : Mem) (cur space : Nat) (bs : List Blk),
      cur + space = A + L → A + getSizeForAdjustedFreestoreIndex g g._freestoreRange ≤ cur →
      Geo g cur bs → Rep g m bs → L + 4 + space ≤ fuel →
      ∃ r, protectTailLoop g fuel m cur space = some r := by
  have hAL := hp.AL
  have hL32 := hp.L32
  intro fuel
  induction fuel with
  | zero => intro m cur space bs _ _ _ _ hf; omega
  | succ f ih =>
    intro m cur space bs hcs hcur hgeo hrep hf
    unfold protectTailLoop
    split
    · rename_i hgt
      dsimp only
      obtain ⟨hj, hszj⟩ := tail_index g A B L hp space hgt (by omega)
      generalize (if getSizeForAdjustedFreestoreIndex g (getAdjustedFreestoreIndexForSize g space)
          > space then uintSub (getAdjustedFreestoreIndexForSize g space) 1
          else getAdjustedFreestoreIndexForSize g space) = j at hj hszj ⊢
      have hg := goodGlobals_of_params g A B L hp hs cur hcur (by omega)
      have hsz := size_ge g cur hg j hj
      have hsep := geo_sep g cur hg bs hgeo
      have hfit := hg.heads_fit
      have hlo := hg.lo_le
      have hA := hp.hA
      have hL := hp.hL
      have hlen := geo_length g cur hg bs hgeo
      obtain ⟨⟨ma, ra⟩, hadd⟩ := g_add_some g cur bs m f j cur hg hrep hj (by omega) (by omega)
      rw [hadd]
      simp only [Option.bind_eq_bind, Option.some_bind]
      obtain ⟨_, hrepa, _⟩ := g_add g cur bs m f j cur ma ra hg hsep hrep hj (by omega) (by omega)
        (by
          intro b hb
          have := (geo_bounds g cur hg bs hgeo b hb).2
          have := size_ge g cur hg b.idx (hgeo.1 b hb)
          unfold Apart
          omega) hadd
      rw [ptrAdd_exact cur _ (by omega), uintSub_exact space _ hszj (by omega)]
      exact ih ma _ _ (bs ++ [⟨cur, j, true⟩]) (by omega) (by omega)
        (geo_extend g cur bs j true hgeo hj hlo) hrepa (by omega)
    · exact ⟨_, rfl⟩

theorem reset_some (A : Nat) (hA : A ≠ 0) :
    ∀ (count : Nat) (m : Mem) (i : Nat), A + 16 * (i + count) < 2 ^ 64 →
      ∃ m1, resetFreestoreLoop A count m i = some m1 := by
  intro count
  induction count with
  | zero => intro m i _; exact ⟨m, rfl⟩
  | succ n ih =>
    intro m i hb
    unfold resetFreestoreLoop
    unfold sizeofFreestoreBlock
    rw [ptrAdd_exact A (16 * i) (by omega)]
    dsimp only
    rw [writeAddress_of_ne _ _ _ (by omega)]
    simp only [Option.bind_eq_bind, Option.some_bind]
    rw [writeNextBlock_of_ne _ _ _ (by omega)]
    simp only [Option.some_bind]
    exact ih _ (i + 1) (by omega)

theorem spine_some (g : Globals) (A B L : Nat) (hp : Params g A B L) (s : Nat) :
    ∀ (i : Nat) (m : Mem), i ≤ g._freestoreRange →
      ∃ r, protectSplitLoop g A s i m A = some r := by
  obtain ⟨t1, t2⟩ := sz_top g A B L hp
  have hAL := hp.AL
  have hL16 := hp.L16
  have hA0 := hp.A0
  have hb := heads_bound g A B L hp
  have hszR := sz_eq g A B L hp _ (sz_lt g A B L hp _ (le_refl g._freestoreRange))
  intro i
  induction i with
  | zero => intro m _; exact ⟨_, rfl⟩
  | succ n ih =>
    intro m hn
    unfold protectSplitLoop
    split
    · have hleft : subAddressForAdjustedIndex g A (n + 1) side.left = A := by
        unfold subAddressForAdjustedIndex
        simp
      dsimp only
      unfold sizeofFreestoreBlock
      rw [hleft, ptrAdd_exact A (16 * n) (by omega)]
      rw [writeAddress_of_ne _ _ _ (by omega)]
      simp only [Option.bind_eq_bind, Option.some_bind]
      rw [writeNextBlock_of_ne _ _ _ (by omega)]
      simp only [Option.some_bind]
      exact ih _ (by omega)
    · exact ⟨_, rfl⟩

/-- Source function `protectFreestoreHeader` on zeroed heads, with the order
invariant: it sets the
store index and publishes a tiling of `[A + size_of(s), A + L - leftover)` by
free blocks. -/
theorem protect_spec2 (g : Globals) (A B L : Nat) (hp : Params g A B L) (fuel : Nat) (m : Mem)
    (g1 : Globals) (m1 : Mem) (lo : Nat)
    (hz : ∀ j, j ≤ g._freestoreRange → m (A + 16 * j) = 0 ∧ m (A + 16 * j + 8) = 0)
    (h : protectFreestoreHeader g m fuel A g._minFreestoreIndex
      (g._minFreestoreIndex + g._freestoreRange) = some (g1, m1, lo)) :
    Params g1 A B L ∧
      g1._freestoreIndex =
        getAdjustedMinFreestoreIndexForRequestedSize g1 (uintMul 16 g1._freestoreRange) ∧
      lo + getSizeForAdjustedFreestoreIndex g1 g1._freestoreRange ≤ L ∧
      ∃ bs, Geo g1 (A + L - lo) bs ∧ Rep g1 m1 bs ∧ (∀ b ∈ bs, b.free = true) ∧
        Ordered g1 bs := by
  have hk := exp_lt_of_pow_mul_lt B _ hp.B1 (sz_lt g A B L hp g._freestoreRange (le_refl _))
  have hR : uintSub (g._minFreestoreIndex + g._freestoreRange) g._minFreestoreIndex
      = g._freestoreRange := by
    rw [uintSub_exact _ _ (by omega) (by omega)]; omega
  have hp1 : Params { g with _freestoreIndex :=
      getAdjustedMinFreestoreIndexForRequestedSize g (uintMul 16 g._freestoreRange) } A B L := by
    obtain ⟨a1, a2, a3, a4, a5, a6, a7, a8, a9, a10, a11, a12, a13, a14, a15, a16⟩ := hp
    exact ⟨a1, a2, a3, a4, a5, a6, a7, a8, a9, a10, a11, a12, a13, a14, a15, a16⟩
  generalize hgd : ({ g with _freestoreIndex :=
      getAdjustedMinFreestoreIndexForRequestedSize g (uintMul 16 g._freestoreRange) } : Globals)
      = gd at hp1
  have hs : gd._freestoreIndex =
      getAdjustedMinFreestoreIndexForRequestedSize gd (uintMul 16 gd._freestoreRange) := by
    rw [← hgd]; rfl
  have hRd : gd._freestoreRange = g._freestoreRange := by rw [← hgd]
  have hkd : gd._minFreestoreIndex = g._minFreestoreIndex := by rw [← hgd]
  have hszR := sz_eq gd A B L hp1 gd._freestoreRange (sz_lt gd A B L hp1 _ (le_refl _))
  have htop := sz_top gd A B L hp1
  have hL16 := hp1.L16
  have hL32 := hp1.L32
  have hAL := hp1.AL
  have hst := storeIndex_spec gd A B L hp1
  rw [← hs] at hst
  unfold protectFreestoreHeader at h
  obtain ⟨⟨ms, c⟩, hsplit, h⟩ := bind_some h
  have hsplit1 : protectSplitLoop gd A gd._freestoreIndex gd._freestoreRange m A
      = some (ms, c) := by
    rw [hR] at hsplit
    rw [← hgd]
    exact hsplit
  have hcond : getSizeForFreestoreIndex gd (gd._minFreestoreIndex + gd._freestoreRange)
      < gd._length := by
    rw [size_formula gd _ (by rw [hp1.hB]; exact hp1.B1)
      (by rw [hp1.hB]; exact sz_lt gd A B L hp1 _ (le_refl _)), hp1.hB, hp1.hL, ← hszR]
    omega
  have hmaxeq : getSizeForFreestoreIndex gd (gd._minFreestoreIndex + gd._freestoreRange)
      = getSizeForAdjustedFreestoreIndex gd gd._freestoreRange := by
    rw [size_formula gd _ (by rw [hp1.hB]; exact hp1.B1)
      (by rw [hp1.hB]; exact sz_lt gd A B L hp1 _ (le_refl _)), hp1.hB, ← hszR]
  have hmaxsz : gd._maxFreestoreIndexMemorySize
      = getSizeForAdjustedFreestoreIndex gd gd._freestoreRange := by
    rw [hp1.hmaxsz, hszR]
  have h2 : (if getSizeForFreestoreIndex gd (gd._minFreestoreIndex + gd._freestoreRange)
        < gd._length then
      (protectTailLoop gd fuel ms (ptrAdd A gd._maxFreestoreIndexMemorySize)
        (uintSub gd._length
          (getSizeForFreestoreIndex gd (gd._minFreestoreIndex + gd._freestoreRange)))) >>=
        (fun r => some (gd, r.1, r.2))
      else some (gd, ms, 0)) = some (g1, m1, lo) := by
    rw [hR] at h
    rw [← hgd]
    exact h
  rw [if_pos hcond] at h2
  obtain ⟨⟨mt, sp⟩, htail, h2⟩ := bind_some h2
  simp only [Option.some.injEq, Prod.mk.injEq] at h2
  obtain ⟨e1, e2, e3⟩ := h2
  subst e1 e2 e3
  rw [hmaxsz, hmaxeq, hp1.hL, ptrAdd_exact _ _ (by omega), uintSub_exact _ _ (by omega) hL32]
    at htail
  obtain ⟨sp1, sp2⟩ := spine_spec gd A B L hp1 gd._freestoreIndex gd._freestoreRange m ms c
    (le_refl _) hsplit1
  have hrep0 : Rep gd ms (spineBlocks gd gd._freestoreIndex gd._freestoreRange) := by
    apply spine_rep gd A B L hp1 gd._freestoreIndex ms
    · intro j hj
      by_cases hc : gd._freestoreIndex ≤ j ∧ j < gd._freestoreRange
      · exact Or.inl hc
      · right
        have hzj := hz j (by omega)
        have e1 : ms (A + 16 * j) = m (A + 16 * j) := sp2 _ (by omega)
        have e2 : ms (A + 16 * j + 8) = m (A + 16 * j + 8) := sp2 _ (by omega)
        rw [e1, e2]
        exact hzj
    · exact sp1
  have hgeo0 : Geo gd (A + getSizeForAdjustedFreestoreIndex gd gd._freestoreRange)
      (spineBlocks gd gd._freestoreIndex gd._freestoreRange) := by
    constructor
    · intro b hb
      have := spineBlocks_mem gd _ _ b hb
      omega
    · intro x
      rw [spineBlocks_count gd A B L hp1 _ x _ hst.1 (le_refl _), hp1.hA]
  obtain ⟨t1, bs1, t2, t3, t4, t5⟩ := tail_spec2 gd A B L hp1 hs fuel ms _ _ _ mt sp (by omega)
    (le_refl _) hgeo0 hrep0 (fun b hb => (spineBlocks_mem gd _ _ b hb).1)
    (spineBlocks_ordered gd _ _) htail
  exact ⟨hp1, hs, by omega, bs1, t2, t3, t4, t5⟩

/-- Source function `initFreestoreHeader` for `kmin < kmax`, with the order
invariant: it clears the
heads, sets the range and its size, and tiles the arena. -/
theorem initHeader_spec2 (g : Globals) (A B L kmax fuel : Nat) (m : Mem) (g1 : Globals)
    (m1 : Mem) (fa lo : Nat)
    (h : initFreestoreHeader g m fuel A g._minFreestoreIndex kmax = some (g1, m1, fa, lo))
    (hB : g._basic_block_size = B) (hL : g._length = L) (hh : g._headerSize = 16)
    (hA : g._freestoreAddress = A)
    (hminsz : g._minFreestoreIndexMemorySize = 2 ^ g._minFreestoreIndex * B)
    (hB1 : 1 ≤ B) (hL16 : 16 ≤ L) (hL32 : L < 2 ^ 32) (hA0 : A ≠ 0) (hAL : A + L < 2 ^ 64)
    (hgt : 16 < 2 ^ g._minFreestoreIndex * B)
    (hmin : g._minFreestoreIndex = 0 ∨ 2 ^ (g._minFreestoreIndex - 1) * B ≤ 16)
    (hlt : g._minFreestoreIndex < kmax) (hle : 2 ^ kmax * B ≤ L - 16)
    (hmax : L - 16 < 2 ^ (kmax + 1) * B) :
    fa = A ∧ Params g1 A B L ∧
      g1._freestoreIndex =
        getAdjustedMinFreestoreIndexForRequestedSize g1 (uintMul 16 g1._freestoreRange) ∧
      lo + getSizeForAdjustedFreestoreIndex g1 g1._freestoreRange ≤ L ∧
      ∃ bs, Geo g1 (A + L - lo) bs ∧ Rep g1 m1 bs ∧ (∀ b ∈ bs, b.free = true) ∧
        Ordered g1 bs := by
  have hk32 : kmax < 32 := exp_lt_of_pow_mul_lt B kmax hB1 (by omega)
  have hR : uintSub kmax g._minFreestoreIndex = kmax - g._minFreestoreIndex :=
    uintSub_exact _ _ (by omega) (by omega)
  have hsum : g._minFreestoreIndex + (kmax - g._minFreestoreIndex) = kmax := by omega
  unfold initFreestoreHeader at h
  rw [hR] at h
  dsimp only at h
  rw [if_neg (by omega)] at h
  obtain ⟨mr, hreset, h⟩ := bind_some h
  obtain ⟨⟨g3, m2, lo1⟩, hprot, h⟩ := bind_some h
  simp only [Option.some.injEq, Prod.mk.injEq] at h
  obtain ⟨e1, e2, e3, e4⟩ := h
  subst e1 e2 e3 e4
  have hmaxsz : getSizeForAdjustedFreestoreIndex
      { g with _freestoreRange := kmax - g._minFreestoreIndex } (kmax - g._minFreestoreIndex)
      = 2 ^ (g._minFreestoreIndex + (kmax - g._minFreestoreIndex)) * B := by
    unfold getSizeForAdjustedFreestoreIndex uintAdd
    dsimp only
    rw [Nat.mod_eq_of_lt (by omega), Nat.add_comm,
      size_formula _ _ (by dsimp only; omega) (by dsimp only; rw [hsum, hB]; omega)]
    dsimp only
    rw [hB]
  have hp : Params
      { g with
        _freestoreRange := kmax - g._minFreestoreIndex,
        _maxFreestoreIndexMemorySize := getSizeForAdjustedFreestoreIndex
          { g with _freestoreRange := kmax - g._minFreestoreIndex }
          (kmax - g._minFreestoreIndex) } A B L := by
    refine ⟨hB, hL, hh, hA, hminsz, hmaxsz, hB1, hL16, hL32, hA0, hAL, hgt, hmin, ?_, ?_, ?_⟩
    · show 1 ≤ kmax - g._minFreestoreIndex
      omega
    · show 2 ^ (g._minFreestoreIndex + (kmax - g._minFreestoreIndex)) * B ≤ L - 16
      rw [hsum]; exact hle
    · show L - 16 < 2 ^ (g._minFreestoreIndex + (kmax - g._minFreestoreIndex) + 1) * B
      rw [hsum]; exact hmax
  have hreset1 : resetFreestoreLoop A (kmax - g._minFreestoreIndex + 1) m 0 = some mr := hreset
  have hbound := heads_bound _ A B L hp
  have hz := (reset_spec A hA0 _ m 0 mr (by
    have e : 2 ^ (g._minFreestoreIndex + (kmax - g._minFreestoreIndex)) * B ≤ L - 16 := by
      rw [hsum]; exact hle
    have hb : 16 * (kmax - g._minFreestoreIndex + 1)
        ≤ 2 ^ (g._minFreestoreIndex + (kmax - g._minFreestoreIndex)) * B := hbound
    omega) hreset1).1
  obtain ⟨r1, r2, r3, r4⟩ := protect_spec2 _ A B L hp fuel mr g3 m2 lo1 (by
    intro j hj
    exact hz j (Nat.zero_le _) (by
      have : j ≤ kmax - g._minFreestoreIndex := hj
      omega)) (by
    show protectFreestoreHeader _ mr fuel A g._minFreestoreIndex
      (g._minFreestoreIndex + (kmax - g._minFreestoreIndex)) = some (g3, m2, lo1)
    rw [hsum]
    exact hprot)
  exact ⟨rfl, r1, r2, r3, r4⟩

/-- With the order invariant: a successful `init_allocator` returns `L` and establishes the globals'
parameters and a tiling of `[A + size_of(s), A + L - leftover)` by free blocks. -/
theorem init_spec2 (A : Nat) (m0 : Mem) (B L fuel : Nat) (st : State) (r lo : Nat)
    (hok : InitOK A B L) (h : init_allocator fuel A m0 B L = some (st, r, lo)) :
    r = L ∧ Params st.g A B L ∧
      st.g._freestoreIndex =
        getAdjustedMinFreestoreIndexForRequestedSize st.g (uintMul 16 st.g._freestoreRange) ∧
      lo + getSizeForAdjustedFreestoreIndex st.g st.g._freestoreRange ≤ L ∧
      ∃ bs, Geo st.g (A + L - lo) bs ∧ Rep st.g st.mem bs ∧ (∀ b ∈ bs, b.free = true) ∧
        Ordered st.g bs := by
  have hok1 := hok
  obtain ⟨hA0, hAL, hB1, hL16, hL32, _⟩ := hok1
  unfold init_allocator at h
  have hBL : B < L :=
    (initOK_facts A B L hok { Globals.zero with _basic_block_size := B } rfl).1
  rw [if_pos hBL] at h
  obtain ⟨⟨g7, m1, fa, lo1⟩, hinit, h⟩ := bind_some h
  simp only [Option.some.injEq, Prod.mk.injEq] at h
  obtain ⟨e1, e2, e3⟩ := h
  have main : fa = A ∧ Params g7 A B L ∧
      g7._freestoreIndex =
        getAdjustedMinFreestoreIndexForRequestedSize g7 (uintMul 16 g7._freestoreRange) ∧
      lo1 + getSizeForAdjustedFreestoreIndex g7 g7._freestoreRange ≤ L ∧
      ∃ bs, Geo g7 (A + L - lo1) bs ∧ Rep g7 m1 bs ∧ (∀ b ∈ bs, b.free = true) ∧
        Ordered g7 bs := by
    refine initHeader_spec2 _ A B L _ fuel m0 g7 m1 fa lo1 hinit rfl rfl rfl rfl ?_
      hB1 hL16 hL32 hA0 hAL ?_ ?_ ?_ ?_ ?_
    · refine size_formula _ _ hB1 ?_
      have hf := initOK_facts A B L hok
        { Globals.zero with _basic_block_size := B, _length := L, _headerSize := 16 } rfl
      have h1 := pow_mul_mono B _ _ (le_of_lt hf.2.1)
      have h2 := hf.2.2.1
      exact lt_of_le_of_lt h1 (by omega)
    · exact (initOK_facts A B L hok
        { Globals.zero with _basic_block_size := B, _length := L, _headerSize := 16 }
        rfl).2.2.2.2.1
    · exact (initOK_facts A B L hok
        { Globals.zero with _basic_block_size := B, _length := L, _headerSize := 16 }
        rfl).2.2.2.2.2
    · exact (initOK_facts A B L hok
        { Globals.zero with _basic_block_size := B, _length := L, _headerSize := 16 }
        rfl).2.1
    · exact (initOK_facts A B L hok
        { Globals.zero with _basic_block_size := B, _length := L, _headerSize := 16 }
        rfl).2.2.1
    · exact (initOK_facts A B L hok
        { Globals.zero with _basic_block_size := B, _length := L, _headerSize := 16 }
        rfl).2.2.2.1
  obtain ⟨i1, i2, i3, i4, bs, i5, i6, i7⟩ := main
  have hg : ({ g7 with _freestoreAddress := fa } : Globals) = g7 :=
    globals_eta g7 fa (by rw [i1]; exact i2.hA)
  have hst : st = ⟨g7, m1⟩ := by rw [← e1, ← hg]
  have hr : r = L := by rw [← e2]; exact i2.hL
  rw [hst, ← e3]
  exact ⟨hr, i2, i3, i4, bs, i5, i6, i7⟩

/-- With enough fuel `protectFreestoreHeader` returns. -/
theorem protect_some (g : Globals) (A B L : Nat) (hp : Params g A B L) (fuel : Nat) (m : Mem)
    (hz : ∀ j, j ≤ g._freestoreRange → m (A + 16 * j) = 0 ∧ m (A + 16 * j + 8) = 0)
    (hf : 2 * L + 4 ≤ fuel) :
    ∃ r, protectFreestoreHeader g m fuel A g._minFreestoreIndex
      (g._minFreestoreIndex + g._freestoreRange) = some r := by
  have hk := exp_lt_of_pow_mul_lt B _ hp.B1 (sz_lt g A B L hp g._freestoreRange (le_refl _))
  have hR : uintSub (g._minFreestoreIndex + g._freestoreRange) g._minFreestoreIndex
      = g._freestoreRange := by
    rw [uintSub_exact _ _ (by omega) (by omega)]; omega
  have hp1 : Params { g with _freestoreIndex :=
      getAdjustedMinFreestoreIndexForRequestedSize g (uintMul 16 g._freestoreRange) } A B L := by
    obtain ⟨a1, a2, a3, a4, a5, a6, a7, a8, a9, a10, a11, a12, a13, a14, a15, a16⟩ := hp
    exact ⟨a1, a2, a3, a4, a5, a6, a7, a8, a9, a10, a11, a12, a13, a14, a15, a16⟩
  generalize hgd : ({ g with _freestoreIndex :=
      getAdjustedMinFreestoreIndexForRequestedSize g (uintMul 16 g._freestoreRange) } : Globals)
      = gd at hp1
  have hs : gd._freestoreIndex =
      getAdjustedMinFreestoreIndexForRequestedSize gd (uintMul 16 gd._freestoreRange) := by
    rw [← hgd]; rfl
  have hRd : gd._freestoreRange = g._freestoreRange := by rw [← hgd]
  have hkd : gd._minFreestoreIndex = g._minFreestoreIndex := by rw [← hgd]
  have hszR := sz_eq gd A B L hp1 gd._freestoreRange (sz_lt gd A B L hp1 _ (le_refl _))
  have htop := sz_top gd A B L hp1
  have hL16 := hp1.L16
  have hL32 := hp1.L32
  have hAL := hp1.AL
  have hst := storeIndex_spec gd A B L hp1
  rw [← hs] at hst
  obtain ⟨⟨ms, c⟩, hsplit1⟩ := spine_some gd A B L hp1 gd._freestoreIndex gd._freestoreRange m
    (le_refl _)
  have hcond : getSizeForFreestoreIndex gd (gd._minFreestoreIndex + gd._freestoreRange)
      < gd._length := by
    rw [size_formula gd _ (by rw [hp1.hB]; exact hp1.B1)
      (by rw [hp1.hB]; exact sz_lt gd A B L hp1 _ (le_refl _)), hp1.hB, hp1.hL, ← hszR]
    omega
  have hmaxeq : getSizeForFreestoreIndex gd (gd._minFreestoreIndex + gd._freestoreRange)
      = getSizeForAdjustedFreestoreIndex gd gd._freestoreRange := by
    rw [size_formula gd _ (by rw [hp1.hB]; exact hp1.B1)
      (by rw [hp1.hB]; exact sz_lt gd A B L hp1 _ (le_refl _)), hp1.hB, ← hszR]
  have hmaxsz : gd._maxFreestoreIndexMemorySize
      = getSizeForAdjustedFreestoreIndex gd gd._freestoreRange := by
    rw [hp1.hmaxsz, hszR]
  obtain ⟨sp1, sp2⟩ := spine_spec gd A B L hp1 gd._freestoreIndex gd._freestoreRange m ms c
    (le_refl _) hsplit1
  have hrep0 : Rep gd ms (spineBlocks gd gd._freestoreIndex gd._freestoreRange) := by
    apply spine_rep gd A B L hp1 gd._freestoreIndex ms
    · intro j hj
      by_cases hc : gd._freestoreIndex ≤ j ∧ j < gd._freestoreRange
      · exact Or.inl hc
      · right
        have hzj := hz j (by omega)
        have e1 : ms (A + 16 * j) = m (A + 16 * j) := sp2 _ (by omega)
        have e2 : ms (A + 16 * j + 8) = m (A + 16 * j + 8) := sp2 _ (by omega)
        rw [e1, e2]
        exact hzj
    · exact sp1
  have hgeo0 : Geo gd (A + getSizeForAdjustedFreestoreIndex gd gd._freestoreRange)
      (spineBlocks gd gd._freestoreIndex gd._freestoreRange) := by
    constructor
    · intro b hb
      have := spineBlocks_mem gd _ _ b hb
      omega
    · intro x
      rw [spineBlocks_count gd A B L hp1 _ x _ hst.1 (le_refl _), hp1.hA]
  obtain ⟨⟨mt, sp⟩, htail⟩ := tail_some gd A B L hp1 hs fuel ms
    (A + getSizeForAdjustedFreestoreIndex gd gd._freestoreRange)
    (L - getSizeForAdjustedFreestoreIndex gd gd._freestoreRange) _ (by omega) (le_refl _)
    hgeo0 hrep0 (by omega)
  have key : protectFreestoreHeader g m fuel A g._minFreestoreIndex
      (g._minFreestoreIndex + g._freestoreRange) =
      (protectSplitLoop gd A gd._freestoreIndex gd._freestoreRange m A >>= fun r =>
        if getSizeForFreestoreIndex gd (gd._minFreestoreIndex + gd._freestoreRange)
          < gd._length then
          (protectTailLoop gd fuel r.1 (ptrAdd A gd._maxFreestoreIndexMemorySize)
            (uintSub gd._length
              (getSizeForFreestoreIndex gd (gd._minFreestoreIndex + gd._freestoreRange)))) >>=
            (fun q => some (gd, q.1, q.2))
        else some (gd, r.1, 0)) := by
    unfold protectFreestoreHeader
    rw [hR, ← hgd]
    rfl
  rw [key, hsplit1]
  simp only [Option.bind_eq_bind, Option.some_bind]
  rw [if_pos hcond, hmaxsz, hmaxeq, hp1.hL, ptrAdd_exact _ _ (by omega),
    uintSub_exact _ _ (by omega) hL32, htail]
  exact ⟨_, rfl⟩

theorem bind_intro {α β : Type} {x : Option α} {f : α → Option β} (a : α)
    (hx : x = some a) (hf : ∃ b, f a = some b) : ∃ b, x >>= f = some b := by
  rw [hx]
  exact hf

/-- With enough fuel `initFreestoreHeader` returns, for `kmin < kmax`. -/
theorem initHeader_some (g : Globals) (A B L kmax fuel : Nat) (m : Mem)
    (hB : g._basic_block_size = B) (hL : g._length = L) (hh : g._headerSize = 16)
    (hA : g._freestoreAddress = A)
    (hminsz : g._minFreestoreIndexMemorySize = 2 ^ g._minFreestoreIndex * B)
    (hB1 : 1 ≤ B) (hL16 : 16 ≤ L) (hL32 : L < 2 ^ 32) (hA0 : A ≠ 0) (hAL : A + L < 2 ^ 64)
    (hgt : 16 < 2 ^ g._minFreestoreIndex * B)
    (hmin : g._minFreestoreIndex = 0 ∨ 2 ^ (g._minFreestoreIndex - 1) * B ≤ 16)
    (hlt : g._minFreestoreIndex < kmax) (hle : 2 ^ kmax * B ≤ L - 16)
    (hmax : L - 16 < 2 ^ (kmax + 1) * B) (hf : 2 * L + 4 ≤ fuel) :
    ∃ r, initFreestoreHeader g m fuel A g._minFreestoreIndex kmax = some r := by
  have hk32 : kmax < 32 := exp_lt_of_pow_mul_lt B kmax hB1 (by omega)
  have hR : uintSub kmax g._minFreestoreIndex = kmax - g._minFreestoreIndex :=
    uintSub_exact _ _ (by omega) (by omega)
  have hsum : g._minFreestoreIndex + (kmax - g._minFreestoreIndex) = kmax := by omega
  have hmaxsz : getSizeForAdjustedFreestoreIndex
      { g with _freestoreRange := kmax - g._minFreestoreIndex } (kmax - g._minFreestoreIndex)
      = 2 ^ (g._minFreestoreIndex + (kmax - g._minFreestoreIndex)) * B := by
    unfold getSizeForAdjustedFreestoreIndex uintAdd
    dsimp only
    rw [Nat.mod_eq_of_lt (by omega), Nat.add_comm,
      size_formula _ _ (by dsimp only; omega) (by dsimp only; rw [hsum, hB]; omega)]
    dsimp only
    rw [hB]
  have hp : Params
      { g with
        _freestoreRange := kmax - g._minFreestoreIndex,
        _maxFreestoreIndexMemorySize := getSizeForAdjustedFreestoreIndex
          { g with _freestoreRange := kmax - g._minFreestoreIndex }
          (kmax - g._minFreestoreIndex) } A B L := by
    refine ⟨hB, hL, hh, hA, hminsz, hmaxsz, hB1, hL16, hL32, hA0, hAL, hgt, hmin, ?_, ?_, ?_⟩
    · show 1 ≤ kmax - g._minFreestoreIndex
      omega
    · show 2 ^ (g._minFreestoreIndex + (kmax - g._minFreestoreIndex)) * B ≤ L - 16
      rw [hsum]; exact hle
    · show L - 16 < 2 ^ (g._minFreestoreIndex + (kmax - g._minFreestoreIndex) + 1) * B
      rw [hsum]; exact hmax
  have hbound := heads_bound _ A B L hp
  have hlim : A + 16 * (0 + (kmax - g._minFreestoreIndex + 1)) < 2 ^ 64 := by
    have e : 2 ^ (g._minFreestoreIndex + (kmax - g._minFreestoreIndex)) * B ≤ L - 16 := by
      rw [hsum]; exact hle
    have hb : 16 * (kmax - g._minFreestoreIndex + 1)
        ≤ 2 ^ (g._minFreestoreIndex + (kmax - g._minFreestoreIndex)) * B := hbound
    omega
  obtain ⟨mr, hreset1⟩ := reset_some A hA0 (kmax - g._minFreestoreIndex + 1) m 0 hlim
  have hz := (reset_spec A hA0 _ m 0 mr hlim hreset1).1
  obtain ⟨r, hr⟩ := protect_some _ A B L hp fuel mr (by
    intro j hj
    exact hz j (Nat.zero_le _) (by
      have : j ≤ kmax - g._minFreestoreIndex := hj
      omega)) hf
  have hr2 : protectFreestoreHeader _ mr fuel A g._minFreestoreIndex
      (g._minFreestoreIndex + (kmax - g._minFreestoreIndex)) = some r := hr
  rw [hsum] at hr2
  unfold initFreestoreHeader
  rw [hR]
  dsimp only
  rw [if_neg (by omega)]
  refine bind_intro mr hreset1 ?_
  refine bind_intro r hr2 ?_
  exact ⟨_, rfl⟩

theorem bind_intro2 {α β : Type} {x : Option α} {f : α → Option β}
    (hx : ∃ a, x = some a) (hf : ∀ a, ∃ b, f a = some b) : ∃ b, x >>= f = some b := by
  obtain ⟨a, ha⟩ := hx
  rw [ha]
  exact hf a

/-- With enough fuel a call `init_allocator(B, L)` with `InitOK` returns. -/
theorem init_some (A : Nat) (m0 : Mem) (B L fuel : Nat) (hok : InitOK A B L)
    (hf : 2 * L + 4 ≤ fuel) : ∃ r, init_allocator fuel A m0 B L = some r := by
  have hok1 := hok
  obtain ⟨hA0, hAL, hB1, hL16, hL32, _⟩ := hok1
  unfold init_allocator
  have hBL : B < L :=
    (initOK_facts A B L hok { Globals.zero with _basic_block_size := B } rfl).1
  rw [if_pos hBL]
  dsimp only
  refine bind_intro2 ?_ ?_
  · refine initHeader_some _ A B L _ fuel m0 rfl rfl rfl rfl ?_
      hB1 hL16 hL32 hA0 hAL ?_ ?_ ?_ ?_ ?_ hf
    · refine size_formula _ _ hB1 ?_
      have hfa := initOK_facts A B L hok
        { Globals.zero with _basic_block_size := B, _length := L, _headerSize := 16 } rfl
      have h1 := pow_mul_mono B _ _ (le_of_lt hfa.2.1)
      have h2 := hfa.2.2.1
      exact lt_of_le_of_lt h1 (by omega)
    · exact (initOK_facts A B L hok
        { Globals.zero with _basic_block_size := B, _length := L, _headerSize := 16 }
        rfl).2.2.2.2.1
    · exact (initOK_facts A B L hok
        { Globals.zero with _basic_block_size := B, _length := L, _headerSize := 16 }
        rfl).2.2.2.2.2
    · exact (initOK_facts A B L hok
        { Globals.zero with _basic_block_size := B, _length := L, _headerSize := 16 }
        rfl).2.1
    · exact (initOK_facts A B L hok
        { Globals.zero with _basic_block_size := B, _length := L, _headerSize := 16 }
        rfl).2.2.1
    · exact (initOK_facts A B L hok
        { Globals.zero with _basic_block_size := B, _length := L, _headerSize := 16 }
        rfl).2.2.2.1
  · intro a
    exact ⟨_, rfl⟩

/-- A successful `init_allocator` establishes the invariant with the order of
the free lists. -/
theorem init_inv2 (A : Nat) (m0 : Mem) (B L fuel : Nat) (st : State) (r lo : Nat)
    (hok : InitOK A B L) (h : init_allocator fuel A m0 B L = some (st, r, lo)) :
    Inv2 (A + L - lo) st [] := by
  obtain ⟨_, hp, hs, hlo, bs, hgeo, hrep, hfree, hord⟩ := init_spec2 A m0 B L fuel st r lo hok h
  refine ⟨goodGlobals_of_params st.g A B L hp hs _ (by omega) (by omega), bs, hgeo, hrep,
    List.nodup_nil, ?_, hord⟩
  intro p
  constructor
  · intro hp; cases hp
  · rintro ⟨b, hb, hbf, _⟩
    rw [hfree b hb] at hbf
    cases hbf

/-- Every reachable state satisfies the invariant with the order of the free lists. -/
theorem reachable_inv2 (A : Nat) (m0 : Mem) (B L lo : Nat) (st : State) (live : List Nat)
    (h : Reachable A m0 B L lo st live) : Inv2 (A + L - lo) st live := by
  induction h with
  | init fuel st r hok hinit => exact init_inv2 A m0 B L fuel st r lo hok hinit
  | malloc fuel st live n st1 p _ hm hp ih =>
    exact (my_malloc_inv2 _ fuel st live n st1 p ih hm).2 hp
  | malloc_null fuel st live n st1 _ hm ih =>
    have := (my_malloc_inv2 _ fuel st live n st1 0 ih hm).1 rfl
    rw [this]; exact ih
  | free fuel st live p st1 r _ hp hf ih =>
    exact my_free_inv2 _ fuel st live p st1 r ih hp hf

/-- The globals of every reachable state are those that `init_allocator` set. -/
theorem reachable_params (A : Nat) (m0 : Mem) (B L lo : Nat) (st : State) (live : List Nat)
    (h : Reachable A m0 B L lo st live) : Params st.g A B L := by
  induction h with
  | init fuel st r hok hinit => exact (init_spec A m0 B L fuel st r lo hok hinit).2.1
  | malloc fuel st live n st1 p _ hm hp ih => rw [my_malloc_g fuel st n st1 p hm]; exact ih
  | malloc_null fuel st live n st1 _ hm ih => rw [my_malloc_g fuel st n st1 0 hm]; exact ih
  | free fuel st live p st1 r _ hp hf ih => rw [my_free_g fuel st p st1 r hf]; exact ih

/-- In every reachable state the length is `L` and the range is below 32. -/
theorem reachable_fuel (A : Nat) (m0 : Mem) (B L lo : Nat) (st : State) (live : List Nat)
    (h : Reachable A m0 B L lo st live) :
    st.g._length = L ∧ st.g._freestoreRange < 32 := by
  have hp := reachable_params A m0 B L lo st live h
  have := exp_lt_of_pow_mul_lt B _ hp.B1 (sz_lt st.g A B L hp _ (le_refl _))
  exact ⟨hp.hL, by omega⟩

/-- The five steps of one split return, given fuel beyond the number of blocks. -/
theorem split_some (g : Globals) (hi : Nat) (hg : GoodGlobals g hi) (bs : List Blk) (m : Mem)
    (fuel i : Nat) (hgeo : Geo g hi bs) (hrep : Rep g m bs) (hi1 : i + 1 ≤ g._freestoreRange)
    (hne : bucketOf bs (i + 1) ≠ []) (hf : bs.length + 4 ≤ fuel) :
    ∃ lastBlock address m2 r2 m3 r3 r4,
      getLastFreestoreBlockAtAdjustedIndex g m fuel (i + 1) = some lastBlock ∧
      readAddress m lastBlock = some address ∧
      removeLastFreestoreBlockAtAdjustedIndex g m fuel (i + 1) = some (m2, r2) ∧
      addAddressToFreestoreForAdjustedIndex g m2 fuel i
        (subAddressForAdjustedIndex g address (i + 1) side.left) = some (m3, r3) ∧
      ∃ m4, addAddressToFreestoreForAdjustedIndex g m3 fuel i
        (subAddressForAdjustedIndex g address (i + 1) side.right) = some (m4, r4) := by
  obtain ⟨lastBlock, h1, _, h2⟩ := g_getLast_some g hi bs m fuel (i + 1) hg hrep hi1 (by omega)
  obtain ⟨⟨m2, r2⟩, h3⟩ := g_removeLast_some g hi bs m fuel (i + 1) hg hrep hi1 (by omega)
  have hmem : (⟨lastOr (bucketOf bs (i + 1)) 0, i + 1, true⟩ : Blk) ∈ bs := by
    rw [← mem_bucketOf_iff]
    exact lastOr_mem _ 0 hne
  generalize lastOr (bucketOf bs (i + 1)) 0 = address at h2 hmem
  have hfb := g_lastAddress g hi bs m fuel (i + 1) lastBlock address hg hrep hi1 h1 h2
  have hs := geo_sep g hi hg bs hgeo
  obtain ⟨hb1, hb2, _⟩ := hs.1 _ hmem
  simp only at hb1 hb2
  obtain ⟨_, gb2⟩ := geo_bounds g hi hg bs hgeo _ hmem
  simp only at gb2
  have hd := hg.double i (by omega)
  have hsz := size_ge g hi hg i (by omega)
  have hhi := hg.hi_le
  have har := hg.arena
  have hrl := g_removeLast g hi bs m fuel (i + 1) m2 r2 hg hs hrep hi1 hne h3
  rw [← hfb] at hrl
  obtain ⟨hrep2, hs2⟩ := hrl
  have hleft : subAddressForAdjustedIndex g address (i + 1) side.left = address := by
    unfold subAddressForAdjustedIndex
    simp
  have hright : subAddressForAdjustedIndex g address (i + 1) side.right =
      address + getSizeForAdjustedFreestoreIndex g i := by
    unfold subAddressForAdjustedIndex ptrAdd
    simp only [↓reduceIte, hd]
    rw [Nat.mul_div_cancel_left _ (by norm_num)]
    apply Nat.mod_eq_of_lt
    omega
  have hlen := (without_sublist bs address).length_le
  obtain ⟨⟨m3, r3⟩, h4⟩ := g_add_some g hi _ m2 fuel i address hg hrep2 (by omega) (by omega)
    (by omega)
  obtain ⟨_, hrep3, hs3⟩ := g_add g hi _ m2 fuel i address m3 r3 hg hs2 hrep2 (by omega) hb1 hb2
    (apart_others g bs hs _ hmem) h4
  obtain ⟨⟨m4, r4⟩, h5⟩ := g_add_some g hi _ m3 fuel i
    (address + getSizeForAdjustedFreestoreIndex g i) hg hrep3 (by omega) (by omega)
    (by simp only [List.length_append, List.length_singleton]; omega)
  rw [← hleft] at h4
  rw [← hright] at h5
  exact ⟨lastBlock, address, m2, r2, m3, r3, r4, h1, h2, h3, h4, m4, h5⟩

/-- With enough fuel `createFreestoreBlockAtAdjustedIndex` returns. -/
theorem create_some (g : Globals) (hi : Nat) (hg : GoodGlobals g hi) :
    ∀ (fuel : Nat) (m : Mem) (i : Nat) (bs : List Blk),
      Geo g hi bs → Rep g m bs → i ≤ g._freestoreRange →
      g._length + g._freestoreRange + 4 ≤ fuel + i →
      ∃ r, createFreestoreBlockAtAdjustedIndex g fuel m i = some r := by
  intro fuel
  induction fuel with
  | zero => intro m i bs _ _ h1 h2; omega
  | succ f ih =>
    intro m i bs hgeo hrep hiR hf
    have hrl := hg.range_lt
    unfold createFreestoreBlockAtAdjustedIndex
    rw [uintAdd_one i (by omega)]
    dsimp only
    split
    · exact ⟨_, rfl⟩
    · rename_i hlt
      have hi1 : i + 1 ≤ g._freestoreRange := by omega
      refine bind_intro _ (g_containsFreeSpace_some g hi bs m (i + 1) hg hrep hi1) ?_
      by_cases hemp : bucketOf bs (i + 1) = []
      · have hd : decide (bucketOf bs (i + 1) ≠ []) = false := by simp [hemp]
        rw [hd]
        simp only [↓reduceIte]
        obtain ⟨⟨ma, ss⟩, hrec⟩ := ih m (i + 1) bs hgeo hrep hi1 (by omega)
        refine bind_intro _ hrec ?_
        dsimp only
        cases ss with
        | false => exact ⟨_, rfl⟩
        | true =>
          obtain ⟨_, _, ht⟩ := create_spec2 g hi hg f m (i + 1) bs ma true hgeo hrep hi1 hemp hrec
          obtain ⟨bsa, hspl, hrepa, hnea⟩ := ht rfl
          obtain ⟨hgeoa, _, _⟩ := splits_low g (i + 1) bs bsa hi hg hgeo hspl
          have hlen := geo_length g hi hg bsa hgeoa
          obtain ⟨lastBlock, address, m2, r2, m3, r3, r4, h1, h2, h3, h4, m4, h5⟩ :=
            split_some g hi hg bsa ma f i hgeoa hrepa hi1 hnea (by omega)
          simp only [Bool.or_false, ↓reduceIte]
          refine bind_intro _ h1 ?_
          refine bind_intro _ h2 ?_
          refine bind_intro _ h3 ?_
          dsimp only
          refine bind_intro _ h4 ?_
          dsimp only
          refine bind_intro _ h5 ?_
          exact ⟨_, rfl⟩
      · have hd : decide (bucketOf bs (i + 1) ≠ []) = true := by simp [hemp]
        rw [hd]
        simp only [Bool.true_eq_false, ↓reduceIte, Option.bind_eq_bind, Option.some_bind,
          Bool.or_true]
        have hlen := geo_length g hi hg bs hgeo
        obtain ⟨lastBlock, address, m2, r2, m3, r3, r4, h1, h2, h3, h4, m4, h5⟩ :=
          split_some g hi hg bs m f i hgeo hrep hi1 hemp (by omega)
        refine bind_intro _ h1 ?_
        refine bind_intro _ h2 ?_
        refine bind_intro _ h3 ?_
        dsimp only
        refine bind_intro _ h4 ?_
        dsimp only
        refine bind_intro _ h5 ?_
        exact ⟨_, rfl⟩

/-- With enough fuel `allocateHeaderForSize` returns. -/
theorem allocate_some (g : Globals) (hi : Nat) (hg : GoodGlobals g hi) (bs : List Blk)
    (m : Mem) (fuel n : Nat) (hgeo : Geo g hi bs) (hrep : Rep g m bs)
    (hf : g._length + g._freestoreRange + 4 ≤ fuel) :
    ∃ r, allocateHeaderForSize g m fuel n = some r := by
  unfold allocateHeaderForSize
  obtain ⟨c, hc⟩ := canMeetLoop_some g hi hg bs m hrep fuel false
    (getAdjustedFreestoreIndexForSize g (uintAdd n g._headerSize)) (by omega) (by omega)
  have hc2 : canMeetMemoryRequest g m fuel (uintAdd n g._headerSize) = some c := hc
  refine bind_intro _ hc2 ?_
  have tail : ∀ (bsa : List Blk) (ma : Mem) (t : Nat), Geo g hi bsa → Rep g ma bsa →
      t ≤ g._freestoreRange → bucketOf bsa t ≠ [] →
      ∃ r, (do
        let freeblock ← getLastFreestoreBlockAtAdjustedIndex g ma fuel t
        let freeblockAddress ← readAddress ma freeblock
        let (m2, _) ← removeLastFreestoreBlockAtAdjustedIndex g ma fuel t
        let header := freeblockAddress
        let _testBlock ← readIndex m2 header
        let m3 ← writeIndex m2 header t
        let memoryStartAddress := ptrAdd freeblockAddress g._headerSize
        let m4 ← writeMemoryStart m3 header memoryStartAddress
        some (m4, header) : Option (Mem × Nat)) = some r := by
    intro bsa ma t hgeoa hrepa ht hnea
    have hlen := geo_length g hi hg bsa hgeoa
    obtain ⟨freeblock, h1, _, h2⟩ := g_getLast_some g hi bsa ma fuel t hg hrepa ht (by omega)
    obtain ⟨⟨m2, r2⟩, h3⟩ := g_removeLast_some g hi bsa ma fuel t hg hrepa ht (by omega)
    have hmem : (⟨lastOr (bucketOf bsa t) 0, t, true⟩ : Blk) ∈ bsa := by
      rw [← mem_bucketOf_iff]
      exact lastOr_mem _ 0 hnea
    generalize lastOr (bucketOf bsa t) 0 = fb at h2 hmem
    have hs := geo_sep g hi hg bsa hgeoa
    obtain ⟨hb1, hb2, _⟩ := hs.1 _ hmem
    simp only at hb1 hb2
    have hfb0 : fb ≠ 0 := by have := hg.base_ne; omega
    refine bind_intro _ h1 ?_
    refine bind_intro _ h2 ?_
    refine bind_intro _ h3 ?_
    dsimp only
    unfold readIndex writeIndex writeMemoryStart
    simp only [if_neg hfb0, Option.bind_eq_bind, Option.some_bind]
    exact ⟨_, rfl⟩
  cases c with
  | false => exact ⟨_, rfl⟩
  | true =>
    simp only [Bool.true_eq_false, ↓reduceIte]
    have ht := canMeetLoop_true _ _ _ _ _ hc
    refine bind_intro _ (g_containsFreeSpace_some g hi bs m _ hg hrep ht) ?_
    generalize getAdjustedFreestoreIndexForSize g (uintAdd n g._headerSize) = t at ht ⊢
    by_cases hemp : bucketOf bs t = []
    · have hd : decide (bucketOf bs t ≠ []) = false := by simp [hemp]
      rw [hd]
      simp only [↓reduceIte]
      obtain ⟨⟨ma, created⟩, hcr⟩ := create_some g hi hg fuel m t bs hgeo hrep ht (by omega)
      refine bind_intro _ hcr ?_
      dsimp only
      cases created with
      | false => exact ⟨_, rfl⟩
      | true =>
        obtain ⟨_, _, h2⟩ := create_spec2 g hi hg fuel m t bs ma true hgeo hrep ht hemp hcr
        obtain ⟨bsa, hspl, hrepa, hnea⟩ := h2 rfl
        obtain ⟨hgeoa, _, _⟩ := splits_low g t bs bsa hi hg hgeo hspl
        simp only [↓reduceIte]
        exact tail bsa ma t hgeoa hrepa ht hnea
    · have hd : decide (bucketOf bs t ≠ []) = true := by simp [hemp]
      rw [hd]
      simp only [Bool.true_eq_false, ↓reduceIte, Option.bind_eq_bind, Option.some_bind]
      exact tail bs m t hgeo hrep ht hemp

/-- With enough fuel `my_malloc` returns, in every state with the invariant. -/
theorem my_malloc_some (hi : Nat) (fuel : Nat) (st : State) (live : List Nat) (n : Nat)
    (hinv : Inv hi st live) (hf : st.g._length + st.g._freestoreRange + 4 ≤ fuel) :
    ∃ r, my_malloc fuel st n = some r := by
  obtain ⟨hg, bs, hgeo, hrep, _, _⟩ := hinv
  obtain ⟨⟨m1, header⟩, ha⟩ := allocate_some st.g hi hg bs st.mem fuel n hgeo hrep hf
  unfold my_malloc
  refine bind_intro _ ha ?_
  dsimp only
  by_cases hh : header = 0
  · rw [if_neg (by simpa using hh)]
    exact ⟨_, rfl⟩
  · rw [if_pos hh]
    unfold readMemoryStart
    rw [if_neg hh]
    exact ⟨_, rfl⟩

/-- The three steps of one merge return, given fuel beyond the number of blocks. -/
theorem merge_some (g : Globals) (hi : Nat) (hg : GoodGlobals g hi) (bs : List Blk) (m : Mem)
    (fuel i a : Nat) (hgeo : Geo g hi bs) (hrep : Rep g m bs)
    (h1 : (⟨a, i, true⟩ : Blk) ∈ bs)
    (h2 : (⟨a + getSizeForAdjustedFreestoreIndex g i, i, true⟩ : Blk) ∈ bs)
    (hf : bs.length + 3 ≤ fuel) :
    ∃ r, mergeBuddiesAtAddress g m fuel i a (a + getSizeForAdjustedFreestoreIndex g i)
      = some r := by
  have hiR : i ≤ g._freestoreRange := hgeo.1 _ h1
  have hsz := size_ge g hi hg i hiR
  have hs := geo_sep g hi hg bs hgeo
  obtain ⟨hlt, hgeo3⟩ := geo_merge g hi hg bs a i true true true hgeo h1 h2
  have hrl := hg.range_lt
  have hA0 := hg.base_ne
  obtain ⟨hb1, hb2, _⟩ := hs.1 _ h1
  simp only at hb1 hb2
  have ha0 : a ≠ 0 := by omega
  unfold mergeBuddiesAtAddress
  obtain ⟨⟨ma, ra⟩, hra⟩ := g_removeWithAddress_some g hi bs m fuel i a hg hs hrep hiR ha0 hf
  refine bind_intro _ hra ?_
  dsimp only
  obtain ⟨_, hrepa, hsa⟩ := g_removeWithAddress g hi bs m fuel i a ma ra hg hs hrep hiR
    ((mem_bucketOf_iff bs i a).2 h1) hra
  have h2a : (⟨a + getSizeForAdjustedFreestoreIndex g i, i, true⟩ : Blk) ∈ without bs a :=
    (mem_without bs a _).2 ⟨h2, by simp only; omega⟩
  have hlen1 := (without_sublist bs a).length_le
  obtain ⟨⟨mb, rb⟩, hrb⟩ := g_removeWithAddress_some g hi _ ma fuel i
    (a + getSizeForAdjustedFreestoreIndex g i) hg hsa hrepa hiR (by omega) (by omega)
  refine bind_intro _ hrb ?_
  dsimp only
  obtain ⟨_, hrepb, hsb⟩ := g_removeWithAddress g hi _ ma fuel i _ mb rb hg hsa hrepa hiR
    ((mem_bucketOf_iff _ i _).2 h2a) hrb
  have hlen2 := (without_sublist (without bs a)
    (a + getSizeForAdjustedFreestoreIndex g i)).length_le
  rw [if_pos (by omega), uintAdd_one i (by omega)]
  exact g_add_some g hi _ mb fuel (i + 1) a hg hrepb (by omega) ha0 (by omega)

/-- With enough fuel `attemptBuddyMergeAtAdjustedIndexWithAddress` returns on a
free block of the model. -/
theorem attempt_some (g : Globals) (hi : Nat) (hg : GoodGlobals g hi) :
    ∀ (fuel : Nat) (m : Mem) (i a : Nat) (bs : List Blk),
      Geo g hi bs → Rep g m bs → (⟨a, i, true⟩ : Blk) ∈ bs →
      g._length + g._freestoreRange + 4 ≤ fuel + i →
      ∃ r, attemptBuddyMergeAtAdjustedIndexWithAddress g fuel m i a = some r := by
  intro fuel
  induction fuel with
  | zero =>
    intro m i a bs hgeo _ hmem hf
    have := hgeo.1 _ hmem
    simp only at this
    omega
  | succ f ih =>
    intro m i a bs hgeo hrep hmem hf
    have hrl := hg.range_lt
    have hs := geo_sep g hi hg _ hgeo
    obtain ⟨hb1, hb2, hiR⟩ := hs.1 _ hmem
    simp only at hb1 hb2 hiR
    have hA0 := hg.base_ne
    have ha0 : a ≠ 0 := by omega
    have hlen := geo_length g hi hg bs hgeo
    unfold attemptBuddyMergeAtAdjustedIndexWithAddress
    dsimp only
    rcases getBuddySide_cases g i a with hside | hside
    · rw [hside]
      simp only [ne_eq, reduceCtorEq, not_false_eq_true, ↓reduceIte]
      split
      · rename_i hb0
        have hbd : getContiguousAddressAtSide g i a side.right =
            a + getSizeForAdjustedFreestoreIndex g i := by
          unfold getContiguousAddressAtSide ptrAdd at hb0 ⊢
          simp only at hb0 ⊢
          by_cases hw : a + getSizeForAdjustedFreestoreIndex g i = 2 ^ 64
          · rw [hw] at hb0; simp at hb0
          · obtain ⟨_, gb⟩ := geo_bounds g hi hg _ hgeo _ hmem
            simp only at gb
            have hhi := hg.hi_le
            have har := hg.arena
            exact Nat.mod_eq_of_lt (by omega)
        obtain ⟨c1, hc1⟩ := g_contains_some g hi bs m f i a hg hrep hiR (by omega)
        obtain ⟨c2, hc2⟩ := g_contains_some g hi bs m f i
          (getContiguousAddressAtSide g i a side.right) hg hrep hiR (by omega)
        refine bind_intro _ hc1 ?_
        refine bind_intro _ hc2 ?_
        have hv2 := g_contains g hi _ m f i _ c2 hg hrep hiR hb0 hc2
        rw [hbd] at hv2 ⊢
        split
        · rename_i hboth
          simp only [Bool.and_eq_true] at hboth
          obtain ⟨t1, t2⟩ := hboth
          rw [t2] at hv2
          have e2 : (⟨a + getSizeForAdjustedFreestoreIndex g i, i, true⟩ : Blk) ∈ bs :=
            (mem_bucketOf_iff _ i _).1 (by simpa using hv2)
          obtain ⟨⟨ma, ms⟩, hmg⟩ := merge_some g hi hg bs m f i a hgeo hrep hmem e2 (by omega)
          refine bind_intro _ hmg ?_
          dsimp only
          obtain ⟨hms, hlt, hgeo3, hrep3, _⟩ := merge_step g hi hg _ m f i a ma ms hgeo hrep
            hmem e2 hmg
          rw [hms]
          simp only [↓reduceIte, reduceCtorEq]
          rw [uintAdd_one i (by omega)]
          obtain ⟨rr, hrec⟩ := ih ma (i + 1) a _ hgeo3 hrep3 (by simp) (by omega)
          refine bind_intro _ hrec ?_
          exact ⟨_, rfl⟩
        · exact ⟨_, rfl⟩
      · exact ⟨_, rfl⟩
    · rw [hside]
      simp only [ne_eq, not_true_eq_false, ↓reduceIte]
      exact ⟨_, rfl⟩

/-- With enough fuel `deallocateHeaderAtAddress` returns on the payload
address of an allocated block. -/
theorem free_some (g : Globals) (hi : Nat) (hg : GoodGlobals g hi) (bs : List Blk) (m : Mem)
    (fuel b0 t : Nat) (hgeo : Geo g hi bs) (hrep : Rep g m bs)
    (he : (⟨b0, t, false⟩ : Blk) ∈ bs) (hf : g._length + g._freestoreRange + 4 ≤ fuel) :
    ∃ r, deallocateHeaderAtAddress g m fuel (b0 + 16) = some r := by
  have hs := geo_sep g hi hg bs hgeo
  obtain ⟨hb1, hb2, hb3⟩ := hs.1 _ he
  simp only at hb1 hb2 hb3
  have hbase := hg.base_ne
  have hb00 : b0 ≠ 0 := by omega
  obtain ⟨hx1, hx2⟩ := hrep.2 _ he rfl
  simp only at hx1 hx2
  have hhdr : memoryHeaderForAddress g m (b0 + 16) = some b0 := by
    unfold memoryHeaderForAddress
    rw [hg.hdr]
    dsimp only
    rw [ptrSub_exact (b0 + 16) 16 (by omega) (by omega)]
    simp only [Nat.add_sub_cancel, ne_eq, hb00, not_false_eq_true, ↓reduceIte]
    unfold readMemoryStart
    rw [if_neg hb00, hx2]
    simp
  unfold deallocateHeaderAtAddress
  rw [hhdr]
  simp only [Option.bind_eq_bind, Option.some_bind, ne_eq, hb00, not_false_eq_true,
    ↓reduceIte]
  unfold deallocateHeader
  simp only [ne_eq, hb00, not_false_eq_true, ↓reduceIte]
  have hai : readIndex m b0 = some t := by
    unfold readIndex
    rw [if_neg hb00, hx1]
  obtain ⟨ma, hma⟩ : ∃ ma, writeMemoryStart m b0 0 = some ma :=
    ⟨_, by unfold writeMemoryStart; rw [if_neg hb00]⟩
  obtain ⟨mb, hmb⟩ : ∃ mb, writeIndex ma b0 0 = some mb :=
    ⟨_, by unfold writeIndex; rw [if_neg hb00]⟩
  refine bind_intro _ hai ?_
  refine bind_intro _ hma ?_
  refine bind_intro _ hmb ?_
  unfold writeMemoryStart at hma
  unfold writeIndex at hmb
  rw [if_neg hb00] at hma hmb
  simp only [Option.some.injEq] at hma hmb
  have hfr : Frame m mb [b0] := by
    intro w hw
    have := hw b0 (by simp)
    rw [← hmb, ← hma, store_other _ _ _ _ (by omega), store_other _ _ _ _ (by omega)]
  have hsw := sep_without g bs b0 hs
  have hap := apart_others g bs hs _ he
  have hrepb := rep_frame_fresh g _ m mb [b0] (rep_without_alloc g bs m b0 t hs hrep he) hfr (by
    intro q hq
    simp only [List.mem_singleton] at hq
    subst hq
    exact ⟨hb1, hap⟩)
  have hlen := geo_length g hi hg bs hgeo
  have hlen1 := (without_sublist bs b0).length_le
  obtain ⟨⟨mc, rc⟩, hadd⟩ := g_add_some g hi _ mb fuel t b0 hg hrepb hb3 hb00 (by omega)
  refine bind_intro _ hadd ?_
  dsimp only
  obtain ⟨_, hrepc, _⟩ := g_add g hi _ mb fuel t b0 mc rc hg hsw hrepb hb3 hb1 hb2 hap hadd
  have hgeoc := geo_flip g hi hg bs b0 t false true hgeo he
  obtain ⟨⟨md, rd⟩, hatt⟩ := attempt_some g hi hg fuel mc t b0 _ hgeoc hrepc (by simp)
    (by omega)
  refine bind_intro _ hatt ?_
  exact ⟨_, rfl⟩

/-- With enough fuel `my_free` returns on every live pointer. -/
theorem my_free_some (hi : Nat) (fuel : Nat) (st : State) (live : List Nat) (p : Nat)
    (hinv : Inv hi st live) (hp : p ∈ live)
    (hf : st.g._length + st.g._freestoreRange + 4 ≤ fuel) :
    ∃ r, my_free fuel st p = some r := by
  obtain ⟨hg, bs, hgeo, hrep, hnd, hlive⟩ := hinv
  obtain ⟨e, he, hef, hep⟩ := (hlive p).1 hp
  have hee : e = ⟨e.base, e.idx, false⟩ := by
    cases e; simp only at hef; subst hef; rfl
  rw [hee] at he
  obtain ⟨r, hr⟩ := free_some st.g hi hg bs st.mem fuel e.base e.idx hgeo hrep he hf
  rw [hep] at hr
  unfold my_free
  refine bind_intro _ hr ?_
  exact ⟨_, rfl⟩

/-! ## Model-level specifications of `my_malloc` and `my_free` -/

theorem without_without_flip (bs : List Blk) (a i : Nat) (f : Bool) :
    without (without bs a ++ [⟨a, i, f⟩]) a = without bs a := by
  rw [without_append, without_single_same, List.append_nil]
  unfold without
  rw [List.filter_filter]
  simp

theorem bucketOf_append_alloc (bs : List Blk) (a t j : Nat) :
    bucketOf (bs ++ [⟨a, t, false⟩]) j = bucketOf bs j := by
  unfold bucketOf
  rw [List.filter_append]
  simp

theorem bucketOf_without_alloc (g : Globals) (bs : List Blk) (hs : Sep g bs) (b0 t j : Nat)
    (he : (⟨b0, t, false⟩ : Blk) ∈ bs) : bucketOf (without bs b0) j = bucketOf bs j := by
  unfold bucketOf without
  rw [List.filter_filter]
  congr 1
  apply List.filter_congr
  intro b hb
  rcases sep_mem_or g bs hs b _ hb he with e | e
  · rw [e]; simp
  · have := apart_ne _ _ e
    simp only at this
    simp [this]

/-- With enough fuel `my_malloc` returns, in every state that represents a
block list. -/
theorem my_malloc_model_some (hi : Nat) (fuel : Nat) (st : State) (n : Nat) (bs : List Blk)
    (hg : GoodGlobals st.g hi) (hgeo : Geo st.g hi bs) (hrep : Rep st.g st.mem bs)
    (hf : st.g._length + st.g._freestoreRange + 4 ≤ fuel) :
    ∃ r, my_malloc fuel st n = some r := by
  obtain ⟨⟨m1, header⟩, ha⟩ := allocate_some st.g hi hg bs st.mem fuel n hgeo hrep hf
  unfold my_malloc
  refine bind_intro _ ha ?_
  dsimp only
  by_cases hh : header = 0
  · rw [if_neg (by simpa using hh)]
    exact ⟨_, rfl⟩
  · rw [if_pos hh]
    unfold readMemoryStart
    rw [if_neg hh]
    exact ⟨_, rfl⟩

/-- Source function `my_malloc` on a state that represents the block list
`bs`, precisely, with `t` the bucket index of the request: the result is
non-null exactly if `t` is servable; a null result leaves the state unchanged;
a non-null result is the payload address of the last block of bucket `t` after
the splits, and that block is then allocated. -/
theorem my_malloc_model (hi : Nat) (fuel : Nat) (st : State) (n : Nat) (bs : List Blk)
    (st1 : State) (p : Nat)
    (hg : GoodGlobals st.g hi) (hgeo : Geo st.g hi bs) (hrep : Rep st.g st.mem bs)
    (hord : Ordered st.g bs) (h : my_malloc fuel st n = some (st1, p)) :
    st1.g = st.g ∧
    (p ≠ 0 ↔ Servable st.g bs (getAdjustedFreestoreIndexForSize st.g (uintAdd n 16))) ∧
    (p = 0 → st1 = st) ∧
    (p ≠ 0 → ∃ bsa header,
      SplitsAbove st.g (getAdjustedFreestoreIndexForSize st.g (uintAdd n 16)) bs bsa ∧
      (bucketOf bs (getAdjustedFreestoreIndexForSize st.g (uintAdd n 16)) ≠ [] → bsa = bs) ∧
      bucketOf bsa (getAdjustedFreestoreIndexForSize st.g (uintAdd n 16)) ≠ [] ∧
      header = lastOr (bucketOf bsa (getAdjustedFreestoreIndexForSize st.g (uintAdd n 16))) 0 ∧
      p = header + 16 ∧
      Geo st.g hi bsa ∧ Ordered st.g bsa ∧
      Geo st.g hi (without bsa header ++
        [⟨header, getAdjustedFreestoreIndexForSize st.g (uintAdd n 16), false⟩]) ∧
      Rep st.g st1.mem (without bsa header ++
        [⟨header, getAdjustedFreestoreIndexForSize st.g (uintAdd n 16), false⟩]) ∧
      Ordered st.g (without bsa header ++
        [⟨header, getAdjustedFreestoreIndexForSize st.g (uintAdd n 16), false⟩])) := by
  have hg1 := my_malloc_g fuel st n st1 p h
  unfold my_malloc at h
  obtain ⟨⟨m1, header⟩, ha, h⟩ := bind_some h
  dsimp only at h
  obtain ⟨hsv, h0, h1⟩ := allocate_spec2 st.g hi hg bs st.mem fuel n m1 header hgeo hrep ha
  rw [hg.hdr] at hsv h1
  by_cases hh : header = 0
  · rw [if_neg (by simpa using hh)] at h
    simp only [Option.some.injEq, Prod.mk.injEq] at h
    obtain ⟨e1, e2⟩ := h
    refine ⟨hg1, ⟨fun e => absurd e2.symm e, fun e => absurd hh (hsv.2 e)⟩,
      fun _ => by rw [← e1, h0 hh], fun e => absurd e2.symm e⟩
  · rw [if_pos hh] at h
    obtain ⟨address, hrd, h⟩ := bind_some h
    simp only [Option.some.injEq, Prod.mk.injEq] at h
    obtain ⟨e1, e2⟩ := h
    obtain ⟨bsa, hspl, hsame, hnea, hlast, hmem, hlt, hgeo2, hrep2, hrd2⟩ := h1 hh
    obtain ⟨hgeoa, _, _⟩ := splits_low st.g _ bs bsa hi hg hgeo hspl
    have horda := splits_ordered st.g hi hg _ bs bsa hspl hord
    rw [hrd2] at hrd
    simp only [Option.some.injEq] at hrd
    have hp : p = header + 16 := by rw [← e2, ← hrd]
    have hm1 : st1.mem = m1 := by rw [← e1]
    refine ⟨hg1, ⟨fun _ => hsv.1 hh, fun _ => by omega⟩, fun e => by omega, fun _ => ?_⟩
    rw [hm1]
    exact ⟨bsa, header, hspl, hsame, hnea, hlast, hp, hgeoa, horda, hgeo2, hrep2,
      ordered_append_alloc st.g _ header _ (ordered_without st.g bsa header horda)⟩

/-- Source function `my_free` on the payload address of the allocated block
`(b0, t)` of a state that represents the block list `bs`, precisely. -/
theorem my_free_model (hi : Nat) (fuel : Nat) (st : State) (bs : List Blk) (b0 t : Nat)
    (st1 : State) (r : Int)
    (hg : GoodGlobals st.g hi) (hgeo : Geo st.g hi bs) (hrep : Rep st.g st.mem bs)
    (hord : Ordered st.g bs) (he : (⟨b0, t, false⟩ : Blk) ∈ bs)
    (h : my_free fuel st (b0 + 16) = some (st1, r)) :
    st1.g = st.g ∧ ∃ bs1, Geo st.g hi bs1 ∧ Rep st.g st1.mem bs1 ∧ Ordered st.g bs1 ∧
      (∀ b : Blk, b.free = false → (b ∈ bs1 ↔ (b ∈ bs ∧ b ≠ ⟨b0, t, false⟩))) ∧
      ((b0 = st.g._freestoreAddress + getSizeForAdjustedFreestoreIndex st.g t ∨
        (⟨b0 + getSizeForAdjustedFreestoreIndex st.g t, t, true⟩ : Blk) ∉ bs) →
        bs1 = without bs b0 ++ [⟨b0, t, true⟩]) := by
  have hg1 := my_free_g fuel st (b0 + 16) st1 r h
  unfold my_free at h
  obtain ⟨⟨m1, success⟩, hd, h⟩ := bind_some h
  simp only [Option.some.injEq, Prod.mk.injEq] at h
  obtain ⟨bs1, hgeo1, hrep1, hord1, hal, hsame⟩ := free_spec2 st.g hi hg bs st.mem fuel b0 t m1
    success hgeo hrep hord he hd
  have hm1 : st1.mem = m1 := by rw [← h.1]
  rw [hm1]
  exact ⟨hg1, bs1, hgeo1, hrep1, hord1, hal, hsame⟩

/-- With enough fuel `my_free` returns on the payload address of an allocated
block of the model. -/
theorem my_free_model_some (hi : Nat) (fuel : Nat) (st : State) (bs : List Blk) (b0 t : Nat)
    (hg : GoodGlobals st.g hi) (hgeo : Geo st.g hi bs) (hrep : Rep st.g st.mem bs)
    (he : (⟨b0, t, false⟩ : Blk) ∈ bs)
    (hf : st.g._length + st.g._freestoreRange + 4 ≤ fuel) :
    ∃ r, my_free fuel st (b0 + 16) = some r := by
  obtain ⟨r, hr⟩ := free_some st.g hi hg bs st.mem fuel b0 t hgeo hrep he hf
  unfold my_free
  refine bind_intro _ hr ?_
  exact ⟨_, rfl⟩

/-- Round trip on the model: after a non-null `my_malloc(n)` and the `my_free`
of its result, the next `my_malloc(n)` returns the same address. -/
theorem round_trip_model (hi : Nat) (st : State) (bs : List Blk) (n f1 f2 : Nat)
    (st1 : State) (p : Nat) (st2 : State) (r : Int)
    (hg : GoodGlobals st.g hi) (hgeo : Geo st.g hi bs) (hrep : Rep st.g st.mem bs)
    (hord : Ordered st.g bs)
    (h1 : my_malloc f1 st n = some (st1, p)) (hp : p ≠ 0)
    (h2 : my_free f2 st1 p = some (st2, r)) (fuel : Nat)
    (hf : st.g._length + st.g._freestoreRange + 4 ≤ fuel) :
    ∃ st3, my_malloc fuel st2 n = some (st3, p) := by
  obtain ⟨e1, hsv, _, hx⟩ := my_malloc_model hi f1 st n bs st1 p hg hgeo hrep hord h1
  obtain ⟨bsa, header, hspl, _, hnea, hlast, hpe, hgeoa, horda, hgeo1, hrep1, hord1⟩ := hx hp
  have ht := (hsv.1 hp).1
  generalize htdef : getAdjustedFreestoreIndexForSize st.g (uintAdd n 16) = t at *
  rw [← e1] at hgeo1 hrep1 hord1
  have hg1 : GoodGlobals st1.g hi := by rw [e1]; exact hg
  rw [hpe] at h2
  obtain ⟨e2, bs2, hgeo2, hrep2, hord2, _, hsame⟩ := my_free_model hi f2 st1 _ header t st2 r hg1
    hgeo1 hrep1 hord1 (by simp) h2
  have hnm : header = st1.g._freestoreAddress + getSizeForAdjustedFreestoreIndex st1.g t ∨
      (⟨header + getSizeForAdjustedFreestoreIndex st1.g t, t, true⟩ : Blk) ∉
        without bsa header ++ [⟨header, t, false⟩] := by
    rw [e1]
    rcases ordered_last st.g hi hg bsa t ht horda with e | e
    · left; rw [hlast]; exact e
    · right
      rw [← hlast] at e
      intro hin
      rcases List.mem_append.1 hin with e3 | e3
      · exact e ((mem_without _ _ _).1 e3).1
      · simp at e3
  have hbs2 := hsame hnm
  rw [without_without_flip] at hbs2
  rw [← e2] at hgeo2 hrep2 hord2
  have hg2 : GoodGlobals st2.g hi := by rw [e2]; exact hg1
  have hgg : st2.g = st.g := by rw [e2, e1]
  obtain ⟨⟨st3, q⟩, h3⟩ := my_malloc_model_some hi fuel st2 n bs2 hg2 hgeo2 hrep2
    (by rw [hgg]; exact hf)
  obtain ⟨_, hsv3, _, hx3⟩ := my_malloc_model hi fuel st2 n bs2 st3 q hg2 hgeo2 hrep2 hord2 h3
  rw [hgg, htdef] at hsv3 hx3
  have hb2 : bucketOf bs2 t = bucketOf (without bsa header) t ++ [header] := by
    rw [hbs2]; exact bucketOf_append_free _ _ _
  have hne2 : bucketOf bs2 t ≠ [] := by rw [hb2]; simp
  have hq : q ≠ 0 := hsv3.2 ⟨ht, Or.inl hne2⟩
  obtain ⟨bsb, header2, _, hsame2, _, hlast2, hqe, _⟩ := hx3 hq
  rw [hsame2 hne2, hb2, lastOr_append_single] at hlast2
  refine ⟨st3, ?_⟩
  rw [h3, hqe, hlast2, hpe]

/-- One free restores one allocation, on the model: in a state where
`my_malloc(n)` returns null, after `my_free` of an allocated block of the
bucket of `n` the next `my_malloc(n)` returns that block and the one after
returns null again. -/
theorem one_free_model (hi : Nat) (st : State) (bs : List Blk) (n f0 : Nat) (st0 : State)
    (b0 : Nat)
    (hg : GoodGlobals st.g hi) (hgeo : Geo st.g hi bs) (hrep : Rep st.g st.mem bs)
    (hord : Ordered st.g bs)
    (h0 : my_malloc f0 st n = some (st0, 0))
    (he : (⟨b0, getAdjustedFreestoreIndexForSize st.g (uintAdd n 16), false⟩ : Blk) ∈ bs)
    (fa fb fc : Nat) (hfa : st.g._length + st.g._freestoreRange + 4 ≤ fa)
    (hfb : st.g._length + st.g._freestoreRange + 4 ≤ fb)
    (hfc : st.g._length + st.g._freestoreRange + 4 ≤ fc) :
    ∃ st1 r st2, my_free fa st (b0 + 16) = some (st1, r) ∧
      my_malloc fb st1 n = some (st2, b0 + 16) ∧
      my_malloc fc st2 n = some (st2, 0) := by
  obtain ⟨_, hsv, _, _⟩ := my_malloc_model hi f0 st n bs st0 0 hg hgeo hrep hord h0
  have hns : ¬ Servable st.g bs (getAdjustedFreestoreIndexForSize st.g (uintAdd n 16)) :=
    fun e => absurd rfl (hsv.2 e)
  have ht := hgeo.1 _ he
  simp only at ht
  generalize htdef : getAdjustedFreestoreIndexForSize st.g (uintAdd n 16) = t at *
  have hemp : bucketOf bs t = [] := by
    by_contra e
    exact hns ⟨ht, Or.inl e⟩
  have hs := geo_sep st.g hi hg bs hgeo
  obtain ⟨⟨st1, r⟩, h1⟩ := my_free_model_some hi fa st bs b0 t hg hgeo hrep he hfa
  obtain ⟨e1, bs1, hgeo1, hrep1, hord1, _, hsame⟩ := my_free_model hi fa st bs b0 t st1 r hg
    hgeo hrep hord he h1
  have hbs1 := hsame (Or.inr (by
    intro hin
    have := (mem_bucketOf_iff bs t _).2 hin
    rw [hemp] at this
    cases this))
  rw [← e1] at hgeo1 hrep1 hord1
  have hg1 : GoodGlobals st1.g hi := by rw [e1]; exact hg
  obtain ⟨⟨st2, q⟩, h2⟩ := my_malloc_model_some hi fb st1 n bs1 hg1 hgeo1 hrep1
    (by rw [e1]; exact hfb)
  obtain ⟨e2, hsv2, _, hx2⟩ := my_malloc_model hi fb st1 n bs1 st2 q hg1 hgeo1 hrep1 hord1 h2
  rw [e1, htdef] at hsv2 hx2
  have hb1 : bucketOf bs1 t = bucketOf (without bs b0) t ++ [b0] := by
    rw [hbs1]; exact bucketOf_append_free _ _ _
  have hne1 : bucketOf bs1 t ≠ [] := by rw [hb1]; simp
  have hq : q ≠ 0 := hsv2.2 ⟨ht, Or.inl hne1⟩
  obtain ⟨bsb, header, _, hsameb, _, hlast, hqe, _, _, hgeo2, hrep2, hord2⟩ := hx2 hq
  rw [hsameb hne1, hb1, lastOr_append_single] at hlast
  rw [hsameb hne1, hlast, hbs1, without_without_flip] at hgeo2 hrep2 hord2
  have hgg : st2.g = st.g := by rw [e2, e1]
  rw [← hgg] at hgeo2 hrep2 hord2
  have hg2 : GoodGlobals st2.g hi := by rw [hgg]; exact hg
  obtain ⟨⟨st3, q3⟩, h3⟩ := my_malloc_model_some hi fc st2 n _ hg2 hgeo2 hrep2
    (by rw [hgg]; exact hfc)
  obtain ⟨_, hsv3, hnull3, _⟩ := my_malloc_model hi fc st2 n _ st3 q3 hg2 hgeo2 hrep2 hord2 h3
  rw [hgg, htdef] at hsv3
  have hq3 : q3 = 0 := by
    by_contra e
    obtain ⟨_, hc⟩ := hsv3.1 e
    apply hns
    refine ⟨ht, ?_⟩
    rw [bucketOf_append_alloc, bucketOf_without_alloc st.g bs hs b0 t t he] at hc
    rcases hc with hc | ⟨j, j1, j2, j3⟩
    · exact Or.inl hc
    · rw [bucketOf_append_alloc, bucketOf_without_alloc st.g bs hs b0 t j he] at j3
      exact Or.inr ⟨j, j1, j2, j3⟩
  have hst3 : st3 = st2 := hnull3 hq3
  refine ⟨st1, r, st2, h1, ?_, ?_⟩
  · rw [h2, hqe, hlast]
  · rw [h3, hq3, hst3]

theorem filter_fst_erase (p : Nat) : ∀ l : List (Nat × Nat), (l.map Prod.fst).Nodup →
    (l.filter (fun q => q.1 != p)).map Prod.fst = (l.map Prod.fst).erase p := by
  intro l
  induction l with
  | nil => intro _; rfl
  | cons a rest ih =>
    intro hnd
    rw [List.map_cons, List.nodup_cons] at hnd
    by_cases ha : a.1 = p
    · rw [List.filter_cons_of_neg (by simp [ha]), List.map_cons, ha, List.erase_cons_head]
      rw [ih hnd.2, List.erase_of_not_mem]
      rw [← ha]; exact hnd.1
    · rw [List.filter_cons_of_pos (by simp [ha]), List.map_cons, List.map_cons,
        List.erase_cons_tail (by simpa using ha), ih hnd.2]

/-- Forgetting the request sizes of a tagged reachable state gives a reachable
state. -/
theorem reachableBy_reachable (A : Nat) (m0 : Mem) (B L lo : Nat) (st : State)
    (live : List (Nat × Nat)) (h : ReachableBy A m0 B L lo st live) :
    Reachable A m0 B L lo st (live.map Prod.fst) := by
  induction h with
  | init fuel st r hok hinit => exact Reachable.init fuel st r hok hinit
  | malloc fuel st live n st1 p _ hm hp ih =>
    exact Reachable.malloc fuel st _ n st1 p ih hm hp
  | malloc_null fuel st live n st1 _ hm ih =>
    exact Reachable.malloc_null fuel st _ n st1 ih hm
  | free fuel st live p st1 r _ hp hf ih =>
    have hnd := (reachable_inv A m0 B L lo st _ ih).2.choose_spec.2.2.1
    rw [filter_fst_erase p live hnd]
    exact Reachable.free fuel st _ p st1 r ih hp hf

/-- In a tagged reachable state the memory represents a tiling block list in
which every live pointer `(p, n)` is the payload address of an allocated block
of the bucket of `n`. -/
theorem reachableBy_model (A : Nat) (m0 : Mem) (B L lo : Nat) (st : State)
    (live : List (Nat × Nat)) (h : ReachableBy A m0 B L lo st live) :
    GoodGlobals st.g (A + L - lo) ∧ ∃ bs, Geo st.g (A + L - lo) bs ∧ Rep st.g st.mem bs ∧
      Ordered st.g bs ∧
      ∀ q ∈ live, ∃ b0, q.1 = b0 + 16 ∧
        (⟨b0, getAdjustedFreestoreIndexForSize st.g (uintAdd q.2 16), false⟩ : Blk) ∈ bs := by
  induction h with
  | init fuel st r hok hinit =>
    obtain ⟨hg, bs, hgeo, hrep, _, _, hord⟩ := init_inv2 A m0 B L fuel st r lo hok hinit
    exact ⟨hg, bs, hgeo, hrep, hord, fun q hq => by cases hq⟩
  | malloc fuel st live n st1 p _ hm hp ih =>
    obtain ⟨hg, bs, hgeo, hrep, hord, htag⟩ := ih
    obtain ⟨e1, _, _, hx⟩ := my_malloc_model _ fuel st n bs st1 p hg hgeo hrep hord hm
    obtain ⟨bsa, header, hspl, _, hnea, hlast, hpe, hgeoa, _, hgeo1, hrep1, hord1⟩ := hx hp
    obtain ⟨_, hsa, _⟩ := splits_low st.g _ bs bsa _ hg hgeo hspl
    have hs := geo_sep st.g _ hg bsa hgeoa
    have hmem : (⟨header, getAdjustedFreestoreIndexForSize st.g (uintAdd n 16), true⟩ : Blk)
        ∈ bsa := by
      rw [← mem_bucketOf_iff, hlast]
      exact lastOr_mem _ 0 hnea
    rw [e1]
    refine ⟨hg, _, hgeo1, hrep1, hord1, ?_⟩
    intro q hq
    rcases List.mem_cons.1 hq with e | e
    · rw [e]
      exact ⟨header, hpe, by simp⟩
    · obtain ⟨b0, hb0, hin⟩ := htag q e
      refine ⟨b0, hb0, List.mem_append_left _ ((mem_without _ _ _).2 ⟨(hsa _ rfl).2 hin, ?_⟩)⟩
      rcases sep_mem_or st.g bsa hs _ _ ((hsa _ rfl).2 hin) hmem with e3 | e3
      · simp at e3
      · exact apart_ne _ _ e3
  | malloc_null fuel st live n st1 _ hm ih =>
    obtain ⟨hg, bs, hgeo, hrep, hord, htag⟩ := ih
    obtain ⟨_, _, h0, _⟩ := my_malloc_model _ fuel st n bs st1 0 hg hgeo hrep hord hm
    rw [h0 rfl]
    exact ⟨hg, bs, hgeo, hrep, hord, htag⟩
  | free fuel st live p st1 r _ hp hf ih =>
    obtain ⟨hg, bs, hgeo, hrep, hord, htag⟩ := ih
    obtain ⟨q0, hq0, hq0p⟩ := List.mem_map.1 hp
    obtain ⟨b0, hb0, hin0⟩ := htag q0 hq0
    rw [← hq0p, hb0] at hf
    obtain ⟨e1, bs1, hgeo1, hrep1, hord1, hal, _⟩ := my_free_model _ fuel st bs b0 _ st1 r hg
      hgeo hrep hord hin0 hf
    rw [e1]
    refine ⟨hg, bs1, hgeo1, hrep1, hord1, ?_⟩
    intro q hq
    obtain ⟨hq1, hq2⟩ := List.mem_filter.1 hq
    obtain ⟨b1, hb1, hin1⟩ := htag q hq1
    refine ⟨b1, hb1, (hal _ rfl).2 ⟨hin1, ?_⟩⟩
    intro e
    simp only [Blk.mk.injEq, and_true] at e
    have : q.1 = p := by rw [hb1, e.1, ← hb0, hq0p]
    simp [this] at hq2

/-- The live pointers of a state with the invariant are at most `_length` many. -/
theorem live_length_le (hi : Nat) (st : State) (live : List Nat) (hinv : Inv hi st live) :
    live.length ≤ st.g._length := by
  obtain ⟨hg, bs, hgeo, hrep, hnd, hlive⟩ := hinv
  apply nodup_length_le live st.g._freestoreAddress st.g._length hnd
  intro p hp
  obtain ⟨b, hb, _, hbp⟩ := (hlive p).1 hp
  obtain ⟨g1, g2⟩ := geo_bounds st.g hi hg bs hgeo b hb
  have hsz := size_ge st.g hi hg b.idx (hgeo.1 b hb)
  have := hg.hi_le
  omega

theorem mawTest_eq (fuel steps : Nat) (st : State) (n : Nat) (st1 : State)
    (h : (my_malloc fuel st n >>= fun r => mawLoop fuel n steps r.1 r.2) = some st1) :
    mawTest fuel steps st n = some (st1, 0) := by
  unfold mawTest
  cases hm : my_malloc fuel st n with
  | none => rw [hm] at h; simp at h
  | some r =>
    rw [hm] at h
    simp only [Option.bind_eq_bind, Option.some_bind] at h ⊢
    rw [h]
    rfl

/-- Repeated `my_malloc(n)` from a reachable state: with `d` bounding the
number of pointers that can still become live, at most `d` calls return
non-null, the next one returns null, and the loop of `mawTest` returns. -/
theorem maw_exhausts (A : Nat) (m0 : Mem) (B L lo : Nat) (n fuel : Nat)
    (hf : L + 36 ≤ fuel) :
    ∀ (d : Nat) (st : State) (live : List Nat), Reachable A m0 B L lo st live →
      L ≤ live.length + d →
      ∃ k ps st1, k ≤ d ∧ ps.length = k ∧
        (∀ acc, mallocRepeat fuel n k st acc = some (st1, ps ++ acc)) ∧
        (∀ p ∈ ps, p ≠ 0) ∧
        my_malloc fuel st1 n = some (st1, 0) ∧
        Reachable A m0 B L lo st1 (ps ++ live) ∧
        ∀ steps, k + 1 ≤ steps →
          (my_malloc fuel st n >>= fun r => mawLoop fuel n steps r.1 r.2) = some st1 := by
  intro d
  induction d with
  | zero =>
    intro st live hr hd
    have hinv := reachable_inv A m0 B L lo st live hr
    obtain ⟨hL, hR⟩ := reachable_fuel A m0 B L lo st live hr
    obtain ⟨⟨st1, p⟩, hm⟩ := my_malloc_some _ fuel st live n hinv (by omega)
    by_cases hp : p = 0
    · subst hp
      have hst := (my_malloc_inv _ fuel st live n st1 0 hinv hm).1 rfl
      subst hst
      refine ⟨0, [], st1, le_refl _, rfl, fun acc => rfl, (fun p hp => by cases hp), hm, hr, ?_⟩
      intro steps hs
      rw [hm]
      obtain ⟨s, rfl⟩ : ∃ s, steps = s + 1 := ⟨steps - 1, by omega⟩
      rfl
    · have hr1 := Reachable.malloc fuel st live n st1 p hr hm hp
      have hlen := live_length_le _ st1 _ (reachable_inv A m0 B L lo st1 _ hr1)
      rw [my_malloc_g fuel st n st1 p hm, hL] at hlen
      simp only [List.length_cons] at hlen
      omega
  | succ d ih =>
    intro st live hr hd
    have hinv := reachable_inv A m0 B L lo st live hr
    obtain ⟨hL, hR⟩ := reachable_fuel A m0 B L lo st live hr
    obtain ⟨⟨st1, p⟩, hm⟩ := my_malloc_some _ fuel st live n hinv (by omega)
    by_cases hp : p = 0
    · subst hp
      have hst := (my_malloc_inv _ fuel st live n st1 0 hinv hm).1 rfl
      subst hst
      refine ⟨0, [], st1, by omega, rfl, fun acc => rfl, (fun p hp => by cases hp), hm, hr, ?_⟩
      intro steps hs
      rw [hm]
      obtain ⟨s, rfl⟩ : ∃ s, steps = s + 1 := ⟨steps - 1, by omega⟩
      rfl
    · have hr1 := Reachable.malloc fuel st live n st1 p hr hm hp
      obtain ⟨k, ps, st2, hk, hlen, hrep, hnz, hnull, hr2, hmaw⟩ := ih st1 (p :: live) hr1
        (by simp only [List.length_cons]; omega)
      refine ⟨k + 1, ps ++ [p], st2, by omega, by simp [hlen], ?_, ?_, hnull, ?_, ?_⟩
      · intro acc
        unfold mallocRepeat
        rw [hm]
        simp only [Option.bind_eq_bind, Option.some_bind]
        rw [hrep (p :: acc)]
        simp
      · intro q hq
        rcases List.mem_append.1 hq with e | e
        · exact hnz q e
        · simp only [List.mem_singleton] at e
          rw [e]; exact hp
      · simpa using hr2
      · intro steps hs
        obtain ⟨s, rfl⟩ : ∃ s, steps = s + 1 := ⟨steps - 1, by omega⟩
        rw [hm]
        simp only [Option.bind_eq_bind, Option.some_bind]
        unfold mawLoop
        rw [if_pos hp]
        exact hmaw s (by omega)

/-- The setup of the freestore header keeps `_length`. -/
theorem protect_length (g : Globals) (m : Mem) (fuel A kmin kmax : Nat) (g1 : Globals)
    (m1 : Mem) (lo : Nat)
    (h : protectFreestoreHeader g m fuel A kmin kmax = some (g1, m1, lo)) :
    g1._length = g._length := by
  unfold protectFreestoreHeader at h
  dsimp only at h
  obtain ⟨⟨ma, ca⟩, _, h⟩ := bind_some h
  dsimp only at h
  split at h
  · obtain ⟨⟨mb, cb⟩, _, h⟩ := bind_some h
    simp only [Option.some.injEq, Prod.mk.injEq] at h
    rw [← h.1]
  · simp only [Option.some.injEq, Prod.mk.injEq] at h
    rw [← h.1]

theorem initHeader_length (g : Globals) (m : Mem) (fuel A kmin kmax : Nat) (g1 : Globals)
    (m1 : Mem) (fa lo : Nat)
    (h : initFreestoreHeader g m fuel A kmin kmax = some (g1, m1, fa, lo)) :
    g1._length = g._length := by
  unfold initFreestoreHeader at h
  dsimp only at h
  split at h
  · simp only [Option.some.injEq, Prod.mk.injEq] at h
    rw [← h.1]
  · obtain ⟨ma, _, h⟩ := bind_some h
    obtain ⟨⟨g3, m2, lo2⟩, hp, h⟩ := bind_some h
    simp only [Option.some.injEq, Prod.mk.injEq] at h
    rw [← h.1, protect_length _ _ _ _ _ _ _ _ _ hp]

/-- The bucket chosen for the head array is the least one: every smaller
bucket has blocks too small for the `R + 1` head records. -/
theorem storeIndex_least (g : Globals) (A B L : Nat) (hp : Params g A B L) :
    ∀ j, j < getAdjustedMinFreestoreIndexForRequestedSize g (uintMul 16 g._freestoreRange) →
      getSizeForAdjustedFreestoreIndex g j < 16 * (g._freestoreRange + 1) := by
  have hR31 : g._minFreestoreIndex + g._freestoreRange < 32 :=
    exp_lt_of_pow_mul_lt B _ hp.B1 (sz_lt g A B L hp _ (le_refl _))
  have hR1 := hp.R1
  have hcs : uintAdd (uintMul 16 g._freestoreRange) g._headerSize = 16 * (g._freestoreRange + 1) := by
    unfold uintAdd uintMul
    rw [hp.hh, Nat.mod_eq_of_lt (by omega), Nat.mod_eq_of_lt (by omega)]
    ring
  have hb := heads_bound g A B L hp
  have htop := sz_lt g A B L hp _ (le_refl g._freestoreRange)
  obtain ⟨hsR, _⟩ := storeIndex_spec g A B L hp
  intro j hj
  have hjR : j ≤ g._freestoreRange := by omega
  rw [sz_eq g A B L hp j (sz_lt g A B L hp j hjR)]
  unfold getAdjustedMinFreestoreIndexForRequestedSize at hj
  rw [hcs] at hj
  unfold getFreestoreIndexForSize at hj
  rw [hp.hB] at hj
  split at hj
  · rename_i hlt
    have hspec := ceilLog_spec (16 * (g._freestoreRange + 1)) B hp.B1 (by omega)
    have hle := ceilLog_le (16 * (g._freestoreRange + 1)) B _ hp.B1 (by omega) hb
    have hge : g._minFreestoreIndex ≤ ceilLog (16 * (g._freestoreRange + 1)) B := by
      rcases hp.kmin_min with h0 | h0
      · omega
      · by_contra hcon
        have := pow_mul_mono B (ceilLog (16 * (g._freestoreRange + 1)) B)
          (g._minFreestoreIndex - 1) (by omega)
        omega
    rw [Nat.mod_eq_of_lt (by omega), uintSub_exact _ _ hge (by omega)] at hj
    exact hspec.2 _ (by omega)
  · rename_i hge
    have : uintSub 0 g._minFreestoreIndex < 2 ^ 32 := by
      unfold uintSub; exact Nat.mod_lt _ (by norm_num)
    have hk0 : g._minFreestoreIndex = 0 := by
      rcases hp.kmin_min with h0 | h0
      · exact h0
      · have : 2 ^ 0 * B ≤ 2 ^ (g._minFreestoreIndex - 1) * B := pow_mul_mono B _ _ (by omega)
        omega
    rw [hk0] at hj
    have : uintSub 0 0 = 0 := by unfold uintSub; simp
    rw [this] at hj
    omega

/-! ## Bucket sequences after the operations of the store -/

theorem bucketOf_without_other (g : Globals) (bs : List Blk) (hs : Sep g bs) (a i k : Nat)
    (ha : a ∈ bucketOf bs i) (hk : k ≠ i) : bucketOf (without bs a) k = bucketOf bs k := by
  rw [bucketOf_without]
  apply filter_ne_of_not_mem
  intro hin
  exact hk (bucket_unique g bs hs a k i hin ha)

theorem removeWithAddressLoop_absent (a : Nat) (m : Mem) :
    ∀ (fuel : Nat) (l : List Nat) (q n : Nat) (s : Bool) (m1 : Mem) (s1 : Bool),
      ChainRep m q l → a ∉ l →
      removeWithAddressLoop a fuel m q n s = some (m1, s1) → m1 = m ∧ s1 = s := by
  intro fuel
  induction fuel with
  | zero => intro l q n s m1 s1 _ _ h; simp [removeWithAddressLoop] at h
  | succ f ih =>
    intro l q n s m1 s1 hrep hal h
    unfold removeWithAddressLoop at h
    cases l with
    | nil =>
      have hq : q = 0 := hrep
      rw [if_neg (by simp [hq])] at h
      simp only [Option.some.injEq, Prod.mk.injEq] at h
      exact ⟨h.1.symm, h.2.symm⟩
    | cons b rest =>
      obtain ⟨hqb, hb0, hmb, hrest⟩ := hrep
      subst hqb
      rw [if_pos hb0] at h
      unfold readNextBlock readAddress at h
      simp only [if_neg hb0, Option.bind_eq_bind, Option.some_bind, hmb] at h
      have hne : q ≠ a := fun e => hal (by rw [e]; exact List.mem_cons_self _ _)
      rw [if_neg hne] at h
      exact ih rest _ _ s m1 s1 hrest (fun e => hal (List.mem_cons_of_mem _ e)) h

theorem removeWithAddress_absent (g : Globals) (m : Mem) (fuel i a : Nat) (l : List Nat)
    (H : Nat) (m1 : Mem) (s : Bool) (hH : getFirstFreestoreBlockAtAdjustedIndex g i = H)
    (hH0 : H ≠ 0) (hrep : BucketRep m H l) (ha : a ≠ 0) (hal : a ∉ l)
    (h : removeFreestoreBlockAtAdjustedIndexWithAddress g m fuel i a = some (m1, s)) :
    m1 = m ∧ s = false := by
  unfold removeFreestoreBlockAtAdjustedIndexWithAddress at h
  rw [hH] at h
  dsimp only at h
  unfold readAddress readNextBlock at h
  simp only [if_neg hH0, Option.bind_eq_bind, Option.some_bind] at h
  cases l with
  | nil =>
    obtain ⟨h1, h2⟩ := hrep
    rw [h1, if_neg (fun e => ha e.symm), h2] at h
    exact removeWithAddressLoop_absent a m fuel [] 0 H false m1 s rfl hal h
  | cons b rest =>
    obtain ⟨h1, hb0, hrest⟩ := hrep
    have hne : b ≠ a := fun e => hal (by rw [e]; exact List.mem_cons_self _ _)
    rw [h1, if_neg hne] at h
    exact removeWithAddressLoop_absent a m fuel rest _ H false m1 s hrest
      (fun e => hal (List.mem_cons_of_mem _ e)) h

theorem bucketOf_free_only (bs : List Blk) (i : Nat) :
    bucketOf (bs.filter (fun b => b.free)) i = bucketOf bs i := by
  unfold bucketOf
  rw [List.filter_filter]
  congr 1
  apply List.filter_congr
  intro b _
  cases b.free <;> simp

theorem rep_free_only (g : Globals) (m : Mem) (bs : List Blk) (h : Rep g m bs) :
    Rep g m (bs.filter (fun b => b.free)) := by
  refine ⟨fun i hi => ?_, fun b hb hf => ?_⟩
  · rw [bucketOf_free_only]
    exact h.1 i hi
  · have := (List.mem_filter.1 hb).2
    rw [hf] at this
    cases this

theorem sep_free_only (g : Globals) (bs : List Blk) (h : Sep g bs) :
    Sep g (bs.filter (fun b => b.free)) :=
  ⟨fun b hb => h.1 b (List.mem_filter.1 hb).1, List.Pairwise.filter _ h.2⟩

/-- Every reachable state is well formed. -/
theorem reachable_wellFormed (A : Nat) (m0 : Mem) (B L lo : Nat) (st : State)
    (live : List Nat) (h : Reachable A m0 B L lo st live) : WellFormed st.g st.mem := by
  obtain ⟨hg, bs, hgeo, hrep, _⟩ := reachable_inv A m0 B L lo st live h
  exact ⟨_, bs, hg, hgeo, hrep⟩

/-- On the model: in every state whose memory represents a tiling block list
`bs` in which the target bucket `t` of a request of `n` bytes is nonempty,
`my_malloc(n)` returns (with enough fuel) the address of the last block of
bucket `t` plus `header_size`; afterwards the list of bucket `t` is the old
list without its last element and the list of every other bucket is
unchanged. -/
theorem my_malloc_last_model (hi : Nat) (st : State) (bs : List Blk) (n : Nat)
    (hg : GoodGlobals st.g hi) (hgeo : Geo st.g hi bs) (hrep : Rep st.g st.mem bs)
    (hne : bucketOf bs (getAdjustedFreestoreIndexForSize st.g (uintAdd n st.g._headerSize))
      ≠ [])
    (fuel : Nat) (hf : st.g._length + st.g._freestoreRange + 4 ≤ fuel) :
    ∃ st1, my_malloc fuel st n = some (st1,
        lastOr (bucketOf bs (getAdjustedFreestoreIndexForSize st.g
          (uintAdd n st.g._headerSize))) 0 + st.g._headerSize) ∧
      st1.g = st.g ∧
      BucketRep st1.mem (getFirstFreestoreBlockAtAdjustedIndex st.g
          (getAdjustedFreestoreIndexForSize st.g (uintAdd n st.g._headerSize)))
        (bucketOf bs (getAdjustedFreestoreIndexForSize st.g
          (uintAdd n st.g._headerSize))).dropLast ∧
      ∀ k, k ≤ st.g._freestoreRange →
        k ≠ getAdjustedFreestoreIndexForSize st.g (uintAdd n st.g._headerSize) →
        BucketRep st1.mem (getFirstFreestoreBlockAtAdjustedIndex st.g k) (bucketOf bs k) := by
  obtain ⟨⟨st1, p⟩, h⟩ := my_malloc_model_some hi fuel st n bs hg hgeo hrep hf
  have hg1 := my_malloc_g fuel st n st1 p h
  have h' := h
  unfold my_malloc at h'
  obtain ⟨⟨m1, header⟩, ha, h'⟩ := bind_some h'
  dsimp only at h'
  obtain ⟨hsv, _, hx⟩ := allocate_spec2 st.g hi hg bs st.mem fuel n m1 header hgeo hrep ha
  generalize getAdjustedFreestoreIndexForSize st.g (uintAdd n st.g._headerSize) = t at *
  have hs := geo_sep st.g hi hg bs hgeo
  have hmem0 : lastOr (bucketOf bs t) 0 ∈ bucketOf bs t := lastOr_mem _ 0 hne
  have ht : t ≤ st.g._freestoreRange := hgeo.1 _ ((mem_bucketOf_iff bs t _).1 hmem0)
  have hh : header ≠ 0 := hsv.2 ⟨ht, Or.inl hne⟩
  obtain ⟨bsa, _, hsame, _, hlast, _, _, _, hrep1, hrd⟩ := hx hh
  rw [hsame hne] at hlast hrep1
  rw [if_pos hh, hrd] at h'
  simp only [Option.bind_eq_bind, Option.some_bind, Option.some.injEq, Prod.mk.injEq] at h'
  obtain ⟨e1, e2⟩ := h'
  have hm1 : st1.mem = m1 := by rw [← e1]
  refine ⟨st1, ?_, hg1, ?_, ?_⟩
  · rw [h, ← e2, hlast, hg.hdr]
  · have := hrep1.1 t ht
    rw [bucketOf_append_alloc, bucketOf_without, hlast,
      filter_last _ 0 (sepList_nodup _ _ (sepList_bucket st.g hi hg bs hs t ht)) hne] at this
    rw [(head_ptr st.g hi hg t ht).1, hm1]
    exact this
  · intro k hk hkt
    have := hrep1.1 k hk
    rw [bucketOf_append_alloc, hlast,
      bucketOf_without_other st.g bs hs _ t k hmem0 hkt] at this
    rw [(head_ptr st.g hi hg k hk).1, hm1]
    exact this

/-- On the model: in every store whose memory represents a separated block
list `bs`, for every bucket `i ≤ R` and every address `a`
behind the head array whose 16-byte record overlaps the record of no block of
the store: `addAddressToFreestoreForAdjustedIndex(i, a)` returns true (with
enough fuel), the list of bucket `i` becomes the old list followed by `a`,
`containsFreestoreBlockAtAdjustedIndexWithAddress(i, a)` holds, and the list of
every other bucket is unchanged. -/
theorem add_model (g : Globals) (hi : Nat) (bs : List Blk) (m : Mem)
    (fuel i a : Nat) (hg : GoodGlobals g hi) (hs : Sep g bs) (hrep : Rep g m bs)
    (hi2 : i ≤ g._freestoreRange)
    (ha1 : g._freestoreAddress + 16 * (g._freestoreRange + 1) ≤ a) (ha2 : a + 16 < 2 ^ 64)
    (ha3 : ∀ b ∈ bs, Apart b.base a) (hf : bs.length + 4 ≤ fuel) :
    ∃ m1, addAddressToFreestoreForAdjustedIndex g m fuel i a = some (m1, true) ∧
      BucketRep m1 (getFirstFreestoreBlockAtAdjustedIndex g i) (bucketOf bs i ++ [a]) ∧
      lastOr (bucketOf bs i ++ [a]) 0 = a ∧
      containsFreestoreBlockAtAdjustedIndexWithAddress g m1 fuel i a = some true ∧
      ∀ k, k ≤ g._freestoreRange → k ≠ i →
        BucketRep m1 (getFirstFreestoreBlockAtAdjustedIndex g k) (bucketOf bs k) := by
  have hA0 := hg.base_ne
  have ha0 : a ≠ 0 := by omega
  obtain ⟨⟨m1, r⟩, h⟩ := g_add_some g hi bs m fuel i a hg hrep hi2 ha0 (by omega)
  obtain ⟨hr, hrep1, _⟩ := g_add g hi bs m fuel i a m1 r hg hs hrep hi2 ha1 ha2 ha3 h
  subst hr
  obtain ⟨c, hc⟩ := g_contains_some g hi _ m1 fuel i a hg hrep1 hi2
    (by simp only [List.length_append, List.length_singleton]; omega)
  have hcv := g_contains g hi _ m1 fuel i a c hg hrep1 hi2 ha0 hc
  rw [bucketOf_append_free] at hcv
  refine ⟨m1, h, ?_, lastOr_append_single _ _ _, ?_, ?_⟩
  · have := hrep1.1 i hi2
    rw [bucketOf_append_free] at this
    rw [(head_ptr g hi hg i hi2).1]
    exact this
  · rw [hc, hcv]
    simp
  · intro k hk hki
    have := hrep1.1 k hk
    rw [bucketOf_append_other bs _ k (by
      intro x hx
      simp only [List.mem_singleton] at hx
      rw [hx]
      exact fun e => hki e.symm)] at this
    rw [(head_ptr g hi hg k hk).1]
    exact this

/-- On the model: in every store whose memory represents a separated block
list `bs`, for every bucket `i ≤ R` and every non-null address `a`:
`removeFreestoreBlockAtAdjustedIndexWithAddress(i, a)` returns (with enough
fuel), and it returns true exactly if `a` is on the list of bucket `i`; the
list of bucket `i` is then the old list with `a` erased, the others in their
order; if `a` is not on the list the memory is unchanged; the list of every
other bucket is unchanged. -/
theorem remove_model (g : Globals) (hi : Nat) (bs : List Blk) (m : Mem)
    (fuel i a : Nat) (hg : GoodGlobals g hi) (hs : Sep g bs) (hrep : Rep g m bs)
    (hi2 : i ≤ g._freestoreRange) (ha : a ≠ 0) (hf : bs.length + 3 ≤ fuel) :
    ∃ m1 s, removeFreestoreBlockAtAdjustedIndexWithAddress g m fuel i a = some (m1, s) ∧
      (s = true ↔ a ∈ bucketOf bs i) ∧
      BucketRep m1 (getFirstFreestoreBlockAtAdjustedIndex g i) ((bucketOf bs i).erase a) ∧
      (a ∉ bucketOf bs i → m1 = m) ∧
      ∀ k, k ≤ g._freestoreRange → k ≠ i →
        BucketRep m1 (getFirstFreestoreBlockAtAdjustedIndex g k) (bucketOf bs k) := by
  obtain ⟨⟨m1, s⟩, h⟩ := g_removeWithAddress_some g hi bs m fuel i a hg hs hrep hi2 ha hf
  have hnd := sepList_nodup _ _ (sepList_bucket g hi hg bs hs i hi2)
  by_cases hin : a ∈ bucketOf bs i
  · obtain ⟨hst, hrep1, _⟩ := g_removeWithAddress g hi bs m fuel i a m1 s hg hs hrep hi2 hin h
    refine ⟨m1, s, h, ⟨fun _ => hin, fun _ => hst⟩, ?_, fun e => absurd hin e, ?_⟩
    · have := hrep1.1 i hi2
      rw [bucketOf_without] at this
      rw [(head_ptr g hi hg i hi2).1, hnd.erase_eq_filter]
      exact this
    · intro k hk hki
      have := hrep1.1 k hk
      rw [bucketOf_without_other g bs hs a i k hin hki] at this
      rw [(head_ptr g hi hg k hk).1]
      exact this
  · obtain ⟨e1, e2⟩ := removeWithAddress_absent g m fuel i a (bucketOf bs i) _ m1 s
      (head_ptr g hi hg i hi2).1 (head_ptr g hi hg i hi2).2 (hrep.1 i hi2) ha hin h
    subst e1 e2
    refine ⟨m1, false, h, ⟨fun e => by simp at e, fun e => absurd e hin⟩, ?_, fun _ => rfl, ?_⟩
    · rw [(head_ptr g hi hg i hi2).1, List.erase_of_not_mem hin]
      exact hrep.1 i hi2
    · intro k hk _
      rw [(head_ptr g hi hg k hk).1]
      exact hrep.1 k hk

theorem bucketRep_single (m : Mem) (H b : Nat) (h1 : m H % 2 ^ 64 = b) (h2 : b ≠ 0)
    (h3 : m (H + 8) % 2 ^ 64 = 0) : BucketRep m H [b] :=
  ⟨h1, h2, h3⟩

theorem bucketRep_nil (m : Mem) (H : Nat) (h1 : m H % 2 ^ 64 = 0)
    (h3 : m (H + 8) % 2 ^ 64 = 0) : BucketRep m H [] :=
  ⟨h1, h3⟩

/-- In a well-formed store every block on a free list lies behind the
reserved block. -/
theorem wellFormed_list_bounds (g : Globals) (m : Mem) (hwf : WellFormed g m) (k : Nat)
    (lk : List Nat) (hk : k ≤ g._freestoreRange)
    (hlk : BucketRep m (getFirstFreestoreBlockAtAdjustedIndex g k) lk) :
    ∀ b ∈ lk, g._freestoreAddress + getSizeForAdjustedFreestoreIndex g g._freestoreIndex ≤ b := by
  obtain ⟨hi, bs, hg, hgeo, hrep⟩ := hwf
  have hbk := hrep.1 k hk
  rw [← (head_ptr g hi hg k hk).1] at hbk
  rw [bucketRep_unique _ _ _ _ hlk hbk]
  intro b hb
  have hmem := (mem_bucketOf_iff bs k b).1 hb
  exact (geo_bounds g hi hg bs hgeo _ hmem).1

/-! ## The memory after the spine split of `init_allocator` -/

/-- Source function `protectFreestoreHeader` on zeroed heads, with the memory
between its two loops: the spine split leaves a memory that represents the
spine blocks, and the tail loop runs from there. -/
theorem protect_spine (g : Globals) (A B L : Nat) (hp : Params g A B L) (fuel : Nat) (m : Mem)
    (g1 : Globals) (m1 : Mem) (lo : Nat)
    (hz : ∀ j, j ≤ g._freestoreRange → m (A + 16 * j) = 0 ∧ m (A + 16 * j + 8) = 0)
    (h : protectFreestoreHeader g m fuel A g._minFreestoreIndex
      (g._minFreestoreIndex + g._freestoreRange) = some (g1, m1, lo)) :
    g1._freestoreRange = g._freestoreRange ∧
      ∃ ms c, protectSplitLoop g1 A g1._freestoreIndex g1._freestoreRange m A = some (ms, c) ∧
        protectTailLoop g1 fuel ms (A + getSizeForAdjustedFreestoreIndex g1 g1._freestoreRange)
          (L - getSizeForAdjustedFreestoreIndex g1 g1._freestoreRange) = some (m1, lo) ∧
        Rep g1 ms (spineBlocks g1 g1._freestoreIndex g1._freestoreRange) := by
  have hk := exp_lt_of_pow_mul_lt B _ hp.B1 (sz_lt g A B L hp g._freestoreRange (le_refl _))
  have hR : uintSub (g._minFreestoreIndex + g._freestoreRange) g._minFreestoreIndex
      = g._freestoreRange := by
    rw [uintSub_exact _ _ (by omega) (by omega)]; omega
  have hp1 : Params { g with _freestoreIndex :=
      getAdjustedMinFreestoreIndexForRequestedSize g (uintMul 16 g._freestoreRange) } A B L := by
    obtain ⟨a1, a2, a3, a4, a5, a6, a7, a8, a9, a10, a11, a12, a13, a14, a15, a16⟩ := hp
    exact ⟨a1, a2, a3, a4, a5, a6, a7, a8, a9, a10, a11, a12, a13, a14, a15, a16⟩
  generalize hgd : ({ g with _freestoreIndex :=
      getAdjustedMinFreestoreIndexForRequestedSize g (uintMul 16 g._freestoreRange) } : Globals)
      = gd at hp1
  have hs : gd._freestoreIndex =
      getAdjustedMinFreestoreIndexForRequestedSize gd (uintMul 16 gd._freestoreRange) := by
    rw [← hgd]; rfl
  have hRd : gd._freestoreRange = g._freestoreRange := by rw [← hgd]
  have hkd : gd._minFreestoreIndex = g._minFreestoreIndex := by rw [← hgd]
  have hszR := sz_eq gd A B L hp1 gd._freestoreRange (sz_lt gd A B L hp1 _ (le_refl _))
  have htop := sz_top gd A B L hp1
  have hL16 := hp1.L16
  have hL32 := hp1.L32
  have hAL := hp1.AL
  have hst := storeIndex_spec gd A B L hp1
  rw [← hs] at hst
  unfold protectFreestoreHeader at h
  obtain ⟨⟨ms, c⟩, hsplit, h⟩ := bind_some h
  have hsplit1 : protectSplitLoop gd A gd._freestoreIndex gd._freestoreRange m A
      = some (ms, c) := by
    rw [hR] at hsplit
    rw [← hgd]
    exact hsplit
  have hcond : getSizeForFreestoreIndex gd (gd._minFreestoreIndex + gd._freestoreRange)
      < gd._length := by
    rw [size_formula gd _ (by rw [hp1.hB]; exact hp1.B1)
      (by rw [hp1.hB]; exact sz_lt gd A B L hp1 _ (le_refl _)), hp1.hB, hp1.hL, ← hszR]
    omega
  have hmaxeq : getSizeForFreestoreIndex gd (gd._minFreestoreIndex + gd._freestoreRange)
      = getSizeForAdjustedFreestoreIndex gd gd._freestoreRange := by
    rw [size_formula gd _ (by rw [hp1.hB]; exact hp1.B1)
      (by rw [hp1.hB]; exact sz_lt gd A B L hp1 _ (le_refl _)), hp1.hB, ← hszR]
  have hmaxsz : gd._maxFreestoreIndexMemorySize
      = getSizeForAdjustedFreestoreIndex gd gd._freestoreRange := by
    rw [hp1.hmaxsz, hszR]
  have h2 : (if getSizeForFreestoreIndex gd (gd._minFreestoreIndex + gd._freestoreRange)
        < gd._length then
      (protectTailLoop gd fuel ms (ptrAdd A gd._maxFreestoreIndexMemorySize)
        (uintSub gd._length
          (getSizeForFreestoreIndex gd (gd._minFreestoreIndex + gd._freestoreRange)))) >>=
        (fun r => some (gd, r.1, r.2))
      else some (gd, ms, 0)) = some (g1, m1, lo) := by
    rw [hR] at h
    rw [← hgd]
    exact h
  rw [if_pos hcond] at h2
  obtain ⟨⟨mt, sp⟩, htail, h2⟩ := bind_some h2
  simp only [Option.some.injEq, Prod.mk.injEq] at h2
  obtain ⟨e1, e2, e3⟩ := h2
  subst e1 e2 e3
  rw [hmaxsz, hmaxeq, hp1.hL, ptrAdd_exact _ _ (by omega), uintSub_exact _ _ (by omega) hL32]
    at htail
  obtain ⟨sp1, sp2⟩ := spine_spec gd A B L hp1 gd._freestoreIndex gd._freestoreRange m ms c
    (le_refl _) hsplit1
  have hrep0 : Rep gd ms (spineBlocks gd gd._freestoreIndex gd._freestoreRange) := by
    apply spine_rep gd A B L hp1 gd._freestoreIndex ms
    · intro j hj
      by_cases hc : gd._freestoreIndex ≤ j ∧ j < gd._freestoreRange
      · exact Or.inl hc
      · right
        have hzj := hz j (by omega)
        have e1 : ms (A + 16 * j) = m (A + 16 * j) := sp2 _ (by omega)
        have e2 : ms (A + 16 * j + 8) = m (A + 16 * j + 8) := sp2 _ (by omega)
        rw [e1, e2]
        exact hzj
    · exact sp1
  exact ⟨hRd, ms, c, hsplit1, htail, hrep0⟩

/-- Source function `initFreestoreHeader` for `kmin < kmax`, with the memory
after the reset and after the spine split. -/
theorem initHeader_spine (g : Globals) (A B L kmax fuel : Nat) (m : Mem) (g1 : Globals)
    (m1 : Mem) (fa lo : Nat)
    (h : initFreestoreHeader g m fuel A g._minFreestoreIndex kmax = some (g1, m1, fa, lo))
    (hB : g._basic_block_size = B) (hL : g._length = L) (hh : g._headerSize = 16)
    (hA : g._freestoreAddress = A)
    (hminsz : g._minFreestoreIndexMemorySize = 2 ^ g._minFreestoreIndex * B)
    (hB1 : 1 ≤ B) (hL16 : 16 ≤ L) (hL32 : L < 2 ^ 32) (hA0 : A ≠ 0) (hAL : A + L < 2 ^ 64)
    (hgt : 16 < 2 ^ g._minFreestoreIndex * B)
    (hmin : g._minFreestoreIndex = 0 ∨ 2 ^ (g._minFreestoreIndex - 1) * B ≤ 16)
    (hlt : g._minFreestoreIndex < kmax) (hle : 2 ^ kmax * B ≤ L - 16)
    (hmax : L - 16 < 2 ^ (kmax + 1) * B) :
    ∃ mr ms c, resetFreestore m A g1._freestoreRange = some mr ∧
      protectSplitLoop g1 A g1._freestoreIndex g1._freestoreRange mr A = some (ms, c) ∧
      protectTailLoop g1 fuel ms (A + getSizeForAdjustedFreestoreIndex g1 g1._freestoreRange)
        (L - getSizeForAdjustedFreestoreIndex g1 g1._freestoreRange) = some (m1, lo) ∧
      Rep g1 ms (spineBlocks g1 g1._freestoreIndex g1._freestoreRange) := by
  have hk32 : kmax < 32 := exp_lt_of_pow_mul_lt B kmax hB1 (by omega)
  have hR : uintSub kmax g._minFreestoreIndex = kmax - g._minFreestoreIndex :=
    uintSub_exact _ _ (by omega) (by omega)
  have hsum : g._minFreestoreIndex + (kmax - g._minFreestoreIndex) = kmax := by omega
  unfold initFreestoreHeader at h
  rw [hR] at h
  dsimp only at h
  rw [if_neg (by omega)] at h
  obtain ⟨mr, hreset, h⟩ := bind_some h
  obtain ⟨⟨g3, m2, lo1⟩, hprot, h⟩ := bind_some h
  simp only [Option.some.injEq, Prod.mk.injEq] at h
  obtain ⟨e1, e2, e3, e4⟩ := h
  subst e1 e2 e3 e4
  have hmaxsz : getSizeForAdjustedFreestoreIndex
      { g with _freestoreRange := kmax - g._minFreestoreIndex } (kmax - g._minFreestoreIndex)
      = 2 ^ (g._minFreestoreIndex + (kmax - g._minFreestoreIndex)) * B := by
    unfold getSizeForAdjustedFreestoreIndex uintAdd
    dsimp only
    rw [Nat.mod_eq_of_lt (by omega), Nat.add_comm,
      size_formula _ _ (by dsimp only; omega) (by dsimp only; rw [hsum, hB]; omega)]
    dsimp only
    rw [hB]
  have hp : Params
      { g with
        _freestoreRange := kmax - g._minFreestoreIndex,
        _maxFreestoreIndexMemorySize := getSizeForAdjustedFreestoreIndex
          { g with _freestoreRange := kmax - g._minFreestoreIndex }
          (kmax - g._minFreestoreIndex) } A B L := by
    refine ⟨hB, hL, hh, hA, hminsz, hmaxsz, hB1, hL16, hL32, hA0, hAL, hgt, hmin, ?_, ?_, ?_⟩
    · show 1 ≤ kmax - g._minFreestoreIndex
      omega
    · show 2 ^ (g._minFreestoreIndex + (kmax - g._minFreestoreIndex)) * B ≤ L - 16
      rw [hsum]; exact hle
    · show L - 16 < 2 ^ (g._minFreestoreIndex + (kmax - g._minFreestoreIndex) + 1) * B
      rw [hsum]; exact hmax
  have hreset1 : resetFreestoreLoop A (kmax - g._minFreestoreIndex + 1) m 0 = some mr := hreset
  have hbound := heads_bound _ A B L hp
  have hz := (reset_spec A hA0 _ m 0 mr (by
    have e : 2 ^ (g._minFreestoreIndex + (kmax - g._minFreestoreIndex)) * B ≤ L - 16 := by
      rw [hsum]; exact hle
    have hb : 16 * (kmax - g._minFreestoreIndex + 1)
        ≤ 2 ^ (g._minFreestoreIndex + (kmax - g._minFreestoreIndex)) * B := hbound
    omega) hreset1).1
  obtain ⟨r1, ms, c, r2, r3, r4⟩ := protect_spine _ A B L hp fuel mr g3 m2 lo1 (by
    intro j hj
    exact hz j (Nat.zero_le _) (by
      have : j ≤ kmax - g._minFreestoreIndex := hj
      omega)) (by
    show protectFreestoreHeader _ mr fuel A g._minFreestoreIndex
      (g._minFreestoreIndex + (kmax - g._minFreestoreIndex)) = some (g3, m2, lo1)
    rw [hsum]
    exact hprot)
  refine ⟨mr, ms, c, ?_, r2, r3, r4⟩
  rw [r1]
  exact hreset

/-- A successful `init_allocator` passes through the memory after the spine
split, which represents the spine blocks. -/
theorem init_spine (A : Nat) (m0 : Mem) (B L fuel : Nat) (st : State) (r lo : Nat)
    (hok : InitOK A B L) (h : init_allocator fuel A m0 B L = some (st, r, lo)) :
    ∃ mr ms c, resetFreestore m0 A st.g._freestoreRange = some mr ∧
      protectSplitLoop st.g A st.g._freestoreIndex st.g._freestoreRange mr A = some (ms, c) ∧
      protectTailLoop st.g fuel ms
        (A + getSizeForAdjustedFreestoreIndex st.g st.g._freestoreRange)
        (L - getSizeForAdjustedFreestoreIndex st.g st.g._freestoreRange) = some (st.mem, lo) ∧
      Rep st.g ms (spineBlocks st.g st.g._freestoreIndex st.g._freestoreRange) := by
  have hok1 := hok
  obtain ⟨hA0, hAL, hB1, hL16, hL32, _⟩ := hok1
  unfold init_allocator at h
  have hBL : B < L :=
    (initOK_facts A B L hok { Globals.zero with _basic_block_size := B } rfl).1
  rw [if_pos hBL] at h
  obtain ⟨⟨g7, m1, fa, lo1⟩, hinit, h⟩ := bind_some h
  simp only [Option.some.injEq, Prod.mk.injEq] at h
  obtain ⟨e1, e2, e3⟩ := h
  have main : fa = A ∧ Params g7 A B L ∧
      g7._freestoreIndex =
        getAdjustedMinFreestoreIndexForRequestedSize g7 (uintMul 16 g7._freestoreRange) ∧
      lo1 + getSizeForAdjustedFreestoreIndex g7 g7._freestoreRange ≤ L ∧
      ∃ bs, Geo g7 (A + L - lo1) bs ∧ Rep g7 m1 bs ∧ ∀ b ∈ bs, b.free = true := by
    refine initHeader_spec _ A B L _ fuel m0 g7 m1 fa lo1 hinit rfl rfl rfl rfl ?_
      hB1 hL16 hL32 hA0 hAL ?_ ?_ ?_ ?_ ?_
    · refine size_formula _ _ hB1 ?_
      have hf := initOK_facts A B L hok
        { Globals.zero with _basic_block_size := B, _length := L, _headerSize := 16 } rfl
      have h1 := pow_mul_mono B _ _ (le_of_lt hf.2.1)
      have h2 := hf.2.2.1
      exact lt_of_le_of_lt h1 (by omega)
    · exact (initOK_facts A B L hok
        { Globals.zero with _basic_block_size := B, _length := L, _headerSize := 16 }
        rfl).2.2.2.2.1
    · exact (initOK_facts A B L hok
        { Globals.zero with _basic_block_size := B, _length := L, _headerSize := 16 }
        rfl).2.2.2.2.2
    · exact (initOK_facts A B L hok
        { Globals.zero with _basic_block_size := B, _length := L, _headerSize := 16 }
        rfl).2.1
    · exact (initOK_facts A B L hok
        { Globals.zero with _basic_block_size := B, _length := L, _headerSize := 16 }
        rfl).2.2.1
    · exact (initOK_facts A B L hok
        { Globals.zero with _basic_block_size := B, _length := L, _headerSize := 16 }
        rfl).2.2.2.1
  have main2 : ∃ mr ms c, resetFreestore m0 A g7._freestoreRange = some mr ∧
      protectSplitLoop g7 A g7._freestoreIndex g7._freestoreRange mr A = some (ms, c) ∧
      protectTailLoop g7 fuel ms (A + getSizeForAdjustedFreestoreIndex g7 g7._freestoreRange)
        (L - getSizeForAdjustedFreestoreIndex g7 g7._freestoreRange) = some (m1, lo1) ∧
      Rep g7 ms (spineBlocks g7 g7._freestoreIndex g7._freestoreRange) := by
    refine initHeader_spine _ A B L _ fuel m0 g7 m1 fa lo1 hinit rfl rfl rfl rfl ?_
      hB1 hL16 hL32 hA0 hAL ?_ ?_ ?_ ?_ ?_
    · refine size_formula _ _ hB1 ?_
      have hf := initOK_facts A B L hok
        { Globals.zero with _basic_block_size := B, _length := L, _headerSize := 16 } rfl
      have h1 := pow_mul_mono B _ _ (le_of_lt hf.2.1)
      have h2 := hf.2.2.1
      exact lt_of_le_of_lt h1 (by omega)
    · exact (initOK_facts A B L hok
        { Globals.zero with _basic_block_size := B, _length := L, _headerSize := 16 }
        rfl).2.2.2.2.1
    · exact (initOK_facts A B L hok
        { Globals.zero with _basic_block_size := B, _length := L, _headerSize := 16 }
        rfl).2.2.2.2.2
    · exact (initOK_facts A B L hok
        { Globals.zero with _basic_block_size := B, _length := L, _headerSize := 16 }
        rfl).2.1
    · exact (initOK_facts A B L hok
        { Globals.zero with _basic_block_size := B, _length := L, _headerSize := 16 }
        rfl).2.2.1
    · exact (initOK_facts A B L hok
        { Globals.zero with _basic_block_size := B, _length := L, _headerSize := 16 }
        rfl).2.2.2.1
  obtain ⟨i1, i2, i3, i4, bs, i5, i6, i7⟩ := main
  have hg : ({ g7 with _freestoreAddress := fa } : Globals) = g7 :=
    globals_eta g7 fa (by rw [i1]; exact i2.hA)
  have hst : st = ⟨g7, m1⟩ := by rw [← e1, ← hg]
  rw [hst, ← e3]
  exact main2

/-! ## The ghost log of the coalescing ascent -/

/-- Dropping the log of `attemptMergeLog` gives
`attemptBuddyMergeAtAdjustedIndexWithAddress`. -/
theorem attemptMergeLog_erase (g : Globals) :
    ∀ (fuel : Nat) (m : Mem) (i a : Nat),
      (attemptMergeLog g fuel m i a).map (fun r => (r.1, r.2.1)) =
        attemptBuddyMergeAtAdjustedIndexWithAddress g fuel m i a := by
  intro fuel
  induction fuel with
  | zero => intro m i a; rfl
  | succ f ih =>
    intro m i a
    unfold attemptMergeLog attemptBuddyMergeAtAdjustedIndexWithAddress
    dsimp only
    split
    · split
      · cases h1 : containsFreestoreBlockAtAdjustedIndexWithAddress g m f i a with
        | none => rfl
        | some c1 =>
          simp only [Option.bind_eq_bind, Option.some_bind]
          cases h2 : containsFreestoreBlockAtAdjustedIndexWithAddress g m f i
              (getContiguousAddressAtSide g i a (getBuddySideForAddress g i a)) with
          | none => rfl
          | some c2 =>
            simp only [Option.some_bind]
            split
            · cases h3 : mergeBuddiesAtAddress g m f i a
                  (getContiguousAddressAtSide g i a (getBuddySideForAddress g i a)) with
              | none => rfl
              | some r3 =>
                obtain ⟨m1, ms⟩ := r3
                simp only [Option.some_bind]
                split
                · split
                  · rw [← ih m1 (uintAdd i 1)
                      (getContiguousAddressAtSide g i a (getBuddySideForAddress g i a))]
                    cases attemptMergeLog g f m1 (uintAdd i 1)
                        (getContiguousAddressAtSide g i a (getBuddySideForAddress g i a)) with
                    | none => rfl
                    | some r4 => rfl
                  · rw [← ih m1 (uintAdd i 1) a]
                    cases attemptMergeLog g f m1 (uintAdd i 1) a with
                    | none => rfl
                    | some r4 => rfl
                · rfl
            · rfl
      · rfl
    · rfl

theorem deallocateHeaderLog_erase (g : Globals) (m : Mem) (fuel header : Nat) :
    (deallocateHeaderLog g m fuel header).map (fun r => (r.1, r.2.1)) =
      deallocateHeader g m fuel header := by
  unfold deallocateHeaderLog deallocateHeader
  dsimp only
  split
  · cases readIndex m header with
    | none => rfl
    | some ai =>
      simp only [Option.bind_eq_bind, Option.some_bind]
      cases writeMemoryStart m header 0 with
      | none => rfl
      | some m1 =>
        simp only [Option.some_bind]
        cases writeIndex m1 header 0 with
        | none => rfl
        | some m2 =>
          simp only [Option.some_bind]
          cases addAddressToFreestoreForAdjustedIndex g m2 fuel ai header with
          | none => rfl
          | some r3 =>
            simp only [Option.some_bind]
            rw [← attemptMergeLog_erase g fuel r3.1 ai header]
            cases attemptMergeLog g fuel r3.1 ai header with
            | none => rfl
            | some r4 => rfl
  · rfl

theorem deallocateHeaderAtAddressLog_erase (g : Globals) (m : Mem) (fuel p : Nat) :
    (deallocateHeaderAtAddressLog g m fuel p).map (fun r => (r.1, r.2.1)) =
      deallocateHeaderAtAddress g m fuel p := by
  unfold deallocateHeaderAtAddressLog deallocateHeaderAtAddress
  cases memoryHeaderForAddress g m p with
  | none => rfl
  | some header =>
    simp only [Option.bind_eq_bind, Option.some_bind]
    split
    · exact deallocateHeaderLog_erase g m fuel header
    · rfl

/-- Dropping the log of `my_freeLog` gives `my_free`. -/
theorem my_freeLog_erase (fuel : Nat) (st : State) (p : Nat) :
    (my_freeLog fuel st p).map (fun r => (r.1, r.2.1)) = my_free fuel st p := by
  unfold my_freeLog my_free
  rw [← deallocateHeaderAtAddressLog_erase st.g st.mem fuel p]
  cases deallocateHeaderAtAddressLog st.g st.mem fuel p with
  | none => rfl
  | some r => rfl

/-- Every block that the ascent appends lies in a bucket `k ≤ R` and inside
the tiled part of the arena, behind the reserved block. -/
theorem attemptMergeLog_bounds (g : Globals) (hi : Nat) (hg : GoodGlobals g hi) :
    ∀ (fuel : Nat) (m : Mem) (i a : Nat) (bs : List Blk) (m1 : Mem) (r : Bool)
      (log : List (Nat × Nat)),
      Geo g hi bs → Rep g m bs → i ≤ g._freestoreRange → a ≠ 0 →
      attemptMergeLog g fuel m i a = some (m1, r, log) →
      ∀ e ∈ log, e.1 ≤ g._freestoreRange ∧
        g._freestoreAddress + getSizeForAdjustedFreestoreIndex g g._freestoreIndex ≤ e.2 ∧
        e.2 + getSizeForAdjustedFreestoreIndex g e.1 ≤ hi := by
  intro fuel
  induction fuel with
  | zero =>
    intro m i a bs m1 r log _ _ _ _ h
    simp [attemptMergeLog] at h
  | succ f ih =>
    intro m i a bs m1 r log hgeo hrep hiR ha0 h
    have hrl := hg.range_lt
    unfold attemptMergeLog at h
    dsimp only at h
    have hsame : some (m, true, ([] : List (Nat × Nat))) = some (m1, r, log) →
        ∀ e ∈ log, e.1 ≤ g._freestoreRange ∧
          g._freestoreAddress + getSizeForAdjustedFreestoreIndex g g._freestoreIndex ≤ e.2 ∧
          e.2 + getSizeForAdjustedFreestoreIndex g e.1 ≤ hi := by
      intro e
      simp only [Option.some.injEq, Prod.mk.injEq] at e
      rw [← e.2.2]
      intro x hx
      cases hx
    rcases getBuddySide_cases g i a with hside | hside
    · rw [hside] at h
      simp only [ne_eq, reduceCtorEq, not_false_eq_true, ↓reduceIte] at h
      split at h
      · rename_i hb0
        obtain ⟨c1, hc1, h⟩ := bind_some h
        obtain ⟨c2, hc2, h⟩ := bind_some h
        have hv1 := g_contains g hi bs m f i a c1 hg hrep hiR ha0 hc1
        have hv2 := g_contains g hi bs m f i _ c2 hg hrep hiR hb0 hc2
        split at h
        · rename_i hboth
          simp only [Bool.and_eq_true] at hboth
          obtain ⟨t1, t2⟩ := hboth
          rw [t1] at hv1
          rw [t2] at hv2
          have e1 : (⟨a, i, true⟩ : Blk) ∈ bs :=
            (mem_bucketOf_iff bs i a).1 (by simpa using hv1)
          have hbd : getContiguousAddressAtSide g i a side.right =
              a + getSizeForAdjustedFreestoreIndex g i := by
            obtain ⟨_, gb⟩ := geo_bounds g hi hg bs hgeo _ e1
            simp only at gb
            have := hg.hi_le
            have := hg.arena
            unfold getContiguousAddressAtSide ptrAdd at hb0 ⊢
            simp only at hb0 ⊢
            by_cases hw : a + getSizeForAdjustedFreestoreIndex g i = 2 ^ 64
            · rw [hw] at hb0; simp at hb0
            · exact Nat.mod_eq_of_lt (by omega)
          rw [hbd] at h hv2
          have e2 : (⟨a + getSizeForAdjustedFreestoreIndex g i, i, true⟩ : Blk) ∈ bs :=
            (mem_bucketOf_iff bs i _).1 (by simpa using hv2)
          obtain ⟨⟨ma, ms⟩, hmg, h⟩ := bind_some h
          dsimp only at h
          obtain ⟨hms, hlt, hgeo3, hrep3, hsa3⟩ := merge_step g hi hg bs m f i a ma ms hgeo hrep
            e1 e2 hmg
          rw [hms] at h
          simp only [↓reduceIte, reduceCtorEq] at h
          rw [uintAdd_one i (by omega)] at h
          obtain ⟨⟨mc, rc, lg⟩, hrec, h⟩ := bind_some h
          simp only [Option.some.injEq, Prod.mk.injEq] at h
          have hrest := ih ma (i + 1) a _ mc rc lg hgeo3 hrep3 (by omega) ha0 hrec
          have hsz := size_ge g hi hg i hiR
          have hnew : (⟨a, i + 1, true⟩ : Blk) ∈
              without (without bs a) (a + getSizeForAdjustedFreestoreIndex g i)
                ++ [⟨a, i + 1, true⟩] := by simp
          obtain ⟨gb1, gb2⟩ := geo_bounds g hi hg _ hgeo3 _ hnew
          simp only at gb1 gb2
          rw [← h.2.2]
          intro x hx
          rcases List.mem_cons.1 hx with e | e
          · rw [e]
            simp only
            rw [if_pos (by omega)]
            exact ⟨by omega, gb1, gb2⟩
          · exact hrest x e
        · exact hsame h
      · exact hsame h
    · rw [hside] at h
      simp only [ne_eq, not_true_eq_false, ↓reduceIte] at h
      exact hsame h

/-- The log of `deallocateHeaderAtAddressLog` on the payload address of an
allocated block: every appended block lies in a bucket `k ≤ R` and inside the
tiled part of the arena. -/
theorem freeLog_bounds (g : Globals) (hi : Nat) (hg : GoodGlobals g hi) (bs : List Blk)
    (m : Mem) (fuel b0 t : Nat) (m1 : Mem) (r : Bool) (log : List (Nat × Nat))
    (hgeo : Geo g hi bs) (hrep : Rep g m bs) (he : (⟨b0, t, false⟩ : Blk) ∈ bs)
    (h : deallocateHeaderAtAddressLog g m fuel (b0 + 16) = some (m1, r, log)) :
    ∀ e ∈ log, e.1 ≤ g._freestoreRange ∧
      g._freestoreAddress + getSizeForAdjustedFreestoreIndex g g._freestoreIndex ≤ e.2 ∧
      e.2 + getSizeForAdjustedFreestoreIndex g e.1 ≤ hi := by
  have hs := geo_sep g hi hg bs hgeo
  obtain ⟨hb1, hb2, hb3⟩ := hs.1 _ he
  simp only at hb1 hb2 hb3
  have hbase := hg.base_ne
  have hb00 : b0 ≠ 0 := by omega
  obtain ⟨hx1, hx2⟩ := hrep.2 _ he rfl
  simp only at hx1 hx2
  have hhdr : memoryHeaderForAddress g m (b0 + 16) = some b0 := by
    unfold memoryHeaderForAddress
    rw [hg.hdr]
    dsimp only
    rw [ptrSub_exact (b0 + 16) 16 (by omega) (by omega)]
    simp only [Nat.add_sub_cancel, ne_eq, hb00, not_false_eq_true, ↓reduceIte]
    unfold readMemoryStart
    rw [if_neg hb00, hx2]
    simp
  unfold deallocateHeaderAtAddressLog at h
  rw [hhdr] at h
  simp only [Option.bind_eq_bind, Option.some_bind, ne_eq, hb00, not_false_eq_true,
    ↓reduceIte] at h
  unfold deallocateHeaderLog at h
  simp only [ne_eq, hb00, not_false_eq_true, ↓reduceIte] at h
  obtain ⟨ai, hai, h⟩ := bind_some h
  unfold readIndex at hai
  rw [if_neg hb00, hx1] at hai
  simp only [Option.some.injEq] at hai
  subst hai
  obtain ⟨ma, hma, h⟩ := bind_some h
  obtain ⟨mb, hmb, h⟩ := bind_some h
  unfold writeMemoryStart at hma
  unfold writeIndex at hmb
  rw [if_neg hb00] at hma hmb
  simp only [Option.some.injEq] at hma hmb
  obtain ⟨⟨mc, rc⟩, hadd, h⟩ := bind_some h
  dsimp only at h
  obtain ⟨⟨md, rd, lg⟩, hatt, h⟩ := bind_some h
  simp only [Option.some.injEq, Prod.mk.injEq] at h
  have hfr : Frame m mb [b0] := by
    intro w hw
    have := hw b0 (by simp)
    rw [← hmb, ← hma, store_other _ _ _ _ (by omega), store_other _ _ _ _ (by omega)]
  have hsw := sep_without g bs b0 hs
  have hap := apart_others g bs hs _ he
  have hrepb := rep_frame_fresh g _ m mb [b0] (rep_without_alloc g bs m b0 t hs hrep he) hfr (by
    intro q hq
    simp only [List.mem_singleton] at hq
    subst hq
    exact ⟨hb1, hap⟩)
  obtain ⟨_, hrepc, _⟩ := g_add g hi _ mb fuel t b0 mc rc hg hsw hrepb hb3 hb1 hb2 hap hadd
  have hgeoc := geo_flip g hi hg bs b0 t false true hgeo he
  rw [← h.2.2]
  exact attemptMergeLog_bounds g hi hg fuel mc t b0 _ md rd lg hgeoc hrepc hb3 hb00 hatt

/-! ## The split path of `my_malloc`, exactly -/

theorem size_le_good (g : Globals) (hi : Nat) (hg : GoodGlobals g hi) (i : Nat) :
    ∀ j, i ≤ j → j ≤ g._freestoreRange →
      getSizeForAdjustedFreestoreIndex g i ≤ getSizeForAdjustedFreestoreIndex g j := by
  intro j
  induction j with
  | zero => intro h _; have : i = 0 := by omega
            rw [this]
  | succ k ih =>
    intro h1 h2
    by_cases hk : i = k + 1
    · rw [hk]
    · have := ih (by omega) (by omega)
      have hd := hg.double k (by omega)
      omega

theorem bucketOf_pair (a c i k : Nat) :
    bucketOf [⟨a, i, true⟩, ⟨c, i, true⟩] k = if k = i then [a, c] else [] := by
  unfold bucketOf
  by_cases h : k = i
  · subst h; simp
  · have : ¬ i = k := fun e => h e.symm
    simp [h, this]

/-- Source function `createFreestoreBlockAtAdjustedIndex` on the split path,
exactly: when the buckets `i .. j - 1` are empty and bucket `j < R` is not, the
call succeeds; it takes the last block `b` of bucket `j` and leaves one block
`b + size_of(j) - size_of(k + 1)` in each bucket `k` with `i < k < j` and the
two blocks `b + size_of(j) - size_of(i + 1)` and `b + size_of(j) - size_of(i)`
in bucket `i`. -/
theorem create_exact (g : Globals) (hi : Nat) (hg : GoodGlobals g hi) (j b : Nat)
    (hjR : j < g._freestoreRange) :
    ∀ (fuel : Nat) (m : Mem) (i : Nat) (bs : List Blk) (m1 : Mem) (r : Bool),
      Geo g hi bs → Rep g m bs → i < j →
      (∀ k, i ≤ k → k < j → bucketOf bs k = []) → bucketOf bs j ≠ [] →
      lastOr (bucketOf bs j) 0 = b →
      createFreestoreBlockAtAdjustedIndex g fuel m i = some (m1, r) →
      r = true ∧ ∃ bs1, Geo g hi bs1 ∧ Rep g m1 bs1 ∧
        bucketOf bs1 j = (bucketOf bs j).dropLast ∧
        (∀ k, i < k → k < j → bucketOf bs1 k =
          [b + getSizeForAdjustedFreestoreIndex g j
            - getSizeForAdjustedFreestoreIndex g (k + 1)]) ∧
        bucketOf bs1 i =
          [b + getSizeForAdjustedFreestoreIndex g j - getSizeForAdjustedFreestoreIndex g (i + 1),
            b + getSizeForAdjustedFreestoreIndex g j - getSizeForAdjustedFreestoreIndex g i] ∧
        (∀ k, (k < i ∨ j < k) → bucketOf bs1 k = bucketOf bs k) := by
  intro fuel
  induction fuel with
  | zero => intro m i bs m1 r _ _ _ _ _ _ h; simp [createFreestoreBlockAtAdjustedIndex] at h
  | succ f ih =>
    intro m i bs m1 r hgeo hrep hij hemp hne hb h
    have hrl := hg.range_lt
    have hi1 : i + 1 ≤ g._freestoreRange := by omega
    have hdi := hg.double i (by omega)
    have hmono := size_le_good g hi hg (i + 1) j (by omega) (by omega)
    unfold createFreestoreBlockAtAdjustedIndex at h
    rw [uintAdd_one i (by omega)] at h
    dsimp only at h
    rw [if_neg (by omega)] at h
    obtain ⟨c, hc, h⟩ := bind_some h
    have hcv := g_containsFreeSpace g hi bs m (i + 1) c hg hrep hi1 hc
    obtain ⟨⟨ma, ss⟩, hrec, h⟩ := bind_some h
    dsimp only at h
    -- the state in which bucket `i + 1` is split
    have hmid : (ss || c) = true ∧ ∃ bsa, Geo g hi bsa ∧ Rep g ma bsa ∧
        bucketOf bsa (i + 1) ≠ [] ∧
        lastOr (bucketOf bsa (i + 1)) 0 = b + getSizeForAdjustedFreestoreIndex g j
          - getSizeForAdjustedFreestoreIndex g (i + 1) ∧
        bucketOf bsa i = [] ∧
        (bucketOf bsa (i + 1)).dropLast = (if i + 1 = j then (bucketOf bs j).dropLast
          else [b + getSizeForAdjustedFreestoreIndex g j
            - getSizeForAdjustedFreestoreIndex g (i + 2)]) ∧
        (∀ k, k ≠ i + 1 → bucketOf bsa k =
          if k = j then (bucketOf bs j).dropLast
          else if i + 1 < k ∧ k < j then [b + getSizeForAdjustedFreestoreIndex g j
            - getSizeForAdjustedFreestoreIndex g (k + 1)]
          else bucketOf bs k) := by
      by_cases hj : i + 1 = j
      · have hct : c = true := by
          rw [hcv, hj]; simpa using hne
        rw [hct] at hrec
        simp only [Bool.true_eq_false, ↓reduceIte, Option.some.injEq, Prod.mk.injEq] at hrec
        obtain ⟨e1, e2⟩ := hrec
        subst e1 e2
        refine ⟨by simp [hct], bs, hgeo, hrep, by rw [hj]; exact hne, ?_, hemp i (le_refl _) hij,
          by rw [if_pos hj, hj], ?_⟩
        · rw [hj, hb]; omega
        · intro k hk
          rw [if_neg (by omega), if_neg (by omega)]
      · have hemp1 : bucketOf bs (i + 1) = [] := hemp (i + 1) (by omega) (by omega)
        have hcf : c = false := by
          rw [hcv, hemp1]; simp
        rw [hcf] at hrec
        simp only [↓reduceIte] at hrec
        obtain ⟨hss, bsa, hgeoa, hrepa, q1, q2, q3, q4⟩ := ih m (i + 1) bs ma ss hgeo hrep
          (by omega) (fun k h1 h2 => hemp k (by omega) h2) hne hb hrec
        refine ⟨by simp [hss], bsa, hgeoa, hrepa, by rw [q3]; simp, ?_, ?_, ?_, ?_⟩
        · rw [q3]; rfl
        · rw [q4 i (Or.inl (by omega))]
          exact hemp i (le_refl _) hij
        · rw [if_neg hj, q3]; rfl
        · intro k hk
          by_cases hkj : k = j
          · rw [if_pos hkj, hkj]; exact q1
          · rw [if_neg hkj]
            by_cases hkm : i + 1 < k ∧ k < j
            · rw [if_pos hkm]; exact q2 k hkm.1 hkm.2
            · rw [if_neg hkm]
              exact q4 k (by omega)
    obtain ⟨hb2, bsa, hgeoa, hrepa, hnea, hlasta, hempa, hdrop, hother⟩ := hmid
    rw [hb2] at h
    simp only [↓reduceIte] at h
    obtain ⟨lastBlock, h1, h⟩ := bind_some h
    obtain ⟨address, h2, h⟩ := bind_some h
    obtain ⟨⟨m2, r2⟩, h3, h⟩ := bind_some h
    dsimp only at h
    obtain ⟨⟨m3, r3⟩, h4, h⟩ := bind_some h
    dsimp only at h
    obtain ⟨⟨m4, r4⟩, h5, h⟩ := bind_some h
    simp only [Option.some.injEq, Prod.mk.injEq] at h
    obtain ⟨e1, e2⟩ := h
    subst e1 e2
    have haddr := g_lastAddress g hi bsa ma f (i + 1) lastBlock address hg hrepa hi1 h1 h2
    obtain ⟨hgeo4, hrep4, hmem⟩ := split_step g hi hg bsa ma f i lastBlock address m2 m3 m4 r2
      r3 r4 hgeoa hrepa hi1 hnea h1 h2 h3 h4 h5
    have hsa := geo_sep g hi hg bsa hgeoa
    have hin : address ∈ bucketOf bsa (i + 1) := (mem_bucketOf_iff bsa (i + 1) address).2 hmem
    have hnd := sepList_nodup _ _ (sepList_bucket g hi hg bsa hsa (i + 1) hi1)
    have hbk : ∀ k, bucketOf (without bsa address ++ [⟨address, i, true⟩,
        ⟨address + getSizeForAdjustedFreestoreIndex g i, i, true⟩]) k =
        (if k = i + 1 then (bucketOf bsa (i + 1)).dropLast else bucketOf bsa k) ++
          (if k = i then [address, address + getSizeForAdjustedFreestoreIndex g i] else []) := by
      intro k
      rw [bucketOf_append, bucketOf_pair]
      congr 1
      by_cases hk : k = i + 1
      · rw [if_pos hk, hk, bucketOf_without, haddr, filter_last _ 0 hnd hnea]
      · rw [if_neg hk]
        exact bucketOf_without_other g bsa hsa address (i + 1) k hin hk
    have hbk_i : bucketOf (without bsa address ++ [⟨address, i, true⟩,
        ⟨address + getSizeForAdjustedFreestoreIndex g i, i, true⟩]) i =
        [address, address + getSizeForAdjustedFreestoreIndex g i] := by
      rw [hbk i, if_neg (show ¬ i = i + 1 by omega), if_pos rfl, hempa, List.nil_append]
    have hbk_s : bucketOf (without bsa address ++ [⟨address, i, true⟩,
        ⟨address + getSizeForAdjustedFreestoreIndex g i, i, true⟩]) (i + 1) =
        (bucketOf bsa (i + 1)).dropLast := by
      rw [hbk (i + 1), if_pos rfl, if_neg (show ¬ i + 1 = i by omega), List.append_nil]
    have hbk_o : ∀ k, k ≠ i → k ≠ i + 1 → bucketOf (without bsa address ++ [⟨address, i, true⟩,
        ⟨address + getSizeForAdjustedFreestoreIndex g i, i, true⟩]) k = bucketOf bsa k := by
      intro k h1 h2
      rw [hbk k, if_neg h2, if_neg h1, List.append_nil]
    rw [hlasta] at haddr
    refine ⟨rfl, _, hgeo4, hrep4, ?_, ?_, ?_, ?_⟩
    · by_cases hj : i + 1 = j
      · rw [← hj, hbk_s, hdrop, if_pos hj, hj]
      · rw [hbk_o j (by omega) (by omega), hother j (by omega), if_pos rfl]
    · intro k hk1 hk2
      by_cases hk : k = i + 1
      · rw [hk, hbk_s, hdrop, if_neg (show ¬ i + 1 = j by omega)]
      · rw [hbk_o k (by omega) hk, hother k hk, if_neg (show ¬ k = j by omega),
          if_pos (show i + 1 < k ∧ k < j from ⟨by omega, hk2⟩)]
    · rw [hbk_i, haddr]
      congr 2
      omega
    · intro k hk
      rw [hbk_o k (by omega) (by omega), hother k (by omega),
        if_neg (show ¬ k = j by omega), if_neg (show ¬ (i + 1 < k ∧ k < j) by omega)]

/-- Source function `my_malloc` on the split path, on the model: when the
buckets `t .. j - 1` are empty and bucket `j < R` is not, the call takes the
last block `b` of bucket `j`, returns the payload of the block at
`b + size_of(j) - size_of(t)` and leaves one block
`b + size_of(j) - size_of(k + 1)` in each bucket `k` with `t ≤ k < j`. -/
theorem my_malloc_split_model (hi : Nat) (st : State) (bs : List Blk) (n t j b : Nat)
    (hg : GoodGlobals st.g hi) (hgeo : Geo st.g hi bs) (hrep : Rep st.g st.mem bs)
    (ht : getAdjustedFreestoreIndexForSize st.g (uintAdd n st.g._headerSize) = t)
    (htj : t < j) (hjR : j < st.g._freestoreRange)
    (hemp : ∀ k, t ≤ k → k < j → bucketOf bs k = []) (hne : bucketOf bs j ≠ [])
    (hb : lastOr (bucketOf bs j) 0 = b)
    (fuel : Nat) (hf : st.g._length + st.g._freestoreRange + 4 ≤ fuel) :
    ∃ st1, my_malloc fuel st n = some (st1,
        b + getSizeForAdjustedFreestoreIndex st.g j - getSizeForAdjustedFreestoreIndex st.g t
          + 16) ∧
      st1.g = st.g ∧ ∃ bs2, Geo st.g hi bs2 ∧ Rep st.g st1.mem bs2 ∧
        bucketOf bs2 j = (bucketOf bs j).dropLast ∧
        (∀ k, t ≤ k → k < j → bucketOf bs2 k =
          [b + getSizeForAdjustedFreestoreIndex st.g j
            - getSizeForAdjustedFreestoreIndex st.g (k + 1)]) ∧
        (∀ k, (k < t ∨ j < k) → bucketOf bs2 k = bucketOf bs k) ∧
        (⟨b + getSizeForAdjustedFreestoreIndex st.g j - getSizeForAdjustedFreestoreIndex st.g t,
          t, false⟩ : Blk) ∈ bs2 := by
  obtain ⟨⟨st1, p⟩, h⟩ := my_malloc_model_some hi fuel st n bs hg hgeo hrep hf
  have hg1 := my_malloc_g fuel st n st1 p h
  have h' := h
  unfold my_malloc at h'
  obtain ⟨⟨m1, header⟩, ha, h'⟩ := bind_some h'
  dsimp only at h'
  have htR : t ≤ st.g._freestoreRange := by omega
  have ht32 : t < 2 ^ 32 := by have := hg.range_lt; omega
  unfold allocateHeaderForSize at ha
  obtain ⟨canMeet, hcm, ha⟩ := bind_some ha
  unfold canMeetMemoryRequest at hcm
  have hcms := canMeetLoop_spec st.g hi hg bs st.mem hrep fuel false _ canMeet hcm
  rw [ht] at hcms ha
  have hcan : canMeet = true := hcms.2 (Or.inr ⟨j, by omega, by omega, hne⟩)
  subst hcan
  simp only [Bool.true_eq_false, ↓reduceIte] at ha
  obtain ⟨fa, hfa, ha⟩ := bind_some ha
  have hfav := g_containsFreeSpace st.g hi bs st.mem _ fa hg hrep htR hfa
  have hfaf : fa = false := by
    rw [hfav, hemp t (le_refl _) htj]; simp
  subst hfaf
  obtain ⟨⟨ma, created⟩, hcr, ha⟩ := bind_some ha
  simp only [↓reduceIte] at hcr
  dsimp only at ha
  obtain ⟨hct, bs1, hgeo1, hrep1, q1, q2, q3, q4⟩ := create_exact st.g hi hg j b hjR fuel
    st.mem t bs ma created hgeo hrep htj hemp hne hb hcr
  subst hct
  simp only [↓reduceIte] at ha
  obtain ⟨freeblock, h1, ha⟩ := bind_some ha
  obtain ⟨fb, h2, ha⟩ := bind_some ha
  obtain ⟨⟨m2, r2⟩, h3, ha⟩ := bind_some ha
  dsimp only at ha
  obtain ⟨x, h4, ha⟩ := bind_some ha
  obtain ⟨m3, h5, ha⟩ := bind_some ha
  obtain ⟨m4, h6, ha⟩ := bind_some ha
  simp only [Option.some.injEq, Prod.mk.injEq] at ha
  obtain ⟨e1, e2⟩ := ha
  subst e1 e2
  have hne1 : bucketOf bs1 t ≠ [] := by rw [q3]; simp
  obtain ⟨hmem, hfb0, hlt, hgeo4, hrep4, hrd⟩ := alloc_step st.g hi hg bs1 ma fuel t freeblock
    fb x m2 m3 m4 r2 hgeo1 hrep1 htR ht32 hne1 h1 h2 h3 h4 h5 h6
  have hlast := g_lastAddress st.g hi bs1 ma fuel t freeblock fb hg hrep1 htR h1 h2
  have hfbv : fb = b + getSizeForAdjustedFreestoreIndex st.g j
      - getSizeForAdjustedFreestoreIndex st.g t := by
    rw [hlast, q3]; rfl
  rw [if_pos hfb0, hrd] at h'
  simp only [Option.bind_eq_bind, Option.some_bind, Option.some.injEq, Prod.mk.injEq] at h'
  obtain ⟨e1, e2⟩ := h'
  have hm1 : st1.mem = m4 := by rw [← e1]
  have hs1 := geo_sep st.g hi hg bs1 hgeo1
  have hin : fb ∈ bucketOf bs1 t := (mem_bucketOf_iff bs1 t fb).2 hmem
  have hnd := sepList_nodup _ _ (sepList_bucket st.g hi hg bs1 hs1 t htR)
  refine ⟨st1, ?_, hg1, without bs1 fb ++ [⟨fb, t, false⟩], hgeo4, ?_, ?_, ?_, ?_, ?_⟩
  · rw [h, ← e2, hfbv]
  · rw [hm1]; exact hrep4
  · rw [bucketOf_append_alloc, bucketOf_without_other st.g bs1 hs1 fb t j hin (by omega), q1]
  · intro k hk1 hk2
    rw [bucketOf_append_alloc]
    by_cases hk : k = t
    · rw [hk, bucketOf_without, hlast, filter_last _ 0 hnd hne1, q3]
      rfl
    · rw [bucketOf_without_other st.g bs1 hs1 fb t k hin hk, q2 k (by omega) hk2]
  · intro k hk
    rw [bucketOf_append_alloc, bucketOf_without_other st.g bs1 hs1 fb t k hin (by omega),
      q4 k hk]
  · rw [← hfbv]
    simp

/-! ## The `memoryStart` word of a freed block

`deallocateHeader` clears the `memoryStart` field of the header before the
block joins a free list.  The free-list operations that follow keep that
word at zero, so the header of a freed block no longer validates. -/

/-- Appending `a` with `addAddressToFreestoreForAdjustedIndex` keeps the
second word of the record at `a` at zero. -/
theorem add_next_zero (g : Globals) (m : Mem) (fuel i a : Nat) (l : List Nat) (H : Nat) (m1 : Mem)
    (r : Bool) (hH : getFirstFreestoreBlockAtAdjustedIndex g i = H)
    (hrep : BucketRep m H l) (hsep : SepList H l)
    (ha0 : a ≠ 0) (halt : a + 16 < 2 ^ 64) (haH : Apart H a) (hal : ∀ b ∈ l, Apart b a)
    (hz : m (a + 8) % 2 ^ 64 = 0)
    (h : addAddressToFreestoreForAdjustedIndex g m fuel i a = some (m1, r)) :
    m1 (a + 8) % 2 ^ 64 = 0 := by
  obtain ⟨hH0, hsepl, hpw⟩ := hsep
  unfold addAddressToFreestoreForAdjustedIndex at h
  obtain ⟨lastBlock, hlast, h⟩ := bind_some h
  have hlb := getLast_spec g m fuel i l lastBlock (by rw [hH]; exact hrep) (by rw [hH]; exact hH0)
    hlast
  rw [hH] at hlb
  obtain ⟨v, hv, h⟩ := bind_some h
  rw [hlb, lastNode_address m H l hH0 hrep] at hv
  simp only [Option.some.injEq] at hv
  unfold Apart at haH
  have hamod := mod_word a halt
  cases l with
  | nil =>
    simp only [lastOr] at hv
    subst hv
    simp only [List.tail_nil, lastOr] at hlb
    subst hlb
    rw [if_pos rfl] at h
    obtain ⟨m2, hm2, h⟩ := bind_some h
    unfold writeAddress at hm2
    rw [if_neg hH0, hamod] at hm2
    simp only [Option.some.injEq, Prod.mk.injEq] at hm2 h
    obtain ⟨h1, h2⟩ := h
    subst h1 hm2
    rw [store_other _ _ _ _ (by omega)]
    exact hz
  | cons b rest =>
    have hvne : v ≠ 0 := by
      rw [← hv]
      exact (hsepl _ (lastOr_mem (b :: rest) 0 (by simp))).1
    rw [if_neg hvne] at h
    obtain ⟨m2, hm2, h⟩ := bind_some h
    obtain ⟨m3, hm3, h⟩ := bind_some h
    obtain ⟨m4, hm4, h⟩ := bind_some h
    have hl0 : lastBlock ≠ 0 := by
      rw [hlb]
      simp only [List.tail_cons]
      cases rest with
      | nil => exact hH0
      | cons c rest2 =>
        exact (hsepl _ (List.mem_cons_of_mem _ (lastOr_mem (c :: rest2) H (by simp)))).1
    have hla : Apart lastBlock a := by
      rw [hlb]
      simp only [List.tail_cons]
      cases rest with
      | nil => exact haH
      | cons c rest2 =>
        exact hal _ (List.mem_cons_of_mem _ (lastOr_mem (c :: rest2) H (by simp)))
    unfold Apart at hla
    unfold writeAddress at hm2
    unfold writeNextBlock at hm3 hm4
    rw [if_neg ha0, hamod] at hm2
    rw [if_neg ha0] at hm3
    rw [if_neg hl0, hamod] at hm4
    simp only [Option.some.injEq, Prod.mk.injEq, Nat.zero_mod] at hm2 hm3 hm4 h
    obtain ⟨h1, h2⟩ := h
    subst h1 hm4 hm3 hm2
    rw [store_other _ _ _ _ (by omega), store_same]
    rfl

/-- The loop of `removeFreestoreBlockAtAdjustedIndexWithAddress` clears the
record of the address it unlinks. -/
theorem removeWithAddressLoop_self_zero (a : Nat) (ha : a ≠ 0) :
    ∀ (fuel : Nat) (l : List Nat) (m : Mem) (n : Nat) (m1 : Mem) (s : Bool),
      ChainRep m (m (n + 8) % 2 ^ 64) l → a ∈ l → n ≠ 0 →
      (∀ b ∈ l, Apart n b) → l.Pairwise Apart →
      removeWithAddressLoop a fuel m (m (n + 8) % 2 ^ 64) n false = some (m1, s) →
      m1 (a + 8) % 2 ^ 64 = 0 := by
  intro fuel
  induction fuel with
  | zero => intro l m n m1 s _ _ _ _ _ h; simp [removeWithAddressLoop] at h
  | succ f ih =>
    intro l m n m1 s hc hal hn0 hap hpw h
    cases l with
    | nil => simp at hal
    | cons c rest =>
      obtain ⟨h1, h2, h3, h4⟩ := hc
      have hnc := hap c (List.mem_cons_self _ _)
      unfold Apart at hnc
      unfold removeWithAddressLoop at h
      rw [h1, if_pos h2] at h
      obtain ⟨nb, hnb, h⟩ := bind_some h
      obtain ⟨ba, hba, h⟩ := bind_some h
      unfold readNextBlock at hnb
      unfold readAddress at hba
      rw [if_neg h2] at hnb hba
      simp only [Option.some.injEq] at hnb hba
      rw [h3] at hba
      subst hba
      by_cases hca : c = a
      · rw [if_pos hca] at h
        obtain ⟨m2, hm2, h⟩ := bind_some h
        obtain ⟨m3, hm3, h⟩ := bind_some h
        obtain ⟨m4, hm4, h⟩ := bind_some h
        unfold writeAddress at hm2
        unfold writeNextBlock at hm3 hm4
        rw [if_neg h2] at hm2 hm3
        rw [if_neg hn0] at hm4
        simp only [Nat.zero_mod, Option.some.injEq] at hm2 hm3 hm4
        subst hm2 hm3 hm4
        have hcl := removeWithAddressLoop_cleared a ha _ c n h2
          (by rw [store_other _ _ _ _ (by omega), store_other _ _ _ _ (by omega), store_same]; rfl)
          (by rw [store_other _ _ _ _ (by omega), store_same]; rfl) f m1 s h
        obtain ⟨hm1, hs⟩ := hcl
        subst hm1
        rw [← hca, store_other _ _ _ _ (by omega), store_same]
        rfl
      · rw [if_neg hca] at h
        obtain ⟨c1, hc1, h⟩ := bind_some h
        unfold readNextBlock at hc1
        rw [if_neg h2] at hc1
        simp only [Option.some.injEq] at hc1
        subst hc1
        have har : a ∈ rest := by
          rcases List.mem_cons.1 hal with e | e
          · exact absurd e.symm hca
          · exact e
        exact ih rest m c m1 s h4 har h2
          (List.pairwise_cons.1 hpw).1 (List.pairwise_cons.1 hpw).2 h

/-- Source function `removeFreestoreBlockAtAdjustedIndexWithAddress` on an
address `a` of the bucket list whose record has a zero second word: that word
is zero afterwards as well. -/
theorem removeWithAddress_self_zero (g : Globals) (m : Mem) (fuel i a : Nat) (l : List Nat)
    (H : Nat) (m1 : Mem) (s : Bool) (hH : getFirstFreestoreBlockAtAdjustedIndex g i = H)
    (hrep : BucketRep m H l) (hsep : SepList H l) (ha : a ≠ 0) (hal : a ∈ l)
    (hz : m (a + 8) % 2 ^ 64 = 0)
    (h : removeFreestoreBlockAtAdjustedIndexWithAddress g m fuel i a = some (m1, s)) :
    m1 (a + 8) % 2 ^ 64 = 0 := by
  obtain ⟨hH0, hsepl, hpw⟩ := hsep
  unfold removeFreestoreBlockAtAdjustedIndexWithAddress at h
  rw [hH] at h
  obtain ⟨hd, hhd, h⟩ := bind_some h
  unfold readAddress at hhd
  rw [if_neg hH0] at hhd
  simp only [Option.some.injEq] at hhd
  cases l with
  | nil => simp at hal
  | cons b rest =>
    obtain ⟨hr1, hr2, hr3⟩ := hrep
    rw [hr1] at hhd
    subst hhd
    have hHb := (hsepl b (List.mem_cons_self _ _)).2.2
    unfold Apart at hHb
    by_cases hba : b = a
    · rw [if_pos hba] at h
      obtain ⟨m2, hm2, h⟩ := bind_some h
      unfold writeAddress at hm2
      rw [if_neg hH0] at hm2
      simp only [Nat.zero_mod, Option.some.injEq] at hm2
      subst hm2
      obtain ⟨nb, hnb, h⟩ := bind_some h
      unfold readNextBlock at hnb
      rw [if_neg hH0, store_other _ _ _ _ (by omega)] at hnb
      simp only [Option.some.injEq] at hnb
      rw [← hba] at hz ⊢
      cases rest with
      | nil =>
        have hz0 : nb = 0 := by rw [← hnb]; exact hr3
        subst hz0
        simp only [ne_eq, not_true_eq_false, ↓reduceIte, Option.some.injEq, Prod.mk.injEq] at h
        obtain ⟨h1, h2⟩ := h
        subst h1
        rw [store_other _ _ _ _ (by omega)]
        exact hz
      | cons c rest2 =>
        obtain ⟨c1, c2, c3, c4⟩ := hr3
        have hnbc : nb = c := by rw [← hnb]; exact c1
        subst hnbc
        rw [if_pos c2] at h
        have hsc := hsepl nb (List.mem_cons_of_mem _ (List.mem_cons_self _ _))
        have hHc := hsc.2.2
        have hbc := (List.pairwise_cons.1 hpw).1 nb (List.mem_cons_self _ _)
        unfold Apart at hHc hbc
        obtain ⟨na, hna, h⟩ := bind_some h
        unfold readAddress at hna
        rw [if_neg c2, store_other _ _ _ _ (by omega), c3] at hna
        simp only [Option.some.injEq] at hna
        subst hna
        obtain ⟨m3, hm3, h⟩ := bind_some h
        unfold writeAddress at hm3
        rw [if_neg hH0, mod_word _ hsc.2.1] at hm3
        simp only [Option.some.injEq] at hm3
        subst hm3
        obtain ⟨cb, hcb, h⟩ := bind_some h
        unfold readNextBlock at hcb
        rw [if_neg c2, store_other _ _ _ _ (by omega), store_other _ _ _ _ (by omega)] at hcb
        simp only [Option.some.injEq] at hcb
        obtain ⟨m4, hm4, h⟩ := bind_some h
        obtain ⟨m5, hm5, h⟩ := bind_some h
        obtain ⟨m6, hm6, h⟩ := bind_some h
        unfold writeNextBlock at hm4 hm5
        unfold writeAddress at hm6
        rw [if_neg hH0] at hm4
        rw [if_neg c2] at hm5 hm6
        simp only [Nat.zero_mod, Option.some.injEq, Prod.mk.injEq] at hm4 hm5 hm6 h
        obtain ⟨h1, h2⟩ := h
        subst h1 hm6 hm5 hm4
        rw [store_other _ _ _ _ (by omega), store_other _ _ _ _ (by omega),
          store_other _ _ _ _ (by omega), store_other _ _ _ _ (by omega),
          store_other _ _ _ _ (by omega)]
        exact hz
    · rw [if_neg hba] at h
      obtain ⟨cur, hcur, h⟩ := bind_some h
      unfold readNextBlock at hcur
      rw [if_neg hH0] at hcur
      simp only [Option.some.injEq] at hcur
      subst hcur
      have har : a ∈ rest := by
        rcases List.mem_cons.1 hal with e | e
        · exact absurd e.symm hba
        · exact e
      exact removeWithAddressLoop_self_zero a ha fuel rest m H m1 s hr3 har hH0
        (fun x hx => (hsepl x (List.mem_cons_of_mem _ hx)).2.2) (List.pairwise_cons.1 hpw).2 h

theorem g_add_next_zero (g : Globals) (hi : Nat) (bs : List Blk) (m : Mem) (fuel i a : Nat)
    (m1 : Mem) (r : Bool) (hg : GoodGlobals g hi) (hs : Sep g bs) (hrep : Rep g m bs)
    (hi2 : i ≤ g._freestoreRange)
    (ha1 : g._freestoreAddress + 16 * (g._freestoreRange + 1) ≤ a) (ha2 : a + 16 < 2 ^ 64)
    (ha3 : ∀ b ∈ bs, Apart b.base a) (hz : m (a + 8) % 2 ^ 64 = 0)
    (h : addAddressToFreestoreForAdjustedIndex g m fuel i a = some (m1, r)) :
    m1 (a + 8) % 2 ^ 64 = 0 := by
  obtain ⟨hH, hH0⟩ := head_ptr g hi hg i hi2
  have hbase := hg.base_ne
  have hal : ∀ b ∈ bucketOf bs i, Apart b a := by
    intro b hb
    obtain ⟨c, hc, _, _, hcb⟩ := (mem_bucketOf bs i b).1 hb
    subst hcb
    exact ha3 c hc
  exact add_next_zero g m fuel i a (bucketOf bs i) _ m1 r hH (hrep.1 i hi2)
    (sepList_bucket g hi hg bs hs i hi2) (by omega) ha2 (by unfold Apart; omega) hal hz h

theorem g_remove_self_zero (g : Globals) (hi : Nat) (bs : List Blk) (m : Mem)
    (fuel i a : Nat) (m1 : Mem) (s : Bool) (hg : GoodGlobals g hi) (hs : Sep g bs)
    (hrep : Rep g m bs) (hi2 : i ≤ g._freestoreRange) (ha : a ∈ bucketOf bs i)
    (hz : m (a + 8) % 2 ^ 64 = 0)
    (h : removeFreestoreBlockAtAdjustedIndexWithAddress g m fuel i a = some (m1, s)) :
    m1 (a + 8) % 2 ^ 64 = 0 := by
  obtain ⟨hH, hH0⟩ := head_ptr g hi hg i hi2
  have hsl := sepList_bucket g hi hg bs hs i hi2
  have ha0 : a ≠ 0 := (hsl.2.1 a ha).1
  exact removeWithAddress_self_zero g m fuel i a (bucketOf bs i) _ m1 s hH
    (hrep.1 i hi2) hsl ha0 ha hz h

/-- Source function `removeFreestoreBlockAtAdjustedIndexWithAddress` writes
only to records of its bucket: the record at an address apart from every
block is kept. -/
theorem g_remove_keeps (g : Globals) (hi : Nat) (bs : List Blk) (m : Mem)
    (fuel i a x : Nat) (m1 : Mem) (s : Bool) (hg : GoodGlobals g hi) (hs : Sep g bs)
    (hrep : Rep g m bs) (hi2 : i ≤ g._freestoreRange) (ha : a ∈ bucketOf bs i)
    (hx1 : g._freestoreAddress + 16 * (g._freestoreRange + 1) ≤ x)
    (hx3 : ∀ b ∈ bs, Apart b.base x)
    (h : removeFreestoreBlockAtAdjustedIndexWithAddress g m fuel i a = some (m1, s)) :
    m1 (x + 8) = m (x + 8) := by
  obtain ⟨hH, hH0⟩ := head_ptr g hi hg i hi2
  have hsl := sepList_bucket g hi hg bs hs i hi2
  have ha0 : a ≠ 0 := (hsl.2.1 a ha).1
  obtain ⟨_, _, hfr⟩ := removeWithAddress_spec g m fuel i a (bucketOf bs i) _ m1 s hH
    (hrep.1 i hi2) hsl ha0 ha h
  apply hfr
  intro q hq
  rcases List.mem_cons.1 hq with e | e
  · subst e
    right
    have : 16 * i + 16 ≤ 16 * (g._freestoreRange + 1) := by omega
    omega
  · obtain ⟨c, hc, _, _, hcb⟩ := (mem_bucketOf bs i q).1 e
    subst hcb
    have := hx3 c hc
    unfold Apart at this
    omega

/-- Source function `mergeBuddiesAtAddress` on the free blocks `a` and
`a + size_of(i)`: the second word of the record at `a`, zero before, is zero
afterwards. -/
theorem merge_next_zero (g : Globals) (hi : Nat) (hg : GoodGlobals g hi) (bs : List Blk)
    (m : Mem) (fuel i a : Nat) (m1 : Mem) (r : Bool) (hgeo : Geo g hi bs) (hrep : Rep g m bs)
    (h1 : (⟨a, i, true⟩ : Blk) ∈ bs)
    (h2 : (⟨a + getSizeForAdjustedFreestoreIndex g i, i, true⟩ : Blk) ∈ bs)
    (hz : m (a + 8) % 2 ^ 64 = 0)
    (h : mergeBuddiesAtAddress g m fuel i a (a + getSizeForAdjustedFreestoreIndex g i)
      = some (m1, r)) :
    m1 (a + 8) % 2 ^ 64 = 0 := by
  have hiR : i ≤ g._freestoreRange := hgeo.1 _ h1
  have hsz := size_ge g hi hg i hiR
  have hs := geo_sep g hi hg bs hgeo
  obtain ⟨hlt, hgeo3⟩ := geo_merge g hi hg bs a i true true true hgeo h1 h2
  have hrl := hg.range_lt
  unfold mergeBuddiesAtAddress at h
  obtain ⟨⟨ma, ra⟩, hra, h⟩ := bind_some h
  dsimp only at h
  obtain ⟨⟨mb, rb⟩, hrb, h⟩ := bind_some h
  dsimp only at h
  rw [if_pos (by omega), uintAdd_one i (by omega)] at h
  obtain ⟨_, hrepa, hsa⟩ := g_removeWithAddress g hi bs m fuel i a ma ra hg hs hrep hiR
    ((mem_bucketOf_iff bs i a).2 h1) hra
  have hza := g_remove_self_zero g hi bs m fuel i a ma ra hg hs hrep hiR
    ((mem_bucketOf_iff bs i a).2 h1) hz hra
  have h2a : (⟨a + getSizeForAdjustedFreestoreIndex g i, i, true⟩ : Blk) ∈ without bs a :=
    (mem_without bs a _).2 ⟨h2, by simp only; omega⟩
  obtain ⟨_, hrepb, hsb⟩ := g_removeWithAddress g hi _ ma fuel i _ mb rb hg hsa hrepa hiR
    ((mem_bucketOf_iff _ i _).2 h2a) hrb
  obtain ⟨hb1, hb2, _⟩ := hs.1 _ h1
  simp only at hb1 hb2
  have hzb : mb (a + 8) % 2 ^ 64 = 0 := by
    rw [g_remove_keeps g hi _ ma fuel i _ a mb rb hg hsa hrepa hiR
      ((mem_bucketOf_iff _ i _).2 h2a) hb1 (apart_others g bs hs _ h1) hrb]
    exact hza
  exact g_add_next_zero g hi _ mb fuel (i + 1) a m1 r hg hsb hrepb (by omega) hb1 hb2
    (fun b hb => apart_others g bs hs _ h1 b ((mem_without _ _ b).1 hb).1) hzb h

/-- Source function `attemptBuddyMergeAtAdjustedIndexWithAddress` started at
the free block `a` of bucket `i`: the second word of the record at `a`, zero
before, is zero afterwards, however far the merges climb. -/
theorem attempt_next_zero (g : Globals) (hi : Nat) (hg : GoodGlobals g hi) :
    ∀ (fuel : Nat) (m : Mem) (i a : Nat) (bs : List Blk) (m1 : Mem) (r : Bool),
      Geo g hi bs → Rep g m bs → (⟨a, i, true⟩ : Blk) ∈ bs → a ≠ 0 →
      m (a + 8) % 2 ^ 64 = 0 →
      attemptBuddyMergeAtAdjustedIndexWithAddress g fuel m i a = some (m1, r) →
      m1 (a + 8) % 2 ^ 64 = 0 := by
  intro fuel
  induction fuel with
  | zero =>
    intro m i a bs m1 r _ _ _ _ _ h
    simp [attemptBuddyMergeAtAdjustedIndexWithAddress] at h
  | succ f ih =>
    intro m i a bs m1 r hgeo hrep e1 ha0 hz h
    have hiR : i ≤ g._freestoreRange := hgeo.1 _ e1
    have hrl := hg.range_lt
    unfold attemptBuddyMergeAtAdjustedIndexWithAddress at h
    dsimp only at h
    have hsame : some (m, true) = some (m1, r) → m1 (a + 8) % 2 ^ 64 = 0 := by
      intro e
      simp only [Option.some.injEq, Prod.mk.injEq] at e
      rw [← e.1]
      exact hz
    rcases getBuddySide_cases g i a with hside | hside
    · rw [hside] at h
      simp only [ne_eq, reduceCtorEq, not_false_eq_true, ↓reduceIte] at h
      split at h
      · rename_i hb0
        obtain ⟨c1, hc1, h⟩ := bind_some h
        obtain ⟨c2, hc2, h⟩ := bind_some h
        have hv1 := g_contains g hi bs m f i a c1 hg hrep hiR ha0 hc1
        have hv2 := g_contains g hi bs m f i _ c2 hg hrep hiR hb0 hc2
        split at h
        · rename_i hboth
          simp only [Bool.and_eq_true] at hboth
          obtain ⟨t1, t2⟩ := hboth
          rw [t2] at hv2
          have hbd : getContiguousAddressAtSide g i a side.right =
              a + getSizeForAdjustedFreestoreIndex g i := by
            obtain ⟨_, gb⟩ := geo_bounds g hi hg bs hgeo _ e1
            simp only at gb
            have := hg.hi_le
            have := hg.arena
            unfold getContiguousAddressAtSide ptrAdd at hb0 ⊢
            simp only at hb0 ⊢
            by_cases hw : a + getSizeForAdjustedFreestoreIndex g i = 2 ^ 64
            · rw [hw] at hb0; simp at hb0
            · exact Nat.mod_eq_of_lt (by omega)
          rw [hbd] at h hv2
          have e2 : (⟨a + getSizeForAdjustedFreestoreIndex g i, i, true⟩ : Blk) ∈ bs :=
            (mem_bucketOf_iff bs i _).1 (by simpa using hv2)
          obtain ⟨⟨ma, ms⟩, hmg, h⟩ := bind_some h
          dsimp only at h
          obtain ⟨hms, hlt, hgeo3, hrep3, hsa3⟩ := merge_step g hi hg bs m f i a ma ms hgeo hrep
            e1 e2 hmg
          have hza := merge_next_zero g hi hg bs m f i a ma ms hgeo hrep e1 e2 hz hmg
          rw [hms] at h
          simp only [↓reduceIte, reduceCtorEq] at h
          rw [uintAdd_one i (by omega)] at h
          obtain ⟨⟨mc, rc⟩, hrec, h⟩ := bind_some h
          simp only [Option.some.injEq, Prod.mk.injEq] at h
          rw [← h.1]
          exact ih ma (i + 1) a _ mc rc hgeo3 hrep3 (by simp) ha0 hza hrec
        · exact hsame h
      · exact hsame h
    · rw [hside] at h
      simp only [ne_eq, not_true_eq_false, ↓reduceIte] at h
      exact hsame h

/-- Source function `deallocateHeaderAtAddress` on the payload address of an
allocated block based at `b0`: afterwards the `memoryStart` word of the header
at `b0` is zero. -/
theorem free_next_zero (g : Globals) (hi : Nat) (hg : GoodGlobals g hi) (bs : List Blk)
    (m : Mem) (fuel b0 t : Nat) (m1 : Mem) (r : Bool) (hgeo : Geo g hi bs) (hrep : Rep g m bs)
    (he : (⟨b0, t, false⟩ : Blk) ∈ bs)
    (h : deallocateHeaderAtAddress g m fuel (b0 + 16) = some (m1, r)) :
    m1 (b0 + 8) % 2 ^ 64 = 0 := by
  have hs := geo_sep g hi hg bs hgeo
  obtain ⟨hb1, hb2, hb3⟩ := hs.1 _ he
  simp only at hb1 hb2 hb3
  have hbase := hg.base_ne
  have hb00 : b0 ≠ 0 := by omega
  obtain ⟨hx1, hx2⟩ := hrep.2 _ he rfl
  simp only at hx1 hx2
  have hhdr : memoryHeaderForAddress g m (b0 + 16) = some b0 := by
    unfold memoryHeaderForAddress
    rw [hg.hdr]
    dsimp only
    rw [ptrSub_exact (b0 + 16) 16 (by omega) (by omega)]
    simp only [Nat.add_sub_cancel, ne_eq, hb00, not_false_eq_true, ↓reduceIte]
    unfold readMemoryStart
    rw [if_neg hb00, hx2]
    simp
  unfold deallocateHeaderAtAddress at h
  rw [hhdr] at h
  simp only [Option.bind_eq_bind, Option.some_bind, ne_eq, hb00, not_false_eq_true,
    ↓reduceIte] at h
  unfold deallocateHeader at h
  simp only [ne_eq, hb00, not_false_eq_true, ↓reduceIte] at h
  obtain ⟨ai, hai, h⟩ := bind_some h
  unfold readIndex at hai
  rw [if_neg hb00, hx1] at hai
  simp only [Option.some.injEq] at hai
  subst hai
  obtain ⟨ma, hma, h⟩ := bind_some h
  obtain ⟨mb, hmb, h⟩ := bind_some h
  unfold writeMemoryStart at hma
  unfold writeIndex at hmb
  rw [if_neg hb00] at hma hmb
  simp only [Option.some.injEq] at hma hmb
  obtain ⟨⟨mc, rc⟩, hadd, h⟩ := bind_some h
  dsimp only at h
  obtain ⟨⟨md, rd⟩, hatt, h⟩ := bind_some h
  simp only [Option.some.injEq, Prod.mk.injEq] at h
  have hfr : Frame m mb [b0] := by
    intro w hw
    have := hw b0 (by simp)
    rw [← hmb, ← hma, store_other _ _ _ _ (by omega), store_other _ _ _ _ (by omega)]
  have hzb : mb (b0 + 8) % 2 ^ 64 = 0 := by
    rw [← hmb, ← hma, store_other _ _ _ _ (by omega), store_same]
    rfl
  have hsw := sep_without g bs b0 hs
  have hap := apart_others g bs hs _ he
  have hrepb := rep_frame_fresh g _ m mb [b0] (rep_without_alloc g bs m b0 t hs hrep he) hfr (by
    intro q hq
    simp only [List.mem_singleton] at hq
    subst hq
    exact ⟨hb1, hap⟩)
  obtain ⟨_, hrepc, _⟩ := g_add g hi _ mb fuel t b0 mc rc hg hsw hrepb hb3 hb1 hb2 hap hadd
  have hzc := g_add_next_zero g hi _ mb fuel t b0 mc rc hg hsw hrepb hb3 hb1 hb2 hap hzb hadd
  have hgeoc := geo_flip g hi hg bs b0 t false true hgeo he
  rw [← h.1]
  exact attempt_next_zero g hi hg fuel mc t b0 _ md rd hgeoc hrepc (by simp) hb00 hzc hatt

/-- A header whose `memoryStart` word is zero does not validate for the
payload address behind it: `memoryHeaderForAddress` answers null. -/
theorem memoryHeader_cleared (g : Globals) (m : Mem) (b0 : Nat) (hh : g._headerSize = 16)
    (hb : b0 + 16 < 2 ^ 64) (hz : m (b0 + 8) % 2 ^ 64 = 0) :
    memoryHeaderForAddress g m (b0 + 16) = some 0 := by
  unfold memoryHeaderForAddress
  rw [hh]
  dsimp only
  rw [ptrSub_exact (b0 + 16) 16 (by omega) (by omega)]
  simp only [Nat.add_sub_cancel]
  by_cases hb0 : b0 = 0
  · simp [hb0]
  · unfold readMemoryStart
    rw [if_pos hb0, if_neg hb0, hz]
    have : (0 : Nat) ≠ b0 + 16 := by omega
    simp [this]

/-- Source function `my_free` when `memoryHeaderForAddress` answers null:
status 1 and the same state, for every fuel. -/
theorem my_free_null_header (fuel : Nat) (st : State) (p : Nat)
    (h : memoryHeaderForAddress st.g st.mem p = some 0) :
    my_free fuel st p = some (st, 1) := by
  unfold my_free deallocateHeaderAtAddress
  rw [h]
  rfl

/-- After `my_free` of a live pointer the globals are the same and the
`memoryStart` word of the header of that pointer is zero. -/
theorem my_free_clears_start (hi : Nat) (fuel : Nat) (st : State) (live : List Nat) (p : Nat)
    (st1 : State) (r : Int) (hinv : Inv hi st live) (hp : p ∈ live)
    (h : my_free fuel st p = some (st1, r)) :
    st1.g = st.g ∧ ∃ b0, p = b0 + 16 ∧ b0 + 16 < 2 ^ 64 ∧ st1.mem (b0 + 8) % 2 ^ 64 = 0 := by
  obtain ⟨hg, bs, hgeo, hrep, hnd, hlive⟩ := hinv
  obtain ⟨e, he, hef, hep⟩ := (hlive p).1 hp
  have hee : e = ⟨e.base, e.idx, false⟩ := by
    cases e; simp only at hef; subst hef; rfl
  rw [hee] at he
  have hs := geo_sep st.g hi hg bs hgeo
  obtain ⟨_, hb2, _⟩ := hs.1 _ he
  simp only at hb2
  unfold my_free at h
  obtain ⟨⟨m1, s⟩, hd, h⟩ := bind_some h
  simp only [Option.some.injEq, Prod.mk.injEq] at h
  rw [← hep] at hd
  have hz := free_next_zero st.g hi hg bs st.mem fuel e.base e.idx m1 s hgeo hrep he hd
  rw [← h.1]
  exact ⟨rfl, e.base, hep.symm, hb2, hz⟩

/-! ## List operations in stores whose blocks need not tile the arena -/

/-- Every well-formed store has well-formed free lists. -/
theorem wellFormed_listsFormed (g : Globals) (m : Mem) (h : WellFormed g m) :
    ListsFormed g m := by
  obtain ⟨hi, bs, hg, hgeo, hrep⟩ := h
  exact ⟨hi, bs, hg, geo_sep g hi hg bs hgeo, hrep⟩

/-- On the model, with the fuel measured by the list of the bucket: in every
store whose memory represents a separated block list `bs`, for every bucket
`i ≤ R` and every address `a` behind the head array whose 16-byte record
overlaps the record of no block of the store,
`addAddressToFreestoreForAdjustedIndex(i, a)` returns true, the list of bucket
`i` becomes the old list followed by `a`,
`containsFreestoreBlockAtAdjustedIndexWithAddress(i, a)` holds, and the list of
every other bucket is unchanged. -/
theorem add_lists (g : Globals) (hi : Nat) (bs : List Blk) (m : Mem)
    (fuel i a : Nat) (hg : GoodGlobals g hi) (hs : Sep g bs) (hrep : Rep g m bs)
    (hi2 : i ≤ g._freestoreRange)
    (ha1 : g._freestoreAddress + 16 * (g._freestoreRange + 1) ≤ a) (ha2 : a + 16 < 2 ^ 64)
    (ha3 : ∀ b ∈ bs, Apart b.base a) (hf : (bucketOf bs i).length + 4 ≤ fuel) :
    ∃ m1, addAddressToFreestoreForAdjustedIndex g m fuel i a = some (m1, true) ∧
      BucketRep m1 (getFirstFreestoreBlockAtAdjustedIndex g i) (bucketOf bs i ++ [a]) ∧
      lastOr (bucketOf bs i ++ [a]) 0 = a ∧
      containsFreestoreBlockAtAdjustedIndexWithAddress g m1 fuel i a = some true ∧
      ∀ k, k ≤ g._freestoreRange → k ≠ i →
        BucketRep m1 (getFirstFreestoreBlockAtAdjustedIndex g k) (bucketOf bs k) := by
  have hA0 := hg.base_ne
  have ha0 : a ≠ 0 := by omega
  obtain ⟨hH, hH0⟩ := head_ptr g hi hg i hi2
  have hbi : BucketRep m (getFirstFreestoreBlockAtAdjustedIndex g i) (bucketOf bs i) := by
    rw [hH]; exact hrep.1 i hi2
  obtain ⟨⟨m1, r⟩, h⟩ := add_some g m fuel i a _ hbi (by rw [hH]; exact hH0) ha0 (by omega)
  obtain ⟨hr, hrep1, _⟩ := g_add g hi bs m fuel i a m1 r hg hs hrep hi2 ha1 ha2 ha3 h
  subst hr
  have hbi1 : BucketRep m1 (getFirstFreestoreBlockAtAdjustedIndex g i) (bucketOf bs i ++ [a]) := by
    have := hrep1.1 i hi2
    rw [bucketOf_append_free] at this
    rw [hH]
    exact this
  obtain ⟨c, hc⟩ := contains_some g m1 fuel i a _ hbi1 (by rw [hH]; exact hH0)
    (by simp only [List.length_append, List.length_singleton]; omega)
  have hcv := g_contains g hi _ m1 fuel i a c hg hrep1 hi2 ha0 hc
  rw [bucketOf_append_free] at hcv
  refine ⟨m1, h, hbi1, lastOr_append_single _ _ _, ?_, ?_⟩
  · rw [hc, hcv]
    simp
  · intro k hk hki
    have := hrep1.1 k hk
    rw [bucketOf_append_other bs _ k (by
      intro x hx
      simp only [List.mem_singleton] at hx
      rw [hx]
      exact fun e => hki e.symm)] at this
    rw [(head_ptr g hi hg k hk).1]
    exact this

/-- On the model, with the fuel measured by the list of the bucket: in every
store whose memory represents a separated block list `bs`, for every bucket
`i ≤ R` and every non-null address `a`,
`removeFreestoreBlockAtAdjustedIndexWithAddress(i, a)` returns, and it returns
true exactly if `a` is on the list of bucket `i`; the list of bucket `i` is
then the old list with `a` erased, the others in their order; if `a` is not on
the list the memory is unchanged; the list of every other bucket is
unchanged. -/
theorem remove_lists (g : Globals) (hi : Nat) (bs : List Blk) (m : Mem)
    (fuel i a : Nat) (hg : GoodGlobals g hi) (hs : Sep g bs) (hrep : Rep g m bs)
    (hi2 : i ≤ g._freestoreRange) (ha : a ≠ 0) (hf : (bucketOf bs i).length + 3 ≤ fuel) :
    ∃ m1 s, removeFreestoreBlockAtAdjustedIndexWithAddress g m fuel i a = some (m1, s) ∧
      (s = true ↔ a ∈ bucketOf bs i) ∧
      BucketRep m1 (getFirstFreestoreBlockAtAdjustedIndex g i) ((bucketOf bs i).erase a) ∧
      (a ∉ bucketOf bs i → m1 = m) ∧
      ∀ k, k ≤ g._freestoreRange → k ≠ i →
        BucketRep m1 (getFirstFreestoreBlockAtAdjustedIndex g k) (bucketOf bs k) := by
  obtain ⟨hH, hH0⟩ := head_ptr g hi hg i hi2
  have hsl := sepList_bucket g hi hg bs hs i hi2
  have hbi : BucketRep m (getFirstFreestoreBlockAtAdjustedIndex g i) (bucketOf bs i) := by
    rw [hH]; exact hrep.1 i hi2
  obtain ⟨⟨m1, s⟩, h⟩ := removeWithAddress_some g m fuel i a _ hbi (by rw [hH]; exact hsl) ha hf
  have hnd := sepList_nodup _ _ hsl
  by_cases hin : a ∈ bucketOf bs i
  · obtain ⟨hst, hrep1, _⟩ := g_removeWithAddress g hi bs m fuel i a m1 s hg hs hrep hi2 hin h
    refine ⟨m1, s, h, ⟨fun _ => hin, fun _ => hst⟩, ?_, fun e => absurd hin e, ?_⟩
    · have := hrep1.1 i hi2
      rw [bucketOf_without] at this
      rw [hH, hnd.erase_eq_filter]
      exact this
    · intro k hk hki
      have := hrep1.1 k hk
      rw [bucketOf_without_other g bs hs a i k hin hki] at this
      rw [(head_ptr g hi hg k hk).1]
      exact this
  · obtain ⟨e1, e2⟩ := removeWithAddress_absent g m fuel i a (bucketOf bs i) _ m1 s
      hH hH0 (hrep.1 i hi2) ha hin h
    subst e1 e2
    refine ⟨m1, false, h, ⟨fun e => by simp at e, fun e => absurd e hin⟩, ?_, fun _ => rfl, ?_⟩
    · rw [hH, List.erase_of_not_mem hin]
      exact hrep.1 i hi2
    · intro k hk _
      rw [(head_ptr g hi hg k hk).1]
      exact hrep.1 k hk

/-- When the memory represents the block list `bs` and every block of `bs` is
apart from `a`, every record on a free list is apart from `a`. -/
theorem rep_records_apart (g : Globals) (hi : Nat) (bs : List Blk) (m : Mem) (a : Nat)
    (hg : GoodGlobals g hi) (hrep : Rep g m bs) (h : ∀ b ∈ bs, Apart b.base a) :
    ∀ k lk, k ≤ g._freestoreRange →
      BucketRep m (getFirstFreestoreBlockAtAdjustedIndex g k) lk → ∀ b ∈ lk, Apart b a := by
  intro k lk hk hlk b hb
  have hbk := hrep.1 k hk
  rw [← (head_ptr g hi hg k hk).1] at hbk
  rw [bucketRep_unique _ _ _ _ hlk hbk] at hb
  obtain ⟨c, hc, _, _, hcb⟩ := (mem_bucketOf bs k b).1 hb
  subst hcb
  exact h c hc

/-- The free lists stay well formed when
`removeLastFreestoreBlockAtAdjustedIndex` takes the last block off a nonempty
bucket, as the split does before it appends the two halves. -/
theorem listsFormed_removeLast (g : Globals) (m : Mem) (fuel i : Nat) (l : List Nat) (m1 : Mem)
    (r : Bool) (h : ListsFormed g m) (hi2 : i ≤ g._freestoreRange)
    (hl : BucketRep m (getFirstFreestoreBlockAtAdjustedIndex g i) l) (hne : l ≠ [])
    (hr : removeLastFreestoreBlockAtAdjustedIndex g m fuel i = some (m1, r)) :
    ListsFormed g m1 := by
  obtain ⟨hi, bs, hg, hs, hrep⟩ := h
  have hb := hrep.1 i hi2
  rw [← (head_ptr g hi hg i hi2).1] at hb
  rw [bucketRep_unique _ _ _ _ hl hb] at hne
  obtain ⟨h1, h2⟩ := g_removeLast g hi bs m fuel i m1 r hg hs hrep hi2 hne hr
  exact ⟨hi, _, hg, h2, h1⟩

/-- The free lists stay well formed under
`removeFreestoreBlockAtAdjustedIndexWithAddress`, as at the two removals of a
merge. -/
theorem listsFormed_remove (g : Globals) (m : Mem) (fuel i a : Nat) (m1 : Mem) (s : Bool)
    (h : ListsFormed g m) (hi2 : i ≤ g._freestoreRange) (ha : a ≠ 0)
    (hr : removeFreestoreBlockAtAdjustedIndexWithAddress g m fuel i a = some (m1, s)) :
    ListsFormed g m1 := by
  obtain ⟨hi, bs, hg, hs, hrep⟩ := h
  by_cases hin : a ∈ bucketOf bs i
  · obtain ⟨_, h1, h2⟩ := g_removeWithAddress g hi bs m fuel i a m1 s hg hs hrep hi2 hin hr
    exact ⟨hi, _, hg, h2, h1⟩
  · obtain ⟨e1, _⟩ := removeWithAddress_absent g m fuel i a (bucketOf bs i) _ m1 s
      (head_ptr g hi hg i hi2).1 (head_ptr g hi hg i hi2).2 (hrep.1 i hi2) ha hin hr
    subst e1
    exact ⟨hi, bs, hg, hs, hrep⟩

/-- The free lists stay well formed when
`addAddressToFreestoreForAdjustedIndex` appends an address behind the head
array whose record overlaps no record of a free list, as at the appends of
the split and of the merge. -/
theorem listsFormed_add (g : Globals) (m : Mem) (fuel i a : Nat) (m1 : Mem) (r : Bool)
    (h : ListsFormed g m) (hi2 : i ≤ g._freestoreRange)
    (ha1 : g._freestoreAddress + 16 * (g._freestoreRange + 1) ≤ a) (ha2 : a + 16 < 2 ^ 64)
    (ha3 : ∀ k lk, k ≤ g._freestoreRange →
      BucketRep m (getFirstFreestoreBlockAtAdjustedIndex g k) lk → ∀ b ∈ lk, Apart b a)
    (hr : addAddressToFreestoreForAdjustedIndex g m fuel i a = some (m1, r)) :
    ListsFormed g m1 := by
  obtain ⟨hi, bs, hg, hs, hrep⟩ := h
  have hfresh : ∀ b ∈ bs.filter (fun b => b.free), Apart b.base a := by
    intro b hb
    obtain ⟨hb1, hb2⟩ := List.mem_filter.1 hb
    have hk := (hs.1 b hb1).2.2
    have hbk := hrep.1 b.idx hk
    rw [← (head_ptr g hi hg _ hk).1] at hbk
    refine ha3 b.idx _ hk hbk b.base ?_
    rw [mem_bucketOf]
    exact ⟨b, hb1, hb2, rfl, rfl⟩
  obtain ⟨_, h1, h2⟩ := g_add g hi _ m fuel i a m1 r hg (sep_free_only g bs hs)
    (rep_free_only g m bs hrep) hi2 ha1 ha2 hfresh hr
  exact ⟨hi, _, hg, h2, h1⟩

set_option maxRecDepth 100000 in
/-- The memory `splitMem` represents the free blocks of the initial state with
the block at offset 256 moved from bucket 1 to bucket 0; the bytes from offset
384 to 512 belong to no block. -/
theorem splitMem_rep :
    GoodGlobals initState.g (arenaBase + 524288 - 0) ∧
    Sep initState.g
      [⟨arenaBase + 256, 0, true⟩, ⟨arenaBase + 512, 2, true⟩, ⟨arenaBase + 1024, 3, true⟩,
        ⟨arenaBase + 2048, 4, true⟩, ⟨arenaBase + 4096, 5, true⟩, ⟨arenaBase + 8192, 6, true⟩,
        ⟨arenaBase + 16384, 7, true⟩, ⟨arenaBase + 32768, 8, true⟩,
        ⟨arenaBase + 65536, 9, true⟩, ⟨arenaBase + 131072, 10, true⟩,
        ⟨arenaBase + 262144, 11, true⟩] ∧
    Rep initState.g splitMem
      [⟨arenaBase + 256, 0, true⟩, ⟨arenaBase + 512, 2, true⟩, ⟨arenaBase + 1024, 3, true⟩,
        ⟨arenaBase + 2048, 4, true⟩, ⟨arenaBase + 4096, 5, true⟩, ⟨arenaBase + 8192, 6, true⟩,
        ⟨arenaBase + 16384, 7, true⟩, ⟨arenaBase + 32768, 8, true⟩,
        ⟨arenaBase + 65536, 9, true⟩, ⟨arenaBase + 131072, 10, true⟩,
        ⟨arenaBase + 262144, 11, true⟩] :=
  ⟨(reachable_inv arenaBase zeroMem 128 524288 0 initState []
      (Reachable.init 64 initState 524288 initOK_scenario initState_eq)).1,
    ⟨by decide, by decide⟩, ⟨by decide, by decide⟩⟩

set_option maxRecDepth 100000 in
/-- The memory `mergeMem` represents the free blocks of `mergeState`: bucket 0
holds the offsets 384 and 768, bucket 1 the offset 512; the block at offset
256, which the merge has taken off bucket 0, belongs to no list. -/
theorem mergeMem_rep :
    mergeState.g = initState.g ∧
    GoodGlobals initState.g (arenaBase + 524288 - 0) ∧
    Sep initState.g
      [⟨arenaBase + 384, 0, true⟩, ⟨arenaBase + 768, 0, true⟩, ⟨arenaBase + 512, 1, true⟩,
        ⟨arenaBase + 1024, 3, true⟩, ⟨arenaBase + 2048, 4, true⟩, ⟨arenaBase + 4096, 5, true⟩,
        ⟨arenaBase + 8192, 6, true⟩, ⟨arenaBase + 16384, 7, true⟩, ⟨arenaBase + 32768, 8, true⟩,
        ⟨arenaBase + 65536, 9, true⟩, ⟨arenaBase + 131072, 10, true⟩,
        ⟨arenaBase + 262144, 11, true⟩] ∧
    Rep initState.g mergeMem
      [⟨arenaBase + 384, 0, true⟩, ⟨arenaBase + 768, 0, true⟩, ⟨arenaBase + 512, 1, true⟩,
        ⟨arenaBase + 1024, 3, true⟩, ⟨arenaBase + 2048, 4, true⟩, ⟨arenaBase + 4096, 5, true⟩,
        ⟨arenaBase + 8192, 6, true⟩, ⟨arenaBase + 16384, 7, true⟩, ⟨arenaBase + 32768, 8, true⟩,
        ⟨arenaBase + 65536, 9, true⟩, ⟨arenaBase + 131072, 10, true⟩,
        ⟨arenaBase + 262144, 11, true⟩] :=
  ⟨by decide,
    (reachable_inv arenaBase zeroMem 128 524288 0 initState []
      (Reachable.init 64 initState 524288 initOK_scenario initState_eq)).1,
    ⟨by decide, by decide⟩, ⟨by decide, by decide⟩⟩

/-! ## Claims settled on concrete runs -/

set_option maxRecDepth 100000 in
/-- C1 (defect in the code): for the live pointer `p` returned by
`my_malloc(1024)` right after `init_allocator(128, 512 * 1024)`, `my_free(p)`
puts the block back on the free list of bucket 4 and yet returns status 1, not
the success status 0: `deallocateHeader` never sets its `success` flag. -/
theorem my_free_live_pointer_status :
    (do let (s0, _) ← init_allocator 64 arenaBase zeroMem 128 524288
        let (s1, p) ← my_malloc 64 s0 1024
        let (s2, r) ← my_free 64 s1 p
        let back ← containsFreestoreBlockAtAdjustedIndexWithAddress s2.g s2.mem 64 4
          (arenaBase + 2048)
        some (p, r, back)) = some (arenaBase + 2064, 1, true) := by
  decide

set_option maxRecDepth 100000 in
/-- C2 (defect in the code): after `init_allocator(128, 512 * 1024)`, two calls
`my_malloc(1024)` that both return non-null, and the two frees in reverse
order, the final free-list state differs from the state right after
`init_allocator`: the block at arena offset 4096 is on the list of bucket 4 at
the end and was not there after `init_allocator`, and bucket 5 no longer holds
its initial block at offset 4096. -/
theorem free_all_does_not_restore_init_state :
    (do let (s0, _) ← init_allocator 64 arenaBase zeroMem 128 524288
        let (s1, ps) ← mallocRepeat 64 1024 2 s0 []
        let s2 ← freeEach 64 ps s1
        let before4 ← containsFreestoreBlockAtAdjustedIndexWithAddress s0.g s0.mem 64 4
          (arenaBase + 4096)
        let after4 ← containsFreestoreBlockAtAdjustedIndexWithAddress s2.g s2.mem 64 4
          (arenaBase + 4096)
        let before5 ← containsFreestoreBlockAtAdjustedIndexWithAddress s0.g s0.mem 64 5
          (arenaBase + 4096)
        let after5 ← containsFreestoreBlockAtAdjustedIndexWithAddress s2.g s2.mem 64 5
          (arenaBase + 4096)
        some (ps, [before4, after4, before5, after5]))
      = some ([arenaBase + 6160, arenaBase + 2064], [false, true, true, false]) := by
  decide

set_option maxRecDepth 100000 in
/-- C3 (defect in the code): after `init_allocator(128, 512 * 1024)`, two calls
`my_malloc(1024)` and the two frees in reverse order, at the return of the last
`my_free` bucket 4 (block size 2048) holds both the block at arena offset 4096
and its buddy at offset 6144 = 4096 XOR 2048. -/
theorem buddies_both_free_after_my_free :
    (do let (s0, _) ← init_allocator 64 arenaBase zeroMem 128 524288
        let (s1, p1) ← my_malloc 64 s0 1024
        let (s2, p2) ← my_malloc 64 s1 1024
        let (s3, _) ← my_free 64 s2 p2
        let (s4, _) ← my_free 64 s3 p1
        let b ← containsFreestoreBlockAtAdjustedIndexWithAddress s4.g s4.mem 64 4
          (arenaBase + 4096)
        let c ← containsFreestoreBlockAtAdjustedIndexWithAddress s4.g s4.mem 64 4
          (arenaBase + 6144)
        some (p1, p2, b, c, getSizeForAdjustedFreestoreIndex s4.g 4))
      = some (arenaBase + 2064, arenaBase + 6160, true, true, 2048)
    ∧ (arenaBase + 6144 - arenaBase) = (arenaBase + 4096 - arenaBase) ^^^ 2048 := by
  decide

set_option maxRecDepth 100000 in
/-- C4 (defect in the code): after `init_allocator(128, 512 * 1024)`, seven
calls `my_malloc(1024)`, then `my_free` of the block at arena offset 8192 and
of the block at offset 6144, the free list of bucket 5 (block size 4096) holds
the block at offset 6144, and 6144 is not divisible by 4096. -/
theorem misaligned_block_on_free_list :
    (do let (s0, _) ← init_allocator 64 arenaBase zeroMem 128 524288
        let (s1, ps) ← mallocRepeat 64 1024 7 s0 []
        let (s2, _) ← my_free 64 s1 (arenaBase + 8192 + 16)
        let (s3, _) ← my_free 64 s2 (arenaBase + 6144 + 16)
        let b ← containsFreestoreBlockAtAdjustedIndexWithAddress s3.g s3.mem 64 5
          (arenaBase + 6144)
        some (ps, b, getSizeForAdjustedFreestoreIndex s3.g 5, s3.g._freestoreAddress))
      = some ([arenaBase + 8208, arenaBase + 10256, arenaBase + 12304, arenaBase + 14352,
               arenaBase + 4112, arenaBase + 6160, arenaBase + 2064], true, 4096, arenaBase)
    ∧ (arenaBase + 6144 - arenaBase) % 4096 ≠ 0 := by
  decide

/-! ## Claims about `my_malloc` and `my_free` in an arbitrary state -/

/-- Source function `my_malloc`: whenever it returns a non-null address `p`,
the header stored at `p - header_size` has `memoryStart = p`, and its `index`
is the bucket `t` that `getAdjustedFreestoreIndexForSize` gives for the
`unsigned int` sum `n + header_size`, taken modulo `2 ^ 32`, with `t ≤ R`.
This holds in every state, in particular in every state after
`init_allocator`. -/
theorem my_malloc_header_valid (fuel : Nat) (st : State) (n : Nat) (st' : State) (p : Nat)
    (h : my_malloc fuel st n = some (st', p)) (hp : p ≠ 0) :
    readMemoryStart st'.mem (ptrSub p st.g._headerSize) = some p ∧
    readIndex st'.mem (ptrSub p st.g._headerSize) =
      some (getAdjustedFreestoreIndexForSize st.g ((n + st.g._headerSize) % 2 ^ 32)) ∧
    getAdjustedFreestoreIndexForSize st.g ((n + st.g._headerSize) % 2 ^ 32)
      ≤ st.g._freestoreRange := by
  unfold my_malloc at h
  simp only [Option.bind_eq_bind, Option.bind_eq_some] at h
  obtain ⟨⟨m1, header⟩, ha, h⟩ := h
  by_cases hh : header = 0
  · subst hh; simp at h; exact absurd h.2.symm hp
  · simp only [ne_eq, hh, not_false_eq_true, ↓reduceIte, Option.bind_eq_bind,
      Option.bind_eq_some, Option.some.injEq, Prod.mk.injEq] at h
    obtain ⟨address, hrd, hst, hadd⟩ := h
    obtain ⟨hlt, hle, m2, hm⟩ := allocateHeaderForSize_header _ _ _ _ _ _ ha hh
    subst hadd
    have hmem : st'.mem = m1 := by rw [← hst]
    have hpa : address = ptrAdd header st.g._headerSize := by
      unfold readMemoryStart at hrd
      rw [if_neg hh] at hrd
      simp only [Option.some.injEq] at hrd
      rw [← hrd, hm, store_same]
      unfold ptrAdd
      simp only [Nat.mod_mod]
    have hback : ptrSub address st.g._headerSize = header := by
      rw [hpa]; exact ptrSub_ptrAdd _ _ hlt
    rw [hback, hmem]
    refine ⟨?_, ?_, hle⟩
    · unfold readMemoryStart
      rw [if_neg hh, hm, store_same, hpa]
      unfold ptrAdd
      simp only [Nat.mod_mod]
    · unfold readIndex
      rw [if_neg hh, hm, store_other _ _ _ _ (by omega), store_same]
      have := getAdjustedFreestoreIndexForSize_lt st.g (uintAdd n st.g._headerSize)
      unfold uintAdd at this ⊢
      simp only [Option.some.injEq]
      rw [Nat.mul_add_mod_of_lt (Nat.mod_lt _ (by norm_num))]
      exact Nat.mod_eq_of_lt this

set_option maxRecDepth 100000 in
/-- The header of a served request at a concrete input: `my_malloc(1024)`
right after `init_allocator(128, 512 * 1024)` returns arena offset 2064. -/
theorem my_malloc_header_valid_witness :
    readMemoryStart (afterMalloc initState 1024).mem
        (ptrSub (arenaBase + 2064) initState.g._headerSize) = some (arenaBase + 2064) ∧
    readIndex (afterMalloc initState 1024).mem
        (ptrSub (arenaBase + 2064) initState.g._headerSize) =
      some (getAdjustedFreestoreIndexForSize initState.g
        ((1024 + initState.g._headerSize) % 2 ^ 32)) ∧
    getAdjustedFreestoreIndexForSize initState.g ((1024 + initState.g._headerSize) % 2 ^ 32)
      ≤ initState.g._freestoreRange :=
  my_malloc_header_valid 64 initState 1024 (afterMalloc initState 1024) (arenaBase + 2064)
    (afterMalloc_eq initState 1024 (arenaBase + 2064) (by decide)) (by decide)

set_option maxRecDepth 100000 in
/-- C6 (defect in the code, the one of C8): right after
`init_allocator(128, 512 * 1024)`, where `R = 11`, `my_malloc(4294967295)`
returns the non-null address `p` at arena offset 400.  The header at
`p - header_size` has `memoryStart = p`, but it records bucket 0, while
`bucket_of(n + header_size)` is 26, as
`2 ^ 25 * 128 < n + header_size ≤ 2 ^ 26 * 128`, and 26 is not even a bucket
of the store.  The `unsigned int` sum `n + header_size` wraps around to 15,
whose bucket is 0. -/
theorem wrapped_request_header_bucket :
    (do let (s0, _) ← init_allocator 64 arenaBase zeroMem 128 524288
        let (s1, p) ← my_malloc 64 s0 4294967295
        let start ← readMemoryStart s1.mem (ptrSub p s1.g._headerSize)
        let t ← readIndex s1.mem (ptrSub p s1.g._headerSize)
        some (p, start, t, s1.g._freestoreRange,
          getAdjustedFreestoreIndexForSize s1.g (4294967295 + s1.g._headerSize)))
      = some (arenaBase + 400, arenaBase + 400, 0, 11, 26)
    ∧ initState.g._minFreestoreIndex = 0 ∧ initState.g._basic_block_size = 128
    ∧ arenaBase + 400 ≠ 0 ∧ 4294967295 < 2 ^ 32
    ∧ 2 ^ (25 + 0) * 128 < 4294967295 + 16 ∧ 4294967295 + 16 ≤ 2 ^ (26 + 0) * 128
    ∧ (4294967295 + 16) % 2 ^ 32 = 15 := by
  decide

set_option maxRecDepth 100000 in
/-- C8 (defect in the code): right after `init_allocator(128, 512 * 1024)`,
where `size_of(R) = 262144`, the request `n = 4294967295` has
`n + header_size > size_of(R)` and yet `my_malloc(n)` returns the non-null
address at arena offset 400, a block of bucket 0: the `unsigned int` sum
`n + header_size` wraps around to 15. -/
theorem oversize_request_served :
    (do let (s0, _) ← init_allocator 64 arenaBase zeroMem 128 524288
        let (s1, p) ← my_malloc 64 s0 4294967295
        let t ← readIndex s1.mem (ptrSub p 16)
        some (p, t, getSizeForAdjustedFreestoreIndex s0.g s0.g._freestoreRange))
      = some (arenaBase + 400, 0, 262144)
    ∧ 4294967295 < 2 ^ 32 ∧ 4294967295 + 16 > 262144 := by
  decide

set_option maxRecDepth 100000 in
/-- C9 fails as stated: right after `init_allocator(128, 512 * 1024)`,
`my_malloc(0)` returns the non-null address at arena offset 400. -/
theorem my_malloc_zero_not_null :
    (do let (s0, _) ← init_allocator 64 arenaBase zeroMem 128 524288
        let (_, p) ← my_malloc 64 s0 0
        some p) = some (arenaBase + 400) ∧ arenaBase + 400 ≠ 0 := by
  decide

/-- C9 as amended: `my_malloc(0)` is not rejected; it is served exactly like
`my_malloc(n)` for every `n` with `n + header_size ≤ size_of(0)`, a request for
bucket 0: same result and same final state, so it returns null only when such
a request does. -/
theorem my_malloc_zero_as_small_request (fuel : Nat) (st : State) (n : Nat)
    (hn : n + st.g._headerSize ≤ st.g._minFreestoreIndexMemorySize) :
    my_malloc fuel st 0 = my_malloc fuel st n := by
  have h0 : getAdjustedFreestoreIndexForSize st.g (uintAdd 0 st.g._headerSize) = 0 := by
    apply getAdjustedFreestoreIndexForSize_small
    unfold uintAdd
    have := Nat.mod_le (0 + st.g._headerSize) (2 ^ 32)
    omega
  have hn0 : getAdjustedFreestoreIndexForSize st.g (uintAdd n st.g._headerSize) = 0 := by
    apply getAdjustedFreestoreIndexForSize_small
    unfold uintAdd
    have := Nat.mod_le (n + st.g._headerSize) (2 ^ 32)
    omega
  unfold my_malloc allocateHeaderForSize canMeetMemoryRequest
  simp only [h0, hn0]

set_option maxRecDepth 100000 in
/-- C9 as amended, at a concrete input: right after
`init_allocator(128, 512 * 1024)` the requests of 0 bytes and of 112 bytes are
served alike. -/
theorem my_malloc_zero_as_small_request_witness :
    112 + initState.g._headerSize ≤ initState.g._minFreestoreIndexMemorySize ∧
    my_malloc 64 initState 0 = my_malloc 64 initState 112 :=
  ⟨by decide, my_malloc_zero_as_small_request 64 initState 112 (by decide)⟩

/-- C10: when the would-be header at `p - header_size` does not have
`memoryStart = p`, `my_free(p)` returns the nonzero status 1 and leaves the
whole state (globals, every bucket list, every block) unchanged. -/
theorem my_free_invalid_header (fuel : Nat) (st : State) (p : Nat)
    (h : readMemoryStart st.mem (ptrSub p st.g._headerSize) ≠ some p) :
    my_free fuel st p = some (st, 1) := by
  have hh : memoryHeaderForAddress st.g st.mem p = some 0 := by
    unfold memoryHeaderForAddress
    by_cases h0 : ptrSub p st.g._headerSize = 0
    · simp [h0]
    · unfold readMemoryStart at h ⊢
      simp only [h0, ↓reduceIte, ne_eq, Option.some.injEq] at h
      simp only [ne_eq, h0, not_false_eq_true, ↓reduceIte]
      show (some (st.mem (ptrSub p st.g._headerSize + 8) % 2 ^ 64) >>= fun memoryStart =>
        if (!decide (memoryStart = p)) = true then some 0
        else some (ptrSub p st.g._headerSize)) = some 0
      simp only [Bool.not_eq_eq_eq_not, Bool.not_true, decide_eq_false_iff_not]
      show (if ¬ st.mem (ptrSub p st.g._headerSize + 8) % 2 ^ 64 = p then some 0
        else some (ptrSub p st.g._headerSize)) = some 0
      rw [if_pos h]
  unfold my_free deallocateHeaderAtAddress
  rw [hh]
  rfl

set_option maxRecDepth 100000 in
/-- C10 at a concrete input: freeing the arena base, an address that
`my_malloc` never returned, right after `init_allocator(128, 512 * 1024)`. -/
theorem my_free_invalid_header_witness :
    readMemoryStart initState.mem (ptrSub arenaBase initState.g._headerSize) ≠ some arenaBase ∧
    my_free 64 initState arenaBase = some (initState, 1) :=
  ⟨by decide, my_free_invalid_header 64 initState arenaBase (by decide)⟩

/-! ## Claims about the states reached from a successful `init_allocator` -/

/-- C5: in every state reached from a successful `init_allocator(B, L)` by
calls of `my_malloc` and by calls of `my_free` on live pointers, every arena
byte `x` outside the tail residue left at init (`A ≤ x < A + L - leftover`)
has exactly one owner among: the reserved head-array block
`[A, A + size_of(s))`, a free block recorded on the list of a bucket, and the
allocated block of a live pointer.  Hence no two blocks overlap, no block
overlaps the head array, and a free block is on the list of one bucket only. -/
theorem arena_byte_has_one_owner (A : Nat) (m0 : Mem) (B L lo : Nat) (st : State)
    (live : List Nat) (h : Reachable A m0 B L lo st live) (x : Nat) (hx1 : A ≤ x)
    (hx2 : x < A + L - lo) : ∃! o : Owner, Owns st live x o := by
  obtain ⟨hg, bs, hgeo, hrep, _, hlive⟩ := reachable_inv A m0 B L lo st live h
  have hA := reachable_base A m0 B L lo st live h
  obtain ⟨hf, ha⟩ := owns_iff _ st live bs hg hgeo hrep hlive x
  by_cases hr : x < A + getSizeForAdjustedFreestoreIndex st.g st.g._freestoreIndex
  · refine ⟨Owner.reserved, ⟨by rw [hA]; exact hx1, by rw [hA]; exact hr⟩, ?_⟩
    intro o ho
    cases o with
    | reserved => rfl
    | freeBlock i a =>
      obtain ⟨hb, hc⟩ := (hf i a).1 ho
      have hlow : _ ≤ a := (geo_bounds st.g _ hg bs hgeo _ hb).1
      unfold covers at hc
      simp only [decide_eq_true_eq] at hc
      omega
    | allocated p =>
      obtain ⟨t, _, hb, hc⟩ := (ha p).1 ho
      have hlow : _ ≤ p - 16 := (geo_bounds st.g _ hg bs hgeo _ hb).1
      unfold covers at hc
      simp only [decide_eq_true_eq] at hc
      omega
  · have hc := hgeo.2 x
    rw [if_pos ⟨by rw [hA]; omega, hx2⟩] at hc
    obtain ⟨b, hb, hcov⟩ := List.countP_pos_iff.1 (by omega : 0 < bs.countP (covers st.g x))
    have hnr : ¬ Owns st live x Owner.reserved := by
      unfold Owns
      rw [hA]
      omega
    obtain ⟨a, i, f⟩ := b
    cases f with
    | true =>
      refine ⟨Owner.freeBlock i a, (hf i a).2 ⟨hb, hcov⟩, ?_⟩
      intro o ho
      cases o with
      | reserved => exact absurd ho hnr
      | freeBlock i1 a1 =>
        obtain ⟨hb1, hc1⟩ := (hf i1 a1).1 ho
        have e := covers_unique st.g _ hg bs hgeo x _ _ hb1 hb hc1 hcov
        simp only [Blk.mk.injEq, and_true] at e
        rw [e.1, e.2]
      | allocated p =>
        obtain ⟨t, _, hb1, hc1⟩ := (ha p).1 ho
        have e := covers_unique st.g _ hg bs hgeo x _ _ hb1 hb hc1 hcov
        simp at e
    | false =>
      have hsep := (geo_sep st.g _ hg bs hgeo).1 _ hb
      refine ⟨Owner.allocated (a + 16), (ha (a + 16)).2 ⟨i, by omega, ?_, ?_⟩, ?_⟩
      · rw [Nat.add_sub_cancel]; exact hb
      · rw [Nat.add_sub_cancel]; exact hcov
      intro o ho
      cases o with
      | reserved => exact absurd ho hnr
      | freeBlock i1 a1 =>
        obtain ⟨hb1, hc1⟩ := (hf i1 a1).1 ho
        have e := covers_unique st.g _ hg bs hgeo x _ _ hb1 hb hc1 hcov
        simp at e
      | allocated p =>
        obtain ⟨t, h16, hb1, hc1⟩ := (ha p).1 ho
        have e := covers_unique st.g _ hg bs hgeo x _ _ hb1 hb hc1 hcov
        simp only [Blk.mk.injEq, and_true] at e
        have : p = a + 16 := by omega
        rw [this]

set_option maxRecDepth 100000 in
/-- C5 at a concrete input: after `init_allocator(128, 512 * 1024)`, two calls
`my_malloc(1024)`, which return arena offsets 2064 and 6160, and `my_free` of
the first pointer, the byte at arena offset 7000 has exactly one owner. -/
theorem arena_byte_has_one_owner_witness :
    Reachable arenaBase zeroMem 128 524288 0
      (afterFree (afterMalloc (afterMalloc initState 1024) 1024) (arenaBase + 2064))
      ([arenaBase + 6160, arenaBase + 2064].erase (arenaBase + 2064)) ∧
    arenaBase ≤ arenaBase + 7000 ∧ arenaBase + 7000 < arenaBase + 524288 - 0 ∧
    ∃! o : Owner, Owns
      (afterFree (afterMalloc (afterMalloc initState 1024) 1024) (arenaBase + 2064))
      ([arenaBase + 6160, arenaBase + 2064].erase (arenaBase + 2064)) (arenaBase + 7000) o :=
  ⟨Reachable.free 64 _ _ (arenaBase + 2064) _ 1
      (Reachable.malloc 64 _ _ 1024 _ _
        (Reachable.malloc 64 initState [] 1024 _ _
          (Reachable.init 64 initState 524288 initOK_scenario initState_eq)
          (afterMalloc_eq initState 1024 (arenaBase + 2064) (by decide)) (by decide))
        (afterMalloc_eq (afterMalloc initState 1024) 1024 (arenaBase + 6160) (by decide))
        (by decide))
      (by decide)
      (afterFree_eq (afterMalloc (afterMalloc initState 1024) 1024) (arenaBase + 2064) 1
        (by decide)),
    by decide, by decide,
    arena_byte_has_one_owner arenaBase zeroMem 128 524288 0 _ _
      (Reachable.free 64 _ _ (arenaBase + 2064) _ 1
        (Reachable.malloc 64 _ _ 1024 _ _
          (Reachable.malloc 64 initState [] 1024 _ _
            (Reachable.init 64 initState 524288 initOK_scenario initState_eq)
            (afterMalloc_eq initState 1024 (arenaBase + 2064) (by decide)) (by decide))
          (afterMalloc_eq (afterMalloc initState 1024) 1024 (arenaBase + 6160) (by decide))
          (by decide))
        (by decide)
        (afterFree_eq (afterMalloc (afterMalloc initState 1024) 1024) (arenaBase + 2064) 1
          (by decide)))
      (arenaBase + 7000) (by decide) (by decide)⟩

/-- C7: in every state reached from a successful `init_allocator` by calls of
`my_malloc` and by calls of `my_free` on live pointers, a call `my_malloc(n)`
that returns null leaves the state exactly as it was: the globals and every
byte of memory, hence every bucket head, every chained free-block record and
every allocated header. -/
theorem my_malloc_null_keeps_state (A : Nat) (m0 : Mem) (B L lo : Nat) (st : State)
    (live : List Nat) (h : Reachable A m0 B L lo st live) (fuel n : Nat) (st1 : State)
    (hm : my_malloc fuel st n = some (st1, 0)) : st1 = st :=
  (my_malloc_inv _ fuel st live n st1 0 (reachable_inv A m0 B L lo st live h) hm).1 rfl

set_option maxRecDepth 100000 in
/-- C7 at a concrete input: after `init_allocator(128, 512 * 1024)` and one
`my_malloc(100000)`, a second `my_malloc(100000)` returns null although
bucket 11 still holds a free block, and the state is unchanged. -/
theorem my_malloc_null_keeps_state_witness :
    Reachable arenaBase zeroMem 128 524288 0 (afterMalloc initState 100000)
      [arenaBase + 131088] ∧
    my_malloc 64 (afterMalloc initState 100000) 100000
      = some (afterMalloc (afterMalloc initState 100000) 100000, 0) ∧
    containsFreeSpaceAtAdjustedIndex (afterMalloc initState 100000).g
      (afterMalloc initState 100000).mem 11 = some true ∧
    afterMalloc (afterMalloc initState 100000) 100000 = afterMalloc initState 100000 :=
  ⟨Reachable.malloc 64 initState [] 100000 _ _
      (Reachable.init 64 initState 524288 initOK_scenario initState_eq)
      (afterMalloc_eq initState 100000 (arenaBase + 131088) (by decide)) (by decide),
    afterMalloc_eq (afterMalloc initState 100000) 100000 0 (by decide),
    by decide,
    my_malloc_null_keeps_state arenaBase zeroMem 128 524288 0 _ _
      (Reachable.malloc 64 initState [] 100000 _ _
        (Reachable.init 64 initState 524288 initOK_scenario initState_eq)
        (afterMalloc_eq initState 100000 (arenaBase + 131088) (by decide)) (by decide))
      64 100000 _ (afterMalloc_eq (afterMalloc initState 100000) 100000 0 (by decide))⟩

/-! ## Claims about `my_free(0)`, `init_allocator` and the index arithmetic -/

set_option maxRecDepth 100000 in
/-- C11 (defect in the code): right after `init_allocator(128, 512 * 1024)` on
zeroed memory, `my_free(0)` is not a no-op.  `memoryHeaderForAddress` computes
the header `0 - 16 = 2 ^ 64 - 16`, which is not null, and reads its
`memoryStart` at `2 ^ 64 - 8`; that word is 0, equal to the address, so the
header is accepted and `2 ^ 64 - 16` is put on the free list of bucket 0.  With
another value in that word the header is rejected. -/
theorem my_free_null_reads_header :
    readAddress initState.mem (getFirstFreestoreBlockAtAdjustedIndex initState.g 0) = some 0 ∧
    memoryHeaderForAddress initState.g initState.mem 0 = some (2 ^ 64 - 16) ∧
    (my_free 64 initState 0).map (fun r => r.2) = some 1 ∧
    readAddress (afterFree initState 0).mem
      (getFirstFreestoreBlockAtAdjustedIndex initState.g 0) = some (2 ^ 64 - 16) ∧
    memoryHeaderForAddress initState.g (store initState.mem (2 ^ 64 - 8) 1) 0 = some 0 := by
  decide

set_option maxRecDepth 100000 in
/-- C13 (defect in the code): for `B = 128` and `L = 200` the bucket range is
`kmax - kmin = 0`, `initFreestoreHeader` fails (the recorded arena base is
null), and `init_allocator` still returns `L = 200`. -/
theorem init_allocator_empty_range_returns_length :
    (init_allocator 64 arenaBase zeroMem 128 200).map
      (fun r => (r.2.1, r.1.g._minFreestoreIndex, r.1.g._maxFreestoreIndex,
        r.1.g._freestoreRange, r.1.g._freestoreAddress))
      = some (200, 0, 0, 0, 0) := by
  decide

set_option maxRecDepth 100000 in
/-- C16 fails as stated: after `init_allocator(128, 512 * 1024)` and one
`my_malloc(100000)`, the request `n = 100000` has `n + header_size ≤ size_of(R)`
and bucket `t = 10`, bucket `R = 11` holds a free block, and `my_malloc(n)`
returns null. -/
theorem my_malloc_null_with_free_block_above :
    (my_malloc 64 initState 100000).map (fun r => r.2) = some (arenaBase + 131088) ∧
    100000 + initState.g._headerSize
      ≤ getSizeForAdjustedFreestoreIndex initState.g initState.g._freestoreRange ∧
    getAdjustedFreestoreIndexForSize initState.g (100000 + initState.g._headerSize) = 10 ∧
    initState.g._freestoreRange = 11 ∧
    containsFreeSpaceAtAdjustedIndex (afterMalloc initState 100000).g
      (afterMalloc initState 100000).mem 11 = some true ∧
    (my_malloc 64 (afterMalloc initState 100000) 100000).map (fun r => r.2) = some 0 := by
  decide

/-- C16 as amended: in every state reached from a successful `init_allocator`
and for every `n` with `n + header_size ≤ size_of(R)`, with
`t = bucket_of(n + header_size)`: `t ≤ R`, `my_malloc(n)` returns (with enough
fuel), and it returns non-null exactly if bucket `t` holds a free block or some
bucket `j` with `t < j < R` does.  A nonempty bucket `t` gives its last block;
otherwise the block is split down from the smallest nonempty bucket `j` above
`t`, `j < R`.  A free block of bucket `R` is never split: when the buckets
`t .. R - 1` are empty `my_malloc` returns null. -/
theorem my_malloc_serves_below_top (A : Nat) (m0 : Mem) (B L lo : Nat) (st : State)
    (live : List Nat) (h : Reachable A m0 B L lo st live) (n : Nat)
    (hn : n + st.g._headerSize
      ≤ getSizeForAdjustedFreestoreIndex st.g st.g._freestoreRange) :
    getAdjustedFreestoreIndexForSize st.g (n + st.g._headerSize) ≤ st.g._freestoreRange ∧
    (∀ f, L + 36 ≤ f → ∃ st1 p, my_malloc f st n = some (st1, p)) ∧
    (∀ f st1 p, my_malloc f st n = some (st1, p) →
      (p ≠ 0 ↔
        (containsFreeSpaceAtAdjustedIndex st.g st.mem
            (getAdjustedFreestoreIndexForSize st.g (n + st.g._headerSize)) = some true ∨
          ∃ j, getAdjustedFreestoreIndexForSize st.g (n + st.g._headerSize) < j ∧
            j < st.g._freestoreRange ∧
            containsFreeSpaceAtAdjustedIndex st.g st.mem j = some true))) ∧
    (∀ l, BucketRep st.mem (getFirstFreestoreBlockAtAdjustedIndex st.g
        (getAdjustedFreestoreIndexForSize st.g (n + st.g._headerSize))) l → l ≠ [] →
      ∀ f, L + 36 ≤ f → ∃ st1, my_malloc f st n = some (st1, lastOr l 0 + st.g._headerSize)) ∧
    (∀ j lj, getAdjustedFreestoreIndexForSize st.g (n + st.g._headerSize) < j →
      j < st.g._freestoreRange →
      (∀ k, getAdjustedFreestoreIndexForSize st.g (n + st.g._headerSize) ≤ k → k < j →
        BucketRep st.mem (getFirstFreestoreBlockAtAdjustedIndex st.g k) []) →
      BucketRep st.mem (getFirstFreestoreBlockAtAdjustedIndex st.g j) lj → lj ≠ [] →
      ∀ f, L + 36 ≤ f → ∃ st1, my_malloc f st n = some (st1,
        lastOr lj 0 + getSizeForAdjustedFreestoreIndex st.g j
          - getSizeForAdjustedFreestoreIndex st.g
            (getAdjustedFreestoreIndexForSize st.g (n + st.g._headerSize))
          + st.g._headerSize)) := by
  obtain ⟨hL, hR⟩ := reachable_fuel A m0 B L lo st live h
  obtain ⟨hg, bs, hgeo, hrep, _, _, hord⟩ := reachable_inv2 A m0 B L lo st live h
  have hp := reachable_params A m0 B L lo st live h
  have hh := hg.hdr
  have htop := sz_top st.g A B L hp
  have hL32 := hp.L32
  rw [hh] at hn ⊢
  have hn32 : n + 16 < 2 ^ 32 := by omega
  have hadd : uintAdd n 16 = n + 16 := Nat.mod_eq_of_lt hn32
  have hB1 : 1 ≤ st.g._basic_block_size := by rw [hp.hB]; exact hp.B1
  have hminsz : st.g._minFreestoreIndexMemorySize
      = 2 ^ st.g._minFreestoreIndex * st.g._basic_block_size := by rw [hp.hB]; exact hp.hminsz
  have htR : getAdjustedFreestoreIndexForSize st.g (n + 16) ≤ st.g._freestoreRange := by
    apply (adjusted_index_least st.g hB1 hminsz (n + 16) hn32).2
    have hs := sz_eq st.g A B L hp st.g._freestoreRange (sz_lt st.g A B L hp _ (le_refl _))
    rw [hp.hB, Nat.add_comm st.g._freestoreRange, ← hs]
    exact hn
  have hbucket : ∀ k lk, k ≤ st.g._freestoreRange →
      BucketRep st.mem (getFirstFreestoreBlockAtAdjustedIndex st.g k) lk →
      lk = bucketOf bs k := by
    intro k lk hk hlk
    have hbk := hrep.1 k hk
    rw [← (head_ptr st.g _ hg k hk).1] at hbk
    exact bucketRep_unique _ _ _ _ hlk hbk
  have hcfs : ∀ k, k ≤ st.g._freestoreRange →
      (containsFreeSpaceAtAdjustedIndex st.g st.mem k = some true ↔ bucketOf bs k ≠ []) := by
    intro k hk
    rw [g_containsFreeSpace_some st.g _ bs st.mem k hg hrep hk]
    simp
  refine ⟨htR, ?_, ?_, ?_, ?_⟩
  · intro f hf
    obtain ⟨⟨st1, p⟩, h1⟩ := my_malloc_model_some _ f st n bs hg hgeo hrep (by omega)
    exact ⟨st1, p, h1⟩
  · intro f st1 p h1
    obtain ⟨_, hiff, _, _⟩ := my_malloc_model _ f st n bs st1 p hg hgeo hrep hord h1
    rw [hadd] at hiff
    rw [hiff, hcfs _ htR]
    unfold Servable
    constructor
    · rintro ⟨_, h2 | ⟨j, hj1, hj2, hj3⟩⟩
      · exact Or.inl h2
      · exact Or.inr ⟨j, hj1, hj2, (hcfs j (by omega)).2 hj3⟩
    · rintro (h2 | ⟨j, hj1, hj2, hj3⟩)
      · exact ⟨htR, Or.inl h2⟩
      · exact ⟨htR, Or.inr ⟨j, hj1, hj2, (hcfs j (by omega)).1 hj3⟩⟩
  · intro l hl hne f hf
    have hlb := hbucket _ l htR hl
    subst hlb
    obtain ⟨st1, h1, _⟩ := my_malloc_last_model _ st bs n hg hgeo hrep
      (by rw [hh, hadd]; exact hne) f (by omega)
    rw [hh, hadd] at h1
    exact ⟨st1, h1⟩
  · intro j lj htj hjR hemp hlj hne f hf
    have hljb := hbucket j lj (by omega) hlj
    subst hljb
    obtain ⟨st1, h1, _⟩ := my_malloc_split_model _ st bs n _ j _ hg hgeo hrep
      (by rw [hh, hadd]) htj hjR
      (fun k hk1 hk2 => (hbucket k [] (by omega) (hemp k hk1 hk2)).symm) hne rfl f (by omega)
    exact ⟨st1, h1⟩

set_option maxRecDepth 100000 in
/-- C16 as amended, at the input of the counterexample: after
`init_allocator(128, 512 * 1024)` and one `my_malloc(100000)` the next
`my_malloc(100000)` has target bucket 10 and returns null, and indeed neither
bucket 10 nor a bucket strictly between 10 and `R = 11` holds a free block. -/
theorem my_malloc_serves_below_top_witness :
    100000 + (afterMalloc initState 100000).g._headerSize
      ≤ getSizeForAdjustedFreestoreIndex (afterMalloc initState 100000).g
        (afterMalloc initState 100000).g._freestoreRange ∧
    ((0 : Nat) ≠ 0 ↔
      (containsFreeSpaceAtAdjustedIndex (afterMalloc initState 100000).g
          (afterMalloc initState 100000).mem
          (getAdjustedFreestoreIndexForSize (afterMalloc initState 100000).g
            (100000 + (afterMalloc initState 100000).g._headerSize)) = some true ∨
        ∃ j, getAdjustedFreestoreIndexForSize (afterMalloc initState 100000).g
            (100000 + (afterMalloc initState 100000).g._headerSize) < j ∧
          j < (afterMalloc initState 100000).g._freestoreRange ∧
          containsFreeSpaceAtAdjustedIndex (afterMalloc initState 100000).g
            (afterMalloc initState 100000).mem j = some true)) :=
  ⟨by decide,
    (my_malloc_serves_below_top arenaBase zeroMem 128 524288 0 (afterMalloc initState 100000)
      [arenaBase + 131088]
      (Reachable.malloc 64 initState [] 100000 _ _
        (Reachable.init 64 initState 524288 initOK_scenario initState_eq)
        (afterMalloc_eq initState 100000 (arenaBase + 131088) (by decide)) (by decide))
      100000 (by decide)).2.2.1 64 (afterMalloc (afterMalloc initState 100000) 100000) 0
      (afterMalloc_eq (afterMalloc initState 100000) 100000 0 (by decide))⟩

/-- C18: in every configuration with `B ≥ 1` whose smallest block size is
`2 ^ kmin * B`, and for every size `n < 2 ^ 32`,
`getAdjustedFreestoreIndexForSize(n)` is the smallest adjusted index `i ≥ 0`
with `2 ^ (i + kmin) * B ≥ n`, and that bound is
`getSizeForAdjustedFreestoreIndex(i)` whenever it is below `2 ^ 32`; in
particular `bucket_of(size_of(i)) = i` for every `i` with `size_of(i) < 2 ^ 32`. -/
theorem getAdjustedFreestoreIndexForSize_least (g : Globals) (hB : 1 ≤ g._basic_block_size)
    (hmin : g._minFreestoreIndexMemorySize
      = 2 ^ g._minFreestoreIndex * g._basic_block_size) :
    (∀ n, n < 2 ^ 32 →
      n ≤ 2 ^ (getAdjustedFreestoreIndexForSize g n + g._minFreestoreIndex)
        * g._basic_block_size ∧
      (∀ i, n ≤ 2 ^ (i + g._minFreestoreIndex) * g._basic_block_size →
        getAdjustedFreestoreIndexForSize g n ≤ i) ∧
      (2 ^ (getAdjustedFreestoreIndexForSize g n + g._minFreestoreIndex)
          * g._basic_block_size < 2 ^ 32 →
        getSizeForAdjustedFreestoreIndex g (getAdjustedFreestoreIndexForSize g n)
          = 2 ^ (getAdjustedFreestoreIndexForSize g n + g._minFreestoreIndex)
            * g._basic_block_size)) ∧
    (∀ i, 2 ^ (i + g._minFreestoreIndex) * g._basic_block_size < 2 ^ 32 →
      getSizeForAdjustedFreestoreIndex g i
        = 2 ^ (i + g._minFreestoreIndex) * g._basic_block_size ∧
      getAdjustedFreestoreIndexForSize g (getSizeForAdjustedFreestoreIndex g i) = i) := by
  constructor
  · intro n hn
    obtain ⟨h1, h2⟩ := adjusted_index_least g hB hmin n hn
    exact ⟨h1, h2, adjusted_size_formula g hB _⟩
  · intro i hi
    have hsz := adjusted_size_formula g hB i hi
    refine ⟨hsz, ?_⟩
    rw [hsz]
    obtain ⟨h1, h2⟩ := adjusted_index_least g hB hmin
      (2 ^ (i + g._minFreestoreIndex) * g._basic_block_size) hi
    have hle := h2 i (le_refl _)
    by_contra hne
    have hlt : getAdjustedFreestoreIndexForSize g
        (2 ^ (i + g._minFreestoreIndex) * g._basic_block_size) + 1 ≤ i := by omega
    have hmono := pow_mul_mono g._basic_block_size _ _
      (by omega : getAdjustedFreestoreIndexForSize g
        (2 ^ (i + g._minFreestoreIndex) * g._basic_block_size) + g._minFreestoreIndex + 1
          ≤ i + g._minFreestoreIndex)
    rw [pow_mul_succ] at hmono
    have hpos : 0 < 2 ^ (getAdjustedFreestoreIndexForSize g
        (2 ^ (i + g._minFreestoreIndex) * g._basic_block_size) + g._minFreestoreIndex)
          * g._basic_block_size := by positivity
    omega

set_option maxRecDepth 100000 in
/-- C18 at a concrete input: the configuration after
`init_allocator(128, 512 * 1024)`. -/
theorem getAdjustedFreestoreIndexForSize_least_witness :
    1 ≤ initState.g._basic_block_size ∧
    initState.g._minFreestoreIndexMemorySize
      = 2 ^ initState.g._minFreestoreIndex * initState.g._basic_block_size ∧
    ((∀ n, n < 2 ^ 32 →
      n ≤ 2 ^ (getAdjustedFreestoreIndexForSize initState.g n + initState.g._minFreestoreIndex)
        * initState.g._basic_block_size ∧
      (∀ i, n ≤ 2 ^ (i + initState.g._minFreestoreIndex) * initState.g._basic_block_size →
        getAdjustedFreestoreIndexForSize initState.g n ≤ i) ∧
      (2 ^ (getAdjustedFreestoreIndexForSize initState.g n + initState.g._minFreestoreIndex)
          * initState.g._basic_block_size < 2 ^ 32 →
        getSizeForAdjustedFreestoreIndex initState.g
            (getAdjustedFreestoreIndexForSize initState.g n)
          = 2 ^ (getAdjustedFreestoreIndexForSize initState.g n
              + initState.g._minFreestoreIndex) * initState.g._basic_block_size)) ∧
    (∀ i, 2 ^ (i + initState.g._minFreestoreIndex) * initState.g._basic_block_size < 2 ^ 32 →
      getSizeForAdjustedFreestoreIndex initState.g i
        = 2 ^ (i + initState.g._minFreestoreIndex) * initState.g._basic_block_size ∧
      getAdjustedFreestoreIndexForSize initState.g
        (getSizeForAdjustedFreestoreIndex initState.g i) = i)) :=
  ⟨by decide, by decide,
    getAdjustedFreestoreIndexForSize_least initState.g (by decide) (by decide)⟩

set_option maxRecDepth 100000 in
/-- Source function `getAdjustedMinFreestoreIndexForRequestedSize` at a
request of 0 bytes, which no call of the program passes: in the configuration
after `init_allocator(16, 4096)`, where `kmin = 1` and the smallest block size
is 32, the result is `0 - 1 = 4294967295` in `unsigned int`, while
`getAdjustedFreestoreIndexForSize(0 + header_size)` is 0. -/
theorem min_index_for_zero_request_wraps :
    (init_allocator 64 arenaBase zeroMem 16 4096).map
      (fun r => (r.2.1, r.1.g._freestoreAddress, r.1.g._minFreestoreIndex,
        r.1.g._freestoreRange,
        getAdjustedMinFreestoreIndexForRequestedSize r.1.g 0,
        getAdjustedFreestoreIndexForSize r.1.g (0 + r.1.g._headerSize)))
      = some (4096, arenaBase, 1, 6, 4294967295, 0) := by
  decide

/-- C20: for every `B` with `1 ≤ B < 2 ^ 32` (an `unsigned int`) and every
header size `h ≤ 2 ^ 31`, in particular the header size 16 that the one call
in `init_allocator` passes, called as there with the global
`_basic_block_size` already set to `B`: `minFreestoreIndexForSize(B, h)` is
the smallest `k` with `2 ^ k * B > h`, that is with `2 ^ k * B ≥ h + 1`. -/
theorem minFreestoreIndexForSize_least (g : Globals) (B h : Nat)
    (hB : g._basic_block_size = B) (hB1 : 1 ≤ B) (hB32 : B < 2 ^ 32) (hh : h ≤ 2 ^ 31) :
    h < 2 ^ minFreestoreIndexForSize g B h * B ∧
      ∀ j, h < 2 ^ j * B → minFreestoreIndexForSize g B h ≤ j := by
  unfold minFreestoreIndexForSize
  rw [hB]
  by_cases hlt : h > B
  · rw [if_pos hlt]
    have hspec := ceilLog_spec h B hB1 (by omega)
    have hpos : 1 ≤ ceilLog h B := by
      by_contra hcon
      have h0 : ceilLog h B = 0 := by omega
      have := hspec.1
      rw [h0] at this
      omega
    have hlow := hspec.2 (ceilLog h B - 1) (by omega)
    have hstep : 2 ^ ceilLog h B * B = 2 * (2 ^ (ceilLog h B - 1) * B) := by
      have : ceilLog h B = (ceilLog h B - 1) + 1 := by omega
      rw [this, pow_mul_succ]
      simp
    have h32 : 2 ^ ceilLog h B * B < 2 ^ 32 := by omega
    have hc32 := exp_lt_of_pow_mul_lt B _ hB1 h32
    rw [Nat.mod_eq_of_lt (by omega : ceilLog h B < 2 ^ 32)]
    dsimp only
    rw [size_formula g _ (by rw [hB]; exact hB1) (by rw [hB]; exact h32), hB]
    split
    · rename_i hfit
      unfold uintAdd
      rw [Nat.mod_eq_of_lt (by omega), pow_mul_succ]
      refine ⟨by omega, ?_⟩
      intro j hj
      by_contra hcon
      have := pow_mul_mono B j (ceilLog h B) (by omega)
      omega
    · rename_i hfit
      refine ⟨by omega, ?_⟩
      intro j hj
      by_contra hcon
      have := hspec.2 j (by omega)
      omega
  · rw [if_neg hlt]
    dsimp only
    rw [size_formula g 0 (by rw [hB]; exact hB1) (by rw [hB]; simpa using hB32), hB]
    simp only [Nat.pow_zero, Nat.one_mul]
    split
    · rename_i hfit
      unfold uintAdd
      simp only [Nat.zero_add]
      rw [Nat.mod_eq_of_lt (by norm_num)]
      refine ⟨by omega, ?_⟩
      intro j hj
      by_contra hcon
      have hj0 : j = 0 := by omega
      rw [hj0] at hj
      omega
    · simp only [Nat.pow_zero, Nat.one_mul]
      exact ⟨by omega, fun j _ => Nat.zero_le _⟩

/-- C20 at a concrete input: `B = 4` and the header size `h = 16` of the
program. -/
theorem minFreestoreIndexForSize_least_witness :
    (16 : Nat) < 2 ^ minFreestoreIndexForSize
        { Globals.zero with _basic_block_size := 4 } 4 16 * 4 ∧
      ∀ j, 16 < 2 ^ j * 4 →
        minFreestoreIndexForSize { Globals.zero with _basic_block_size := 4 } 4 16 ≤ j :=
  minFreestoreIndexForSize_least { Globals.zero with _basic_block_size := 4 } 4 16 rfl
    (by decide) (by decide) (by decide)

/-- Source function `minFreestoreIndexForSize` at a header size that the
program never passes: for `B = 6` and `h = 3221225473` the product
`2 ^ 30 * 6` wraps around in `unsigned int`, the function returns 31, and
`k = 30` already has `2 ^ 30 * 6 ≥ h + 1`. -/
theorem minFreestoreIndexForSize_wraps :
    minFreestoreIndexForSize { Globals.zero with _basic_block_size := 6 } 6 3221225473 = 31 ∧
    3221225473 + 1 ≤ 2 ^ 30 * 6 := by
  decide

/-! ## Claims about the return value of `init_allocator` and about round trips -/

/-- C12: for every `B` and `L` (arena at `A`, initial memory `m0`):
if `B ≥ L`, `init_allocator(B, L)` returns 0 and sets up nothing: the globals
stay at their start values and the memory is untouched; if `B < L`, every
result of `init_allocator(B, L)` is `L`; and if the freestore can be set up
(`InitOK`), the call returns, with enough fuel, the value `L` and a state in
which the freestore is set up (the state invariant holds with no live
pointer). -/
theorem init_allocator_return_value (A : Nat) (m0 : Mem) (B L : Nat) :
    (L ≤ B → ∀ fuel, init_allocator fuel A m0 B L = some (⟨Globals.zero, m0⟩, 0, 0)) ∧
    (B < L → ∀ fuel st r lo, init_allocator fuel A m0 B L = some (st, r, lo) → r = L) ∧
    (InitOK A B L → ∀ fuel, 2 * L + 4 ≤ fuel →
      ∃ st lo, init_allocator fuel A m0 B L = some (st, L, lo) ∧
        Inv (A + L - lo) st []) := by
  refine ⟨?_, ?_, ?_⟩
  · intro h fuel
    unfold init_allocator
    rw [if_neg (by omega)]
  · intro hBL fuel st r lo h
    unfold init_allocator at h
    rw [if_pos hBL] at h
    obtain ⟨⟨g7, m1, fa, lo1⟩, hinit, h⟩ := bind_some h
    simp only [Option.some.injEq, Prod.mk.injEq] at h
    rw [← h.2.1]
    exact initHeader_length _ _ _ _ _ _ _ _ _ _ hinit
  · intro hok fuel hf
    obtain ⟨⟨st, r, lo⟩, h⟩ := init_some A m0 B L fuel hok hf
    have hr := (init_spec A m0 B L fuel st r lo hok h).1
    rw [hr] at h
    exact ⟨st, lo, h, init_inv A m0 B L fuel st L lo hok h⟩

/-- C12 at concrete inputs: `init_allocator(128, 128)` returns 0 with the
start state, and `init_allocator(128, 512 * 1024)` returns `512 * 1024`. -/
theorem init_allocator_return_value_witness :
    init_allocator 64 arenaBase zeroMem 128 128 = some (⟨Globals.zero, zeroMem⟩, 0, 0) ∧
    (524288 : Nat) = 524288 ∧
    ∃ st lo, init_allocator 1048580 arenaBase zeroMem 128 524288 = some (st, 524288, lo) ∧
      Inv (arenaBase + 524288 - lo) st [] :=
  ⟨(init_allocator_return_value arenaBase zeroMem 128 128).1 (by decide) 64,
    (init_allocator_return_value arenaBase zeroMem 128 524288).2.1 (by decide) 64 initState
      524288 0 initState_eq,
    (init_allocator_return_value arenaBase zeroMem 128 524288).2.2 initOK_scenario 1048580
      (by decide)⟩

/-- C14: in every state reached from a successful `init_allocator` by calls of
`my_malloc` and by calls of `my_free` on live pointers, and for every `n`: if
`my_malloc(n)` returns a non-null `p`, then the following `my_free(p)` returns
(with enough fuel), and after it the next `my_malloc(n)` returns (with enough
fuel) a non-null address, namely `p` again. -/
theorem malloc_free_malloc_round_trip (A : Nat) (m0 : Mem) (B L lo : Nat) (st : State)
    (live : List Nat) (h : Reachable A m0 B L lo st live) (n f1 : Nat) (st1 : State) (p : Nat)
    (h1 : my_malloc f1 st n = some (st1, p)) (hp : p ≠ 0) :
    (∀ f2, L + 36 ≤ f2 → ∃ st2 r, my_free f2 st1 p = some (st2, r)) ∧
    ∀ f2 st2 r, my_free f2 st1 p = some (st2, r) →
      ∀ f3, L + 36 ≤ f3 → ∃ st3 q, my_malloc f3 st2 n = some (st3, q) ∧ q ≠ 0 ∧ q = p := by
  obtain ⟨hL, hR⟩ := reachable_fuel A m0 B L lo st live h
  obtain ⟨hg, bs, hgeo, hrep, _, _, hord⟩ := reachable_inv2 A m0 B L lo st live h
  constructor
  · intro f2 hf2
    have hr1 := Reachable.malloc f1 st live n st1 p h h1 hp
    obtain ⟨hL1, hR1⟩ := reachable_fuel A m0 B L lo st1 _ hr1
    obtain ⟨⟨st2, r⟩, h2⟩ := my_free_some _ f2 st1 (p :: live) p
      (reachable_inv A m0 B L lo st1 _ hr1) (by simp) (by omega)
    exact ⟨st2, r, h2⟩
  · intro f2 st2 r h2 f3 hf3
    obtain ⟨st3, h3⟩ := round_trip_model _ st bs n f1 f2 st1 p st2 r hg hgeo hrep hord h1 hp h2
      f3 (by omega)
    exact ⟨st3, p, h3, hp, rfl⟩

set_option maxRecDepth 100000 in
/-- C14 at a concrete input: after `init_allocator(128, 512 * 1024)`, the call
`my_malloc(1024)` returns the address at offset 2064; after `my_free` of it the
next `my_malloc(1024)` returns the same address. -/
theorem malloc_free_malloc_round_trip_witness :
    my_malloc 64 initState 1024 = some (afterMalloc initState 1024, arenaBase + 2064) ∧
    ∃ st3 q, my_malloc 524324 (afterFree (afterMalloc initState 1024) (arenaBase + 2064)) 1024
      = some (st3, q) ∧ q ≠ 0 ∧ q = arenaBase + 2064 :=
  ⟨afterMalloc_eq initState 1024 (arenaBase + 2064) (by decide),
    (malloc_free_malloc_round_trip arenaBase zeroMem 128 524288 0 initState []
      (Reachable.init 64 initState 524288 initOK_scenario initState_eq) 1024 64
      (afterMalloc initState 1024) (arenaBase + 2064)
      (afterMalloc_eq initState 1024 (arenaBase + 2064) (by decide)) (by decide)).2 64
      (afterFree (afterMalloc initState 1024) (arenaBase + 2064)) 1
      (afterFree_eq (afterMalloc initState 1024) (arenaBase + 2064) 1 (by decide))
      524324 (by decide)⟩

/-- C15: in every state reached from a successful `init_allocator` and for
every `n`, repeated calls `my_malloc(n)` with no `my_free` in between return
null after at most `L` non-null results: `k ≤ L` calls return the non-null
addresses `ps`, the next call returns null, and the loop of `mawTest` returns
(for every bound of at least `k + 1` iterations); every later call of
`my_malloc(n)` returns null and leaves the state as it is, and with enough fuel
it does return. -/
theorem mawTest_exhausts (A : Nat) (m0 : Mem) (B L lo : Nat) (st : State)
    (live : List Nat) (h : Reachable A m0 B L lo st live) (n fuel : Nat)
    (hf : L + 36 ≤ fuel) :
    ∃ k ps st1, k ≤ L ∧ ps.length = k ∧
      mallocRepeat fuel n k st [] = some (st1, ps) ∧ (∀ p ∈ ps, p ≠ 0) ∧
      my_malloc fuel st1 n = some (st1, 0) ∧
      (∀ steps, k + 1 ≤ steps → mawTest fuel steps st n = some (st1, 0)) ∧
      (∀ f st2 q, my_malloc f st1 n = some (st2, q) → q = 0 ∧ st2 = st1) ∧
      (∀ f, L + 36 ≤ f → my_malloc f st1 n = some (st1, 0)) := by
  obtain ⟨k, ps, st1, hk, hlen, hrep, hnz, hnull, hr1, hmaw⟩ :=
    maw_exhausts A m0 B L lo n fuel hf L st live h (by omega)
  have hlater : ∀ f st2 q, my_malloc f st1 n = some (st2, q) → q = 0 ∧ st2 = st1 := by
    intro f st2 q hq
    obtain ⟨hg, bs, hgeo, hrepr, _, _, hord⟩ := reachable_inv2 A m0 B L lo st1 _ hr1
    obtain ⟨_, hsv, _, _⟩ := my_malloc_model _ fuel st1 n bs st1 0 hg hgeo hrepr hord hnull
    obtain ⟨_, hsv2, h0, _⟩ := my_malloc_model _ f st1 n bs st2 q hg hgeo hrepr hord hq
    have hq0 : q = 0 := by
      by_contra e
      exact absurd rfl (hsv.2 (hsv2.1 e))
    exact ⟨hq0, h0 hq0⟩
  refine ⟨k, ps, st1, hk, hlen, ?_, hnz, hnull, ?_, hlater, ?_⟩
  · have := hrep []
    simpa using this
  · intro steps hs
    exact mawTest_eq fuel steps st n st1 (hmaw steps hs)
  · intro f hf2
    obtain ⟨hL1, hR1⟩ := reachable_fuel A m0 B L lo st1 _ hr1
    obtain ⟨⟨st2, q⟩, hq⟩ := my_malloc_some _ f st1 _ n (reachable_inv A m0 B L lo st1 _ hr1)
      (by omega)
    obtain ⟨e1, e2⟩ := hlater f st2 q hq
    rw [hq, e1, e2]

/-- C15 at a concrete input: the state after `init_allocator(128, 512 * 1024)`
and requests of 100000 bytes. -/
theorem mawTest_exhausts_witness :
    (524288 + 36 ≤ 524324) ∧
    ∃ k ps st1, k ≤ 524288 ∧ ps.length = k ∧
      mallocRepeat 524324 100000 k initState [] = some (st1, ps) ∧ (∀ p ∈ ps, p ≠ 0) ∧
      my_malloc 524324 st1 100000 = some (st1, 0) ∧
      (∀ steps, k + 1 ≤ steps → mawTest 524324 steps initState 100000 = some (st1, 0)) ∧
      (∀ f st2 q, my_malloc f st1 100000 = some (st2, q) → q = 0 ∧ st2 = st1) ∧
      (∀ f, 524288 + 36 ≤ f → my_malloc f st1 100000 = some (st1, 0)) :=
  ⟨by decide, mawTest_exhausts arenaBase zeroMem 128 524288 0 initState []
    (Reachable.init 64 initState 524288 initOK_scenario initState_eq) 100000 524324
    (by decide)⟩

/-- C17: in every state reached from a successful `init_allocator` in which
`my_malloc(n)` returns null, and for every live pointer `p` that a call
`my_malloc(n)` with the same `n` returned: `my_free(p)` returns, the next
`my_malloc(n)` returns `p` (non-null), and the `my_malloc(n)` after that
returns null and leaves the state as it is (each with enough fuel). -/
theorem one_free_restores_one_malloc (A : Nat) (m0 : Mem) (B L lo : Nat) (st : State)
    (live : List (Nat × Nat)) (h : ReachableBy A m0 B L lo st live) (n f0 : Nat)
    (st0 : State) (h0 : my_malloc f0 st n = some (st0, 0)) (p : Nat) (hp : (p, n) ∈ live)
    (fa fb fc : Nat) (hfa : L + 36 ≤ fa) (hfb : L + 36 ≤ fb) (hfc : L + 36 ≤ fc) :
    ∃ st1 r st2, my_free fa st p = some (st1, r) ∧
      my_malloc fb st1 n = some (st2, p) ∧ p ≠ 0 ∧
      my_malloc fc st2 n = some (st2, 0) := by
  obtain ⟨hL, hR⟩ := reachable_fuel A m0 B L lo st _ (reachableBy_reachable A m0 B L lo st live h)
  obtain ⟨hg, bs, hgeo, hrep, hord, htag⟩ := reachableBy_model A m0 B L lo st live h
  obtain ⟨b0, hb0, hin⟩ := htag (p, n) hp
  simp only at hb0 hin
  obtain ⟨st1, r, st2, i1, i2, i3⟩ := one_free_model _ st bs n f0 st0 b0 hg hgeo hrep hord h0
    hin fa fb fc (by omega) (by omega) (by omega)
  rw [← hb0] at i1 i2
  exact ⟨st1, r, st2, i1, i2, by omega, i3⟩

set_option maxRecDepth 100000 in
/-- C17 at a concrete input: after `init_allocator(128, 512 * 1024)` and one
`my_malloc(100000)`, which returns the address at offset 131088, a second
`my_malloc(100000)` returns null; after `my_free` of the live pointer one
`my_malloc(100000)` succeeds and the next returns null. -/
theorem one_free_restores_one_malloc_witness :
    my_malloc 64 initState 100000
      = some (afterMalloc initState 100000, arenaBase + 131088) ∧
    my_malloc 64 (afterMalloc initState 100000) 100000
      = some (afterMalloc (afterMalloc initState 100000) 100000, 0) ∧
    ∃ st1 r st2, my_free 524324 (afterMalloc initState 100000) (arenaBase + 131088)
        = some (st1, r) ∧
      my_malloc 524324 st1 100000 = some (st2, arenaBase + 131088) ∧
      arenaBase + 131088 ≠ 0 ∧
      my_malloc 524324 st2 100000 = some (st2, 0) :=
  ⟨afterMalloc_eq initState 100000 (arenaBase + 131088) (by decide),
    afterMalloc_eq (afterMalloc initState 100000) 100000 0 (by decide),
    one_free_restores_one_malloc arenaBase zeroMem 128 524288 0
      (afterMalloc initState 100000) [(arenaBase + 131088, 100000)]
      (ReachableBy.malloc 64 initState [] 100000 _ _
        (ReachableBy.init 64 initState 524288 initOK_scenario initState_eq)
        (afterMalloc_eq initState 100000 (arenaBase + 131088) (by decide)) (by decide))
      100000 64 _ (afterMalloc_eq (afterMalloc initState 100000) 100000 0 (by decide))
      (arenaBase + 131088) (List.mem_singleton.2 rfl) 524324 524324 524324
      (by decide) (by decide) (by decide)⟩

/-! ## Claims about the index bounds, the initial layout and the store operations -/

/-- C21: for every `B ≥ 1` and every `L` with `header_size + B < L` (an
`unsigned int`, so `L < 2 ^ 32`), with the global `_basic_block_size` equal to
`B` as at the call in `init_allocator`: `maxFreestoreIndexForSize(B, L,
header_size)` is the largest `k` with `2 ^ k * B ≤ L - header_size`. -/
theorem maxFreestoreIndexForSize_largest (g : Globals) (B L h : Nat)
    (hB : g._basic_block_size = B) (hB1 : 1 ≤ B) (hL : h + B < L) (hL32 : L < 2 ^ 32) :
    2 ^ maxFreestoreIndexForSize g B L h * B ≤ L - h ∧
      ∀ j, 2 ^ j * B ≤ L - h → j ≤ maxFreestoreIndexForSize g B L h := by
  unfold maxFreestoreIndexForSize
  rw [uintSub_exact L h (by omega) hL32, hB]
  obtain ⟨h64, hle, hmax⟩ := floorLog_spec (L - h) B hB1 (by omega)
  rw [Nat.mod_eq_of_lt (by omega)]
  constructor
  · by_cases h0 : floorLog (L - h) B = 0
    · rw [h0]; simp only [Nat.pow_zero, Nat.one_mul]; omega
    · exact hle (by omega)
  · intro j hj
    by_contra hcon
    have := hmax j (by omega)
    omega

/-- C21 at a concrete input: `B = 128`, `L = 512 * 1024`, header size 16;
the result is 11. -/
theorem maxFreestoreIndexForSize_largest_witness :
    maxFreestoreIndexForSize { Globals.zero with _basic_block_size := 128 } 128 524288 16 = 11 ∧
    2 ^ maxFreestoreIndexForSize { Globals.zero with _basic_block_size := 128 } 128 524288 16
        * 128 ≤ 524288 - 16 ∧
      ∀ j, 2 ^ j * 128 ≤ 524288 - 16 →
        j ≤ maxFreestoreIndexForSize { Globals.zero with _basic_block_size := 128 } 128
          524288 16 :=
  ⟨by decide, maxFreestoreIndexForSize_largest { Globals.zero with _basic_block_size := 128 }
    128 524288 16 rfl (by decide) (by decide) (by decide)⟩

set_option maxRecDepth 100000 in
/-- C24 (defect in the code): for `B = 128` and `L = 1152` the bucket range is
`R = 3`, the spine covers `[A, A + 1024)`, and the tail is 128 bytes, exactly
`size_of(0)`.  The loop condition `currentLeftoverSpace > minimumIndexSize` is
false, no tail block is published, and the leaked residue is 128 bytes, not
less than `size_of(0) = 128`. -/
theorem tail_residue_equals_smallest_block :
    (init_allocator 64 arenaBase zeroMem 128 1152).map
        (fun r => (r.2.1, r.2.2, r.1.g._freestoreRange,
          getSizeForAdjustedFreestoreIndex r.1.g 0,
          getSizeForAdjustedFreestoreIndex r.1.g r.1.g._freestoreRange))
      = some (1152, 128, 3, 128, 1024) := by
  decide

set_option maxRecDepth 100000 in
/-- C27 (defect in the code): in the configuration after
`init_allocator(128, 512 * 1024)`, for the block of bucket 4 (2048 bytes) at
`b = A + 6144`, where `(b - A) / size_of(4) = 3` is odd,
`getBuddySideForAddress` answers `right` and the buddy address examined is
`b + 2048 = A + 8192`, while `A + ((b - A) XOR size_of(4)) = A + 4096`. -/
theorem buddy_of_odd_block_is_right_neighbour :
    getSizeForAdjustedFreestoreIndex initState.g 4 = 2048 ∧
    initState.g._freestoreAddress = arenaBase ∧
    (arenaBase + 6144 - arenaBase) / 2048 % 2 = 1 ∧
    getBuddySideForAddress initState.g 4 (arenaBase + 6144) = side.right ∧
    getContiguousAddressAtSide initState.g 4 (arenaBase + 6144)
      (getBuddySideForAddress initState.g 4 (arenaBase + 6144)) = arenaBase + 8192 ∧
    arenaBase + Nat.xor (arenaBase + 6144 - arenaBase) 2048 = arenaBase + 4096 := by
  decide

set_option maxRecDepth 100000 in
/-- Source function `addAddressToFreestoreForAdjustedIndex` checks nothing
about the address: in the state after `init_allocator(128, 512 * 1024)`
bucket 0 is empty and bucket 1 holds one block; appending to bucket 1 the
address `A` of the head record of bucket 0, which no call of the program
passes, writes the chained record over that head record, and bucket 0 is no
longer empty. -/
theorem add_of_head_address_changes_other_bucket :
    containsFreeSpaceAtAdjustedIndex initState.g initState.mem 0 = some false ∧
    containsFreeSpaceAtAdjustedIndex initState.g initState.mem 1 = some true ∧
    (addAddressToFreestoreForAdjustedIndex initState.g initState.mem 64 1 arenaBase).map
        (fun r => (r.2, containsFreeSpaceAtAdjustedIndex initState.g r.1 0,
          containsFreestoreBlockAtAdjustedIndexWithAddress initState.g r.1 64 0 arenaBase))
      = some (true, some true, some true) := by
  decide

/-- C22: after every successful `init_allocator` (the bucket range is
`R ≥ 1`), the reserved bucket `s` stored in `_freestoreIndex` has `s ≤ R` and
`size_of(s) ≥ (R + 1) * header_size`, every smaller bucket index `j < s` has
`size_of(j) < (R + 1) * header_size`, and the `R + 1` head records, which
start at `A`, end inside the reserved block `[A, A + size_of(s))`. -/
theorem reserved_bucket_least (A : Nat) (m0 : Mem) (B L fuel : Nat) (st : State) (r lo : Nat)
    (hok : InitOK A B L) (h : init_allocator fuel A m0 B L = some (st, r, lo)) :
    1 ≤ st.g._freestoreRange ∧
    st.g._freestoreIndex ≤ st.g._freestoreRange ∧
    (st.g._freestoreRange + 1) * st.g._headerSize ≤
      getSizeForAdjustedFreestoreIndex st.g st.g._freestoreIndex ∧
    (∀ j, j < st.g._freestoreIndex →
      getSizeForAdjustedFreestoreIndex st.g j < (st.g._freestoreRange + 1) * st.g._headerSize) ∧
    st.g._freestoreAddress = A ∧
    getFirstFreestoreBlockAtAdjustedIndex st.g st.g._freestoreRange + sizeofFreestoreBlock ≤
      A + getSizeForAdjustedFreestoreIndex st.g st.g._freestoreIndex := by
  obtain ⟨_, hp, hs, _, _⟩ := init_spec A m0 B L fuel st r lo hok h
  obtain ⟨s1, s2⟩ := storeIndex_spec st.g A B L hp
  have s3 := storeIndex_least st.g A B L hp
  rw [← hs] at s1 s2 s3
  have hR31 : st.g._minFreestoreIndex + st.g._freestoreRange < 32 :=
    exp_lt_of_pow_mul_lt B _ hp.B1 (sz_lt st.g A B L hp _ (le_refl _))
  have hAL := hp.AL
  have hL32 := hp.L32
  have ht := (sz_top st.g A B L hp).1
  have hm := sz_mono st.g A B L hp _ _ s1 (le_refl _)
  refine ⟨hp.R1, s1, by rw [hp.hh]; omega, ?_, hp.hA, ?_⟩
  · intro j hj
    have := s3 j hj
    rw [hp.hh]; omega
  · unfold getFirstFreestoreBlockAtAdjustedIndex sizeofFreestoreBlock
    rw [hp.hA, ptrAdd_exact _ _ (by omega)]
    omega

set_option maxRecDepth 100000 in
/-- C22 at a concrete input: after `init_allocator(128, 512 * 1024)` the range
is `R = 11`, the reserved bucket is `s = 1` with `size_of(1) = 256 ≥ 192`, and
`size_of(0) = 128 < 192`. -/
theorem reserved_bucket_least_witness :
    (initState.g._freestoreRange = 11 ∧ initState.g._freestoreIndex = 1 ∧
      getSizeForAdjustedFreestoreIndex initState.g 1 = 256 ∧
      getSizeForAdjustedFreestoreIndex initState.g 0 = 128) ∧
    (1 ≤ initState.g._freestoreRange ∧
    initState.g._freestoreIndex ≤ initState.g._freestoreRange ∧
    (initState.g._freestoreRange + 1) * initState.g._headerSize ≤
      getSizeForAdjustedFreestoreIndex initState.g initState.g._freestoreIndex ∧
    (∀ j, j < initState.g._freestoreIndex →
      getSizeForAdjustedFreestoreIndex initState.g j <
        (initState.g._freestoreRange + 1) * initState.g._headerSize) ∧
    initState.g._freestoreAddress = arenaBase ∧
    getFirstFreestoreBlockAtAdjustedIndex initState.g initState.g._freestoreRange
        + sizeofFreestoreBlock ≤
      arenaBase + getSizeForAdjustedFreestoreIndex initState.g initState.g._freestoreIndex) :=
  ⟨by decide, reserved_bucket_least arenaBase zeroMem 128 524288 64 initState 524288 0
    initOK_scenario initState_eq⟩

/-- C26: in every well-formed state in which the target bucket `t ≤ R` of a
request of `n` bytes holds the nonempty list `l`, `my_malloc(n)` returns (with
enough fuel) the address of the last block of `l` plus `header_size`;
afterwards bucket `t` holds `l` without its last element and every other
bucket holds the list it held before. -/
theorem my_malloc_takes_last_block (st : State) (n : Nat) (l : List Nat)
    (hwf : WellFormed st.g st.mem)
    (ht : getAdjustedFreestoreIndexForSize st.g (uintAdd n st.g._headerSize)
      ≤ st.g._freestoreRange)
    (hl : BucketRep st.mem (getFirstFreestoreBlockAtAdjustedIndex st.g
      (getAdjustedFreestoreIndexForSize st.g (uintAdd n st.g._headerSize))) l)
    (hne : l ≠ []) (fuel : Nat) (hf : st.g._length + st.g._freestoreRange + 4 ≤ fuel) :
    ∃ st1, my_malloc fuel st n = some (st1, lastOr l 0 + st.g._headerSize) ∧
      st1.g = st.g ∧
      BucketRep st1.mem (getFirstFreestoreBlockAtAdjustedIndex st.g
        (getAdjustedFreestoreIndexForSize st.g (uintAdd n st.g._headerSize))) l.dropLast ∧
      ∀ k lk, k ≤ st.g._freestoreRange →
        k ≠ getAdjustedFreestoreIndexForSize st.g (uintAdd n st.g._headerSize) →
        BucketRep st.mem (getFirstFreestoreBlockAtAdjustedIndex st.g k) lk →
        BucketRep st1.mem (getFirstFreestoreBlockAtAdjustedIndex st.g k) lk := by
  obtain ⟨hi, bs, hg, hgeo, hrep⟩ := hwf
  have hb := hrep.1 _ ht
  rw [← (head_ptr st.g hi hg _ ht).1] at hb
  have hlb := bucketRep_unique _ _ _ _ hl hb
  subst hlb
  obtain ⟨st1, h1, h2, h3, h4⟩ := my_malloc_last_model hi st bs n hg hgeo hrep hne fuel hf
  refine ⟨st1, h1, h2, h3, ?_⟩
  intro k lk hk hkt hlk
  have hbk := hrep.1 k hk
  rw [← (head_ptr st.g hi hg k hk).1] at hbk
  rw [bucketRep_unique _ _ _ _ hlk hbk]
  exact h4 k hk hkt

/-- C28: in every store with well-formed free lists (`ListsFormed`, which holds
in every state the program calls the function in, also inside a split or a
merge), for every bucket `i ≤ R` holding the list `l` and every address `a` as
the program passes it, the base of a block that is on no list (behind the head
array, below `2 ^ 64 - 16`, its 16-byte record overlapping the record of no
block on a free list): `addAddressToFreestoreForAdjustedIndex(i, a)` returns
true (with fuel for the length of `l`), bucket `i` then holds `l` followed by
`a`, so `a` is its last block and
`containsFreestoreBlockAtAdjustedIndexWithAddress(i, a)` holds, and every other
bucket holds the list it held before. -/
theorem add_appends_to_bucket (g : Globals) (m : Mem) (fuel i a : Nat) (l : List Nat)
    (hlf : ListsFormed g m) (hi2 : i ≤ g._freestoreRange)
    (hl : BucketRep m (getFirstFreestoreBlockAtAdjustedIndex g i) l)
    (ha1 : g._freestoreAddress + 16 * (g._freestoreRange + 1) ≤ a) (ha2 : a + 16 < 2 ^ 64)
    (ha3 : ∀ k lk, k ≤ g._freestoreRange →
      BucketRep m (getFirstFreestoreBlockAtAdjustedIndex g k) lk → ∀ b ∈ lk, Apart b a)
    (hf : l.length + 4 ≤ fuel) :
    ∃ m1, addAddressToFreestoreForAdjustedIndex g m fuel i a = some (m1, true) ∧
      BucketRep m1 (getFirstFreestoreBlockAtAdjustedIndex g i) (l ++ [a]) ∧
      lastOr (l ++ [a]) 0 = a ∧
      containsFreestoreBlockAtAdjustedIndexWithAddress g m1 fuel i a = some true ∧
      ∀ k lk, k ≤ g._freestoreRange → k ≠ i →
        BucketRep m (getFirstFreestoreBlockAtAdjustedIndex g k) lk →
        BucketRep m1 (getFirstFreestoreBlockAtAdjustedIndex g k) lk := by
  obtain ⟨hi, bs, hg, hs, hrep⟩ := hlf
  have hfresh : ∀ b ∈ bs.filter (fun b => b.free), Apart b.base a := by
    intro b hb
    obtain ⟨hb1, hb2⟩ := List.mem_filter.1 hb
    have hk := (hs.1 b hb1).2.2
    have hbk := hrep.1 b.idx hk
    rw [← (head_ptr g hi hg _ hk).1] at hbk
    refine ha3 b.idx _ hk hbk b.base ?_
    rw [mem_bucketOf]
    exact ⟨b, hb1, hb2, rfl, rfl⟩
  have hb := hrep.1 i hi2
  rw [← (head_ptr g hi hg i hi2).1] at hb
  have hll := bucketRep_unique _ _ _ _ hl hb
  obtain ⟨m1, h1, h2, h3, h4, h5⟩ := add_lists g hi _ m fuel i a hg (sep_free_only g bs hs)
    (rep_free_only g m bs hrep) hi2 ha1 ha2 hfresh (by rw [bucketOf_free_only, ← hll]; exact hf)
  rw [bucketOf_free_only] at h2 h3
  rw [hll]
  refine ⟨m1, h1, h2, h3, h4, ?_⟩
  intro k lk hk hki hlk
  have hbk := hrep.1 k hk
  rw [← (head_ptr g hi hg k hk).1] at hbk
  rw [bucketRep_unique _ _ _ _ hlk hbk]
  have := h5 k hk hki
  rw [bucketOf_free_only] at this
  exact this

/-- C29: in every store with well-formed free lists (`ListsFormed`, which holds
in every state the program calls the function in, also at the second removal of
a merge), for every bucket `i ≤ R` holding the list `l` and every non-null
address `a`: `removeFreestoreBlockAtAdjustedIndexWithAddress(i, a)` returns
(with fuel for the length of `l`), and it returns true exactly if `a` is on
`l`; bucket `i` then holds `l` with `a` erased, the others in their order; if
`a` is not on `l` the memory is unchanged; every other bucket holds the list it
held before. -/
theorem remove_erases_from_bucket (g : Globals) (m : Mem) (fuel i a : Nat) (l : List Nat)
    (hlf : ListsFormed g m) (hi2 : i ≤ g._freestoreRange)
    (hl : BucketRep m (getFirstFreestoreBlockAtAdjustedIndex g i) l)
    (ha : a ≠ 0) (hf : l.length + 3 ≤ fuel) :
    ∃ m1 s, removeFreestoreBlockAtAdjustedIndexWithAddress g m fuel i a = some (m1, s) ∧
      (s = true ↔ a ∈ l) ∧
      BucketRep m1 (getFirstFreestoreBlockAtAdjustedIndex g i) (l.erase a) ∧
      (a ∉ l → m1 = m) ∧
      ∀ k lk, k ≤ g._freestoreRange → k ≠ i →
        BucketRep m (getFirstFreestoreBlockAtAdjustedIndex g k) lk →
        BucketRep m1 (getFirstFreestoreBlockAtAdjustedIndex g k) lk := by
  obtain ⟨hi, bs, hg, hs, hrep⟩ := hlf
  have hb := hrep.1 i hi2
  rw [← (head_ptr g hi hg i hi2).1] at hb
  have hll := bucketRep_unique _ _ _ _ hl hb
  obtain ⟨m1, s, h1, h2, h3, h4, h5⟩ := remove_lists g hi bs m fuel i a hg hs hrep hi2 ha
    (by rw [← hll]; exact hf)
  rw [hll]
  refine ⟨m1, s, h1, h2, h3, h4, ?_⟩
  intro k lk hk hki hlk
  have hbk := hrep.1 k hk
  rw [← (head_ptr g hi hg k hk).1] at hbk
  rw [bucketRep_unique _ _ _ _ hlk hbk]
  exact h5 k hk hki

set_option maxRecDepth 100000 in
/-- C26 at a concrete input: after `init_allocator(128, 512 * 1024)` the
request of 1024 bytes has target bucket 4, which holds the one block at offset
2048; `my_malloc(1024)` returns offset 2064 and leaves bucket 4 empty. -/
theorem my_malloc_takes_last_block_witness :
    getAdjustedFreestoreIndexForSize initState.g (uintAdd 1024 initState.g._headerSize) = 4 ∧
    ∃ st1, my_malloc 524400 initState 1024
        = some (st1, lastOr [arenaBase + 2048] 0 + initState.g._headerSize) ∧
      st1.g = initState.g ∧
      BucketRep st1.mem (getFirstFreestoreBlockAtAdjustedIndex initState.g
        (getAdjustedFreestoreIndexForSize initState.g (uintAdd 1024 initState.g._headerSize)))
        [arenaBase + 2048].dropLast ∧
      ∀ k lk, k ≤ initState.g._freestoreRange →
        k ≠ getAdjustedFreestoreIndexForSize initState.g
          (uintAdd 1024 initState.g._headerSize) →
        BucketRep initState.mem (getFirstFreestoreBlockAtAdjustedIndex initState.g k) lk →
        BucketRep st1.mem (getFirstFreestoreBlockAtAdjustedIndex initState.g k) lk :=
  ⟨by decide, my_malloc_takes_last_block initState 1024 [arenaBase + 2048]
    (reachable_wellFormed arenaBase zeroMem 128 524288 0 initState []
      (Reachable.init 64 initState 524288 initOK_scenario initState_eq))
    (by decide) (bucketRep_single _ _ _ (by decide) (by decide) (by decide)) (by decide)
    524400 (by decide)⟩

set_option maxRecDepth 100000 in
/-- C28 at a concrete input, a memory in which the program calls the function:
inside the first `my_malloc(100)` after `init_allocator(128, 512 * 1024)` the
split has removed the block at offset 256 from bucket 1 and appended its left
half to bucket 0 (`splitMem`, where the arena is not tiled); appending the
right half at offset 384 makes bucket 0 hold the offsets 256 and 384. -/
theorem add_appends_to_bucket_witness :
    subAddressForAdjustedIndex initState.g (arenaBase + 256) 1 side.right = arenaBase + 384 ∧
    ListsFormed initState.g splitMem ∧
    BucketRep splitMem (getFirstFreestoreBlockAtAdjustedIndex initState.g 0) [arenaBase + 256] ∧
    ∃ m1, addAddressToFreestoreForAdjustedIndex initState.g splitMem 64 0
        (arenaBase + 384) = some (m1, true) ∧
      BucketRep m1 (getFirstFreestoreBlockAtAdjustedIndex initState.g 0)
        ([arenaBase + 256] ++ [arenaBase + 384]) ∧
      lastOr ([arenaBase + 256] ++ [arenaBase + 384]) 0 = arenaBase + 384 ∧
      containsFreestoreBlockAtAdjustedIndexWithAddress initState.g m1 64 0
        (arenaBase + 384) = some true ∧
      ∀ k lk, k ≤ initState.g._freestoreRange → k ≠ 0 →
        BucketRep splitMem (getFirstFreestoreBlockAtAdjustedIndex initState.g k) lk →
        BucketRep m1 (getFirstFreestoreBlockAtAdjustedIndex initState.g k) lk :=
  ⟨by decide, ⟨_, _, splitMem_rep.1, splitMem_rep.2.1, splitMem_rep.2.2⟩, by decide,
    add_appends_to_bucket initState.g splitMem 64 0 (arenaBase + 384) [arenaBase + 256]
      ⟨_, _, splitMem_rep.1, splitMem_rep.2.1, splitMem_rep.2.2⟩
      (by decide) (by decide) (by decide) (by decide)
      (rep_records_apart initState.g _ _ splitMem (arenaBase + 384) splitMem_rep.1
        splitMem_rep.2.2 (by decide))
      (by decide)⟩

set_option maxRecDepth 100000 in
/-- C29 at a concrete input, a memory in which the program calls the function:
inside `my_free(arenaBase + 272)` in `mergeState` the merge has taken the block
at offset 256 off bucket 0 (`mergeMem`, where the arena is not tiled) and
removes its buddy at offset 384, the first of the two blocks of bucket 0; the
bucket keeps the block at offset 768 and the other buckets keep their lists. -/
theorem remove_erases_from_bucket_witness :
    mergeState.g = initState.g ∧
    ListsFormed initState.g mergeMem ∧
    BucketRep mergeMem (getFirstFreestoreBlockAtAdjustedIndex initState.g 0)
      [arenaBase + 384, arenaBase + 768] ∧
    ∃ m1 s, removeFreestoreBlockAtAdjustedIndexWithAddress initState.g mergeMem 64 0
        (arenaBase + 384) = some (m1, s) ∧
      (s = true ↔ arenaBase + 384 ∈ [arenaBase + 384, arenaBase + 768]) ∧
      BucketRep m1 (getFirstFreestoreBlockAtAdjustedIndex initState.g 0)
        ([arenaBase + 384, arenaBase + 768].erase (arenaBase + 384)) ∧
      (arenaBase + 384 ∉ [arenaBase + 384, arenaBase + 768] → m1 = mergeMem) ∧
      ∀ k lk, k ≤ initState.g._freestoreRange → k ≠ 0 →
        BucketRep mergeMem (getFirstFreestoreBlockAtAdjustedIndex initState.g k) lk →
        BucketRep m1 (getFirstFreestoreBlockAtAdjustedIndex initState.g k) lk :=
  ⟨mergeMem_rep.1, ⟨_, _, mergeMem_rep.2.1, mergeMem_rep.2.2.1, mergeMem_rep.2.2.2⟩, by decide,
    remove_erases_from_bucket initState.g mergeMem 64 0 (arenaBase + 384)
      [arenaBase + 384, arenaBase + 768]
      ⟨_, _, mergeMem_rep.2.1, mergeMem_rep.2.2.1, mergeMem_rep.2.2.2⟩
      (by decide) (by decide) (by decide) (by decide)⟩

/-- C23: a successful `init_allocator` passes, between the spine split and the
tail loop of `protectFreestoreHeader`, through a memory `ms` (the result of
`protectSplitLoop` on the reset head array, from which `protectTailLoop`
produces the final memory) in which, with `s = _freestoreIndex` and
`R = _freestoreRange`: for every `j` with `s ≤ j < R` bucket `j` holds exactly
the block `A + size_of(j)`, every bucket below `s` is empty, and every block on
a free list lies at or behind `A + size_of(s)`, so that the reserved block
`[A, A + size_of(s))` is on no free list. -/
theorem spine_split_layout (A : Nat) (m0 : Mem) (B L fuel : Nat) (st : State) (r lo : Nat)
    (hok : InitOK A B L) (h : init_allocator fuel A m0 B L = some (st, r, lo)) :
    ∃ mr ms c, resetFreestore m0 A st.g._freestoreRange = some mr ∧
      protectSplitLoop st.g A st.g._freestoreIndex st.g._freestoreRange mr A = some (ms, c) ∧
      protectTailLoop st.g fuel ms
        (A + getSizeForAdjustedFreestoreIndex st.g st.g._freestoreRange)
        (L - getSizeForAdjustedFreestoreIndex st.g st.g._freestoreRange) = some (st.mem, lo) ∧
      (∀ j, st.g._freestoreIndex ≤ j → j < st.g._freestoreRange →
        BucketRep ms (getFirstFreestoreBlockAtAdjustedIndex st.g j)
          [A + getSizeForAdjustedFreestoreIndex st.g j]) ∧
      (∀ j, j < st.g._freestoreIndex →
        BucketRep ms (getFirstFreestoreBlockAtAdjustedIndex st.g j) []) ∧
      (∀ j l, j ≤ st.g._freestoreRange →
        BucketRep ms (getFirstFreestoreBlockAtAdjustedIndex st.g j) l →
        ∀ a ∈ l, A + getSizeForAdjustedFreestoreIndex st.g st.g._freestoreIndex ≤ a) := by
  obtain ⟨mr, ms, c, h1, h2, h3, hrep⟩ := init_spine A m0 B L fuel st r lo hok h
  obtain ⟨_, hp, hs, _, _⟩ := init_spec A m0 B L fuel st r lo hok h
  obtain ⟨hg, _⟩ := init_inv A m0 B L fuel st r lo hok h
  have hsR := hg.store_le
  have hbucket : ∀ j, j ≤ st.g._freestoreRange →
      BucketRep ms (getFirstFreestoreBlockAtAdjustedIndex st.g j)
        (if st.g._freestoreIndex ≤ j ∧ j < st.g._freestoreRange then
          [A + getSizeForAdjustedFreestoreIndex st.g j] else []) := by
    intro j hj
    have := hrep.1 j hj
    rw [spineBlocks_bucket, hp.hA] at this
    rw [(head_ptr st.g _ hg j hj).1, hp.hA]
    exact this
  refine ⟨mr, ms, c, h1, h2, h3, ?_, ?_, ?_⟩
  · intro j hj1 hj2
    have := hbucket j (by omega)
    rw [if_pos ⟨hj1, hj2⟩] at this
    exact this
  · intro j hj
    have := hbucket j (by omega)
    rw [if_neg (by omega)] at this
    exact this
  · intro j l hj hl a ha
    have := hbucket j hj
    rw [bucketRep_unique _ _ _ _ hl this] at ha
    split at ha
    · rename_i hc
      simp only [List.mem_singleton] at ha
      have := sz_mono st.g A B L hp _ _ hc.1 hj
      omega
    · cases ha

set_option maxRecDepth 100000 in
/-- C23 at a concrete input: `init_allocator(128, 512 * 1024)`, where `s = 1`
and `R = 11`. -/
theorem spine_split_layout_witness :
    (initState.g._freestoreIndex = 1 ∧ initState.g._freestoreRange = 11) ∧
    ∃ mr ms c, resetFreestore zeroMem arenaBase initState.g._freestoreRange = some mr ∧
      protectSplitLoop initState.g arenaBase initState.g._freestoreIndex
        initState.g._freestoreRange mr arenaBase = some (ms, c) ∧
      protectTailLoop initState.g 64 ms
        (arenaBase + getSizeForAdjustedFreestoreIndex initState.g initState.g._freestoreRange)
        (524288 - getSizeForAdjustedFreestoreIndex initState.g initState.g._freestoreRange)
        = some (initState.mem, 0) ∧
      (∀ j, initState.g._freestoreIndex ≤ j → j < initState.g._freestoreRange →
        BucketRep ms (getFirstFreestoreBlockAtAdjustedIndex initState.g j)
          [arenaBase + getSizeForAdjustedFreestoreIndex initState.g j]) ∧
      (∀ j, j < initState.g._freestoreIndex →
        BucketRep ms (getFirstFreestoreBlockAtAdjustedIndex initState.g j) []) ∧
      (∀ j l, j ≤ initState.g._freestoreRange →
        BucketRep ms (getFirstFreestoreBlockAtAdjustedIndex initState.g j) l →
        ∀ a ∈ l, arenaBase
          + getSizeForAdjustedFreestoreIndex initState.g initState.g._freestoreIndex ≤ a) :=
  ⟨by decide, spine_split_layout arenaBase zeroMem 128 524288 64 initState 524288 0
    initOK_scenario initState_eq⟩

/-- C30: in every state reached from a successful `init_allocator` by calls of
`my_malloc` and by calls of `my_free` on live pointers, `my_free` of a live
pointer returns (with enough fuel), so the coalescing ascent terminates, and
every merged block that the ascent appends, recorded by the ghost log as
`(bucket, address)`, has a bucket index of at most `R`, starts at or behind
`A + size_of(s)`, the end of the reserved head-array block, and ends inside
the arena. -/
theorem merge_ascent_stays_in_range (A : Nat) (m0 : Mem) (B L lo : Nat) (st : State)
    (live : List Nat) (h : Reachable A m0 B L lo st live) (p : Nat) (hp : p ∈ live)
    (fuel : Nat) (hf : L + 36 ≤ fuel) :
    ∃ st1 r log, my_freeLog fuel st p = some (st1, r, log) ∧
      my_free fuel st p = some (st1, r) ∧
      ∀ e ∈ log, e.1 ≤ st.g._freestoreRange ∧
        A + getSizeForAdjustedFreestoreIndex st.g st.g._freestoreIndex ≤ e.2 ∧
        e.2 + getSizeForAdjustedFreestoreIndex st.g e.1 ≤ A + L - lo := by
  obtain ⟨hL, hR⟩ := reachable_fuel A m0 B L lo st live h
  have hinv := reachable_inv A m0 B L lo st live h
  have hA := reachable_base A m0 B L lo st live h
  obtain ⟨⟨st1, r⟩, hfree⟩ := my_free_some _ fuel st live p hinv hp (by omega)
  obtain ⟨hg, bs, hgeo, hrep, hnd, hlive⟩ := hinv
  obtain ⟨e, he, hef, hep⟩ := (hlive p).1 hp
  have hee : e = ⟨e.base, e.idx, false⟩ := by
    cases e; simp only at hef; subst hef; rfl
  rw [hee] at he
  have her := my_freeLog_erase fuel st p
  rw [hfree] at her
  cases hlog : my_freeLog fuel st p with
  | none => rw [hlog] at her; simp at her
  | some v =>
    obtain ⟨st2, r2, log⟩ := v
    rw [hlog] at her
    simp only [Option.map_some', Option.some.injEq, Prod.mk.injEq] at her
    obtain ⟨e1, e2⟩ := her
    subst e1 e2
    refine ⟨st2, r2, log, rfl, hfree, ?_⟩
    unfold my_freeLog at hlog
    obtain ⟨⟨m1, s1, lg⟩, hd, hlog⟩ := bind_some hlog
    simp only [Option.some.injEq, Prod.mk.injEq] at hlog
    rw [← hep] at hd
    have := freeLog_bounds st.g _ hg bs st.mem fuel e.base e.idx m1 s1 lg hgeo hrep he hd
    rw [hA, hlog.2.2] at this
    exact this

set_option maxRecDepth 100000 in
/-- C30 at a concrete input: after `init_allocator(128, 512 * 1024)`, two calls
`my_malloc(100)`, which return the offsets 400 and 272, and `my_free` of the
first pointer, `my_free` of the second pointer merges the blocks at offsets
256 and 384 and appends the merged block at offset 256 to bucket 1; the ascent
stops there. -/
theorem merge_ascent_stays_in_range_witness :
    (my_freeLog 64 (afterFree (afterMalloc (afterMalloc initState 100) 100) (arenaBase + 400))
        (arenaBase + 272)).map (fun r => r.2.2) = some [(1, arenaBase + 256)] ∧
    ∃ st1 r log,
      my_freeLog 524324 (afterFree (afterMalloc (afterMalloc initState 100) 100)
        (arenaBase + 400)) (arenaBase + 272) = some (st1, r, log) ∧
      my_free 524324 (afterFree (afterMalloc (afterMalloc initState 100) 100)
        (arenaBase + 400)) (arenaBase + 272) = some (st1, r) ∧
      ∀ e ∈ log,
        e.1 ≤ (afterFree (afterMalloc (afterMalloc initState 100) 100)
          (arenaBase + 400)).g._freestoreRange ∧
        arenaBase + getSizeForAdjustedFreestoreIndex
            (afterFree (afterMalloc (afterMalloc initState 100) 100) (arenaBase + 400)).g
            (afterFree (afterMalloc (afterMalloc initState 100) 100)
              (arenaBase + 400)).g._freestoreIndex ≤ e.2 ∧
        e.2 + getSizeForAdjustedFreestoreIndex
            (afterFree (afterMalloc (afterMalloc initState 100) 100) (arenaBase + 400)).g e.1
          ≤ arenaBase + 524288 - 0 :=
  ⟨by decide, merge_ascent_stays_in_range arenaBase zeroMem 128 524288 0
    (afterFree (afterMalloc (afterMalloc initState 100) 100) (arenaBase + 400))
    ([arenaBase + 272, arenaBase + 400].erase (arenaBase + 400))
    (Reachable.free 64 (afterMalloc (afterMalloc initState 100) 100)
      [arenaBase + 272, arenaBase + 400] (arenaBase + 400) _ 1
      (Reachable.malloc 64 (afterMalloc initState 100) [arenaBase + 400] 100 _ _
        (Reachable.malloc 64 initState [] 100 _ _
          (Reachable.init 64 initState 524288 initOK_scenario initState_eq)
          (afterMalloc_eq initState 100 (arenaBase + 400) (by decide)) (by decide))
        (afterMalloc_eq (afterMalloc initState 100) 100 (arenaBase + 272) (by decide))
        (by decide))
      (by decide)
      (afterFree_eq (afterMalloc (afterMalloc initState 100) 100) (arenaBase + 400) 1
        (by decide)))
    (arenaBase + 272) (by decide) 524324 (by decide)⟩

/-- C25: in every well-formed state in which the request of `n` bytes maps to
bucket `t`, the buckets `t .. j - 1` are empty, `t < j < R`, and bucket `j`
holds the nonempty list `lj` with last block `b`: `my_malloc(n)` returns (with
enough fuel) the payload address of the block at `b + size_of(j) - size_of(t)`,
whose header records bucket `t`; afterwards bucket `j` holds `lj` without `b`,
each bucket `k` with `t ≤ k < j` holds exactly the one block
`b + size_of(j) - size_of(k + 1)`, every other bucket holds the list it held
before, and the store is well formed.  The pieces tile `[b, b + size_of(j))`:
the piece of bucket `k` ends at `b + size_of(j) - size_of(k)`, where the piece
of bucket `k - 1` (for `k = t` the allocated block) starts, and the allocated
block ends at `b + size_of(j)`. -/
theorem my_malloc_split_path (st : State) (n t j : Nat) (lj : List Nat)
    (hwf : WellFormed st.g st.mem)
    (ht : getAdjustedFreestoreIndexForSize st.g (uintAdd n st.g._headerSize) = t)
    (htj : t < j) (hjR : j < st.g._freestoreRange)
    (hemp : ∀ k, t ≤ k → k < j →
      BucketRep st.mem (getFirstFreestoreBlockAtAdjustedIndex st.g k) [])
    (hlj : BucketRep st.mem (getFirstFreestoreBlockAtAdjustedIndex st.g j) lj)
    (hne : lj ≠ []) (fuel : Nat) (hf : st.g._length + st.g._freestoreRange + 4 ≤ fuel) :
    ∃ st1, my_malloc fuel st n = some (st1,
        lastOr lj 0 + getSizeForAdjustedFreestoreIndex st.g j
          - getSizeForAdjustedFreestoreIndex st.g t + st.g._headerSize) ∧
      st1.g = st.g ∧ WellFormed st1.g st1.mem ∧
      readIndex st1.mem (lastOr lj 0 + getSizeForAdjustedFreestoreIndex st.g j
        - getSizeForAdjustedFreestoreIndex st.g t) = some t ∧
      BucketRep st1.mem (getFirstFreestoreBlockAtAdjustedIndex st.g j) lj.dropLast ∧
      (∀ k, t ≤ k → k < j →
        BucketRep st1.mem (getFirstFreestoreBlockAtAdjustedIndex st.g k)
          [lastOr lj 0 + getSizeForAdjustedFreestoreIndex st.g j
            - getSizeForAdjustedFreestoreIndex st.g (k + 1)]) ∧
      (∀ k lk, k ≤ st.g._freestoreRange → (k < t ∨ j < k) →
        BucketRep st.mem (getFirstFreestoreBlockAtAdjustedIndex st.g k) lk →
        BucketRep st1.mem (getFirstFreestoreBlockAtAdjustedIndex st.g k) lk) ∧
      (∀ k, t ≤ k → k < j →
        lastOr lj 0 + getSizeForAdjustedFreestoreIndex st.g j
            - getSizeForAdjustedFreestoreIndex st.g (k + 1)
            + getSizeForAdjustedFreestoreIndex st.g k
          = lastOr lj 0 + getSizeForAdjustedFreestoreIndex st.g j
            - getSizeForAdjustedFreestoreIndex st.g k) ∧
      lastOr lj 0 + getSizeForAdjustedFreestoreIndex st.g j
          - getSizeForAdjustedFreestoreIndex st.g t + getSizeForAdjustedFreestoreIndex st.g t
        = lastOr lj 0 + getSizeForAdjustedFreestoreIndex st.g j := by
  obtain ⟨hi, bs, hg, hgeo, hrep⟩ := hwf
  have hbucket : ∀ k lk, k ≤ st.g._freestoreRange →
      BucketRep st.mem (getFirstFreestoreBlockAtAdjustedIndex st.g k) lk →
      lk = bucketOf bs k := by
    intro k lk hk hlk
    have hbk := hrep.1 k hk
    rw [← (head_ptr st.g hi hg k hk).1] at hbk
    exact bucketRep_unique _ _ _ _ hlk hbk
  have hljb := hbucket j lj (by omega) hlj
  subst hljb
  obtain ⟨st1, h1, hg1, bs2, hgeo2, hrep2, q1, q2, q3, q4⟩ := my_malloc_split_model hi st bs n t
    j _ hg hgeo hrep ht htj hjR
    (fun k hk1 hk2 => (hbucket k [] (by omega) (hemp k hk1 hk2)).symm) hne rfl fuel hf
  have hs2 := geo_sep st.g hi hg bs2 hgeo2
  have hbase := hg.base_ne
  obtain ⟨hb1, _, _⟩ := hs2.1 _ q4
  simp only at hb1
  obtain ⟨hx1, _⟩ := hrep2.2 _ q4 rfl
  simp only at hx1
  have hmono : ∀ k, k ≤ j → getSizeForAdjustedFreestoreIndex st.g k
      ≤ getSizeForAdjustedFreestoreIndex st.g j :=
    fun k hk => size_le_good st.g hi hg k j hk (by omega)
  refine ⟨st1, ?_, hg1, ⟨hi, bs2, by rw [hg1]; exact hg, by rw [hg1]; exact hgeo2,
    by rw [hg1]; exact hrep2⟩, ?_, ?_, ?_, ?_, ?_, ?_⟩
  · rw [h1, hg.hdr]
  · unfold readIndex
    rw [if_neg (by omega), hx1]
  · have := hrep2.1 j (by omega)
    rw [q1] at this
    rw [(head_ptr st.g hi hg j (by omega)).1]
    exact this
  · intro k hk1 hk2
    have := hrep2.1 k (by omega)
    rw [q2 k hk1 hk2] at this
    rw [(head_ptr st.g hi hg k (by omega)).1]
    exact this
  · intro k lk hk hko hlk
    have := hrep2.1 k hk
    rw [q3 k hko, ← hbucket k lk hk hlk] at this
    rw [(head_ptr st.g hi hg k hk).1]
    exact this
  · intro k hk1 hk2
    have hd := hg.double k (by omega)
    have := hmono (k + 1) (by omega)
    omega
  · have := hmono t (by omega)
    omega

set_option maxRecDepth 100000 in
/-- C25 at a concrete input: after `init_allocator(128, 512 * 1024)` and one
`my_malloc(1024)`, bucket 4 is empty and bucket 5 holds the block at offset
4096; the next `my_malloc(1024)` splits it and returns offset
`4096 + 4096 - 2048 + 16 = 6160`, leaving the block at offset 4096 in
bucket 4. -/
theorem my_malloc_split_path_witness :
    (getSizeForAdjustedFreestoreIndex (afterMalloc initState 1024).g 5 = 4096 ∧
      getSizeForAdjustedFreestoreIndex (afterMalloc initState 1024).g 4 = 2048) ∧
    ∃ st1, my_malloc 524400 (afterMalloc initState 1024) 1024 = some (st1,
        lastOr [arenaBase + 4096] 0
          + getSizeForAdjustedFreestoreIndex (afterMalloc initState 1024).g 5
          - getSizeForAdjustedFreestoreIndex (afterMalloc initState 1024).g 4
          + (afterMalloc initState 1024).g._headerSize) ∧
      st1.g = (afterMalloc initState 1024).g ∧ WellFormed st1.g st1.mem ∧
      readIndex st1.mem (lastOr [arenaBase + 4096] 0
        + getSizeForAdjustedFreestoreIndex (afterMalloc initState 1024).g 5
        - getSizeForAdjustedFreestoreIndex (afterMalloc initState 1024).g 4) = some 4 ∧
      BucketRep st1.mem
        (getFirstFreestoreBlockAtAdjustedIndex (afterMalloc initState 1024).g 5)
        [arenaBase + 4096].dropLast ∧
      (∀ k, 4 ≤ k → k < 5 →
        BucketRep st1.mem
          (getFirstFreestoreBlockAtAdjustedIndex (afterMalloc initState 1024).g k)
          [lastOr [arenaBase + 4096] 0
            + getSizeForAdjustedFreestoreIndex (afterMalloc initState 1024).g 5
            - getSizeForAdjustedFreestoreIndex (afterMalloc initState 1024).g (k + 1)]) ∧
      (∀ k lk, k ≤ (afterMalloc initState 1024).g._freestoreRange → (k < 4 ∨ 5 < k) →
        BucketRep (afterMalloc initState 1024).mem
          (getFirstFreestoreBlockAtAdjustedIndex (afterMalloc initState 1024).g k) lk →
        BucketRep st1.mem
          (getFirstFreestoreBlockAtAdjustedIndex (afterMalloc initState 1024).g k) lk) ∧
      (∀ k, 4 ≤ k → k < 5 →
        lastOr [arenaBase + 4096] 0
            + getSizeForAdjustedFreestoreIndex (afterMalloc initState 1024).g 5
            - getSizeForAdjustedFreestoreIndex (afterMalloc initState 1024).g (k + 1)
            + getSizeForAdjustedFreestoreIndex (afterMalloc initState 1024).g k
          = lastOr [arenaBase + 4096] 0
            + getSizeForAdjustedFreestoreIndex (afterMalloc initState 1024).g 5
            - getSizeForAdjustedFreestoreIndex (afterMalloc initState 1024).g k) ∧
      lastOr [arenaBase + 4096] 0
          + getSizeForAdjustedFreestoreIndex (afterMalloc initState 1024).g 5
          - getSizeForAdjustedFreestoreIndex (afterMalloc initState 1024).g 4
          + getSizeForAdjustedFreestoreIndex (afterMalloc initState 1024).g 4
        = lastOr [arenaBase + 4096] 0
          + getSizeForAdjustedFreestoreIndex (afterMalloc initState 1024).g 5 :=
  ⟨by decide, my_malloc_split_path (afterMalloc initState 1024) 1024 4 5 [arenaBase + 4096]
    (reachable_wellFormed arenaBase zeroMem 128 524288 0 (afterMalloc initState 1024)
      [arenaBase + 2064]
      (Reachable.malloc 64 initState [] 1024 _ _
        (Reachable.init 64 initState 524288 initOK_scenario initState_eq)
        (afterMalloc_eq initState 1024 (arenaBase + 2064) (by decide)) (by decide)))
    (by decide) (by decide) (by decide)
    (fun k h1 h2 => by
      have hk : k = 4 := by omega
      subst hk
      exact bucketRep_nil _ _ (by decide) (by decide))
    (bucketRep_single _ _ _ (by decide) (by decide) (by decide)) (by decide)
    524400 (by decide)⟩

/-! ## Claims about a repeated free and about the payload bound -/

/-- C31: in every state reached from a successful `init_allocator` by calls of
`my_malloc` and by calls of `my_free` on live pointers, and for every live
pointer `p`: `my_free(p)` returns (with enough fuel), and in the state after it
`memoryHeaderForAddress(p)` answers null (the header no longer validates), so a
second `my_free(p)` returns, for every fuel, the nonzero status 1 and the state
it was called in: no bucket list changes, the freed block is not appended to a
free list a second time. -/
theorem second_free_rejected (A : Nat) (m0 : Mem) (B L lo : Nat) (st : State)
    (live : List Nat) (h : Reachable A m0 B L lo st live) (p : Nat) (hp : p ∈ live) :
    (∀ f1, L + 36 ≤ f1 → ∃ st1 r, my_free f1 st p = some (st1, r)) ∧
    ∀ f1 st1 r, my_free f1 st p = some (st1, r) →
      memoryHeaderForAddress st1.g st1.mem p = some 0 ∧
      ∀ f2, my_free f2 st1 p = some (st1, 1) := by
  obtain ⟨hL, hR⟩ := reachable_fuel A m0 B L lo st live h
  have hinv := reachable_inv A m0 B L lo st live h
  constructor
  · intro f1 hf1
    obtain ⟨⟨st1, r⟩, h1⟩ := my_free_some _ f1 st live p hinv hp (by omega)
    exact ⟨st1, r, h1⟩
  · intro f1 st1 r h1
    obtain ⟨hgg, b0, hpb, hb, hz⟩ := my_free_clears_start _ f1 st live p st1 r hinv hp h1
    have hhdr : memoryHeaderForAddress st1.g st1.mem p = some 0 := by
      rw [hpb]
      exact memoryHeader_cleared st1.g st1.mem b0 (by rw [hgg]; exact hinv.1.hdr) hb hz
    exact ⟨hhdr, fun f2 => my_free_null_header f2 st1 p hhdr⟩

set_option maxRecDepth 100000 in
/-- C31 at a concrete input: after `init_allocator(128, 512 * 1024)`, two calls
`my_malloc(100)`, which return the offsets 400 and 272, and `my_free` of the
first pointer, the pointer at offset 272 is live; `my_free` of it merges its
block with the free neighbour, and the second `my_free` of it returns 1 and
leaves the state as it is. -/
theorem second_free_rejected_witness :
    arenaBase + 272 ∈ [arenaBase + 272, arenaBase + 400].erase (arenaBase + 400) ∧
    my_free 64 (afterFree (afterFree (afterMalloc (afterMalloc initState 100) 100)
        (arenaBase + 400)) (arenaBase + 272)) (arenaBase + 272)
      = some (afterFree (afterFree (afterMalloc (afterMalloc initState 100) 100)
        (arenaBase + 400)) (arenaBase + 272), 1) :=
  ⟨by decide,
    ((second_free_rejected arenaBase zeroMem 128 524288 0
      (afterFree (afterMalloc (afterMalloc initState 100) 100) (arenaBase + 400))
      ([arenaBase + 272, arenaBase + 400].erase (arenaBase + 400))
      (Reachable.free 64 (afterMalloc (afterMalloc initState 100) 100)
        [arenaBase + 272, arenaBase + 400] (arenaBase + 400) _ 1
        (Reachable.malloc 64 (afterMalloc initState 100) [arenaBase + 400] 100 _ _
          (Reachable.malloc 64 initState [] 100 _ _
            (Reachable.init 64 initState 524288 initOK_scenario initState_eq)
            (afterMalloc_eq initState 100 (arenaBase + 400) (by decide)) (by decide))
          (afterMalloc_eq (afterMalloc initState 100) 100 (arenaBase + 272) (by decide))
          (by decide))
        (by decide)
        (afterFree_eq (afterMalloc (afterMalloc initState 100) 100) (arenaBase + 400) 1
          (by decide)))
      (arenaBase + 272) (by decide)).2 64
      (afterFree (afterFree (afterMalloc (afterMalloc initState 100) 100)
        (arenaBase + 400)) (arenaBase + 272)) 1
      (afterFree_eq (afterFree (afterMalloc (afterMalloc initState 100) 100)
        (arenaBase + 400)) (arenaBase + 272) 1 (by decide))).2 64⟩

set_option maxRecDepth 100000 in
/-- C32 (defect in the code, the one of C8): right after
`init_allocator(128, 512 * 1024)` the request `n = 4294967295` is served:
`my_malloc(n)` returns the non-null address `p` at arena offset 400 and the
header of `p` records bucket `t = 0` with `size_of(0) = 128`, because the
`unsigned int` sum `n + header_size` wraps around to 15.  So
`n + header_size > size_of(t)`, and the `n` payload bytes `[p, p + n)` run past
the end of the block at offset 384 + 128 and past the end of the arena. -/
theorem wrapped_request_overruns_block :
    (do let (s0, _) ← init_allocator 64 arenaBase zeroMem 128 524288
        let (s1, p) ← my_malloc 64 s0 4294967295
        let t ← readIndex s1.mem (ptrSub p s1.g._headerSize)
        some (p, t, getSizeForAdjustedFreestoreIndex s1.g t, s1.g._length))
      = some (arenaBase + 400, 0, 128, 524288)
    ∧ arenaBase + 400 ≠ 0 ∧ 4294967295 < 2 ^ 32
    ∧ ¬ (4294967295 + 16 ≤ 128)
    ∧ (arenaBase + 400 - 16) + 128 < (arenaBase + 400) + 4294967295
    ∧ arenaBase + 524288 < (arenaBase + 400) + 4294967295 := by
  decide

end Allocator
